import Mathlib

/-!
# Eastern (Xiangqi) board: a shallow embedding of `easternboard.cpp`

The position state, the geometry tables, the move generators, the attack
detector and the move applier of `EasternBoard` are written as Lean
functions.  Squares are `Int` indices into the bordered square array
(`m_arwidth = 11` columns, 14 rows, two wall rows above and below the ten
playable ranks and one wall column on each side), exactly as the index
arithmetic of the source uses them.

Scanning loops (`while (!pieceAt(t).isWall())`) are modelled with a fuel
argument and return `none` when the fuel runs out; the termination lemmas
show that the fuel handed out by the callers always suffices.
-/

namespace Chess

/-! ## Sides, pieces, squares, moves -/

/-- The `Side` class: `White`, `Black` and the null side. -/
inductive Side where
  | White
  | Black
  | NoSide
deriving DecidableEq, Repr

/-- The member `Side::opposite`. -/
def Side.opposite : Side → Side
  | .White => .Black
  | .Black => .White
  | .NoSide => .NoSide

/-- Piece types: the seven types registered by the `EasternBoard` constructor
together with `Piece::NoPiece` and `Piece::WallPiece`. -/
inductive PieceType where
  | NoPiece
  | King
  | Advisor
  | Bishop
  | Knight
  | Rook
  | Cannon
  | Pawn
  | WallPiece
deriving DecidableEq, Repr

/-- A `Piece` is a (side, type) pair. -/
structure Piece where
  side : Side
  type : PieceType
deriving DecidableEq, Repr

/-- The conversion `Piece(int type)`: a piece of the null side. -/
def Piece.ofType (t : PieceType) : Piece := ⟨.NoSide, t⟩

/-- The empty square value `Piece::NoPiece`. -/
def Piece.noPiece : Piece := Piece.ofType .NoPiece

/-- The sentinel `Piece::WallPiece`. -/
def Piece.wallPiece : Piece := Piece.ofType .WallPiece

/-- The member `Piece::isEmpty`. -/
def Piece.isEmpty (p : Piece) : Bool := p.type == .NoPiece

/-- The member `Piece::isWall`. -/
def Piece.isWall (p : Piece) : Bool := p.type == .WallPiece

/-- The member `Piece::isValid`: the piece has a side. -/
def Piece.isValid (p : Piece) : Bool := p.side != .NoSide

/-- Movement capabilities handed to `setPieceType`. -/
inductive Movement where
  | KingMovement
  | AdvisorMovement
  | BishopMovement
  | KnightMovement
  | RookMovement
  | CannonMovement
  | PawnMovement
deriving DecidableEq, Repr

/-- Modelled from the spec: `Board::pieceHasMovement` over the registrations
made by the `EasternBoard` constructor, where every piece type declares
exactly the movement of its own name. -/
def pieceHasMovement : PieceType → Movement → Bool
  | .King, .KingMovement => true
  | .Advisor, .AdvisorMovement => true
  | .Bishop, .BishopMovement => true
  | .Knight, .KnightMovement => true
  | .Rook, .RookMovement => true
  | .Cannon, .CannonMovement => true
  | .Pawn, .PawnMovement => true
  | _, _ => false

/-- A chess square as (file, rank), both counted from 0. -/
structure Square where
  file : Int
  rank : Int
deriving DecidableEq, Repr

/-- A move: source square, target square and promotion type. -/
structure Move where
  sourceSquare : Int
  targetSquare : Int
  promotion : PieceType
deriving DecidableEq, Repr

/-- The constructor `Move(source, target)` with no promotion. -/
def Move.mk2 (source target : Int) : Move := ⟨source, target, .NoPiece⟩

/-- The enumeration `CastlingSide`. -/
inductive CastlingSide where
  | QueenSide
  | KingSide
  | NoCastlingSide
deriving DecidableEq, Repr

/-- The table `rookSquare[2][2]` of the castling rights. -/
structure CastlingRights where
  whiteQueenSide : Int
  whiteKingSide : Int
  blackQueenSide : Int
  blackKingSide : Int
deriving DecidableEq, Repr

/-- Reading `rookSquare[side][cside]`.  An index outside the table (the null
side, no castling side) is outside the array in the source; the model reads 0. -/
def CastlingRights.rookSquare (cr : CastlingRights) : Side → CastlingSide → Int
  | .White, .QueenSide => cr.whiteQueenSide
  | .White, .KingSide => cr.whiteKingSide
  | .Black, .QueenSide => cr.blackQueenSide
  | .Black, .KingSide => cr.blackKingSide
  | _, _ => 0

/-- Writing `rookSquare[side][cside]`; a write outside the table is ignored. -/
def CastlingRights.setRookSquare (cr : CastlingRights) (side : Side) (cside : CastlingSide)
    (v : Int) : CastlingRights :=
  match side, cside with
  | .White, .QueenSide => { cr with whiteQueenSide := v }
  | .White, .KingSide => { cr with whiteKingSide := v }
  | .Black, .QueenSide => { cr with blackQueenSide := v }
  | .Black, .KingSide => { cr with blackKingSide := v }
  | _, _ => cr

/-- The undo record `MoveData` pushed by `vMakeMove`. -/
structure MoveData where
  capture : Piece
  castlingRights : CastlingRights
  castlingSide : CastlingSide
  reversibleMoveCount : Int
deriving DecidableEq, Repr

/-- The position state: the members of `EasternBoard` together with the
members of the parent `Board` that the source reads (`m_squares`, the side to
move, the hash key and the parent's own move history). -/
structure State where
  /-- The bordered square array `Board::m_squares`. -/
  squares : List Piece
  /-- The side to move `Board::m_side`, returned by `sideToMove()`. -/
  side : Side
  /-- The hash key `Board::m_key`, changed by `xorKey`. -/
  key : Nat
  /-- The castling keys of the zobrist object, `m_zobrist->castling(side, square)`. -/
  zobristCastling : Side → Int → Nat
  /-- The parent's `Board::m_moveHistory`: the moves made, each with the key before it. -/
  moveHistory : List (Move × Nat)
  /-- The member `m_sign`. -/
  sign : Int
  /-- The member `m_plyOffset`. -/
  plyOffset : Int
  /-- The member `m_reversibleMoveCount`. -/
  reversibleMoveCount : Int
  /-- The member `m_kingCanCapture`. -/
  kingCanCapture : Bool
  /-- The member `m_hasCastling`. -/
  hasCastling : Bool
  /-- The entry `m_kingSquare[Side::White]`. -/
  kingSquareWhite : Int
  /-- The entry `m_kingSquare[Side::Black]`. -/
  kingSquareBlack : Int
  /-- The member `m_castlingRights`. -/
  castlingRights : CastlingRights
  /-- The undo stack `m_history`, the newest record last. -/
  history : List MoveData

/-- The least value of the C++ type `int` (32 bits, two's complement). -/
def intMin : Int := -2147483648

/-- The greatest value of the C++ type `int`. -/
def intMax : Int := 2147483647

/-- The value an `int` holds after an arithmetic result `x`: `x` itself when it
lies in the range of `int`, else `x` reduced modulo 2^32 into that range.
(Signed overflow is undefined in the language; the compiled program wraps.) -/
def wrapInt (x : Int) : Int := (x + 2147483648) % 4294967296 - 2147483648

/-- The method `EasternBoard::width`. -/
def width : Int := 9

/-- The method `EasternBoard::height`. -/
def height : Int := 10

/-- The member `m_arwidth` as set by `vInitialize`: `width() + 2`. -/
def arwidth : Int := width + 2

/-- Reading `m_kingSquare[side]`; the null side is outside the array in the
source and reads 0 in the model. -/
def State.kingSquare (st : State) : Side → Int
  | .White => st.kingSquareWhite
  | .Black => st.kingSquareBlack
  | .NoSide => 0

/-- Writing `m_kingSquare[side]`; a write for the null side is ignored. -/
def State.setKingSquare (st : State) (side : Side) (v : Int) : State :=
  match side with
  | .White => { st with kingSquareWhite := v }
  | .Black => { st with kingSquareBlack := v }
  | .NoSide => st

/-- Reading cell `square` of a square array.  A read outside the array
(undefined in the source) yields the wall sentinel. -/
def readSquare (squares : List Piece) (square : Int) : Piece :=
  if square < 0 then Piece.wallPiece else squares.getD square.toNat Piece.wallPiece

/-- Writing cell `square` of a square array; a write outside the array is ignored. -/
def writeSquare (squares : List Piece) (square : Int) (piece : Piece) : List Piece :=
  if square < 0 then squares else squares.set square.toNat piece

/-- Modelled from the spec: `Board::pieceAt`, a read of the square array. -/
def pieceAt (st : State) (square : Int) : Piece :=
  readSquare st.squares square

/-- Modelled from the spec: `Board::setSquare`, a write of the square array.
The parent's hashing of piece placement is not part of this file and is left out. -/
def setSquare (st : State) (square : Int) (piece : Piece) : State :=
  { st with squares := writeSquare st.squares square piece }

/-- Modelled from the spec: `Board::xorKey`. -/
def xorKey (st : State) (k : Nat) : State := { st with key := st.key ^^^ k }

/-- Modelled from the spec: `Board::chessSquare`, the (file, rank) of an
array index.  The layout is the one the source's own index formulas use
(`(height() + 1) * m_arwidth + 1 + file` is White's back rank, rank 0, and
`2 * m_arwidth + 1 + file` is Black's back rank): column `file + 1`, row
`height + 1 - rank`.  Division and remainder truncate as in C++. -/
def chessSquare (index : Int) : Square :=
  ⟨Int.tmod index arwidth - 1, (height - 1) - (Int.tdiv index arwidth - 2)⟩

/-- Modelled from the spec: `Board::isValidSquare`, the square lies on the
playable grid. -/
def isValidSquare (sq : Square) : Bool :=
  decide (0 ≤ sq.file) && decide (0 ≤ sq.rank) && decide (sq.file < width) &&
    decide (sq.rank < height)

/-- Modelled from the spec: `Board::squareIndex`, the inverse of `chessSquare`
on valid squares (0 for an invalid square). -/
def squareIndex (sq : Square) : Int :=
  if isValidSquare sq then ((height - 1 - sq.rank) + 2) * arwidth + 1 + sq.file else 0

/-! ## Geometry tables (`vInitialize`) -/

/-- The table `m_castleTarget[side][cside]` as set by `vInitialize`, with
`castlingFile` giving file 2 on the queen side and `width() - 2` on the king side. -/
def castleTarget : Side → CastlingSide → Int
  | .White, .QueenSide => (height + 1) * arwidth + 1 + 2
  | .White, .KingSide => (height + 1) * arwidth + 1 + (width - 2)
  | .Black, .QueenSide => 2 * arwidth + 1 + 2
  | .Black, .KingSide => 2 * arwidth + 1 + (width - 2)
  | _, _ => 0

/-- The table `m_pawnPreOffsets`. -/
def pawnPreOffsets : List Int := [arwidth, -1, 1]

/-- The table `m_knightObstacleOffsets`. -/
def knightObstacleOffsets : List Int := [-arwidth, -1, 1, arwidth]

/-- The table `m_knightPreOffsets`. -/
def knightPreOffsets : List Int :=
  [-2 * arwidth - 1, -2 * arwidth + 1, -arwidth - 2, arwidth - 2,
   -arwidth + 2, arwidth + 2, 2 * arwidth - 1, 2 * arwidth + 1]

/-- The table `m_bishopObstacleOffsets`. -/
def bishopObstacleOffsets : List Int :=
  [-arwidth - 1, -arwidth + 1, arwidth - 1, arwidth + 1]

/-- The table `m_bishopPreOffsets`. -/
def bishopPreOffsets : List Int :=
  [-2 * arwidth - 2, -2 * arwidth + 2, 2 * arwidth - 2, 2 * arwidth + 2]

/-- The table `m_rookOffsets`. -/
def rookOffsets : List Int := [-arwidth, -1, 1, arwidth]

/-- The table `m_advisorOffsets`. -/
def advisorOffsets : List Int :=
  [-arwidth - 1, -arwidth + 1, arwidth - 1, arwidth + 1]

/-- The table `m_kingMeetOffsets`. -/
def kingMeetOffsets : List Int := [-arwidth, arwidth]

/-- The fuel handed to a scanning loop: one more than the size of the square
array, since a scan visits every array cell at most once before it reads a wall. -/
def scanFuel (st : State) : Nat := st.squares.length + 1

/-- The method `EasternBoard::inFort`: the square lies in one of the two palaces. -/
def inFort (square : Int) : Bool :=
  let sq := chessSquare square
  (decide (sq.file > 2) && decide (sq.file < 6)) &&
    ((decide (sq.rank ≥ 0) && decide (sq.rank < 3)) ||
     (decide (sq.rank > 6) && decide (sq.rank < 10)))

/-! ## Castling bookkeeping -/

/-- The method `EasternBoard::setCastlingSquare`: nothing happens when the
entry already holds `square`; otherwise the castling key of the old square (if
not 0) and of the new one (if not 0) are xored into the hash key and the entry
is written. -/
def setCastlingSquare (st : State) (side : Side) (cside : CastlingSide) (square : Int) : State :=
  let rs := st.castlingRights.rookSquare side cside
  if rs = square then st
  else
    let st1 := if rs ≠ 0 then xorKey st (st.zobristCastling side rs) else st
    let st2 := if square ≠ 0 then xorKey st1 (st1.zobristCastling side square) else st1
    { st2 with castlingRights := st2.castlingRights.setRookSquare side cside square }

/-- The method `EasternBoard::removeCastlingRights(int square)`. -/
def removeCastlingRights (st : State) (square : Int) : State :=
  let piece := pieceAt st square
  if piece.type ≠ .Rook then st
  else
    let side := piece.side
    if square = st.castlingRights.rookSquare side .QueenSide then
      setCastlingSquare st side .QueenSide 0
    else if square = st.castlingRights.rookSquare side .KingSide then
      setCastlingSquare st side .KingSide 0
    else st

/-- The method `EasternBoard::removeCastlingRights(Side side)`. -/
def removeCastlingRightsOfSide (st : State) (side : Side) : State :=
  setCastlingSquare (setCastlingSquare st side .QueenSide 0) side .KingSide 0

/-- The method `EasternBoard::castlingSide`: the castling side whose tracked
rook square is the target of the move. -/
def castlingSide (st : State) (move : Move) : CastlingSide :=
  let target := move.targetSquare
  if target = st.castlingRights.rookSquare st.side .QueenSide then .QueenSide
  else if target = st.castlingRights.rookSquare st.side .KingSide then .KingSide
  else .NoCastlingSide

/-- Modelled from the spec: `Board::captureType`, the type of the piece on the
target square when it belongs to the opponent of the side to move, else
`NoPiece`. -/
def captureType (st : State) (move : Move) : PieceType :=
  let piece := pieceAt st move.targetSquare
  if piece.side = st.side.opposite then piece.type else .NoPiece

/-! ## Move applier -/

/-- The local variables of `vMakeMove` that its king and rook branches change. -/
structure MakeLocals where
  st : State
  target : Int
  castlingSide : CastlingSide
  clearSource : Bool
  isReversible : Bool

/-- The branch `if (pieceType == King)` of `vMakeMove`: a castling move also
moves the rook; the king square is recorded and both rights of the side go. -/
def vMakeMoveKing (loc : MakeLocals) (move : Move) (side : Side) (source : Int) : MakeLocals :=
  let cside := castlingSide loc.st move
  let loc1 : MakeLocals :=
    if cside ≠ .NoCastlingSide then
      let rookSource := loc.target
      let target := castleTarget side cside
      let rookTarget := if cside = .QueenSide then target + 1 else target - 1
      let clearSource := if rookTarget = source ∨ target = source then false else loc.clearSource
      let rook : Piece := ⟨side, .Rook⟩
      let st1 := setSquare loc.st rookSource Piece.noPiece
      let st2 := setSquare st1 rookTarget rook
      { loc with st := st2, target := target, castlingSide := cside, clearSource := clearSource }
    else loc
  let st3 := loc1.st.setKingSquare side loc1.target
  let st4 := setCastlingSquare st3 side .QueenSide 0
  let st5 := setCastlingSquare st4 side .KingSide 0
  { loc1 with st := st5 }

/-- The branch `else if (pieceType == Rook)` of `vMakeMove`: the first right
(queen side, then king side) whose tracked rook square is the source is removed. -/
def vMakeMoveRook (loc : MakeLocals) (side : Side) (source : Int) : MakeLocals :=
  if source = loc.st.castlingRights.rookSquare side .QueenSide then
    { loc with st := setCastlingSquare loc.st side .QueenSide 0, isReversible := false }
  else if source = loc.st.castlingRights.rookSquare side .KingSide then
    { loc with st := setCastlingSquare loc.st side .KingSide 0, isReversible := false }
  else loc

/-- The piece type `vMakeMove` moves: the type on the source square, or, for a
drop (source 0), the type named by the promotion field. -/
def movedPieceType (st : State) (move : Move) : PieceType :=
  if move.sourceSquare = 0 then move.promotion else (pieceAt st move.sourceSquare).type

/-- The promotion type `vMakeMove` works with: none for a drop. -/
def makePromotionType (move : Move) : PieceType :=
  if move.sourceSquare = 0 then PieceType.NoPiece else move.promotion

/-- The locals of `vMakeMove` before its king and rook branches: a drop and a
move onto its own square do not clear the source, a drop is not reversible. -/
def makeLocalsStart (st : State) (move : Move) : MakeLocals :=
  let clearSource0 : Bool := if move.sourceSquare = 0 then false else true
  let isReversible0 : Bool := if move.sourceSquare = 0 then false else true
  let clearSource1 : Bool := if move.sourceSquare = move.targetSquare then false else clearSource0
  ⟨st, move.targetSquare, .NoCastlingSide, clearSource1, isReversible0⟩

/-- The locals of `vMakeMove` after `if (pieceType == King) ... else if
(pieceType == Rook) ...`. -/
def makeLocalsBranch (st : State) (move : Move) : MakeLocals :=
  if movedPieceType st move = .King then
    vMakeMoveKing (makeLocalsStart st move) move st.side move.sourceSquare
  else if movedPieceType st move = .Rook then
    vMakeMoveRook (makeLocalsStart st move) st.side move.sourceSquare
  else makeLocalsStart st move

/-- The locals of `vMakeMove` after `if (captureType(move) != Piece::NoPiece)`:
a capture removes the castling right of a rook on the target and is not reversible. -/
def makeLocalsCapture (st : State) (move : Move) : MakeLocals :=
  let loc1 := makeLocalsBranch st move
  if captureType loc1.st move ≠ .NoPiece then
    { loc1 with st := removeCastlingRights loc1.st loc1.target, isReversible := false }
  else loc1

/-- The method `EasternBoard::vMakeMove` (the board transition argument, which
only reports the move to a display, is left out).  The undo record is built
from the position before the move, the locals are run through the king, rook
and capture branches, then the squares are written, the counter is updated
(`m_reversibleMoveCount++` in `int` arithmetic), the record is pushed and the
sign flips. -/
def vMakeMove (st : State) (move : Move) : State :=
  let side := st.side
  let source := move.sourceSquare
  let capture := pieceAt st move.targetSquare
  let md : MoveData := ⟨capture, st.castlingRights, .NoCastlingSide, st.reversibleMoveCount⟩
  let pieceType := movedPieceType st move
  let loc2 := makeLocalsCapture st move
  let isReversible : Bool :=
    if makePromotionType move ≠ .NoPiece then false else loc2.isReversible
  let st1 := setSquare loc2.st loc2.target ⟨side, pieceType⟩
  let st2 := if loc2.clearSource then setSquare st1 source Piece.noPiece else st1
  let st3 : State :=
    { st2 with
      reversibleMoveCount := if isReversible then wrapInt (st2.reversibleMoveCount + 1) else 0 }
  { st3 with
    history := st3.history ++ [{ md with castlingSide := loc2.castlingSide }],
    sign := st3.sign * -1 }

/-- The method `EasternBoard::variantHasChanneling`. -/
def variantHasChanneling (_side : Side) (_square : Int) : Bool := false

/-- The method `EasternBoard::vUndoMove`.  It reads the last undo record; on an
empty history (undefined in the source) the model gives no result. -/
def vUndoMove (st : State) (move : Move) : Option State :=
  match st.history.getLast? with
  | none => none
  | some md =>
    let source := move.sourceSquare
    let target := move.targetSquare
    let st1 : State := { st with sign := st.sign * -1 }
    let side := st1.side
    let st2 : State :=
      { st1 with reversibleMoveCount := md.reversibleMoveCount,
                 castlingRights := md.castlingRights }
    let cside := md.castlingSide
    if cside ≠ .NoCastlingSide then
      let st3 := st2.setKingSquare side source
      let tmp := castleTarget side cside
      let st4 := setSquare st3 tmp Piece.noPiece
      let tmp2 := if cside = .QueenSide then tmp + 1 else tmp - 1
      let st5 := setSquare st4 tmp2 Piece.noPiece
      let st6 := setSquare st5 target ⟨side, .Rook⟩
      let st7 := setSquare st6 source ⟨side, .King⟩
      some { st7 with history := st7.history.dropLast }
    else
      let st3 := if target = st2.kingSquare side then st2.setKingSquare side source else st2
      let st4 :=
        if move.promotion ≠ .NoPiece then
          if source ≠ 0 then
            if variantHasChanneling side source then setSquare st3 source (pieceAt st3 target)
            else setSquare st3 source ⟨side, .Pawn⟩
          else st3
        else setSquare st3 source (pieceAt st3 target)
      let st5 := setSquare st4 target md.capture
      some { st5 with history := st5.history.dropLast }

/-- Modelled from the spec: `Board::makeMove`, the parent's wrapper of
`vMakeMove`: the move and the key before it are recorded and the side to move
is handed to the opponent. -/
def makeMove (st : State) (move : Move) : State :=
  let st1 := vMakeMove st move
  { st1 with side := st1.side.opposite, moveHistory := st1.moveHistory ++ [(move, st.key)] }

/-- Modelled from the spec: `Board::undoMove`, the parent's wrapper of
`vUndoMove`: the side to move is handed back, the last recorded move is undone
and the key saved with it is restored.  No result without a recorded move. -/
def undoMove (st : State) : Option State :=
  match st.moveHistory.getLast? with
  | none => none
  | some (move, key) =>
    match vUndoMove { st with side := st.side.opposite } move with
    | none => none
    | some st1 => some { st1 with key := key, moveHistory := st1.moveHistory.dropLast }

/-! ## Attack detector -/

/-- Runs the per-direction scans of a `for` loop over an offset table in
order: the first scan that answers `true` returns from the enclosing function,
a scan that runs out of fuel gives no result. -/
def anyOffset (f : Int → Option Bool) : List Int → Option Bool
  | [] => some false
  | offset :: rest =>
    match f offset with
    | none => none
    | some true => some true
    | some false => anyOffset f rest

/-- The `while` loop of the cannon block of `inCheck`: walking from
`targetSquare` in steps of `offset` up to the wall, counting non-empty squares;
`some true` when the second one is an opposing piece with cannon movement. -/
def cannonAttackScan (st : State) (opSide : Side) (offset : Int) : Nat → Int → Nat → Option Bool
  | 0, _, _ => none
  | fuel + 1, targetSquare, obstacle =>
    let capture := pieceAt st targetSquare
    if capture.isWall then some false
    else if !capture.isEmpty then
      if obstacle + 1 = 2 ∧ capture.side = opSide ∧
          pieceHasMovement capture.type .CannonMovement = true then some true
      else cannonAttackScan st opSide offset fuel (targetSquare + offset) (obstacle + 1)
    else cannonAttackScan st opSide offset fuel (targetSquare + offset) obstacle

/-- The cannon block of `inCheck`: one scan per rook offset. -/
def cannonAttacks (st : State) (opSide : Side) (square : Int) : Option Bool :=
  anyOffset (fun offset => cannonAttackScan st opSide offset (scanFuel st) (square + offset) 0)
    rookOffsets

/-- The leg filter written out in `generateKnightMoves` and again in the
knight block of `inCheck`: for each of the four obstacle offsets whose square
is a valid, empty square, the two knight offsets `2*i` and `2*i+1` are kept. -/
def knightRelOffsets (st : State) (square : Int) : List Int :=
  (List.range knightObstacleOffsets.length).foldl
    (fun rel i =>
      let obstacleSquare := square + knightObstacleOffsets.getD i 0
      if isValidSquare (chessSquare obstacleSquare) then
        if (pieceAt st obstacleSquare).isEmpty then
          rel ++ [knightPreOffsets.getD (2 * i) 0, knightPreOffsets.getD (2 * i + 1) 0]
        else rel
      else rel)
    []

/-- The knight block of `inCheck`: for each knight offset whose square holds an
opposing piece with knight movement, the offsets that piece may jump by (its
own legs free) are walked, and the answer is `true` when one of them lands on a
square holding the king of `side`. -/
def knightAttacks (st : State) (side opSide : Side) (square : Int) : Bool :=
  knightPreOffsets.any fun pre =>
    let checkSquare := square + pre
    let piece := pieceAt st checkSquare
    if piece.side = opSide ∧ pieceHasMovement piece.type .KnightMovement = true then
      (knightRelOffsets st checkSquare).any fun rel =>
        st.kingCanCapture && decide (pieceAt st (checkSquare + rel) = ⟨side, .King⟩)
    else false

/-- The `while` loop of the rook block of `inCheck`: walking over empty
squares; the first opposing piece met attacks when it has rook movement. -/
def rookAttackScan (st : State) (opSide : Side) (offset : Int) : Nat → Int → Option Bool
  | 0, _ => none
  | fuel + 1, targetSquare =>
    let piece := pieceAt st targetSquare
    if piece.isEmpty = true ∨ piece.side = opSide then
      if !piece.isEmpty then
        if pieceHasMovement piece.type .RookMovement then some true else some false
      else rookAttackScan st opSide offset fuel (targetSquare + offset)
    else some false

/-- The rook block of `inCheck`: in each rook direction an adjacent opposing
king attacks when kings may capture, then the sliding scan runs. -/
def rookAttacks (st : State) (opSide : Side) (square : Int) : Option Bool :=
  anyOffset
    (fun offset =>
      let targetSquare := square + offset
      if st.kingCanCapture = true ∧ pieceAt st targetSquare = ⟨opSide, .King⟩ then some true
      else rookAttackScan st opSide offset (scanFuel st) targetSquare)
    rookOffsets

/-- The pawn block of `inCheck`: the three squares `attackStep`,
`m_pawnPreOffsets[1]` and `m_pawnPreOffsets[2]` away are looked at for an
opposing piece with pawn movement. -/
def pawnAttacks (st : State) (side opSide : Side) (square : Int) : Bool :=
  let p_sign : Int := if side = .Black then 1 else -1
  let attackStep := p_sign * arwidth
  let pawnAttackOffsets : List Int :=
    [attackStep, pawnPreOffsets.getD 1 0, pawnPreOffsets.getD 2 0]
  pawnAttackOffsets.any fun offset =>
    let piece := pieceAt st (square + offset)
    decide (piece.side = opSide) && pieceHasMovement piece.type .PawnMovement

/-- The `while` loop of the king-meet block of `inCheck`: `some true` when the
first non-empty square met is the opposing king. -/
def kingMeetScan (st : State) (opSide : Side) (offset : Int) : Nat → Int → Nat → Option Bool
  | 0, _, _ => none
  | fuel + 1, targetSquare, obstacle =>
    let capture := pieceAt st targetSquare
    if capture.isWall then some false
    else if !capture.isEmpty then
      if obstacle + 1 = 1 ∧ capture.side = opSide ∧ capture.type = .King then some true
      else kingMeetScan st opSide offset fuel (targetSquare + offset) (obstacle + 1)
    else kingMeetScan st opSide offset fuel (targetSquare + offset) obstacle

/-- The king-meet block of `inCheck`: one scan per vertical direction. -/
def kingMeetAttacks (st : State) (opSide : Side) (square : Int) : Option Bool :=
  anyOffset (fun offset => kingMeetScan st opSide offset (scanFuel st) (square + offset) 0)
    kingMeetOffsets

/-- The blocks of `inCheck` run in the order of the source on a square already
resolved: cannon, knight, rook, pawn, king meet. -/
def attackedAt (st : State) (side : Side) (square : Int) : Option Bool :=
  let opSide := side.opposite
  match cannonAttacks st opSide square with
  | none => none
  | some true => some true
  | some false =>
    if knightAttacks st side opSide square then some true
    else
      match rookAttacks st opSide square with
      | none => none
      | some true => some true
      | some false =>
        if pawnAttacks st side opSide square then some true
        else kingMeetAttacks st opSide square

/-- The method `EasternBoard::inCheck(side, square)`: square 0 stands for the
king square of `side`, and a side without king is never in check. -/
def inCheck (st : State) (side : Side) (square : Int) : Option Bool :=
  if square = 0 then
    if st.kingSquare side = 0 then some false
    else attackedAt st side (st.kingSquare side)
  else attackedAt st side square

/-! ## Move generator -/

/-- Modelled from the spec: `Board::generateHoppingMoves`: for each offset a
move is appended when the destination is empty or holds a piece of the
opposite side. -/
def generateHoppingMoves (st : State) (sourceSquare : Int) (offsets : List Int)
    (moves : List Move) : List Move :=
  let opSide := st.side.opposite
  offsets.foldl
    (fun ms offset =>
      let targetSquare := sourceSquare + offset
      let capture := pieceAt st targetSquare
      if capture.isEmpty = true ∨ capture.side = opSide then
        ms ++ [Move.mk2 sourceSquare targetSquare]
      else ms)
    moves

/-- Modelled from the spec: the `while` loop of `Board::generateSlidingMoves`:
a move to every empty square, one capturing move on the first occupied square
when it holds a piece of the opposite side, then stop (a piece of the own side
stops the scan with no move appended). -/
def slidingScan (st : State) (sourceSquare offset : Int) :
    Nat → Int → List Move → Option (List Move)
  | 0, _, _ => none
  | fuel + 1, targetSquare, moves =>
    let capture := pieceAt st targetSquare
    if capture.isWall then some moves
    else if capture.isEmpty then
      slidingScan st sourceSquare offset fuel (targetSquare + offset)
        (moves ++ [Move.mk2 sourceSquare targetSquare])
    else if capture.side = st.side.opposite then
      some (moves ++ [Move.mk2 sourceSquare targetSquare])
    else some moves

/-- Runs a per-direction generating scan for every offset of a table, in order. -/
def forOffsets (f : Int → List Move → Option (List Move)) :
    List Int → List Move → Option (List Move)
  | [], moves => some moves
  | offset :: rest, moves =>
    match f offset moves with
    | none => none
    | some moves1 => forOffsets f rest moves1

/-- Modelled from the spec: `Board::generateSlidingMoves`: one sliding scan
per direction offset. -/
def generateSlidingMoves (st : State) (sourceSquare : Int) (offsets : List Int)
    (moves : List Move) : Option (List Move) :=
  forOffsets
    (fun offset ms => slidingScan st sourceSquare offset (scanFuel st) (sourceSquare + offset) ms)
    offsets moves

/-- The method `EasternBoard::generatePawnMoves`. -/
def generatePawnMoves (st : State) (sourceSquare : Int) (moves : List Move) : List Move :=
  let side := st.side
  let p_sign : Int := if side = .Black then 1 else -1
  let step := p_sign * arwidth
  let sq := chessSquare sourceSquare
  let rel1 : List Int :=
    if side = .White ∧ sq.rank < Int.tdiv height 2 then [step]
    else if side = .White ∧ sq.rank > Int.tdiv height 2 - 1 then
      [step, pawnPreOffsets.getD 1 0, pawnPreOffsets.getD 2 0]
    else []
  let rel2 : List Int :=
    if side = .Black ∧ sq.rank > Int.tdiv height 2 - 1 then rel1 ++ [step]
    else if side = .Black ∧ sq.rank < Int.tdiv height 2 then
      rel1 ++ [step, pawnPreOffsets.getD 1 0, pawnPreOffsets.getD 2 0]
    else rel1
  generateHoppingMoves st sourceSquare rel2 moves

/-- The `while` loop of `generateCannonMoves`: a move to every empty square
met while no piece has been met, and one move to the second piece met when it
is not of the side to move, after which the scan of this direction stops. -/
def cannonScan (st : State) (sourceSquare offset : Int) :
    Nat → Int → Nat → List Move → Option (List Move)
  | 0, _, _, _ => none
  | fuel + 1, targetSquare, obstacle, moves =>
    let capture := pieceAt st targetSquare
    if capture.isWall then some moves
    else if capture.isEmpty then
      if obstacle = 0 then
        cannonScan st sourceSquare offset fuel (targetSquare + offset) obstacle
          (moves ++ [Move.mk2 sourceSquare targetSquare])
      else cannonScan st sourceSquare offset fuel (targetSquare + offset) obstacle moves
    else if obstacle + 1 = 2 ∧ capture.side ≠ st.side then
      some (moves ++ [Move.mk2 sourceSquare targetSquare])
    else cannonScan st sourceSquare offset fuel (targetSquare + offset) (obstacle + 1) moves

/-- The method `EasternBoard::generateCannonMoves`: one cannon scan per rook offset. -/
def generateCannonMoves (st : State) (sourceSquare : Int) (moves : List Move) :
    Option (List Move) :=
  forOffsets
    (fun offset ms => cannonScan st sourceSquare offset (scanFuel st) (sourceSquare + offset) 0 ms)
    rookOffsets moves

/-- The method `EasternBoard::generateKnightMoves`. -/
def generateKnightMoves (st : State) (sourceSquare : Int) (moves : List Move) : List Move :=
  generateHoppingMoves st sourceSquare (knightRelOffsets st sourceSquare) moves

/-- The offsets kept by the loop of `generateBishopMoves`: the eye square is
a valid, empty square and the rank of the destination passes the side test. -/
def bishopRelOffsets (st : State) (sourceSquare : Int) : List Int :=
  let side := st.side
  (List.range bishopObstacleOffsets.length).foldl
    (fun rel i =>
      let obstacleSquare := sourceSquare + bishopObstacleOffsets.getD i 0
      if isValidSquare (chessSquare obstacleSquare) then
        if (pieceAt st obstacleSquare).isEmpty then
          let sq := chessSquare (sourceSquare + bishopPreOffsets.getD i 0)
          if (side = .White ∧ sq.rank < 6) ∨ (side = .Black ∧ sq.rank > 4) then
            rel ++ [bishopPreOffsets.getD i 0]
          else rel
        else rel
      else rel)
    []

/-- The method `EasternBoard::generateBishopMoves`. -/
def generateBishopMoves (st : State) (sourceSquare : Int) (moves : List Move) : List Move :=
  generateHoppingMoves st sourceSquare (bishopRelOffsets st sourceSquare) moves

/-- The method `EasternBoard::generateAdvisorMoves`. -/
def generateAdvisorMoves (st : State) (sourceSquare : Int) (moves : List Move) : List Move :=
  generateHoppingMoves st sourceSquare
    (advisorOffsets.filter fun offset => inFort (sourceSquare + offset)) moves

/-- The method `EasternBoard::generateKingMoves`. -/
def generateKingMoves (st : State) (sourceSquare : Int) (moves : List Move) : List Move :=
  generateHoppingMoves st sourceSquare
    (rookOffsets.filter fun offset => inFort (sourceSquare + offset)) moves

/-- The method `EasternBoard::generateRookMoves`. -/
def generateRookMoves (st : State) (sourceSquare : Int) (moves : List Move) :
    Option (List Move) :=
  generateSlidingMoves st sourceSquare rookOffsets moves

/-- The method `EasternBoard::generateMovesForPiece`: one routine per movement
the piece type declares, in the order of the source. -/
def generateMovesForPiece (st : State) (moves : List Move) (pieceType : PieceType)
    (square : Int) : Option (List Move) :=
  let m1 := if pieceHasMovement pieceType .PawnMovement then generatePawnMoves st square moves
            else moves
  let m2 := if pieceHasMovement pieceType .KingMovement then generateKingMoves st square m1 else m1
  let m3 := if pieceHasMovement pieceType .KnightMovement then generateKnightMoves st square m2
            else m2
  let m4 := if pieceHasMovement pieceType .BishopMovement then generateBishopMoves st square m3
            else m3
  match (if pieceHasMovement pieceType .RookMovement then generateRookMoves st square m4
         else some m4) with
  | none => none
  | some m5 =>
    let m6 := if pieceHasMovement pieceType .AdvisorMovement then
                generateAdvisorMoves st square m5
              else m5
    if pieceHasMovement pieceType .CannonMovement then generateCannonMoves st square m6
    else some m6

/-- The square loop of the parent's `generateMoves`. -/
def generateMovesLoop (st : State) (pieceType : PieceType) :
    List Nat → List Move → Option (List Move)
  | [], moves => some moves
  | sq :: rest, moves =>
    let tmp := pieceAt st sq
    if tmp.side = st.side ∧ (pieceType = .NoPiece ∨ tmp.type = pieceType) then
      match generateMovesForPiece st moves tmp.type sq with
      | none => none
      | some moves1 => generateMovesLoop st pieceType rest moves1
    else generateMovesLoop st pieceType rest moves

/-- Modelled from the spec: `Board::generateMoves`: every array cell between
the two leading and the two trailing wall rows that holds a piece of the side
to move (of the wanted type, if one is given) has its moves generated.  The
board has no reserve, so no drop moves are added. -/
def generateMoves (st : State) (pieceType : PieceType) : Option (List Move) :=
  let start := (arwidth * 2).toNat
  generateMovesLoop st pieceType (List.range' start (st.squares.length - start - start)) []

/-! ## Legality -/

/-- The endless `for (;;)` loop of `isLegalPosition` for a castling move whose
king does not move: walking outward from the target, `true` at a wall or a
piece of `side`, `false` at a rook-movement piece of the side now to move. -/
def castleRookScan (st : State) (side : Side) (offset : Int) : Nat → Int → Option Bool
  | 0, _ => none
  | fuel + 1, i =>
    let i1 := i - offset
    let piece := pieceAt st i1
    if piece.isWall = true ∨ piece.side = side then some true
    else if piece.side = st.side ∧ pieceHasMovement piece.type .RookMovement = true then
      some false
    else castleRookScan st side offset fuel i1

/-- The loop `for (int i = source; i != target; i += offset)` of
`isLegalPosition`: no square of the king path may be attacked. -/
def castlePathScan (st : State) (side : Side) (target offset : Int) : Nat → Int → Option Bool
  | 0, _ => none
  | fuel + 1, i =>
    if i = target then some true
    else
      match inCheck st side i with
      | none => none
      | some true => some false
      | some false => castlePathScan st side target offset fuel (i + offset)

/-- The method `EasternBoard::isLegalPosition`: the side that has just moved
must not be in check; after a castling move the king path is checked too.
The last move is read from the parent's move history. -/
def isLegalPosition (st : State) : Option Bool :=
  let side := st.side.opposite
  match inCheck st side 0 with
  | none => none
  | some true => some false
  | some false =>
    match st.history.getLast? with
    | none => some true
    | some md =>
      match st.moveHistory.getLast? with
      | none => none
      | some (move, _) =>
        let cside := md.castlingSide
        if cside ≠ .NoCastlingSide then
          let source := move.sourceSquare
          let target := castleTarget side cside
          let offset : Int := if source ≤ target then 1 else -1
          if source = target then
            let offset1 : Int := if cside = .KingSide then 1 else -1
            castleRookScan st side offset1 (scanFuel st) (target - offset1)
          else
            castlePathScan st side target offset ((target - source).natAbs + 1) source
        else some true

/-- Modelled from the spec: `Board::vIsLegalMove`, the legality trial of the
parent: make the move, ask `isLegalPosition`, undo the move.  The answer comes
with the state left behind by the undo. -/
def boardIsLegalMove (st : State) (move : Move) : Option (Bool × State) :=
  let st1 := makeMove st move
  match isLegalPosition st1 with
  | none => none
  | some isLegal =>
    match undoMove st1 with
    | none => none
    | some st2 => some (isLegal, st2)

/-- The method `EasternBoard::vIsLegalMove`: a capturing king move is refused
outright when kings may not capture; otherwise the parent's trial decides. -/
def vIsLegalMove (st : State) (move : Move) : Option (Bool × State) :=
  if st.kingCanCapture = false ∧ move.sourceSquare = st.kingSquare st.side ∧
      captureType st move ≠ .NoPiece then some (false, st)
  else boardIsLegalMove st move

/-- The filter loop of the parent's `legalMoves`, the state threaded through
the legality trials. -/
def legalMovesLoop : State → List Move → List Move → Option (List Move × State)
  | st, [], legal => some (legal, st)
  | st, move :: rest, legal =>
    match vIsLegalMove st move with
    | none => none
    | some (true, st1) => legalMovesLoop st1 rest (legal ++ [move])
    | some (false, st1) => legalMovesLoop st1 rest legal

/-- Modelled from the spec: `Board::legalMoves`: the generated moves that pass
`vIsLegalMove`, tried from the last generated move to the first. -/
def legalMoves (st : State) : Option (List Move × State) :=
  match generateMoves st .NoPiece with
  | none => none
  | some moves => legalMovesLoop st moves.reverse []

/-! ## Concrete positions -/

/-- One playable rank given by its nine squares, with the wall column on each side. -/
def boardRow (cells : List Piece) : List Piece :=
  [Piece.wallPiece] ++ cells ++ [Piece.wallPiece]

/-- The square array for ten ranks listed from Black's back rank (rank 10)
down to White's back rank (rank 1), as a position string lists them. -/
def boardOfRows (rows : List (List Piece)) : List Piece :=
  List.replicate 22 Piece.wallPiece ++ (rows.map boardRow).flatten ++
    List.replicate 22 Piece.wallPiece

/-- A White piece. -/
def wp (t : PieceType) : Piece := ⟨.White, t⟩

/-- A Black piece. -/
def bp (t : PieceType) : Piece := ⟨.Black, t⟩

/-- An empty rank. -/
def emptyRow : List Piece := List.replicate 9 Piece.noPiece

/-- A state as `vInitialize` and a successful position load leave it: the
given squares, side to move and king squares; kings may capture, there is no
castling, no right is set and both histories are empty. -/
def loaded (squares : List Piece) (side : Side) (kingWhite kingBlack : Int) : State :=
  { squares := squares, side := side, key := 0, zobristCastling := fun _ _ => 0,
    moveHistory := [], sign := if side = .White then 1 else -1, plyOffset := 0,
    reversibleMoveCount := 0, kingCanCapture := true, hasCastling := false,
    kingSquareWhite := kingWhite, kingSquareBlack := kingBlack,
    castlingRights := ⟨0, 0, 0, 0⟩, history := [] }

/-- The Xiangqi starting array
`rnbakabnr/9/1c5c1/p1p1p1p1p/9/9/P1P1P1P1P/1C5C1/9/RNBAKABNR`. -/
def startSquares : List Piece :=
  let e := Piece.noPiece
  boardOfRows
    [ [bp .Rook, bp .Knight, bp .Bishop, bp .Advisor, bp .King, bp .Advisor, bp .Bishop,
        bp .Knight, bp .Rook],
      emptyRow,
      [e, bp .Cannon, e, e, e, e, e, bp .Cannon, e],
      [bp .Pawn, e, bp .Pawn, e, bp .Pawn, e, bp .Pawn, e, bp .Pawn],
      emptyRow,
      emptyRow,
      [wp .Pawn, e, wp .Pawn, e, wp .Pawn, e, wp .Pawn, e, wp .Pawn],
      [e, wp .Cannon, e, e, e, e, e, wp .Cannon, e],
      emptyRow,
      [wp .Rook, wp .Knight, wp .Bishop, wp .Advisor, wp .King, wp .Advisor, wp .Bishop,
        wp .Knight, wp .Rook] ]

/-- The starting position, White to move; the kings stand on e1 (index 126)
and e10 (index 27). -/
def startPosition : State := loaded startSquares .White 126 27

/-! ## Well-formed positions -/

/-- The size of the square array: `(width + 2) * (height + 4)`. -/
def arraySize : Nat := 154

/-- Every array cell off the playable grid holds the wall sentinel. -/
def WallsInPlace (st : State) : Prop :=
  st.squares.length = arraySize ∧
    ∀ i ∈ List.range arraySize,
      isValidSquare (chessSquare (i : Int)) = false → pieceAt st (i : Int) = Piece.wallPiece

/-- The king-square cache of `side` is right: it is 0 or names a square holding
the king of `side`, and no other square holds a king of `side`.  A position
load establishes this (exactly one king per side is accepted). -/
def KingCacheOk (st : State) (side : Side) : Prop :=
  (st.kingSquare side = 0 ∨ pieceAt st (st.kingSquare side) = ⟨side, .King⟩) ∧
    ∀ i ∈ List.range st.squares.length,
      pieceAt st (i : Int) = ⟨side, .King⟩ → (i : Int) = st.kingSquare side

/-- A tracked castling rook square is 0 or holds a rook of its side. -/
def CastlingOk (st : State) (side : Side) (cside : CastlingSide) : Prop :=
  st.castlingRights.rookSquare side cside = 0 ∨
    pieceAt st (st.castlingRights.rookSquare side cside) = ⟨side, .Rook⟩

/-- A well-formed position: walls in place, a side to move, both king caches
right and every castling right pointing at a rook of its side. -/
def WellFormed (st : State) : Prop :=
  WallsInPlace st ∧ st.side ≠ .NoSide ∧
    KingCacheOk st .White ∧ KingCacheOk st .Black ∧
    CastlingOk st .White .QueenSide ∧ CastlingOk st .White .KingSide ∧
    CastlingOk st .Black .QueenSide ∧ CastlingOk st .Black .KingSide

instance (st : State) : Decidable (WallsInPlace st) := by
  unfold WallsInPlace; infer_instance

instance (st : State) (side : Side) : Decidable (KingCacheOk st side) := by
  unfold KingCacheOk; infer_instance

instance (st : State) (side : Side) (cside : CastlingSide) :
    Decidable (CastlingOk st side cside) := by
  unfold CastlingOk; infer_instance

instance (st : State) : Decidable (WellFormed st) := by
  unfold WellFormed; infer_instance

/-- The move is one of the moves `generateMoves` produces for the position. -/
def Generated (st : State) (move : Move) : Prop :=
  ∃ moves, generateMoves st .NoPiece = some moves ∧ move ∈ moves

instance (st : State) (move : Move) : Decidable (Generated st move) :=
  match h : generateMoves st .NoPiece with
  | none => isFalse (by rintro ⟨ms, hms, _⟩; rw [h] at hms; cases hms)
  | some moves =>
    if hm : move ∈ moves then isTrue ⟨moves, h, hm⟩
    else isFalse (by rintro ⟨ms, hms, hmem⟩; rw [h] at hms; cases hms; exact hm hmem)

/-- The shape of a move appended by a generator for the piece on `sq`: it
starts on `sq`, carries no promotion, and its destination is not a wall and is
empty or not held by the side to move. -/
def MoveShape (st : State) (sq : Int) (m : Move) : Prop :=
  m.sourceSquare = sq ∧ m.promotion = .NoPiece ∧
    pieceAt st m.targetSquare ≠ Piece.wallPiece ∧
    ((pieceAt st m.targetSquare).isEmpty = true ∨ (pieceAt st m.targetSquare).side ≠ st.side)

/-- The number of array cells a scan from `t` in steps of `offset` can still
visit before it must read a wall: a bound on the iterations of a scanning loop. -/
def scanRoom (st : State) (offset t : Int) : Nat :=
  if pieceAt st t = Piece.wallPiece then 0
  else if 0 < offset then st.squares.length - t.toNat else t.toNat + 1

/-- Looking from `square` along `offset`, the first non-empty square holds the
king of `opSide`: the squares `square + offset, ...` are empty up to that king. -/
def FacesKing (st : State) (opSide : Side) (square offset : Int) : Prop :=
  ∃ k : Nat, (∀ j : Nat, j < k → (pieceAt st (square + (j + 1) * offset)).isEmpty = true) ∧
    pieceAt st (square + (k + 1) * offset) = ⟨opSide, .King⟩

/-- A row with one piece on the given file (0 = file a). -/
def rowWith (file : Nat) (p : Piece) : List Piece :=
  emptyRow.set file p

/-- The two kings alone on the e-file, White on e1 and Black on e10, White to move. -/
def facingKings : State :=
  loaded
    (boardOfRows
      [rowWith 4 (bp .King), emptyRow, emptyRow, emptyRow, emptyRow, emptyRow, emptyRow,
        emptyRow, emptyRow, rowWith 4 (wp .King)])
    .White 126 27

/-- The number of non-empty squares among the first `k` squares
`t, t + offset, ..., t + (k - 1) * offset` of a ray. -/
def piecesOnRay (st : State) (offset t : Int) (k : Nat) : Nat :=
  (List.range k).countP fun (j : Nat) => !(pieceAt st (t + (j : Int) * offset)).isEmpty

/-- Square number `k` of the ray that starts on `t` is a cannon destination
when `obstacle` pieces have been met before the ray: no wall lies on the ray
up to that square, and either the square is empty and no piece was met before
it, or it holds a piece that is not of the side to move and exactly one
piece was met before it. -/
def CannonHit (st : State) (offset : Int) (obstacle : Nat) (t : Int) (k : Nat) : Prop :=
  (∀ j : Nat, j ≤ k → (pieceAt st (t + (j : Int) * offset)).isWall = false) ∧
    (((pieceAt st (t + (k : Int) * offset)).isEmpty = true ∧
        obstacle + piecesOnRay st offset t k = 0) ∨
      ((pieceAt st (t + (k : Int) * offset)).isEmpty = false ∧
        obstacle + piecesOnRay st offset t k = 1 ∧
        (pieceAt st (t + (k : Int) * offset)).side ≠ st.side))

/-- Square number `k` of the ray that starts on `t` holds a cannon that
attacks along the ray when `obstacle` pieces have been met before the ray: no
wall lies on the ray up to that square, the square holds a piece of `opSide`
with cannon movement, and exactly one piece was met before it. -/
def CannonAttackHit (st : State) (opSide : Side) (offset : Int) (obstacle : Nat) (t : Int)
    (k : Nat) : Prop :=
  (∀ j : Nat, j ≤ k → (pieceAt st (t + (j : Int) * offset)).isWall = false) ∧
    (pieceAt st (t + (k : Int) * offset)).isEmpty = false ∧
    obstacle + piecesOnRay st offset t k = 1 ∧
    (pieceAt st (t + (k : Int) * offset)).side = opSide ∧
    pieceHasMovement (pieceAt st (t + (k : Int) * offset)).type .CannonMovement = true

/-- White king on e1 behind its own pawn on e4, a Black cannon on e8 and the
Black king on d10; White to move. -/
def cannonCheck : State :=
  loaded
    (boardOfRows
      [rowWith 3 (bp .King), emptyRow, rowWith 4 (bp .Cannon), emptyRow, emptyRow, emptyRow,
        rowWith 4 (wp .Pawn), emptyRow, emptyRow, rowWith 4 (wp .King)])
    .White 126 26

/-- The knight attack on a square as the claim words it: for some knight
offset number `i`, an opposing piece with knight movement stands on the square
from which that offset leads to `sq`, and the leg square next to that knight
(obstacle offset number `i / 2` from the knight) is a valid, empty square. -/
def KnightAttacksSquare (st : State) (opSide : Side) (sq : Int) : Prop :=
  ∃ i, i < 8 ∧
    (pieceAt st (sq - knightPreOffsets.getD i 0)).side = opSide ∧
    pieceHasMovement (pieceAt st (sq - knightPreOffsets.getD i 0)).type .KnightMovement = true ∧
    isValidSquare (chessSquare
      (sq - knightPreOffsets.getD i 0 + knightObstacleOffsets.getD (i / 2) 0)) = true ∧
    (pieceAt st
      (sq - knightPreOffsets.getD i 0 + knightObstacleOffsets.getD (i / 2) 0)).isEmpty = true

instance (st : State) (opSide : Side) (sq : Int) :
    Decidable (KnightAttacksSquare st opSide sq) := by
  unfold KnightAttacksSquare; infer_instance

/-- White king on e1, Black king on f10 and a Black knight on c3; White to
move (`5k3/9/9/9/9/9/9/2n6/9/4K4 w`). -/
def knightNearKing : State :=
  loaded
    (boardOfRows
      [rowWith 5 (bp .King), emptyRow, emptyRow, emptyRow, emptyRow, emptyRow, emptyRow,
        rowWith 2 (bp .Knight), emptyRow, rowWith 4 (wp .King)])
    .White 126 28

/-- White king on d1, Black king on f10 and a White bishop on e4; White to
move (`5k3/9/9/9/9/9/4B4/9/9/3K5 w`). -/
def bishopOnFourthRank : State :=
  loaded
    (boardOfRows
      [rowWith 5 (bp .King), emptyRow, emptyRow, emptyRow, emptyRow, emptyRow,
        rowWith 4 (wp .Bishop), emptyRow, emptyRow, rowWith 3 (wp .King)])
    .White 125 28

/-- The palace of `side` as the rules have it: files d to f (file index 3 to
5) and ranks 1 to 3 (rank index 0 to 2) for White, ranks 8 to 10 (rank index 7
to 9) for Black. -/
def inPalace (side : Side) (square : Int) : Bool :=
  let sq := chessSquare square
  decide (3 ≤ sq.file) && decide (sq.file ≤ 5) &&
    (match side with
     | .White => decide (0 ≤ sq.rank) && decide (sq.rank ≤ 2)
     | .Black => decide (7 ≤ sq.rank) && decide (sq.rank ≤ 9)
     | .NoSide => false)

/-- The forward step of a pawn of `side` in index terms: one row up the array
(toward rank 10) for White, one row down (toward rank 1) for Black. -/
def pawnForward (side : Side) : Int :=
  match side with
  | .Black => arwidth
  | _ => -arwidth

/-- A pawn of `side` on `square` has crossed the river: rank index at least 5
for White, at most 4 for Black. -/
def pawnCrossedRiver (side : Side) (square : Int) : Bool :=
  match side with
  | .White => decide (5 ≤ (chessSquare square).rank)
  | .Black => decide ((chessSquare square).rank ≤ 4)
  | .NoSide => false

/-- The destination test of the hopping routine: the square is empty or holds
a piece of the side opposite to the side to move. -/
def HopTarget (st : State) (t : Int) : Prop :=
  (pieceAt st t).isEmpty = true ∨ (pieceAt st t).side = st.side.opposite

/-- The pawn attack on a square as the claim words it: a pawn-movement piece
of the side opposite to `side` stands directly behind `sq` along its own
direction of advance, or stands on one of the two laterally adjacent squares
and has crossed the river (is entitled to sideways steps). -/
def PawnAttacksSquare (st : State) (side : Side) (sq : Int) : Prop :=
  ((pieceAt st (sq - pawnForward side.opposite)).side = side.opposite ∧
      pieceHasMovement (pieceAt st (sq - pawnForward side.opposite)).type .PawnMovement = true) ∨
    ((pieceAt st (sq - 1)).side = side.opposite ∧
      pieceHasMovement (pieceAt st (sq - 1)).type .PawnMovement = true ∧
      pawnCrossedRiver side.opposite (sq - 1) = true) ∨
    ((pieceAt st (sq + 1)).side = side.opposite ∧
      pieceHasMovement (pieceAt st (sq + 1)).type .PawnMovement = true ∧
      pawnCrossedRiver side.opposite (sq + 1) = true)

instance (st : State) (side : Side) (sq : Int) : Decidable (PawnAttacksSquare st side sq) := by
  unfold PawnAttacksSquare; infer_instance

/-- White king on e7 beside a Black pawn on d7, which stands on its own half;
Black king on d10; White to move (`3k5/9/9/3pK4/9/9/9/9/9/9 w`). -/
def kingBesidePawn : State :=
  loaded
    (boardOfRows
      [rowWith 3 (bp .King), emptyRow, emptyRow,
        (emptyRow.set 3 (bp .Pawn)).set 4 (wp .King),
        emptyRow, emptyRow, emptyRow, emptyRow, emptyRow, emptyRow])
    .White 60 26

/-- The move is one that `vMakeMove` does not count as reversible: a drop
(source 0), a move that carries a promotion type, a capture, or a rook move
from a square that holds one of the mover's castling rights. -/
def IrreversibleMove (st : State) (m : Move) : Prop :=
  m.sourceSquare = 0 ∨ m.promotion ≠ .NoPiece ∨ captureType st m ≠ .NoPiece ∨
    (movedPieceType st m = .Rook ∧
      (m.sourceSquare = st.castlingRights.rookSquare st.side .QueenSide ∨
        m.sourceSquare = st.castlingRights.rookSquare st.side .KingSide))

instance (st : State) (m : Move) : Decidable (IrreversibleMove st m) := by
  unfold IrreversibleMove; infer_instance

/-- White king on e1 with rooks on a1 and i1, both holding a castling right;
Black king on d10; White to move.  A position of a variant with castling. -/
def castlingReady : State :=
  { loaded
      (boardOfRows
        [rowWith 3 (bp .King), emptyRow, emptyRow, emptyRow, emptyRow, emptyRow, emptyRow,
          emptyRow, emptyRow,
          ((emptyRow.set 0 (wp .Rook)).set 4 (wp .King)).set 8 (wp .Rook)])
      .White 126 26 with
    hasCastling := true, castlingRights := ⟨122, 130, 0, 0⟩ }

/-! ## Result evaluator -/

/-- The loop of the parent's `canMove` over the generated moves: the first move
that passes `vIsLegalMove` ends it with `true`.  The state is threaded through
the legality trials. -/
def canMoveLoop : State → List Move → Option (Bool × State)
  | st, [] => some (false, st)
  | st, move :: rest =>
    match vIsLegalMove st move with
    | none => none
    | some (true, st1) => some (true, st1)
    | some (false, st1) => canMoveLoop st1 rest

/-- Modelled from the spec: `Board::canMove`: the side to move has a generated
move that passes `vIsLegalMove`. -/
def canMove (st : State) : Option (Bool × State) :=
  match generateMoves st .NoPiece with
  | none => none
  | some moves => canMoveLoop st moves

/-- The enumeration `Square::Color`. -/
inductive SquareColor where
  | Light
  | Dark
  | NoColor
deriving DecidableEq, Repr

/-- Modelled from the spec: `Square::color`, the checkerboard colouring of the
squares: two squares have the same colour exactly when file plus rank has the
same parity; a square with a negative coordinate has no colour. -/
def Square.color (sq : Square) : SquareColor :=
  if sq.file < 0 ∨ sq.rank < 0 then .NoColor
  else if sq.file % 2 ≠ sq.rank % 2 then .Light
  else .Dark

/-- The enumeration `Result::Type`, as far as `result` uses it. -/
inductive ResultType where
  | Win
  | Draw
  | NoResult
deriving DecidableEq, Repr

/-- The description strings `result` builds, one constructor per string. -/
inductive ResultText where
  | Mates
  | WinByStalemate
  | InsufficientMaterial
  | FiftyMovesRule
  | FiveFoldRepetition
  | NoText
deriving DecidableEq, Repr

/-- The class `Result`: type, winner and description. -/
structure Result where
  type : ResultType
  winner : Side
  description : ResultText
deriving DecidableEq, Repr

/-- The locals of the material loop of `result`: `material` and the two
entries of `bishops[]`, indexed by square colour. -/
structure MaterialLocals where
  material : Int
  bishopsLight : Bool
  bishopsDark : Bool
deriving DecidableEq, Repr

/-- One iteration of the material loop of `result` for array cell `i`. -/
def materialStep (st : State) (loc : MaterialLocals) (i : Nat) : MaterialLocals :=
  let piece := pieceAt st (i : Int)
  if piece.isValid = false then loc
  else
    match piece.type with
    | .King => loc
    | .Bishop =>
      match (chessSquare (i : Int)).color with
      | .Light =>
        if loc.bishopsLight = false then
          { loc with material := loc.material + 1, bishopsLight := true }
        else loc
      | .Dark =>
        if loc.bishopsDark = false then
          { loc with material := loc.material + 1, bishopsDark := true }
        else loc
      | .NoColor => loc
    | .Advisor => { loc with material := loc.material + 1 }
    | _ => { loc with material := loc.material + 2 }

/-- The material loop of `result` over the whole square array. -/
def materialLoop (st : State) : MaterialLocals :=
  (List.range st.squares.length).foldl (materialStep st) ⟨0, false, false⟩

/-- The method `EasternBoard::result`.  The parent's `repeatCount()` is an
argument; the state left behind by `canMove` is returned with the result. -/
def result (st : State) (repeatCount : Int) : Option (Result × State) :=
  match canMove st with
  | none => none
  | some (false, st1) =>
    match inCheck st1 st1.side 0 with
    | none => none
    | some true => some (⟨.Win, st1.side.opposite, .Mates⟩, st1)
    | some false => some (⟨.Win, st1.side.opposite, .WinByStalemate⟩, st1)
  | some (true, st1) =>
    if (materialLoop st1).material ≤ 1 then
      some (⟨.Draw, .NoSide, .InsufficientMaterial⟩, st1)
    else if st1.reversibleMoveCount ≥ 100 then
      some (⟨.Draw, .NoSide, .FiftyMovesRule⟩, st1)
    else if repeatCount ≥ 5 then
      some (⟨.Draw, .NoSide, .FiveFoldRepetition⟩, st1)
    else some (⟨.NoResult, .NoSide, .NoText⟩, st1)

/-- The side to move has a legal move: some generated move passes `vIsLegalMove`. -/
def HasLegalMove (st : State) : Prop :=
  ∃ m, Generated st m ∧ (vIsLegalMove st m).map Prod.fst = some true

instance (st : State) : Decidable (HasLegalMove st) :=
  match h : generateMoves st .NoPiece with
  | none => isFalse (by rintro ⟨m, ⟨ms, hms, _⟩, _⟩; rw [h] at hms; cases hms)
  | some moves =>
    if hm : ∃ m ∈ moves, (vIsLegalMove st m).map Prod.fst = some true then
      isTrue (by obtain ⟨m, hmem, hl⟩ := hm; exact ⟨m, ⟨moves, h, hmem⟩, hl⟩)
    else
      isFalse (by
        rintro ⟨m, ⟨ms, hms, hmem⟩, hl⟩
        rw [h] at hms; cases hms; exact hm ⟨m, hmem, hl⟩)

/-- Some bishop stands on a square of colour `c`. -/
def bishopOnColor (st : State) (c : SquareColor) : Bool :=
  (List.range st.squares.length).any fun (i : Nat) =>
    (pieceAt st (i : Int)).isValid && decide ((pieceAt st (i : Int)).type = .Bishop) &&
      decide ((chessSquare (i : Int)).color = c)

/-- The points a single piece brings: 1 for an advisor, 2 for any other piece
that is neither a king nor a bishop, 0 for a king, a bishop and a cell without
a piece. -/
def pieceValue (p : Piece) : Int :=
  if p.isValid = false then 0
  else if p.type = .King ∨ p.type = .Bishop then 0
  else if p.type = .Advisor then 1
  else 2

/-- The material of C17: one point per square colour on which a bishop of
either side stands, and the points of every other piece. -/
def specMaterial (st : State) : Int :=
  (if bishopOnColor st .Light then 1 else 0) + (if bishopOnColor st .Dark then 1 else 0) +
    ((List.range st.squares.length).map fun (i : Nat) => pieceValue (pieceAt st (i : Int))).sum

/-- Plays the moves of a list in order with `makeMove`. -/
def playMoves (st : State) (moves : List Move) : State :=
  moves.foldl makeMove st

/-- Every move of the list, made in turn from `st`, is a move with a target
that `vMakeMove` counts as reversible, in a state whose castling rights of the
mover point at rooks of the mover. -/
def ReversibleRun : State → List Move → Prop
  | _, [] => True
  | st, m :: rest =>
    m.targetSquare ≠ 0 ∧ CastlingOk st st.side .QueenSide ∧ CastlingOk st st.side .KingSide ∧
      ¬ IrreversibleMove st m ∧ ReversibleRun (makeMove st m) rest

/-- Checks a reversible run move by move. -/
def decideReversibleRun : (st : State) → (ms : List Move) → Decidable (ReversibleRun st ms)
  | _, [] => isTrue trivial
  | st, m :: rest =>
    let _ : Decidable (ReversibleRun (makeMove st m) rest) :=
      decideReversibleRun (makeMove st m) rest
    inferInstanceAs (Decidable
      (m.targetSquare ≠ 0 ∧ CastlingOk st st.side .QueenSide ∧
        CastlingOk st st.side .KingSide ∧
        ¬ IrreversibleMove st m ∧ ReversibleRun (makeMove st m) rest))

instance (st : State) (ms : List Move) : Decidable (ReversibleRun st ms) :=
  decideReversibleRun st ms

/-- White king on d1, Black rooks on e5 and a2, Black king on f10; White to
move has no legal move and is not in check. -/
def stalematePosition : State :=
  loaded
    (boardOfRows
      [rowWith 5 (bp .King), emptyRow, emptyRow, emptyRow, emptyRow, rowWith 4 (bp .Rook),
        emptyRow, emptyRow, rowWith 0 (bp .Rook), rowWith 3 (wp .King)])
    .White 125 28

/-- The stalemate position with one more Black rook on d5: White is mated. -/
def matePosition : State :=
  loaded
    (boardOfRows
      [rowWith 5 (bp .King), emptyRow, emptyRow, emptyRow, emptyRow,
        (emptyRow.set 3 (bp .Rook)).set 4 (bp .Rook),
        emptyRow, emptyRow, rowWith 0 (bp .Rook), rowWith 3 (wp .King)])
    .White 125 28

/-- White king on e1 with an advisor on d1 against the bare Black king on d10;
White to move. -/
def advisorEnding : State :=
  loaded
    (boardOfRows
      [rowWith 3 (bp .King), emptyRow, emptyRow, emptyRow, emptyRow, emptyRow, emptyRow,
        emptyRow, emptyRow, (emptyRow.set 3 (wp .Advisor)).set 4 (wp .King)])
    .White 126 26

/-- White king on e1 with a bishop on c1, Black king on d10 with a bishop on
c9: both bishops stand on squares of one colour.  White to move. -/
def sameColourBishops : State :=
  loaded
    (boardOfRows
      [rowWith 3 (bp .King), rowWith 2 (bp .Bishop), emptyRow, emptyRow, emptyRow, emptyRow,
        emptyRow, emptyRow, emptyRow, (emptyRow.set 2 (wp .Bishop)).set 4 (wp .King)])
    .White 126 26

/-- The two a-file rooks of the starting position step forward and back: four
reversible moves, repeated 25 times. -/
def rookShuffle : List Move :=
  (List.replicate 25
    [Move.mk2 122 111, Move.mk2 23 34, Move.mk2 111 122, Move.mk2 34 23]).flatten

/-! ## Short algebraic move strings -/

/-- Modelled from the spec: the null move `Move()` of the parent, returned by
the parsers for a string that names no move. -/
def Move.null : Move := ⟨0, 0, .NoPiece⟩

/-- What `moveFromSanString` has read from the string when it reaches its
match loop: the piece type, the target square, the file and the rank asked of
the source square (-1 when the string gives none) and the promotion type. -/
structure SanFields where
  pieceType : PieceType
  target : Int
  sourceFile : Int
  sourceRank : Int
  promotion : PieceType
deriving DecidableEq, Repr

/-- The tests of the match loop of `moveFromSanString` that come before the
legality trial: the move is kept when none of the `continue` statements fires. -/
def sanFieldsMatch (st : State) (side : Side) (q : SanFields) (move : Move) : Bool :=
  if move.sourceSquare = 0 ∨ move.targetSquare ≠ q.target then false
  else
    let sourceSq2 := chessSquare move.sourceSquare
    if q.sourceRank ≠ -1 ∧ sourceSq2.rank ≠ q.sourceRank then false
    else if q.sourceFile ≠ -1 ∧ sourceSq2.file ≠ q.sourceFile then false
    else if pieceAt st q.target = ⟨side, .Rook⟩ then false
    else if move.promotion ≠ q.promotion then false
    else true

/-- The match loop of `moveFromSanString` (lines 478-507): `found` is the
pointer `match`; a second matching legal move returns the null move at once. -/
def sanMatchLoop (side : Side) (q : SanFields) :
    State → List Move → Option Move → Option (Move × State)
  | st, [], none => some (Move.null, st)
  | st, [], some found => some (found, st)
  | st, move :: rest, found =>
    if sanFieldsMatch st side q move = false then sanMatchLoop side q st rest found
    else
      match vIsLegalMove st move with
      | none => none
      | some (false, st1) => sanMatchLoop side q st1 rest found
      | some (true, st1) =>
        if found ≠ none then some (Move.null, st1)
        else sanMatchLoop side q st1 rest (some move)

/-- The end of `moveFromSanString` from line 472 on: the moves of the piece
type are generated and the match loop runs over them. -/
def sanFindMove (st : State) (q : SanFields) : Option (Move × State) :=
  match generateMoves st q.pieceType with
  | none => none
  | some moves => sanMatchLoop st.side q st moves none

/-- A match as the claim words it: the move is a legal move of the piece type
read from the string (generated for that type, moving a piece of that type when
the string names one, and passing the legality trial), it ends on the target
square read from the string, and its source square has the file and the rank
the string asks for, where it asks for one. -/
def SanMatch (st : State) (q : SanFields) (m : Move) : Prop :=
  (∃ moves, generateMoves st q.pieceType = some moves ∧ m ∈ moves) ∧
    (q.pieceType = .NoPiece ∨ (pieceAt st m.sourceSquare).type = q.pieceType) ∧
    (vIsLegalMove st m).map Prod.fst = some true ∧
    m.targetSquare = q.target ∧
    (q.sourceFile ≠ -1 → (chessSquare m.sourceSquare).file = q.sourceFile) ∧
    (q.sourceRank ≠ -1 → (chessSquare m.sourceSquare).rank = q.sourceRank)

/-- The text helpers of the parent that `sanMoveString` calls and that are not
part of this file; the theorems hold for every choice of them. -/
structure TextHelpers where
  /-- The parent's `pieceSymbol`. -/
  pieceSymbol : Piece → String
  /-- The parent's `squareString`. -/
  squareString : Int → String
  /-- The parent's `lanMoveString`. -/
  lanMoveString : Move → String

/-- The member `m_pawnAmbiguous`: set to `false` by the constructor and by
`vInitialize` and written nowhere else (`pawnAmbiguity` is a stub). -/
def pawnAmbiguous : Bool := false

/-- The method `EasternBoard::pawnAmbiguity`: it returns its zero counter. -/
def pawnAmbiguity : Int := 0

/-- The first part of `sanMoveString`: the move is made, `checkOrMate` is set
to `+` or `#` when the side to move is then in check, and the move is undone. -/
def sanCheckOrMate (st : State) (move : Move) : Option (Option Char × State) :=
  let st1 := makeMove st move
  match inCheck st1 st1.side 0 with
  | none => none
  | some inChk =>
    let marked : Option (Option Char × State) :=
      if inChk = true then
        match canMove st1 with
        | none => none
        | some (true, st2) => some (some '+', st2)
        | some (false, st2) => some (some '#', st2)
      else some (none, st1)
    match marked with
    | none => none
    | some (checkOrMate, st2) =>
      match undoMove st2 with
      | none => none
      | some st3 => some (checkOrMate, st3)

/-- The loop of `sanMoveString` over the other moves of the same piece type to
the same target: it sets `needFile` and `needRank`. -/
def sanDisambiguate (source target : Int) (square : Square) :
    State → List Move → Bool → Bool → Option ((Bool × Bool) × State)
  | st, [], needFile, needRank => some ((needFile, needRank), st)
  | st, move2 :: rest, needFile, needRank =>
    if move2.sourceSquare = 0 ∨ move2.sourceSquare = source ∨ move2.targetSquare ≠ target then
      sanDisambiguate source target square st rest needFile needRank
    else
      match vIsLegalMove st move2 with
      | none => none
      | some (false, st1) => sanDisambiguate source target square st1 rest needFile needRank
      | some (true, st1) =>
        let square2 := chessSquare move2.sourceSquare
        if square2.file ≠ square.file then
          sanDisambiguate source target square st1 rest true needRank
        else if square2.rank ≠ square.rank then
          sanDisambiguate source target square st1 rest needFile true
        else sanDisambiguate source target square st1 rest needFile needRank

/-- Appends the check or mate mark, if there is one. -/
def addCheckOrMate (str : String) : Option Char → String
  | none => str
  | some c => str.push c

/-- The method `EasternBoard::sanMoveString`. -/
def sanMoveString (tx : TextHelpers) (st : State) (move : Move) : Option (String × State) :=
  let source := move.sourceSquare
  let target := move.targetSquare
  let piece := pieceAt st source
  let capture := if source = target then Piece.noPiece else pieceAt st target
  let square := chessSquare source
  match sanCheckOrMate st move with
  | none => none
  | some (checkOrMate, st1) =>
    if source = 0 ∧ move.promotion ≠ .NoPiece then
      some (addCheckOrMate (tx.lanMoveString move) checkOrMate, st1)
    else
      let pawnFile := piece.type = .Pawn ∧ (pawnAmbiguous = true ∨ capture.isValid = true)
      let pawnRank := piece.type = .Pawn ∧ pawnAmbiguous = true
      let cside := castlingSide st1 move
      if piece.type = .King ∧ cside ≠ .NoCastlingSide then
        some (addCheckOrMate (if cside = .QueenSide then "O-O-O" else "O-O") checkOrMate, st1)
      else
        let looked : Option ((String × Bool × Bool) × State) :=
          if piece.type ≠ .Pawn then
            match generateMoves st1 piece.type with
            | none => none
            | some moves =>
              match sanDisambiguate source target square st1 moves (decide pawnFile)
                  (decide pawnRank) with
              | none => none
              | some ((needFile, needRank), st2) =>
                some (((tx.pieceSymbol piece).toUpper, needFile, needRank), st2)
          else some (("", decide pawnFile, decide pawnRank), st1)
        match looked with
        | none => none
        | some ((str0, needFile, needRank), st2) =>
          let str1 := if needFile = true then str0.push (Char.ofNat (97 + square.file).toNat)
                      else str0
          let str2 := if needRank = true then str1 ++ toString (1 + square.rank) else str1
          let str3 := if capture.isValid = true then str2.push 'x' else str2
          let str4 := str3 ++ tx.squareString target
          let str5 :=
            if move.promotion ≠ .NoPiece then
              str4 ++ "=" ++ (tx.pieceSymbol (Piece.ofType move.promotion)).toUpper
            else str4
          some (addCheckOrMate str5 checkOrMate, st2)

/-- White pawns on a6 and c6, both across the river, White king on e1, Black
king on d10; White to move.  Either pawn can step sideways to b6. -/
def twoPawns : State :=
  loaded
    (boardOfRows
      [rowWith 3 (bp .King), emptyRow, emptyRow, emptyRow,
        (emptyRow.set 0 (wp .Pawn)).set 2 (wp .Pawn), emptyRow, emptyRow, emptyRow, emptyRow,
        rowWith 4 (wp .King)])
    .White 126 26

/-- The move the match loop owes for the pointer `found` and the list of the
matching legal moves still to come: the only one there is, or the null move
when there is none or more than one. -/
def sanPick : Option Move → List Move → Move
  | none, [] => Move.null
  | none, [m] => m
  | none, _ :: _ :: _ => Move.null
  | some found, [] => found
  | some _, _ :: _ => Move.null

/-- The mate position with White's king-square cache set to 0, as for a side
that has no king: the White king still stands on d1 and is attacked there. -/
def uncachedKing : State :=
  { matePosition with kingSquareWhite := 0 }

/-- The position `castlingReady` with castling keys that tell the squares
apart: the key of a square is its index plus one. -/
def castlingKeyed : State :=
  { castlingReady with zobristCastling := fun _ square => square.toNat + 1 }

/-- The queen-side and the king-side tracked rook square of each side differ
unless the queen-side one is 0: no rook is tracked twice.  A position load
establishes this (a queen-side right names a rook left of the king, a
king-side right one right of it), and moves only clear entries. -/
def DistinctCastlingRooks (st : State) : Prop :=
  (st.castlingRights.rookSquare .White .QueenSide ≠ 0 →
      st.castlingRights.rookSquare .White .QueenSide ≠
        st.castlingRights.rookSquare .White .KingSide) ∧
    (st.castlingRights.rookSquare .Black .QueenSide ≠ 0 →
      st.castlingRights.rookSquare .Black .QueenSide ≠
        st.castlingRights.rookSquare .Black .KingSide)

instance (st : State) : Decidable (DistinctCastlingRooks st) := by
  unfold DistinctCastlingRooks; infer_instance

/-! ## Castling moves -/

/-- The method `EasternBoard::canCastle`: the right must exist, and no square
from `left` to `right` other than the king's and the castling rook's own may
hold a piece. -/
def canCastle (st : State) (castlingSide : CastlingSide) : Bool :=
  let side := st.side
  let rookSq := st.castlingRights.rookSquare side castlingSide
  if rookSq = 0 then false
  else
    let kingSq := st.kingSquare side
    let target := castleTarget side castlingSide
    let rtarget := if castlingSide = .QueenSide then target + 1 else target - 1
    let left :=
      if castlingSide = .QueenSide then (if target < rookSq then target else rookSq)
      else (if rtarget < kingSq then rtarget else kingSq)
    let right :=
      if castlingSide = .QueenSide then (if rtarget > kingSq then rtarget else kingSq)
      else (if target > rookSq then target else rookSq)
    (List.range (right + 1 - left).toNat).all fun (k : Nat) =>
      let i := left + (k : Int)
      !(decide (i ≠ kingSq) && decide (i ≠ rookSq) && !(pieceAt st i).isEmpty)

/-- The square the castling rook goes to: next to the castle target, on the
side of the board's middle. -/
def rookCastleTarget (side : Side) (cside : CastlingSide) : Int :=
  if cside = .QueenSide then castleTarget side cside + 1 else castleTarget side cside - 1

/-- The first square of the smallest interval of squares that holds the king's
square, the king's castling destination, the castling rook's square and the
rook's destination. -/
def castlingIntervalLeft (st : State) (cside : CastlingSide) : Int :=
  min (min (st.kingSquare st.side) (castleTarget st.side cside))
    (min (st.castlingRights.rookSquare st.side cside) (rookCastleTarget st.side cside))

/-- The last square of that interval. -/
def castlingIntervalRight (st : State) (cside : CastlingSide) : Int :=
  max (max (st.kingSquare st.side) (castleTarget st.side cside))
    (max (st.castlingRights.rookSquare st.side cside) (rookCastleTarget st.side cside))

/-- The position `castlingReady` with a White knight on g1, between the king
and the king-side rook. -/
def castlingBlocked : State :=
  setSquare castlingReady 128 (wp .Knight)

/-- Some piece of `opSide` with knight movement is given a move onto square
`k` by `generateKnightMoves` when `opSide` is the side to move. -/
def KnightMoveOnto (st : State) (opSide : Side) (k : Int) : Prop :=
  ∃ c : Int, (pieceAt st c).side = opSide ∧
    pieceHasMovement (pieceAt st c).type .KnightMovement = true ∧
    Move.mk2 c k ∈ generateKnightMoves { st with side := opSide } c []

/-- White king on e1, Black knight on d3 with its leg d2 free, Black king on
f10; White to move is in check by the knight. -/
def knightCheck : State :=
  loaded
    (boardOfRows
      [rowWith 5 (bp .King), emptyRow, emptyRow, emptyRow, emptyRow, emptyRow, emptyRow,
        rowWith 3 (bp .Knight), emptyRow, rowWith 4 (wp .King)])
    .White 126 28

/-! ## Position strings -/

/-- Modelled from the spec: `Board::upperCaseSide`, the side written in upper
case letters: White. -/
def upperCaseSide : Side := .White

/-- The digits of a decimal number read from the left, the value so far in `acc`. -/
def parseDigits : List Char → Nat → Option Nat
  | [], acc => some acc
  | c :: rest, acc =>
    if c.isDigit then parseDigits rest (10 * acc + (c.toNat - 48)) else none

/-- The decimal number a string writes, of any size: digits, or a sign
followed by digits. -/
def decimalValue (s : String) : Option Int :=
  let cs := s.data
  if cs = [] then none
  else
    match parseDigits cs 0 with
    | some n => some (n : Int)
    | none =>
      match cs with
      | '-' :: rest =>
        if rest = [] then none else (parseDigits rest 0).map fun n => -(n : Int)
      | '+' :: rest =>
        if rest = [] then none else (parseDigits rest 0).map fun n => (n : Int)
      | _ => none

/-- Modelled from the spec: `QString::toInt` with its `ok` flag, for the
decimal strings of a position string: digits, or a sign followed by digits,
naming a value in the range of `int`; no result stands for `ok == false`, which
is also the answer for a number outside the range of `int`. -/
def qStringToInt (s : String) : Option Int :=
  match decimalValue s with
  | none => none
  | some v => if intMin ≤ v ∧ v ≤ intMax then some v else none

/-- Modelled from the spec: `QString::number`, the decimal string of an integer. -/
def qStringNumber (n : Int) : String := toString n

/-- The `while` loop of the letter branch of `parseCastlingRights`: walking
from `i` in steps of `offset` up to the wall, `rookSq` is the last square met
that holds a rook of `side`. -/
def outermostRookScan (st : State) (side : Side) (offset : Int) : Nat → Int → Int → Option Int
  | 0, _, _ => none
  | fuel + 1, i, rookSq =>
    let piece := pieceAt st i
    if piece.isWall then some rookSq
    else
      outermostRookScan st side offset fuel (i + offset)
        (if piece = ⟨side, .Rook⟩ then i else rookSq)

/-- The method `EasternBoard::parseCastlingRights`: the answer and the
position it leaves. -/
def parseCastlingRights (st : State) (c : Char) : Option (Bool × State) :=
  if st.hasCastling = false then some (false, st)
  else
    let side := if c.isUpper then upperCaseSide else upperCaseSide.opposite
    let c1 := c.toLower
    let cside : CastlingSide :=
      if c1 = 'q' then .QueenSide else if c1 = 'k' then .KingSide else .NoCastlingSide
    let offset : Int := if c1 = 'q' then -1 else if c1 = 'k' then 1 else 0
    let kingSq := st.kingSquare side
    if offset ≠ 0 then
      match outermostRookScan st side offset (scanFuel st) (kingSq + offset) 0 with
      | none => none
      | some rookSq =>
        if rookSq ≠ 0 then some (true, setCastlingSquare st side cside rookSq)
        else some (false, st)
    else
      let file : Int := (c1.toNat : Int) - 97
      if file < 0 ∨ file ≥ width then some (false, st)
      else
        let rookSq : Int :=
          if side = .White then (height + 1) * arwidth + 1 + file
          else 2 * arwidth + 1 + file
        if ((kingSq - rookSq).natAbs : Int) ≥ width then some (false, st)
        else if pieceAt st rookSq = ⟨side, .Rook⟩ then
          let cside1 : CastlingSide := if rookSq > kingSq then .KingSide else .QueenSide
          some (true, setCastlingSquare st side cside1 rookSq)
        else some (false, st)

/-- The locals of the king scan of `vSetFenString`: the position with the
king squares found so far and the two entries of `kingCount`. -/
structure KingScan where
  st : State
  white : Nat
  black : Nat

/-- One iteration of the king scan for array cell `sq`.  A king without side
(an index outside both arrays in the source) is passed over. -/
def kingScanStep (acc : KingScan) (sq : Nat) : KingScan :=
  let tmp := pieceAt acc.st (sq : Int)
  if tmp.type = .King then
    match tmp.side with
    | .White => ⟨acc.st.setKingSquare .White (sq : Int), acc.white + 1, acc.black⟩
    | .Black => ⟨acc.st.setKingSquare .Black (sq : Int), acc.white, acc.black + 1⟩
    | .NoSide => acc
  else acc

/-- The king scan of `vSetFenString` over the whole square array. -/
def kingScan (st : State) : KingScan :=
  (List.range st.squares.length).foldl kingScanStep ⟨st, 0, 0⟩

/-- The method `EasternBoard::kingsCountAssertion`. -/
def kingsCountAssertion (whiteKings blackKings : Nat) : Bool :=
  whiteKings == 1 && blackKings == 1

/-- The loop of `vSetFenString` over the characters of the castling field: it
stops at the first character `parseCastlingRights` refuses. -/
def parseCastlingField : State → List Char → Option (Bool × State)
  | st, [] => some (true, st)
  | st, c :: rest =>
    match parseCastlingRights st c with
    | none => none
    | some (false, st1) => some (false, st1)
    | some (true, st1) => parseCastlingField st1 rest

/-- The end of `vSetFenString` from the full move number on; the ply offset
is computed in `int` arithmetic. -/
def fenFullMoveNumber (st : State) (tokens : List String) : Bool × State :=
  match tokens with
  | [] =>
    let st1 : State := { st with plyOffset := 0 }
    let st2 : State :=
      if st1.sign ≠ 1 then { st1 with plyOffset := wrapInt (st1.plyOffset + 1) } else st1
    (true, { st2 with history := [] })
  | token :: _ =>
    match qStringToInt token with
    | none => (false, st)
    | some tmp =>
      if tmp < 1 then (false, st)
      else
        let st1 : State := { st with plyOffset := wrapInt (2 * (tmp - 1)) }
        let st2 : State :=
          if st1.sign ≠ 1 then { st1 with plyOffset := wrapInt (st1.plyOffset + 1) } else st1
        (true, { st2 with history := [] })

/-- The part of `vSetFenString` that reads the reversible move count, followed
by the rest. -/
def fenReversibleCount (st : State) (tokens : List String) : Bool × State :=
  match tokens with
  | [] => fenFullMoveNumber { st with reversibleMoveCount := 0 } []
  | token :: rest =>
    match qStringToInt token with
    | none => (false, st)
    | some tmp =>
      if tmp < 0 then (false, st)
      else fenFullMoveNumber { st with reversibleMoveCount := tmp } rest

/-- The method `EasternBoard::vSetFenString` on the fields that follow the
piece placement and the side to move, which the parent has already read into
the square array and the side to move.  The answer comes with the position
the call leaves, also when the answer is `false`. -/
def vSetFenString (st : State) (fen : List String) : Option (Bool × State) :=
  if fen.length < 2 then some (false, st)
  else
    let scan := kingScan st
    let st1 := scan.st
    if kingsCountAssertion scan.white scan.black = false then some (false, st1)
    else
      let token := fen.headD ""
      let isShortFormat : Bool := if fen.length < 3 then (qStringToInt token).isSome else false
      if isShortFormat = true ∧ st1.hasCastling = true then some (false, st1)
      else
        let st2 : State := { st1 with castlingRights := ⟨0, 0, 0, 0⟩ }
        let parsed : Option (Bool × State) :=
          if isShortFormat = false then
            if token ≠ "-" then parseCastlingField st2 token.data else some (true, st2)
          else some (true, st2)
        match parsed with
        | none => none
        | some (false, st3) => some (false, st3)
        | some (true, st3) =>
          let tokens := if isShortFormat = false then fen.drop 2 else fen
          let st4 : State := { st3 with sign := if st3.side = .White then 1 else -1 }
          some (fenReversibleCount st4 tokens)

/-- The `while` loop of `castlingRightsString`: is there a rook of `side`
between square `i` and the wall, walking in steps of `offset`. -/
def outerRookScan (st : State) (side : Side) (offset : Int) : Nat → Int → Option Bool
  | 0, _ => none
  | fuel + 1, i =>
    let piece := pieceAt st i
    if piece.isWall then some false
    else if piece = ⟨side, .Rook⟩ then some true
    else outerRookScan st side offset fuel (i + offset)

/-- The body of the loops of `castlingRightsString` for one side and one
castling side: the character appended, if any. -/
def castlingRightChar (st : State) (shredderFen : Bool) (side : Side) (cside : CastlingSide) :
    Option (Option Char) :=
  let rs := st.castlingRights.rookSquare side cside
  if rs = 0 then some none
  else
    let offset : Int := if cside = .QueenSide then -1 else 1
    match outerRookScan st side offset (scanFuel st) (rs + offset) with
    | none => none
    | some ambiguous =>
      let c : Char :=
        if ambiguous = true ∨ shredderFen = true then
          Char.ofNat (97 + (chessSquare rs).file).toNat
        else if cside = .QueenSide then 'q' else 'k'
      some (some (if side = upperCaseSide then c.toUpper else c))

/-- The method `EasternBoard::castlingRightsString`: White before Black, the
king side before the queen side, and `-` when no right is set. -/
def castlingRightsString (st : State) (shredderFen : Bool) : Option String :=
  let step (acc : Option String) (sc : Side × CastlingSide) : Option String :=
    match acc with
    | none => none
    | some str =>
      match castlingRightChar st shredderFen sc.1 sc.2 with
      | none => none
      | some none => some str
      | some (some c) => some (str.push c)
  match [(Side.White, CastlingSide.KingSide), (Side.White, CastlingSide.QueenSide),
      (Side.Black, CastlingSide.KingSide), (Side.Black, CastlingSide.QueenSide)].foldl step
      (some "") with
  | none => none
  | some str => if str.length = 0 then some "-" else some str

/-- The method `EasternBoard::vFenIncludeString`. -/
def vFenIncludeString : String := ""

/-- The full move number `vFenString` writes:
`(m_history.size() + m_plyOffset) / 2 + 1` in `int` arithmetic (the size of a
`QVector` is an `int`), the division truncating. -/
def fullMoveNumber (st : State) : Int :=
  wrapInt (Int.tdiv (wrapInt ((st.history.length : Int) + st.plyOffset)) 2 + 1)

/-- The method `EasternBoard::vFenString`. -/
def vFenString (st : State) (shredderFen : Bool) : Option String :=
  match castlingRightsString st shredderFen with
  | none => none
  | some rights =>
    some (((((((rights.push ' ').push '-') ++ vFenIncludeString).push ' ') ++
      qStringNumber st.reversibleMoveCount).push ' ') ++ qStringNumber (fullMoveNumber st))

/-- The number of squares of the array that hold the king of `side`. -/
def kingCount (st : State) (side : Side) : Nat :=
  (List.range st.squares.length).countP fun (i : Nat) =>
    decide (pieceAt st (i : Int) = ⟨side, .King⟩)

/-- The starting array with stale members, as the parent hands a position to
`vSetFenString` after a game has been played on the board: the king squares
of another position, a counter of 7, a ply offset of 3 and one undo record. -/
def staleStart : State :=
  { startPosition with
    kingSquareWhite := 125, kingSquareBlack := 26, reversibleMoveCount := 7, plyOffset := 3,
    sign := -1,
    history := [⟨Piece.noPiece, ⟨0, 0, 0, 0⟩, .NoCastlingSide, 6⟩] }

/-- A position of a variant with castling: White king on e2, off its back
rank, White rook on a1, Black king on d10; White to move, no right set. -/
def kingOffBackRank : State :=
  { loaded
      (boardOfRows
        [rowWith 3 (bp .King), emptyRow, emptyRow, emptyRow, emptyRow, emptyRow, emptyRow,
          emptyRow, rowWith 4 (wp .King), rowWith 0 (wp .Rook)])
      .White 115 26 with
    hasCastling := true }

/-- Every tracked rook square of White and of Black lies on its own side of
the king of that side: a queen-side entry is 0 or smaller than the king
square, a king-side entry is 0 or larger. -/
def CastlingRooksBesideKing (st : State) : Prop :=
  ((st.castlingRights.rookSquare .White .QueenSide = 0 ∨
      st.castlingRights.rookSquare .White .QueenSide < st.kingSquare .White) ∧
    (st.castlingRights.rookSquare .White .KingSide = 0 ∨
      st.kingSquare .White < st.castlingRights.rookSquare .White .KingSide)) ∧
  ((st.castlingRights.rookSquare .Black .QueenSide = 0 ∨
      st.castlingRights.rookSquare .Black .QueenSide < st.kingSquare .Black) ∧
    (st.castlingRights.rookSquare .Black .KingSide = 0 ∨
      st.kingSquare .Black < st.castlingRights.rookSquare .Black .KingSide))

/-- Some piece of `opSide` with pawn movement is given a move onto square `k`
by `generatePawnMoves` when `opSide` is the side to move. -/
def PawnMoveOnto (st : State) (opSide : Side) (k : Int) : Prop :=
  ∃ c : Int, (pieceAt st c).side = opSide ∧
    pieceHasMovement (pieceAt st c).type .PawnMovement = true ∧
    Move.mk2 c k ∈ generatePawnMoves { st with side := opSide } c []

/-- White king on e2 inside its palace with a Black pawn beside it on d2 and a
Black pawn behind it on e1; Black king on f10; White to move
(`5k3/9/9/9/9/9/9/9/3pK4/4p4 w`). -/
def pawnBesideKing : State :=
  loaded
    (boardOfRows
      [rowWith 5 (bp .King), emptyRow, emptyRow, emptyRow, emptyRow, emptyRow, emptyRow,
        emptyRow, (emptyRow.set 3 (bp .Pawn)).set 4 (wp .King), rowWith 4 (bp .Pawn)])
    .White 115 28

/-- The position `pawnBesideKing` without the pawn on d2: only the pawn that
has passed the king is left. -/
def pawnBehindKing : State :=
  setSquare pawnBesideKing 114 Piece.noPiece

/-- The king-square cache of `side` as the invariant has it: the cached square
holds the king of `side`, and no other square holds a king of `side`. -/
def KingCached (st : State) (side : Side) : Prop :=
  pieceAt st (st.kingSquare side) = ⟨side, .King⟩ ∧
    ∀ i : Int, pieceAt st i = ⟨side, .King⟩ → i = st.kingSquare side

/-- A move of a piece of the side to move, of the shape the generators give
(no promotion, a destination that is not a wall and not held by the mover),
that does not capture a king. -/
def KingSparingMove (st : State) (m : Move) : Prop :=
  (pieceAt st m.sourceSquare).side = st.side ∧ (pieceAt st m.sourceSquare).type ≠ .NoPiece ∧
    MoveShape st m.sourceSquare m ∧ (pieceAt st m.targetSquare).type ≠ .King

instance (st : State) (m : Move) : Decidable (KingSparingMove st m) := by
  unfold KingSparingMove MoveShape; infer_instance

/-- A position the moves are played from: well formed, no rook tracked twice,
and both king-square caches as the invariant has them. -/
def SoundPosition (st : State) : Prop :=
  WellFormed st ∧ DistinctCastlingRooks st ∧ KingCached st .White ∧ KingCached st .Black

/-- One call of a run on the board: `makeMove` with a move (which calls
`vMakeMove`), or `undoMove` (which calls `vUndoMove` with the last move made). -/
inductive BoardCall where
  | make (m : Move)
  | undo
deriving DecidableEq, Repr

/-- Runs the calls of a list in order; no result when an `undoMove` has none. -/
def runCalls : State → List BoardCall → Option State
  | st, [] => some st
  | st, .make m :: rest => runCalls (makeMove st m) rest
  | st, .undo :: rest =>
    match undoMove st with
    | none => none
    | some st1 => runCalls st1 rest

/-- The calls of a run are admitted: every move made is a king-sparing move in
the position it is made from, and every `undoMove` matches a move of the run
that has not been undone yet (`depth` counts those moves). -/
def ValidCalls : State → Nat → List BoardCall → Prop
  | _, _, [] => True
  | st, depth, .make m :: rest =>
    KingSparingMove st m ∧ ValidCalls (makeMove st m) (depth + 1) rest
  | st, depth, .undo :: rest =>
    0 < depth ∧ ValidCalls ((undoMove st).getD st) (depth - 1) rest

/-- Checks the calls of a run one by one. -/
def decideValidCalls :
    (st : State) → (depth : Nat) → (calls : List BoardCall) → Decidable (ValidCalls st depth calls)
  | _, _, [] => isTrue trivial
  | st, depth, .make m :: rest =>
    let _ : Decidable (ValidCalls (makeMove st m) (depth + 1) rest) :=
      decideValidCalls (makeMove st m) (depth + 1) rest
    inferInstanceAs (Decidable
      (KingSparingMove st m ∧ ValidCalls (makeMove st m) (depth + 1) rest))
  | st, depth, .undo :: rest =>
    let _ : Decidable (ValidCalls ((undoMove st).getD st) (depth - 1) rest) :=
      decideValidCalls ((undoMove st).getD st) (depth - 1) rest
    inferInstanceAs (Decidable
      (0 < depth ∧ ValidCalls ((undoMove st).getD st) (depth - 1) rest))

instance (st : State) (depth : Nat) (calls : List BoardCall) :
    Decidable (ValidCalls st depth calls) :=
  decideValidCalls st depth calls

/-- The position a call of `vSetFenString` leaves. -/
def loadedPosition (st : State) (fen : List String) : State :=
  match vSetFenString st fen with
  | some (_, st1) => st1
  | none => st

/-! # Theorems -/

/-! ## Reading and writing squares -/

theorem readSquare_not_wall_range (l : List Piece) (i : Int)
    (h : readSquare l i ≠ Piece.wallPiece) : 0 ≤ i ∧ i.toNat < l.length := by
  unfold readSquare at h
  split at h
  · exact absurd rfl h
  · refine ⟨by omega, ?_⟩
    by_contra hlt
    apply h
    rw [List.getD_eq_getElem?_getD, List.getElem?_eq_none (by omega)]
    rfl

theorem pieceAt_not_wall_range (st : State) (i : Int)
    (h : pieceAt st i ≠ Piece.wallPiece) : 0 ≤ i ∧ i.toNat < st.squares.length :=
  readSquare_not_wall_range st.squares i h

theorem isWall_false_ne (p : Piece) (h : p.isWall = false) : p ≠ Piece.wallPiece := by
  intro hp
  rw [hp] at h
  cases h

theorem readSquare_writeSquare (l : List Piece) (i j : Int) (p : Piece) :
    readSquare (writeSquare l j p) i =
      if i = j ∧ 0 ≤ j ∧ j.toNat < l.length then p else readSquare l i := by
  unfold writeSquare readSquare
  by_cases hj : j < 0
  · have : ¬ (i = j ∧ 0 ≤ j ∧ j.toNat < l.length) := by omega
    simp [hj, this]
  · by_cases hi : i < 0
    · have : ¬ (i = j ∧ 0 ≤ j ∧ j.toNat < l.length) := by omega
      simp [hj, hi, this]
    · simp only [hj, hi, if_false, List.getD_eq_getElem?_getD, List.getElem?_set]
      by_cases hij : i = j
      · subst hij
        by_cases hlen : i.toNat < l.length
        · have : (0 : Int) ≤ i := by omega
          simp [hlen, this]
        · have hn : l[i.toNat]? = none := List.getElem?_eq_none (by omega)
          simp [hlen, hn]
      · have : j.toNat ≠ i.toNat := by omega
        simp [hij, this]

theorem pieceAt_setSquare (st : State) (i j : Int) (p : Piece) :
    pieceAt (setSquare st j p) i =
      if i = j ∧ 0 ≤ j ∧ j.toNat < st.squares.length then p else pieceAt st i :=
  readSquare_writeSquare st.squares i j p

theorem writeSquare_length (l : List Piece) (j : Int) (p : Piece) :
    (writeSquare l j p).length = l.length := by
  unfold writeSquare
  split <;> simp

/-- Writing a move's two squares and writing the old contents back restores the array. -/
theorem squares_restore (l : List Piece) (s t : Int) (p e : Piece)
    (hs : readSquare l s ≠ Piece.wallPiece) (ht : readSquare l t ≠ Piece.wallPiece) :
    writeSquare (writeSquare (writeSquare (writeSquare l t p) s e) s (readSquare l s)) t
      (readSquare l t) = l := by
  obtain ⟨hs0, hsl⟩ := readSquare_not_wall_range l s hs
  obtain ⟨ht0, htl⟩ := readSquare_not_wall_range l t ht
  have hs1 : ¬ s < 0 := by omega
  have ht1 : ¬ t < 0 := by omega
  unfold writeSquare readSquare
  simp only [hs1, ht1, if_false]
  apply List.ext_getElem?
  intro n
  simp only [List.getElem?_set, List.length_set, List.getD_eq_getElem?_getD]
  by_cases h1 : t.toNat = n
  · subst h1
    simp [htl, List.getElem?_eq_getElem]
  · by_cases h2 : s.toNat = n
    · subst h2
      simp [h1, hsl, List.getElem?_eq_getElem]
    · simp [h1, h2]

/-! ## Frame of the castling bookkeeping -/

/-- The method `setCastlingSquare` changes only the castling rights and the key. -/
theorem setCastlingSquare_frame (st : State) (side : Side) (cside : CastlingSide) (v : Int) :
    ∃ cr k, setCastlingSquare st side cside v = { st with castlingRights := cr, key := k } := by
  unfold setCastlingSquare xorKey
  by_cases h : st.castlingRights.rookSquare side cside = v
  · exact ⟨st.castlingRights, st.key, by simp [h]⟩
  · rw [if_neg h]
    by_cases h1 : st.castlingRights.rookSquare side cside = 0 <;> by_cases h2 : v = 0
    · simp only [h1, h2, ne_eq, not_true_eq_false, if_false]
      exact ⟨_, _, rfl⟩
    · simp only [h1, h2, ne_eq, not_true_eq_false, not_false_eq_true, if_false, if_true]
      exact ⟨_, _, rfl⟩
    · simp only [h1, h2, ne_eq, not_true_eq_false, not_false_eq_true, if_false, if_true]
      exact ⟨_, _, rfl⟩
    · simp only [h1, h2, ne_eq, not_true_eq_false, not_false_eq_true, if_false, if_true]
      exact ⟨_, _, rfl⟩

/-- The method `removeCastlingRights` changes only the castling rights and the key. -/
theorem removeCastlingRights_frame (st : State) (square : Int) :
    ∃ cr k, removeCastlingRights st square = { st with castlingRights := cr, key := k } := by
  unfold removeCastlingRights
  by_cases h : (pieceAt st square).type = .Rook
  · simp only [h, ne_eq, not_true_eq_false, if_false]
    split
    · exact setCastlingSquare_frame _ _ _ _
    · split
      · exact setCastlingSquare_frame _ _ _ _
      · exact ⟨st.castlingRights, st.key, rfl⟩
  · exact ⟨st.castlingRights, st.key, by simp [h]⟩

/-! ## Frame of the king-square cache -/

@[simp] theorem setKingSquare_squares (st : State) (s : Side) (v : Int) :
    (st.setKingSquare s v).squares = st.squares := by cases s <;> rfl

@[simp] theorem setKingSquare_side (st : State) (s : Side) (v : Int) :
    (st.setKingSquare s v).side = st.side := by cases s <;> rfl

@[simp] theorem setKingSquare_key (st : State) (s : Side) (v : Int) :
    (st.setKingSquare s v).key = st.key := by cases s <;> rfl

@[simp] theorem setKingSquare_zobristCastling (st : State) (s : Side) (v : Int) :
    (st.setKingSquare s v).zobristCastling = st.zobristCastling := by cases s <;> rfl

@[simp] theorem setKingSquare_moveHistory (st : State) (s : Side) (v : Int) :
    (st.setKingSquare s v).moveHistory = st.moveHistory := by cases s <;> rfl

@[simp] theorem setKingSquare_sign (st : State) (s : Side) (v : Int) :
    (st.setKingSquare s v).sign = st.sign := by cases s <;> rfl

@[simp] theorem setKingSquare_plyOffset (st : State) (s : Side) (v : Int) :
    (st.setKingSquare s v).plyOffset = st.plyOffset := by cases s <;> rfl

@[simp] theorem setKingSquare_reversibleMoveCount (st : State) (s : Side) (v : Int) :
    (st.setKingSquare s v).reversibleMoveCount = st.reversibleMoveCount := by cases s <;> rfl

@[simp] theorem setKingSquare_kingCanCapture (st : State) (s : Side) (v : Int) :
    (st.setKingSquare s v).kingCanCapture = st.kingCanCapture := by cases s <;> rfl

@[simp] theorem setKingSquare_hasCastling (st : State) (s : Side) (v : Int) :
    (st.setKingSquare s v).hasCastling = st.hasCastling := by cases s <;> rfl

@[simp] theorem setKingSquare_castlingRights (st : State) (s : Side) (v : Int) :
    (st.setKingSquare s v).castlingRights = st.castlingRights := by cases s <;> rfl

@[simp] theorem setKingSquare_history (st : State) (s : Side) (v : Int) :
    (st.setKingSquare s v).history = st.history := by cases s <;> rfl

/-! ## Round trip of make and undo -/

/-- The state `vMakeMove` leaves after a move that is neither a drop, nor a
null move, nor a promotion, nor a castling move: the two squares are written,
a king move updates the king square, the undo record is pushed and the sign
flips; the castling rights, the key and the counter take some value. -/
theorem vMakeMove_plain (st : State) (m : Move)
    (hs : m.sourceSquare ≠ 0) (hst : m.sourceSquare ≠ m.targetSquare)
    (hprom : m.promotion = .NoPiece) (hcs : castlingSide st m = .NoCastlingSide) :
    ∃ cr k rmc, vMakeMove st m =
      { st with
        squares := writeSquare
          (writeSquare st.squares m.targetSquare ⟨st.side, (pieceAt st m.sourceSquare).type⟩)
          m.sourceSquare Piece.noPiece,
        kingSquareWhite := (if (pieceAt st m.sourceSquare).type = .King then
            st.setKingSquare st.side m.targetSquare else st).kingSquareWhite,
        kingSquareBlack := (if (pieceAt st m.sourceSquare).type = .King then
            st.setKingSquare st.side m.targetSquare else st).kingSquareBlack,
        castlingRights := cr, key := k, reversibleMoveCount := rmc,
        history := st.history ++
          [⟨pieceAt st m.targetSquare, st.castlingRights, .NoCastlingSide,
            st.reversibleMoveCount⟩],
        sign := st.sign * -1 } := by
  have hstart : makeLocalsStart st m = ⟨st, m.targetSquare, .NoCastlingSide, true, true⟩ := by
    simp [makeLocalsStart, hs, hst]
  have hpt : movedPieceType st m = (pieceAt st m.sourceSquare).type := by
    simp [movedPieceType, hs]
  have hpr : makePromotionType m = .NoPiece := by
    simp [makePromotionType, hprom]
  unfold vMakeMove makeLocalsCapture makeLocalsBranch
  simp only [hstart, hpt, hpr, ne_eq, not_true_eq_false, if_false]
  by_cases hK : (pieceAt st m.sourceSquare).type = .King
  · simp only [hK, if_true]
    unfold vMakeMoveKing
    simp only [hcs, ne_eq, not_true_eq_false, if_false]
    obtain ⟨cr1, k1, h1⟩ := setCastlingSquare_frame (st.setKingSquare st.side m.targetSquare)
      st.side .QueenSide 0
    rw [h1]
    obtain ⟨cr2, k2, h2⟩ := setCastlingSquare_frame
      { st.setKingSquare st.side m.targetSquare with castlingRights := cr1, key := k1 }
      st.side .KingSide 0
    rw [h2]
    split
    · obtain ⟨cr3, k3, h3⟩ := removeCastlingRights_frame
        { st.setKingSquare st.side m.targetSquare with castlingRights := cr2, key := k2 }
        m.targetSquare
      simp only [] at h3 ⊢
      rw [h3]
      simp only [if_true, setSquare, setKingSquare_squares, setKingSquare_side,
        setKingSquare_zobristCastling, setKingSquare_moveHistory, setKingSquare_sign,
        setKingSquare_plyOffset, setKingSquare_kingCanCapture, setKingSquare_hasCastling,
        setKingSquare_history]
      exact ⟨_, _, _, rfl⟩
    · simp only [if_true, setSquare, setKingSquare_squares, setKingSquare_side,
        setKingSquare_zobristCastling, setKingSquare_moveHistory, setKingSquare_sign,
        setKingSquare_plyOffset, setKingSquare_kingCanCapture, setKingSquare_hasCastling,
        setKingSquare_history]
      exact ⟨_, _, _, rfl⟩
  · simp only [hK, if_false]
    have frameRook : ∃ (cr : CastlingRights) (k : Nat) (b : Bool),
        (if (pieceAt st m.sourceSquare).type = .Rook then
          vMakeMoveRook ⟨st, m.targetSquare, .NoCastlingSide, true, true⟩ st.side m.sourceSquare
         else ⟨st, m.targetSquare, .NoCastlingSide, true, true⟩) =
        ⟨{ st with castlingRights := cr, key := k }, m.targetSquare, .NoCastlingSide, true, b⟩ := by
      split
      · unfold vMakeMoveRook
        simp only []
        split
        · obtain ⟨cr, k, h⟩ := setCastlingSquare_frame st st.side .QueenSide 0
          exact ⟨cr, k, false, by rw [h]⟩
        · split
          · obtain ⟨cr, k, h⟩ := setCastlingSquare_frame st st.side .KingSide 0
            exact ⟨cr, k, false, by rw [h]⟩
          · exact ⟨st.castlingRights, st.key, true, rfl⟩
      · exact ⟨st.castlingRights, st.key, true, rfl⟩
    obtain ⟨cr1, k1, b1, h1⟩ := frameRook
    rw [h1]
    split
    · obtain ⟨cr3, k3, h3⟩ := removeCastlingRights_frame
        { st with castlingRights := cr1, key := k1 } m.targetSquare
      simp only [] at h3 ⊢
      rw [h3]
      simp only [if_true, setSquare]
      exact ⟨_, _, _, rfl⟩
    · simp only [if_true, setSquare]
      exact ⟨_, _, _, rfl⟩

/-- Undoing a plain move restores every member but (possibly) the key. -/
theorem roundtrip_plain (st : State) (m : Move) (hside : st.side ≠ .NoSide)
    (hs : pieceAt st m.sourceSquare ≠ Piece.wallPiece)
    (ht : pieceAt st m.targetSquare ≠ Piece.wallPiece)
    (h0 : pieceAt st 0 = Piece.wallPiece)
    (hsside : (pieceAt st m.sourceSquare).side = st.side)
    (hst : m.sourceSquare ≠ m.targetSquare)
    (hprom : m.promotion = .NoPiece) (hcs : castlingSide st m = .NoCastlingSide)
    (hking1 : (pieceAt st m.sourceSquare).type = .King → st.kingSquare st.side = m.sourceSquare)
    (hking2 : (pieceAt st m.sourceSquare).type ≠ .King →
      m.targetSquare ≠ st.kingSquare st.side) :
    vUndoMove (vMakeMove st m) m = some { st with key := (vMakeMove st m).key } := by
  have hs0 : m.sourceSquare ≠ 0 := fun h => hs (h ▸ h0)
  obtain ⟨cr, k, rmc, h⟩ := vMakeMove_plain st m hs0 hst hprom hcs
  rw [h]
  have hp : (⟨st.side, (pieceAt st m.sourceSquare).type⟩ : Piece) = pieceAt st m.sourceSquare := by
    rw [← hsside]
  have hsign : st.sign * -1 * -1 = st.sign := by ring
  simp only [pieceAt] at hs ht hp hking1 hking2
  have hrd : readSquare (writeSquare (writeSquare st.squares m.targetSquare
      (readSquare st.squares m.sourceSquare)) m.sourceSquare Piece.noPiece) m.targetSquare
      = readSquare st.squares m.sourceSquare := by
    obtain ⟨ht0, htl⟩ := readSquare_not_wall_range _ _ ht
    rw [readSquare_writeSquare, if_neg (by intro hh; exact hst hh.1.symm),
      readSquare_writeSquare, if_pos ⟨rfl, ht0, htl⟩]
  have hsq := squares_restore st.squares m.sourceSquare m.targetSquare
    (readSquare st.squares m.sourceSquare) Piece.noPiece hs ht
  unfold vUndoMove
  simp only [List.getLast?_concat, ne_eq, not_true_eq_false, if_false, hprom, setSquare,
    variantHasChanneling, pieceAt, hp]
  by_cases hK : (readSquare st.squares m.sourceSquare).type = .King
  · have hk := hking1 hK
    simp only [hK, if_true]
    cases hsd : st.side
    · rw [hsd] at hk
      simp only [State.kingSquare, State.setKingSquare, if_true, hrd,
        List.dropLast_concat, hsq, hsign] at hk ⊢
      rw [← hk]
    · rw [hsd] at hk
      simp only [State.kingSquare, State.setKingSquare, if_true, hrd,
        List.dropLast_concat, hsq, hsign] at hk ⊢
      rw [← hk]
    · exact absurd hsd hside
  · have hk := hking2 hK
    simp only [hK, if_false]
    cases hsd : st.side
    · rw [hsd] at hk
      simp only [State.kingSquare] at hk
      simp only [State.kingSquare, hk, if_false, hrd, List.dropLast_concat, hsq, hsign]
    · rw [hsd] at hk
      simp only [State.kingSquare] at hk
      simp only [State.kingSquare, hk, if_false, hrd, List.dropLast_concat, hsq, hsign]
    · exact absurd hsd hside

/-! ## Shape of the generated moves -/

/-- The moves the hopping routine appends: one per offset whose destination is
empty or holds a piece of the opposite side. -/
theorem generateHoppingMoves_mem_iff (st : State) (s : Int) (offsets : List Int) :
    ∀ (moves : List Move) (m : Move), m ∈ generateHoppingMoves st s offsets moves ↔
      m ∈ moves ∨ ∃ offset ∈ offsets, m = Move.mk2 s (s + offset) ∧
        ((pieceAt st (s + offset)).isEmpty = true ∨
          (pieceAt st (s + offset)).side = st.side.opposite) := by
  unfold generateHoppingMoves
  induction offsets with
  | nil => intro moves m; simp
  | cons o rest ih =>
    intro moves m
    rw [List.foldl_cons, ih]
    by_cases hc : (pieceAt st (s + o)).isEmpty = true ∨
        (pieceAt st (s + o)).side = st.side.opposite
    · rw [if_pos hc]
      constructor
      · rintro (h | ⟨o1, ho1, h⟩)
        · rcases List.mem_append.mp h with h | h
          · exact Or.inl h
          · exact Or.inr ⟨o, List.mem_cons_self _ _, List.mem_singleton.mp h, hc⟩
        · exact Or.inr ⟨o1, List.mem_cons_of_mem _ ho1, h⟩
      · rintro (h | ⟨o1, ho1, h⟩)
        · exact Or.inl (List.mem_append.mpr (Or.inl h))
        · rcases List.mem_cons.mp ho1 with rfl | ho1
          · exact Or.inl (List.mem_append.mpr (Or.inr (List.mem_singleton.mpr h.1)))
          · exact Or.inr ⟨o1, ho1, h⟩
    · rw [if_neg hc]
      constructor
      · rintro (h | ⟨o1, ho1, h⟩)
        · exact Or.inl h
        · exact Or.inr ⟨o1, List.mem_cons_of_mem _ ho1, h⟩
      · rintro (h | ⟨o1, ho1, h⟩)
        · exact Or.inl h
        · rcases List.mem_cons.mp ho1 with rfl | ho1
          · exact absurd h.2 hc
          · exact Or.inr ⟨o1, ho1, h⟩

/-- A destination the generators accept: not a wall, and empty or not held by
the side to move. -/
theorem hop_target_ok (st : State) (hside : st.side ≠ .NoSide) (t : Int)
    (h : (pieceAt st t).isEmpty = true ∨ (pieceAt st t).side = st.side.opposite) :
    pieceAt st t ≠ Piece.wallPiece ∧
      ((pieceAt st t).isEmpty = true ∨ (pieceAt st t).side ≠ st.side) := by
  rcases h with h | h
  · refine ⟨?_, Or.inl h⟩
    intro hw; rw [hw] at h; cases h
  · refine ⟨?_, Or.inr ?_⟩
    · intro hw; rw [hw] at h
      cases hsd : st.side <;> rw [hsd] at h <;> first | exact hside hsd | cases h
    · intro hs; rw [hs] at h
      cases hsd : st.side <;> rw [hsd] at h <;> first | exact hside hsd | cases h

/-- Every move the hopping routine appends starts on the source square, has no
promotion and an acceptable destination. -/
theorem generateHoppingMoves_shape (st : State) (hside : st.side ≠ .NoSide) (s : Int)
    (offsets : List Int) (moves : List Move) (m : Move)
    (h : m ∈ generateHoppingMoves st s offsets moves) :
    m ∈ moves ∨ MoveShape st s m := by
  rcases (generateHoppingMoves_mem_iff st s offsets moves m).mp h with h | ⟨o, _, rfl, hc⟩
  · exact Or.inl h
  · exact Or.inr ⟨rfl, rfl, hop_target_ok st hside _ hc⟩

theorem slidingScan_shape (st : State) (hside : st.side ≠ .NoSide) (s offset : Int) (m : Move) :
    ∀ (fuel : Nat) (t : Int) (moves res : List Move),
      slidingScan st s offset fuel t moves = some res → m ∈ res →
      m ∈ moves ∨ MoveShape st s m := by
  intro fuel
  induction fuel with
  | zero => intro t moves res h; simp [slidingScan] at h
  | succ n ih =>
    intro t moves res h hm
    unfold slidingScan at h
    simp only [] at h
    by_cases hw : (pieceAt st t).isWall = true
    · rw [if_pos hw] at h
      cases h; exact Or.inl hm
    · rw [if_neg hw] at h
      have hnw : pieceAt st t ≠ Piece.wallPiece := isWall_false_ne _ (by simpa using hw)
      by_cases he : (pieceAt st t).isEmpty = true
      · rw [if_pos he] at h
        rcases ih _ _ _ h hm with h1 | h1
        · rcases List.mem_append.mp h1 with h1 | h1
          · exact Or.inl h1
          · rw [List.mem_singleton.mp h1]
            exact Or.inr ⟨rfl, rfl, hnw, Or.inl he⟩
        · exact Or.inr h1
      · rw [if_neg he] at h
        by_cases hsd : (pieceAt st t).side = st.side.opposite
        · rw [if_pos hsd] at h
          cases h
          rcases List.mem_append.mp hm with h1 | h1
          · exact Or.inl h1
          · rw [List.mem_singleton.mp h1]
            exact Or.inr ⟨rfl, rfl, hop_target_ok st hside t (Or.inr hsd)⟩
        · rw [if_neg hsd] at h
          cases h; exact Or.inl hm

theorem cannonScan_shape (st : State) (s offset : Int) (m : Move) :
    ∀ (fuel : Nat) (t : Int) (obstacle : Nat) (moves res : List Move),
      cannonScan st s offset fuel t obstacle moves = some res → m ∈ res →
      m ∈ moves ∨ MoveShape st s m := by
  intro fuel
  induction fuel with
  | zero => intro t ob moves res h; simp [cannonScan] at h
  | succ n ih =>
    intro t ob moves res h hm
    unfold cannonScan at h
    simp only [] at h
    by_cases hw : (pieceAt st t).isWall = true
    · rw [if_pos hw] at h
      cases h; exact Or.inl hm
    · rw [if_neg hw] at h
      have hnw : pieceAt st t ≠ Piece.wallPiece := isWall_false_ne _ (by simpa using hw)
      by_cases he : (pieceAt st t).isEmpty = true
      · rw [if_pos he] at h
        by_cases hob : ob = 0
        · rw [if_pos hob] at h
          rcases ih _ _ _ _ h hm with h1 | h1
          · rcases List.mem_append.mp h1 with h1 | h1
            · exact Or.inl h1
            · rw [List.mem_singleton.mp h1]
              exact Or.inr ⟨rfl, rfl, hnw, Or.inl he⟩
          · exact Or.inr h1
        · rw [if_neg hob] at h
          exact ih _ _ _ _ h hm
      · rw [if_neg he] at h
        by_cases hsd : ob + 1 = 2 ∧ (pieceAt st t).side ≠ st.side
        · rw [if_pos hsd] at h
          cases h
          rcases List.mem_append.mp hm with h1 | h1
          · exact Or.inl h1
          · rw [List.mem_singleton.mp h1]
            exact Or.inr ⟨rfl, rfl, hnw, Or.inr hsd.2⟩
        · rw [if_neg hsd] at h
          exact ih _ _ _ _ h hm

/-- A property of appended moves that holds for each direction scan holds for
the whole loop over the offsets. -/
theorem forOffsets_shape (f : Int → List Move → Option (List Move)) (P : Move → Prop)
    (m : Move)
    (hf : ∀ offset moves res, f offset moves = some res → m ∈ res → m ∈ moves ∨ P m) :
    ∀ (offsets : List Int) (moves res : List Move),
      forOffsets f offsets moves = some res → m ∈ res → m ∈ moves ∨ P m := by
  intro offsets
  induction offsets with
  | nil => intro moves res h hm; simp only [forOffsets] at h; cases h; exact Or.inl hm
  | cons o rest ih =>
    intro moves res h hm
    simp only [forOffsets] at h
    cases hfo : f o moves with
    | none => rw [hfo] at h; cases h
    | some r1 =>
      rw [hfo] at h
      rcases ih _ _ h hm with h1 | h1
      · exact hf o moves r1 hfo h1
      · exact Or.inr h1

/-- Every move `generateMovesForPiece` appends has the generated shape; a piece
type without movement appends nothing. -/
theorem generateMovesForPiece_shape (st : State) (hside : st.side ≠ .NoSide)
    (moves res : List Move) (pt : PieceType) (sq : Int) (m : Move)
    (h : generateMovesForPiece st moves pt sq = some res) (hm : m ∈ res) :
    m ∈ moves ∨ (pt ≠ .NoPiece ∧ MoveShape st sq m) := by
  by_cases hpt : pt = .NoPiece
  · subst hpt
    simp only [generateMovesForPiece, pieceHasMovement, Bool.false_eq_true, if_false] at h
    cases h
    exact Or.inl hm
  · have hop : ∀ offs ms, m ∈ generateHoppingMoves st sq offs ms → m ∈ ms ∨
        (pt ≠ .NoPiece ∧ MoveShape st sq m) := by
      intro offs ms hh
      rcases generateHoppingMoves_shape st hside sq offs ms m hh with h1 | h1
      · exact Or.inl h1
      · exact Or.inr ⟨hpt, h1⟩
    have step : ∀ (c : Bool) (g : List Move → List Move) (ms : List Move),
        (∀ ms1, m ∈ g ms1 → m ∈ ms1 ∨ (pt ≠ .NoPiece ∧ MoveShape st sq m)) →
        m ∈ (if c = true then g ms else ms) → m ∈ ms ∨ (pt ≠ .NoPiece ∧ MoveShape st sq m) := by
      intro c g ms hg hmem
      cases c
      · exact Or.inl hmem
      · exact hg ms hmem
    have stepO : ∀ (c : Bool) (g : List Move → Option (List Move)) (ms r : List Move),
        (∀ ms1 r1, g ms1 = some r1 → m ∈ r1 → m ∈ ms1 ∨ (pt ≠ .NoPiece ∧ MoveShape st sq m)) →
        (if c = true then g ms else some ms) = some r → m ∈ r →
          m ∈ ms ∨ (pt ≠ .NoPiece ∧ MoveShape st sq m) := by
      intro c g ms r hg heq hmem
      cases c
      · simp only [Bool.false_eq_true, if_false] at heq
        cases heq; exact Or.inl hmem
      · exact hg ms r heq hmem
    have hcannon : ∀ ms1 r1, generateCannonMoves st sq ms1 = some r1 → m ∈ r1 →
        m ∈ ms1 ∨ (pt ≠ .NoPiece ∧ MoveShape st sq m) := by
      intro ms1 r1 hr hmr
      rcases forOffsets_shape _ (MoveShape st sq) m (fun o ms r hh hmm =>
        cannonScan_shape st sq o m _ _ _ _ _ hh hmm) _ _ _ hr hmr with h1 | h1
      · exact Or.inl h1
      · exact Or.inr ⟨hpt, h1⟩
    have hrook : ∀ ms1 r1, generateRookMoves st sq ms1 = some r1 → m ∈ r1 →
        m ∈ ms1 ∨ (pt ≠ .NoPiece ∧ MoveShape st sq m) := by
      intro ms1 r1 hr hmr
      rcases forOffsets_shape _ (MoveShape st sq) m (fun o ms r hh hmm =>
        slidingScan_shape st hside sq o m _ _ _ _ hh hmm) _ _ _ hr hmr with h1 | h1
      · exact Or.inl h1
      · exact Or.inr ⟨hpt, h1⟩
    unfold generateMovesForPiece at h
    simp only [] at h
    split at h
    · cases h
    · rename_i m5 h5
      rcases stepO _ _ _ _ hcannon h hm with h6 | h6
      · rcases step _ (generateAdvisorMoves st sq) _ (fun ms1 hh => hop _ ms1 hh) h6 with h7 | h7
        · rcases stepO _ (generateRookMoves st sq) _ _ hrook h5 h7 with h8 | h8
          · rcases step _ (generateBishopMoves st sq) _ (fun ms1 hh => hop _ ms1 hh) h8
              with h9 | h9
            · rcases step _ (generateKnightMoves st sq) _ (fun ms1 hh => hop _ ms1 hh) h9
                with h10 | h10
              · rcases step _ (generateKingMoves st sq) _ (fun ms1 hh => hop _ ms1 hh) h10
                  with h11 | h11
                · exact step _ (generatePawnMoves st sq) _ (fun ms1 hh => hop _ ms1 hh) h11
                · exact Or.inr h11
              · exact Or.inr h10
            · exact Or.inr h9
          · exact Or.inr h8
        · exact Or.inr h7
      · exact Or.inr h6

/-- Every move of the square loop of `generateMoves` starts on a square that
holds a piece of the side to move with a proper type, and has the generated shape. -/
theorem generateMovesLoop_shape (st : State) (hside : st.side ≠ .NoSide) (pt : PieceType)
    (m : Move) :
    ∀ (sqs : List Nat) (moves res : List Move),
      generateMovesLoop st pt sqs moves = some res → m ∈ res →
      m ∈ moves ∨ ((pieceAt st m.sourceSquare).side = st.side ∧
        (pieceAt st m.sourceSquare).type ≠ .NoPiece ∧ MoveShape st m.sourceSquare m) := by
  intro sqs
  induction sqs with
  | nil => intro moves res h hm; simp only [generateMovesLoop] at h; cases h; exact Or.inl hm
  | cons sq rest ih =>
    intro moves res h hm
    simp only [generateMovesLoop] at h
    split at h
    · rename_i hc
      split at h
      · cases h
      · rename_i moves1 h1
        rcases ih _ _ h hm with h2 | h2
        · rcases generateMovesForPiece_shape st hside _ _ _ _ m h1 h2 with h3 | ⟨h3, h4⟩
          · exact Or.inl h3
          · have hsrc : m.sourceSquare = (sq : Int) := h4.1
            rw [hsrc]
            exact Or.inr ⟨hc.1, h3, hsrc ▸ h4⟩
        · exact Or.inr h2
    · exact ih _ _ h hm

/-- A generated move starts on a piece of the side to move and has the generated shape. -/
theorem generated_shape (st : State) (hside : st.side ≠ .NoSide) (m : Move)
    (h : Generated st m) :
    (pieceAt st m.sourceSquare).side = st.side ∧
      (pieceAt st m.sourceSquare).type ≠ .NoPiece ∧ MoveShape st m.sourceSquare m := by
  obtain ⟨ms, hms, hm⟩ := h
  unfold generateMoves at hms
  rcases generateMovesLoop_shape st hside _ m _ _ _ hms hm with h1 | h1
  · cases h1
  · exact h1

/-! ## Consequences of well-formedness -/

theorem wallsInPlace_zero (st : State) (h : WallsInPlace st) : pieceAt st 0 = Piece.wallPiece :=
  h.2 0 (by decide) (by decide)

theorem wellFormed_kingCache (st : State) (h : WellFormed st) (side : Side)
    (hs : side ≠ .NoSide) : KingCacheOk st side := by
  cases side
  · exact h.2.2.1
  · exact h.2.2.2.1
  · exact absurd rfl hs

theorem wellFormed_castling (st : State) (h : WellFormed st) (side : Side) (cside : CastlingSide) :
    CastlingOk st side cside := by
  cases side <;> cases cside
  · exact h.2.2.2.2.1
  · exact h.2.2.2.2.2.1
  · exact Or.inl rfl
  · exact h.2.2.2.2.2.2.1
  · exact h.2.2.2.2.2.2.2
  · exact Or.inl rfl
  · exact Or.inl rfl
  · exact Or.inl rfl
  · exact Or.inl rfl

/-- A king of `side` stands on no square but the cached one. -/
theorem kingCache_unique (st : State) (side : Side) (h : KingCacheOk st side) (i : Int)
    (hi : pieceAt st i = ⟨side, .King⟩) : i = st.kingSquare side := by
  have hnw : pieceAt st i ≠ Piece.wallPiece := by
    rw [hi]; intro hh; cases hh
  obtain ⟨h0, hl⟩ := pieceAt_not_wall_range st i hnw
  have := h.2 i.toNat (List.mem_range.mpr hl)
  rw [Int.toNat_of_nonneg h0] at this
  exact this hi

/-- In a well-formed position no generated move is a castling move. -/
theorem generated_not_castling (st : State) (m : Move) (hwf : WellFormed st)
    (hgen : Generated st m) : castlingSide st m = .NoCastlingSide := by
  obtain ⟨_, _, _, _, htw, hte⟩ := generated_shape st hwf.2.1 m hgen
  have h0 := wallsInPlace_zero st hwf.1
  have key : ∀ cside, m.targetSquare ≠ st.castlingRights.rookSquare st.side cside := by
    intro cside heq
    rcases wellFormed_castling st hwf st.side cside with hc | hc
    · rw [← heq] at hc
      rw [hc] at htw
      exact htw h0
    · rw [← heq] at hc
      rw [hc] at hte
      rcases hte with hte | hte
      · cases hte
      · exact hte rfl
  unfold castlingSide
  simp only [key, if_false]

/-- **C1.** For every well-formed position and every move produced by the move
generator for it (hence every legal move), `vMakeMove` followed by `vUndoMove`
gives back the position: the contents of every square, both king squares, all
four castling rights, the reversible-move counter, the sign, the history stack
and every other member are as before; only the hash key, which `vUndoMove`
does not touch (the parent restores it), is excepted. -/
theorem make_undo_round_trip (st : State) (m : Move) (hwf : WellFormed st)
    (hgen : Generated st m) :
    m.targetSquare ≠ 0 ∧
      vUndoMove (vMakeMove st m) m = some { st with key := (vMakeMove st m).key } := by
  obtain ⟨hss, hsty, _, hprom, htw, hte⟩ := generated_shape st hwf.2.1 m hgen
  have h0 := wallsInPlace_zero st hwf.1
  have hside := hwf.2.1
  have hkc := wellFormed_kingCache st hwf st.side hside
  have hsw : pieceAt st m.sourceSquare ≠ Piece.wallPiece := by
    intro hw
    rw [hw] at hss
    exact hside hss.symm
  have hst : m.sourceSquare ≠ m.targetSquare := by
    intro heq
    rw [← heq] at hte
    rcases hte with hte | hte
    · apply hsty
      simpa [Piece.isEmpty] using hte
    · exact hte hss
  refine ⟨fun h => htw (h ▸ h0), ?_⟩
  apply roundtrip_plain st m hside hsw htw h0 hss hst hprom
    (generated_not_castling st m hwf hgen)
  · intro hK
    refine (kingCache_unique st st.side hkc _ ?_).symm
    rw [← hss, ← hK]
  · intro _ heq
    rcases hkc.1 with hk | hk
    · rw [← heq] at hk
      exact htw (hk ▸ h0)
    · rw [← heq] at hk
      rw [hk] at hte
      rcases hte with hte | hte
      · cases hte
      · exact hte rfl

set_option maxRecDepth 1000000 in
theorem make_undo_round_trip_witness :
    WellFormed startPosition ∧ Generated startPosition ⟨89, 78, .NoPiece⟩ ∧
      vUndoMove (vMakeMove startPosition ⟨89, 78, .NoPiece⟩) ⟨89, 78, .NoPiece⟩ =
        some { startPosition with key := (vMakeMove startPosition ⟨89, 78, .NoPiece⟩).key } :=
  ⟨by decide, by decide,
    (make_undo_round_trip startPosition ⟨89, 78, .NoPiece⟩ (by decide) (by decide)).2⟩

/-! ## The legality trial -/

@[simp] theorem setCastlingSquare_side (st : State) (side : Side) (cside : CastlingSide)
    (v : Int) : (setCastlingSquare st side cside v).side = st.side := by
  obtain ⟨cr, k, h⟩ := setCastlingSquare_frame st side cside v
  rw [h]

@[simp] theorem removeCastlingRights_side (st : State) (square : Int) :
    (removeCastlingRights st square).side = st.side := by
  obtain ⟨cr, k, h⟩ := removeCastlingRights_frame st square
  rw [h]

theorem vMakeMoveKing_side (loc : MakeLocals) (m : Move) (side : Side) (source : Int) :
    (vMakeMoveKing loc m side source).st.side = loc.st.side := by
  unfold vMakeMoveKing
  simp only [setCastlingSquare_side, setKingSquare_side]
  split <;> simp [setSquare]

theorem vMakeMoveRook_side (loc : MakeLocals) (side : Side) (source : Int) :
    (vMakeMoveRook loc side source).st.side = loc.st.side := by
  unfold vMakeMoveRook
  split
  · simp
  · split <;> simp

theorem makeLocalsBranch_side (st : State) (m : Move) :
    (makeLocalsBranch st m).st.side = st.side := by
  unfold makeLocalsBranch
  split
  · rw [vMakeMoveKing_side]; rfl
  · split
    · rw [vMakeMoveRook_side]; rfl
    · rfl

theorem makeLocalsCapture_side (st : State) (m : Move) :
    (makeLocalsCapture st m).st.side = st.side := by
  unfold makeLocalsCapture
  simp only []
  split
  · simp [makeLocalsBranch_side]
  · exact makeLocalsBranch_side st m

/-- The method `vMakeMove` does not change the parent's side to move. -/
theorem vMakeMove_side (st : State) (m : Move) : (vMakeMove st m).side = st.side := by
  unfold vMakeMove
  simp only [setSquare]
  split <;> simp [makeLocalsCapture_side]

/-- **C2.** If `vIsLegalMove` accepts a move then, in the position reached by
the move, the king of the side that has just moved is not in check; and
`isLegalPosition` answers `false` in every position in which `inCheck` holds
for the side that has just moved. -/
theorem legal_move_king_not_in_check (st : State) (m : Move)
    (hside : st.side ≠ .NoSide) (h : (vIsLegalMove st m).map Prod.fst = some true) :
    (makeMove st m).side.opposite = st.side ∧
      inCheck (makeMove st m) st.side 0 = some false ∧
      ∀ st1 : State, inCheck st1 st1.side.opposite 0 = some true →
        isLegalPosition st1 = some false := by
  have hsd : (makeMove st m).side.opposite = st.side := by
    simp only [makeMove, vMakeMove_side]
    cases hs : st.side <;> first | exact absurd hs hside | rfl
  refine ⟨hsd, ?_, ?_⟩
  · unfold vIsLegalMove at h
    split at h
    · cases h
    · unfold boardIsLegalMove at h
      simp only [] at h
      cases hl : isLegalPosition (makeMove st m) with
      | none => rw [hl] at h; cases h
      | some b =>
        rw [hl] at h
        simp only [] at h
        cases hu : undoMove (makeMove st m) with
        | none => rw [hu] at h; cases h
        | some st3 =>
          rw [hu] at h
          simp only [Option.map_some', Option.some.injEq] at h
          rw [h] at hl
          unfold isLegalPosition at hl
          simp only [hsd] at hl
          cases hc : inCheck (makeMove st m) st.side 0 with
          | none => rw [hc] at hl; cases hl
          | some c =>
            cases c
            · rfl
            · rw [hc] at hl; cases hl
  · intro st1 h1
    unfold isLegalPosition
    simp only [h1]

set_option maxRecDepth 1000000 in
theorem legal_move_king_not_in_check_witness :
    startPosition.side ≠ .NoSide ∧
      (vIsLegalMove startPosition ⟨89, 78, .NoPiece⟩).map Prod.fst = some true ∧
      inCheck (makeMove startPosition ⟨89, 78, .NoPiece⟩) startPosition.side 0 = some false :=
  ⟨by decide, by decide,
    (legal_move_king_not_in_check startPosition ⟨89, 78, .NoPiece⟩ (by decide) (by decide)).2.1⟩

/-! ## The starting position -/

set_option maxRecDepth 1000000 in
/-- **C3.** In the standard Xiangqi starting position, White to move and no
castling rights, the moves generated for the side to move are 44 in number and
all 44 pass the legality check: `legalMoves` returns exactly 44 moves. -/
theorem start_position_has_44_legal_moves :
    (generateMoves startPosition .NoPiece).map List.length = some 44 ∧
      (legalMoves startPosition).map (fun r => r.1.length) = some 44 := by
  decide!

/-! ## Termination of the scanning loops -/

theorem scanRoom_lt_scanFuel (st : State) (offset t : Int) :
    scanRoom st offset t < scanFuel st := by
  unfold scanRoom scanFuel
  split
  · omega
  · rename_i h
    obtain ⟨h0, hl⟩ := pieceAt_not_wall_range st t h
    split <;> omega

theorem scanRoom_step (st : State) (offset t : Int) (ho : offset ≠ 0)
    (h : pieceAt st t ≠ Piece.wallPiece) :
    scanRoom st offset (t + offset) < scanRoom st offset t := by
  obtain ⟨h0, hl⟩ := pieceAt_not_wall_range st t h
  unfold scanRoom
  rw [if_neg h]
  by_cases hw : pieceAt st (t + offset) = Piece.wallPiece
  · rw [if_pos hw]
    split <;> omega
  · rw [if_neg hw]
    obtain ⟨h0', hl'⟩ := pieceAt_not_wall_range st _ hw
    split <;> omega

theorem isEmpty_ne_wall (p : Piece) (h : p.isEmpty = true) : p ≠ Piece.wallPiece := by
  intro hp
  rw [hp] at h
  cases h

theorem rookOffsets_ne_zero (offset : Int) (h : offset ∈ rookOffsets) : offset ≠ 0 := by
  intro h0
  subst h0
  exact absurd h (by decide)

theorem kingMeetOffsets_ne_zero (offset : Int) (h : offset ∈ kingMeetOffsets) : offset ≠ 0 := by
  intro h0
  subst h0
  exact absurd h (by decide)

theorem cannonAttackScan_total (st : State) (opSide : Side) (offset : Int) (ho : offset ≠ 0) :
    ∀ (fuel : Nat) (t : Int) (obstacle : Nat), scanRoom st offset t < fuel →
      ∃ b, cannonAttackScan st opSide offset fuel t obstacle = some b := by
  intro fuel
  induction fuel with
  | zero => intro t ob h; omega
  | succ n ih =>
    intro t ob h
    unfold cannonAttackScan
    simp only []
    by_cases hw : (pieceAt st t).isWall = true
    · rw [if_pos hw]; exact ⟨_, rfl⟩
    · rw [if_neg hw]
      have hnw := isWall_false_ne _ (by simpa using hw)
      have hstep := scanRoom_step st offset t ho hnw
      split
      · split
        · exact ⟨_, rfl⟩
        · exact ih _ _ (by omega)
      · exact ih _ _ (by omega)

theorem kingMeetScan_total (st : State) (opSide : Side) (offset : Int) (ho : offset ≠ 0) :
    ∀ (fuel : Nat) (t : Int) (obstacle : Nat), scanRoom st offset t < fuel →
      ∃ b, kingMeetScan st opSide offset fuel t obstacle = some b := by
  intro fuel
  induction fuel with
  | zero => intro t ob h; omega
  | succ n ih =>
    intro t ob h
    unfold kingMeetScan
    simp only []
    by_cases hw : (pieceAt st t).isWall = true
    · rw [if_pos hw]; exact ⟨_, rfl⟩
    · rw [if_neg hw]
      have hnw := isWall_false_ne _ (by simpa using hw)
      have hstep := scanRoom_step st offset t ho hnw
      split
      · split
        · exact ⟨_, rfl⟩
        · exact ih _ _ (by omega)
      · exact ih _ _ (by omega)

theorem rookAttackScan_total (st : State) (opSide : Side) (offset : Int) (ho : offset ≠ 0) :
    ∀ (fuel : Nat) (t : Int), scanRoom st offset t < fuel →
      ∃ b, rookAttackScan st opSide offset fuel t = some b := by
  intro fuel
  induction fuel with
  | zero => intro t h; omega
  | succ n ih =>
    intro t h
    unfold rookAttackScan
    simp only []
    split
    · by_cases he : (pieceAt st t).isEmpty = true
      · simp only [he, Bool.not_true, Bool.false_eq_true, if_false]
        have hstep := scanRoom_step st offset t ho (isEmpty_ne_wall _ he)
        exact ih _ (by omega)
      · simp only [he, Bool.not_false, if_true]
        split <;> exact ⟨_, rfl⟩
    · exact ⟨_, rfl⟩

theorem slidingScan_total (st : State) (s offset : Int) (ho : offset ≠ 0) :
    ∀ (fuel : Nat) (t : Int) (moves : List Move), scanRoom st offset t < fuel →
      ∃ res, slidingScan st s offset fuel t moves = some res := by
  intro fuel
  induction fuel with
  | zero => intro t ms h; omega
  | succ n ih =>
    intro t ms h
    unfold slidingScan
    simp only []
    by_cases hw : (pieceAt st t).isWall = true
    · rw [if_pos hw]; exact ⟨_, rfl⟩
    · rw [if_neg hw]
      have hnw := isWall_false_ne _ (by simpa using hw)
      have hstep := scanRoom_step st offset t ho hnw
      split
      · exact ih _ _ (by omega)
      · split <;> exact ⟨_, rfl⟩

theorem cannonScan_total (st : State) (s offset : Int) (ho : offset ≠ 0) :
    ∀ (fuel : Nat) (t : Int) (obstacle : Nat) (moves : List Move), scanRoom st offset t < fuel →
      ∃ res, cannonScan st s offset fuel t obstacle moves = some res := by
  intro fuel
  induction fuel with
  | zero => intro t ob ms h; omega
  | succ n ih =>
    intro t ob ms h
    unfold cannonScan
    simp only []
    by_cases hw : (pieceAt st t).isWall = true
    · rw [if_pos hw]; exact ⟨_, rfl⟩
    · rw [if_neg hw]
      have hnw := isWall_false_ne _ (by simpa using hw)
      have hstep := scanRoom_step st offset t ho hnw
      split
      · split <;> exact ih _ _ _ (by omega)
      · split
        · exact ⟨_, rfl⟩
        · exact ih _ _ _ (by omega)

/-! ## The loop over the offsets of an attack block -/

theorem anyOffset_total (f : Int → Option Bool) :
    ∀ offsets : List Int, (∀ o ∈ offsets, ∃ b, f o = some b) →
      ∃ b, anyOffset f offsets = some b := by
  intro offsets
  induction offsets with
  | nil => intro _; exact ⟨false, rfl⟩
  | cons o rest ih =>
    intro h
    obtain ⟨b, hb⟩ := h o (List.mem_cons_self _ _)
    unfold anyOffset
    rw [hb]
    cases b
    · exact ih (fun o1 ho1 => h o1 (List.mem_cons_of_mem _ ho1))
    · exact ⟨true, rfl⟩

theorem anyOffset_true_iff (f : Int → Option Bool) :
    ∀ offsets : List Int, (∀ o ∈ offsets, ∃ b, f o = some b) →
      (anyOffset f offsets = some true ↔ ∃ o ∈ offsets, f o = some true) := by
  intro offsets
  induction offsets with
  | nil => intro _; simp [anyOffset]
  | cons o rest ih =>
    intro h
    obtain ⟨b, hb⟩ := h o (List.mem_cons_self _ _)
    have ih1 := ih (fun o1 ho1 => h o1 (List.mem_cons_of_mem _ ho1))
    unfold anyOffset
    rw [hb]
    cases b
    · simp only [ih1, List.mem_cons, exists_eq_or_imp, hb]
      simp
    · simp only [List.mem_cons, exists_eq_or_imp, hb, true_or]

theorem cannonAttacks_total (st : State) (opSide : Side) (square : Int) :
    ∃ b, cannonAttacks st opSide square = some b :=
  anyOffset_total _ _ fun o ho =>
    cannonAttackScan_total st opSide o (rookOffsets_ne_zero o ho) _ _ _
      (scanRoom_lt_scanFuel st o _)

theorem kingMeetAttacks_total (st : State) (opSide : Side) (square : Int) :
    ∃ b, kingMeetAttacks st opSide square = some b :=
  anyOffset_total _ _ fun o ho =>
    kingMeetScan_total st opSide o (kingMeetOffsets_ne_zero o ho) _ _ _
      (scanRoom_lt_scanFuel st o _)

theorem rookAttacks_total (st : State) (opSide : Side) (square : Int) :
    ∃ b, rookAttacks st opSide square = some b :=
  anyOffset_total _ _ fun o ho => by
    simp only []
    split
    · exact ⟨_, rfl⟩
    · exact rookAttackScan_total st opSide o (rookOffsets_ne_zero o ho) _ _
        (scanRoom_lt_scanFuel st o _)

/-- The answer of the attack detector is the disjunction of its five blocks. -/
theorem attackedAt_eq (st : State) (side : Side) (square : Int) (c r k : Bool)
    (hc : cannonAttacks st side.opposite square = some c)
    (hr : rookAttacks st side.opposite square = some r)
    (hk : kingMeetAttacks st side.opposite square = some k) :
    attackedAt st side square =
      some (c || knightAttacks st side side.opposite square || r ||
        pawnAttacks st side side.opposite square || k) := by
  unfold attackedAt
  simp only [hc, hr, hk]
  cases c <;> cases knightAttacks st side side.opposite square <;> cases r <;>
    cases pawnAttacks st side side.opposite square <;> cases k <;> rfl

/-- The attack detector always answers: no scan of `inCheck` runs out of fuel. -/
theorem attackedAt_total (st : State) (side : Side) (square : Int) :
    ∃ b, attackedAt st side square = some b := by
  obtain ⟨c, hc⟩ := cannonAttacks_total st side.opposite square
  obtain ⟨r, hr⟩ := rookAttacks_total st side.opposite square
  obtain ⟨k, hk⟩ := kingMeetAttacks_total st side.opposite square
  exact ⟨_, attackedAt_eq st side square c r k hc hr hk⟩

theorem inCheck_total (st : State) (side : Side) (square : Int) :
    ∃ b, inCheck st side square = some b := by
  unfold inCheck
  split
  · split
    · exact ⟨_, rfl⟩
    · exact attackedAt_total _ _ _
  · exact attackedAt_total _ _ _

/-! ## The king-meet scan -/

theorem kingMeetScan_obstacle_pos (st : State) (opSide : Side) (offset : Int) :
    ∀ (fuel : Nat) (t : Int) (obstacle : Nat),
      kingMeetScan st opSide offset fuel t (obstacle + 1) ≠ some true := by
  intro fuel
  induction fuel with
  | zero => intro t ob h; simp [kingMeetScan] at h
  | succ n ih =>
    intro t ob
    unfold kingMeetScan
    simp only []
    split
    · simp
    · split
      · rw [if_neg (by omega)]
        exact ih _ _
      · exact ih _ _

/-- The king-meet scan answers `true` exactly when the first non-empty square
of the ray holds the opposing king. -/
theorem kingMeetScan_true_iff (st : State) (opSide : Side) (offset : Int) (ho : offset ≠ 0) :
    ∀ (fuel : Nat) (t : Int), scanRoom st offset t < fuel →
      (kingMeetScan st opSide offset fuel t 0 = some true ↔
        ∃ k : Nat, (∀ j : Nat, j < k → (pieceAt st (t + j * offset)).isEmpty = true) ∧
          (pieceAt st (t + k * offset)).side = opSide ∧
          (pieceAt st (t + k * offset)).type = .King) := by
  intro fuel
  induction fuel with
  | zero => intro t h; omega
  | succ n ih =>
    intro t h
    unfold kingMeetScan
    simp only []
    by_cases hw : (pieceAt st t).isWall = true
    · rw [if_pos hw]
      constructor
      · intro hh; cases hh
      · rintro ⟨k, hk1, hk2, hk3⟩
        exfalso
        cases k with
        | zero =>
          simp only [Nat.cast_zero, zero_mul, add_zero] at hk3
          simp [Piece.isWall, hk3] at hw
        | succ k =>
          have := hk1 0 (by omega)
          simp only [Nat.cast_zero, zero_mul, add_zero] at this
          simp only [Piece.isWall, Piece.isEmpty, beq_iff_eq] at hw this
          rw [hw] at this; cases this
    · rw [if_neg hw]
      have hnw := isWall_false_ne _ (by simpa using hw)
      have hstep := scanRoom_step st offset t ho hnw
      by_cases he : (pieceAt st t).isEmpty = true
      · simp only [he, Bool.not_true, Bool.false_eq_true, if_false]
        rw [ih _ (by omega)]
        constructor
        · rintro ⟨k, hk1, hk2, hk3⟩
          refine ⟨k + 1, ?_, ?_, ?_⟩
          · intro j hj
            cases j with
            | zero => simpa using he
            | succ j =>
              have := hk1 j (by omega)
              have e : t + ((j + 1 : Nat) : Int) * offset = t + offset + (j : Int) * offset := by
                push_cast; ring
              rw [e]; exact this
          · have e : t + ((k + 1 : Nat) : Int) * offset = t + offset + (k : Int) * offset := by
              push_cast; ring
            rw [e]; exact hk2
          · have e : t + ((k + 1 : Nat) : Int) * offset = t + offset + (k : Int) * offset := by
              push_cast; ring
            rw [e]; exact hk3
        · rintro ⟨k, hk1, hk2, hk3⟩
          cases k with
          | zero =>
            exfalso
            simp only [Nat.cast_zero, zero_mul, add_zero] at hk3
            simp [Piece.isEmpty, hk3] at he
          | succ k =>
            have e : ∀ j : Nat, t + ((j + 1 : Nat) : Int) * offset
                = t + offset + (j : Int) * offset := by
              intro j; push_cast; ring
            refine ⟨k, ?_, ?_, ?_⟩
            · intro j hj
              rw [← e]; exact hk1 (j + 1) (by omega)
            · rw [← e]; exact hk2
            · rw [← e]; exact hk3
      · simp only [he, Bool.not_false, if_true]
        by_cases hc : (pieceAt st t).side = opSide ∧ (pieceAt st t).type = .King
        · rw [if_pos ⟨trivial, hc⟩]
          simp only [true_iff]
          exact ⟨0, by intro j hj; omega, by simpa using hc.1, by simpa using hc.2⟩
        · rw [if_neg (by intro hh; exact hc hh.2)]
          constructor
          · intro hh
            exact absurd hh (kingMeetScan_obstacle_pos st opSide offset _ _ 0)
          · rintro ⟨k, hk1, hk2, hk3⟩
            exfalso
            cases k with
            | zero =>
              simp only [Nat.cast_zero, zero_mul, add_zero] at hk2 hk3
              exact hc ⟨hk2, hk3⟩
            | succ k =>
              have := hk1 0 (by omega)
              simp only [Nat.cast_zero, zero_mul, add_zero] at this
              exact he this

theorem kingMeetScan_true_iff_facesKing (st : State) (opSide : Side) (square offset : Int)
    (ho : offset ≠ 0) :
    kingMeetScan st opSide offset (scanFuel st) (square + offset) 0 = some true ↔
      FacesKing st opSide square offset := by
  rw [kingMeetScan_true_iff st opSide offset ho _ _ (scanRoom_lt_scanFuel st offset _)]
  have e : ∀ j : Nat, square + offset + (j : Int) * offset = square + ((j : Int) + 1) * offset := by
    intro j; ring
  unfold FacesKing
  constructor
  · rintro ⟨k, h1, h2, h3⟩
    refine ⟨k, fun j hj => ?_, ?_⟩
    · rw [← e]; exact h1 j hj
    · rw [← e]
      cases hp : pieceAt st (square + offset + k * offset) with
      | mk sd ty =>
        rw [hp] at h2 h3
        simp only at h2 h3
        rw [h2, h3]
  · rintro ⟨k, h1, h2⟩
    refine ⟨k, fun j hj => ?_, ?_, ?_⟩
    · rw [e]; exact h1 j hj
    · rw [e, h2]
    · rw [e, h2]

/-- The king-meet block answers `true` exactly when the square faces the
opposing king along its file, upward or downward. -/
theorem kingMeetAttacks_true_iff (st : State) (opSide : Side) (square : Int) :
    kingMeetAttacks st opSide square = some true ↔
      FacesKing st opSide square (-arwidth) ∨ FacesKing st opSide square arwidth := by
  unfold kingMeetAttacks
  rw [anyOffset_true_iff _ _ (fun o ho =>
    kingMeetScan_total st opSide o (kingMeetOffsets_ne_zero o ho) _ _ _
      (scanRoom_lt_scanFuel st o _))]
  simp only [kingMeetOffsets, List.mem_cons, List.mem_singleton, exists_eq_or_imp,
    exists_eq_left, List.not_mem_nil, false_and, exists_false, or_false]
  rw [kingMeetScan_true_iff_facesKing st opSide square (-arwidth) (by decide),
    kingMeetScan_true_iff_facesKing st opSide square arwidth (by decide)]

theorem attackedAt_of_kingMeet (st : State) (side : Side) (square : Int)
    (h : kingMeetAttacks st side.opposite square = some true) :
    attackedAt st side square = some true := by
  obtain ⟨c, hc⟩ := cannonAttacks_total st side.opposite square
  obtain ⟨r, hr⟩ := rookAttacks_total st side.opposite square
  rw [attackedAt_eq st side square c r true hc hr h]
  simp

/-- A side whose cached king square faces the opposing king is in check. -/
theorem inCheck_of_facesKing (st : State) (side : Side) (offset : Int)
    (hd : offset = arwidth ∨ offset = -arwidth) (hk : st.kingSquare side ≠ 0)
    (h : FacesKing st side.opposite (st.kingSquare side) offset) :
    inCheck st side 0 = some true := by
  unfold inCheck
  rw [if_pos rfl, if_neg hk]
  apply attackedAt_of_kingMeet
  rw [kingMeetAttacks_true_iff]
  rcases hd with rfl | rfl
  · exact Or.inr h
  · exact Or.inl h

/-- **C4.** Flying-general rule: in every well-formed position in which the
White king and the Black king stand on the same file (their squares differ by
`n + 1` rows) with every square between them empty, `inCheck` answers `true`
for White and for Black, whatever else is on the board. -/
theorem flying_general_rule (st : State) (kw kb d : Int) (n : Nat)
    (hwf : WellFormed st) (hd : d = arwidth ∨ d = -arwidth)
    (hpw : pieceAt st kw = ⟨.White, .King⟩) (hpb : pieceAt st kb = ⟨.Black, .King⟩)
    (hfile : kb = kw + (n + 1) * d)
    (hclear : ∀ j : Nat, j < n → (pieceAt st (kw + (j + 1) * d)).isEmpty = true) :
    inCheck st .White 0 = some true ∧ inCheck st .Black 0 = some true := by
  have h0 := wallsInPlace_zero st hwf.1
  have hkw : st.kingSquare .White = kw := (kingCache_unique st _ hwf.2.2.1 kw hpw).symm
  have hkb : st.kingSquare .Black = kb := (kingCache_unique st _ hwf.2.2.2.1 kb hpb).symm
  have hw0 : kw ≠ 0 := by
    intro h; rw [h, h0] at hpw; cases hpw
  have hb0 : kb ≠ 0 := by
    intro h; rw [h, h0] at hpb; cases hpb
  constructor
  · apply inCheck_of_facesKing st .White d hd (by rw [hkw]; exact hw0)
    rw [hkw]
    refine ⟨n, hclear, ?_⟩
    rw [← hfile]; exact hpb
  · have hd1 : -d = arwidth ∨ -d = -arwidth := by
      rcases hd with rfl | rfl
      · exact Or.inr rfl
      · exact Or.inl (by simp)
    apply inCheck_of_facesKing st .Black (-d) hd1 (by rw [hkb]; exact hb0)
    rw [hkb]
    refine ⟨n, fun j hj => ?_, ?_⟩
    · have e : kb + ((j : Int) + 1) * -d = kw + (((n - 1 - j : Nat) : Int) + 1) * d := by
        rw [hfile]
        have : ((n - 1 - j : Nat) : Int) = (n : Int) - 1 - j := by omega
        rw [this]; ring
      rw [e]
      exact hclear _ (by omega)
    · have e : kb + ((n : Int) + 1) * -d = kw := by rw [hfile]; ring
      rw [e]; exact hpw

set_option maxRecDepth 1000000 in
theorem flying_general_rule_witness :
    WellFormed facingKings ∧
      inCheck facingKings .White 0 = some true ∧ inCheck facingKings .Black 0 = some true :=
  ⟨by decide,
    flying_general_rule facingKings 126 27 (-arwidth) 8 (by decide) (Or.inr rfl) (by decide)
      (by decide) (by decide) (by decide)⟩

/-- With the cannon, knight, rook and pawn blocks silent, `inCheck` on the
king square is the answer of the king-meet block. -/
theorem attackedAt_quiet (st : State) (side : Side) (square : Int)
    (hc : cannonAttacks st side.opposite square = some false)
    (hn : knightAttacks st side side.opposite square = false)
    (hr : rookAttacks st side.opposite square = some false)
    (hp : pawnAttacks st side side.opposite square = false) :
    attackedAt st side square = kingMeetAttacks st side.opposite square := by
  obtain ⟨k, hk⟩ := kingMeetAttacks_total st side.opposite square
  rw [attackedAt_eq st side square false false k hc hr hk, hn, hp, hk]
  simp

/-- A king that has a piece between itself and the only opposing king on its
file does not face that king in either vertical direction. -/
theorem not_facesKing_of_blocked (st : State) (opSide : Side) (k1 k2 d : Int) (n j : Nat)
    (hd : d = arwidth ∨ d = -arwidth)
    (huniq : ∀ i, pieceAt st i = ⟨opSide, .King⟩ → i = k2)
    (hfile : k2 = k1 + (n + 1) * d) (hj : j < n)
    (hblock : (pieceAt st (k1 + (j + 1) * d)).isEmpty = false) (o : Int)
    (ho : o = arwidth ∨ o = -arwidth) : ¬ FacesKing st opSide k1 o := by
  rintro ⟨k, hk1, hk2⟩
  have heq := huniq _ hk2
  rw [hfile] at heq
  have hkn : o = d ∧ k = n := by
    simp only [arwidth, width] at hd ho
    rcases hd with rfl | rfl <;> rcases ho with rfl | rfl <;> constructor <;> omega
  obtain ⟨rfl, rfl⟩ := hkn
  have := hk1 j hj
  rw [hblock] at this
  cases this

/-- **C5.** For the two kings of a well-formed position on the same file with
at least one piece on a square between them, `inCheck` answers `false` for
each king whenever neither king is attacked by the cannon, knight, rook or
pawn block of `inCheck`. -/
theorem interposed_piece_blocks_kings (st : State) (kw kb d : Int) (n j : Nat)
    (hwf : WellFormed st) (hd : d = arwidth ∨ d = -arwidth)
    (hpw : pieceAt st kw = ⟨.White, .King⟩) (hpb : pieceAt st kb = ⟨.Black, .King⟩)
    (hfile : kb = kw + (n + 1) * d) (hj : j < n)
    (hblock : (pieceAt st (kw + (j + 1) * d)).isEmpty = false)
    (hcw : cannonAttacks st .Black kw = some false)
    (hnw : knightAttacks st .White .Black kw = false)
    (hrw : rookAttacks st .Black kw = some false)
    (hpaw : pawnAttacks st .White .Black kw = false)
    (hcb : cannonAttacks st .White kb = some false)
    (hnb : knightAttacks st .Black .White kb = false)
    (hrb : rookAttacks st .White kb = some false)
    (hpab : pawnAttacks st .Black .White kb = false) :
    inCheck st .White 0 = some false ∧ inCheck st .Black 0 = some false := by
  have h0 := wallsInPlace_zero st hwf.1
  have hkw : st.kingSquare .White = kw := (kingCache_unique st _ hwf.2.2.1 kw hpw).symm
  have hkb : st.kingSquare .Black = kb := (kingCache_unique st _ hwf.2.2.2.1 kb hpb).symm
  have hw0 : kw ≠ 0 := by
    intro h; rw [h, h0] at hpw; cases hpw
  have hb0 : kb ≠ 0 := by
    intro h; rw [h, h0] at hpb; cases hpb
  have huw : ∀ i, pieceAt st i = ⟨.White, .King⟩ → i = kw := fun i hi =>
    (kingCache_unique st _ hwf.2.2.1 i hi).trans hkw
  have hub : ∀ i, pieceAt st i = ⟨.Black, .King⟩ → i = kb := fun i hi =>
    (kingCache_unique st _ hwf.2.2.2.1 i hi).trans hkb
  have hfalse : ∀ (side : Side) (sq : Int),
      ¬ FacesKing st side.opposite sq (-arwidth) → ¬ FacesKing st side.opposite sq arwidth →
      kingMeetAttacks st side.opposite sq = some false := by
    intro side sq h1 h2
    obtain ⟨k, hk⟩ := kingMeetAttacks_total st side.opposite sq
    cases k
    · exact hk
    · rcases (kingMeetAttacks_true_iff st side.opposite sq).mp hk with h | h
      · exact absurd h h1
      · exact absurd h h2
  constructor
  · unfold inCheck
    rw [if_pos rfl, hkw, if_neg hw0, attackedAt_quiet st .White kw hcw hnw hrw hpaw]
    exact hfalse .White kw
      (not_facesKing_of_blocked st .Black kw kb d n j hd hub hfile hj hblock _ (Or.inr rfl))
      (not_facesKing_of_blocked st .Black kw kb d n j hd hub hfile hj hblock _ (Or.inl rfl))
  · have hd1 : -d = arwidth ∨ -d = -arwidth := by
      rcases hd with rfl | rfl
      · exact Or.inr rfl
      · exact Or.inl (by simp)
    have hfile1 : kw = kb + (n + 1) * -d := by rw [hfile]; ring
    have hj1 : n - 1 - j < n := by omega
    have hblock1 : (pieceAt st (kb + (((n - 1 - j : Nat) : Int) + 1) * -d)).isEmpty = false := by
      have e : kb + (((n - 1 - j : Nat) : Int) + 1) * -d = kw + ((j : Int) + 1) * d := by
        rw [hfile]
        have : ((n - 1 - j : Nat) : Int) = (n : Int) - 1 - j := by omega
        rw [this]; ring
      rw [e]; exact hblock
    unfold inCheck
    rw [if_pos rfl, hkb, if_neg hb0, attackedAt_quiet st .Black kb hcb hnb hrb hpab]
    exact hfalse .Black kb
      (not_facesKing_of_blocked st .White kb kw (-d) n _ hd1 huw hfile1 hj1 hblock1 _
        (Or.inr rfl))
      (not_facesKing_of_blocked st .White kb kw (-d) n _ hd1 huw hfile1 hj1 hblock1 _
        (Or.inl rfl))

set_option maxRecDepth 1000000 in
theorem interposed_piece_blocks_kings_witness :
    WellFormed startPosition ∧
      (pieceAt startPosition (126 + ((2 : Nat) + 1) * -arwidth)).isEmpty = false ∧
      inCheck startPosition .White 0 = some false ∧
      inCheck startPosition .Black 0 = some false :=
  ⟨by decide, by decide,
    interposed_piece_blocks_kings startPosition 126 27 (-arwidth) 8 2 (by decide) (Or.inr rfl)
      (by decide) (by decide) (by decide) (by decide) (by decide) (by decide) (by decide)
      (by decide) (by decide) (by decide) (by decide) (by decide) (by decide)⟩

/-! ## The cannon generator -/

theorem piecesOnRay_zero (st : State) (offset t : Int) : piecesOnRay st offset t 0 = 0 := rfl

theorem piecesOnRay_succ (st : State) (offset t : Int) (k : Nat) :
    piecesOnRay st offset t (k + 1) =
      (if (pieceAt st t).isEmpty = true then 0 else 1) + piecesOnRay st offset (t + offset) k := by
  unfold piecesOnRay
  rw [List.range_succ_eq_map, List.countP_cons, List.countP_map]
  have e : ((fun j : Nat => !(pieceAt st (t + (j : Int) * offset)).isEmpty) ∘ Nat.succ) =
      fun j : Nat => !(pieceAt st (t + offset + (j : Int) * offset)).isEmpty := by
    funext j
    have : t + ((j.succ : Nat) : Int) * offset = t + offset + (j : Int) * offset := by
      push_cast; ring
    simp only [Function.comp, this]
  rw [e]
  by_cases he : (pieceAt st t).isEmpty = true
  · simp [he]
  · simp [he]; omega

/-- Moving the start of the ray one square on: the first square must not be a
wall and counts as an obstacle when it is not empty. -/
theorem cannonHit_succ (st : State) (offset : Int) (obstacle : Nat) (t : Int) (k : Nat) :
    CannonHit st offset obstacle t (k + 1) ↔
      (pieceAt st t).isWall = false ∧
        CannonHit st offset (obstacle + if (pieceAt st t).isEmpty = true then 0 else 1)
          (t + offset) k := by
  have e : ∀ j : Nat, t + ((j + 1 : Nat) : Int) * offset = t + offset + (j : Int) * offset := by
    intro j; push_cast; ring
  unfold CannonHit
  rw [piecesOnRay_succ, e k]
  have hcnt : ∀ x : Nat, obstacle + ((if (pieceAt st t).isEmpty = true then 0 else 1) +
      piecesOnRay st offset (t + offset) k) = x ↔
      (obstacle + if (pieceAt st t).isEmpty = true then 0 else 1) +
      piecesOnRay st offset (t + offset) k = x := by
    intro x; omega
  rw [hcnt 0, hcnt 1]
  constructor
  · rintro ⟨hw, hrest⟩
    refine ⟨by simpa using hw 0 (by omega), ⟨fun j hj => ?_, hrest⟩⟩
    rw [← e]; exact hw (j + 1) (by omega)
  · rintro ⟨hw0, hw, hrest⟩
    refine ⟨fun j hj => ?_, hrest⟩
    cases j with
    | zero => simpa using hw0
    | succ j => rw [e]; exact hw j (by omega)

theorem cannonHit_zero (st : State) (offset : Int) (obstacle : Nat) (t : Int) :
    CannonHit st offset obstacle t 0 ↔
      (pieceAt st t).isWall = false ∧
        (((pieceAt st t).isEmpty = true ∧ obstacle = 0) ∨
          ((pieceAt st t).isEmpty = false ∧ obstacle = 1 ∧ (pieceAt st t).side ≠ st.side)) := by
  unfold CannonHit
  simp only [piecesOnRay_zero, Nat.cast_zero, zero_mul, add_zero, Nat.le_zero_eq, forall_eq]

/-- The cannon scan of one direction: it ends, and it appends exactly the
moves to the cannon destinations of the ray. -/
theorem cannonScan_spec (st : State) (s offset : Int) (ho : offset ≠ 0) :
    ∀ (fuel : Nat) (t : Int) (obstacle : Nat) (moves : List Move),
      scanRoom st offset t < fuel →
      ∃ res, cannonScan st s offset fuel t obstacle moves = some res ∧
        ∀ m, m ∈ res ↔ m ∈ moves ∨
          ∃ k : Nat, m = Move.mk2 s (t + (k : Int) * offset) ∧
            CannonHit st offset obstacle t k := by
  intro fuel
  induction fuel with
  | zero => intro t ob ms h; omega
  | succ n ih =>
    intro t ob ms h
    have split_k : ∀ (m : Move),
        (∃ k : Nat, m = Move.mk2 s (t + (k : Int) * offset) ∧ CannonHit st offset ob t k) ↔
        ((m = Move.mk2 s t ∧ CannonHit st offset ob t 0) ∨
          ∃ k : Nat, m = Move.mk2 s (t + offset + (k : Int) * offset) ∧
            CannonHit st offset ob t (k + 1)) := by
      intro m
      constructor
      · rintro ⟨k, hk1, hk2⟩
        cases k with
        | zero =>
          left
          simp only [Nat.cast_zero, zero_mul, add_zero] at hk1
          exact ⟨hk1, hk2⟩
        | succ k =>
          right
          refine ⟨k, ?_, hk2⟩
          rw [hk1]; congr 1; push_cast; ring
      · rintro (⟨h1, h2⟩ | ⟨k, h1, h2⟩)
        · exact ⟨0, by simp only [Nat.cast_zero, zero_mul, add_zero]; exact h1, h2⟩
        · refine ⟨k + 1, ?_, h2⟩
          rw [h1]; congr 1; push_cast; ring
    unfold cannonScan
    simp only []
    by_cases hw : (pieceAt st t).isWall = true
    · rw [if_pos hw]
      refine ⟨ms, rfl, fun m => ?_⟩
      rw [split_k]
      simp only [cannonHit_zero, cannonHit_succ, hw, Bool.true_eq_false, false_and, and_false,
        exists_false, or_false]
    · rw [if_neg hw]
      have hwf : (pieceAt st t).isWall = false := by simpa using hw
      have hnw := isWall_false_ne _ hwf
      have hstep := scanRoom_step st offset t ho hnw
      by_cases he : (pieceAt st t).isEmpty = true
      · rw [if_pos he]
        by_cases hob : ob = 0
        · rw [if_pos hob]
          obtain ⟨res, hres, hmem⟩ := ih (t + offset) ob (ms ++ [Move.mk2 s t]) (by omega)
          refine ⟨res, hres, fun m => ?_⟩
          rw [hmem, split_k]
          simp only [cannonHit_zero, cannonHit_succ, hwf, he, hob, if_true, add_zero, true_and,
            List.mem_append, List.mem_singleton, and_true, Bool.true_eq_false, false_and,
            or_false]
          tauto
        · rw [if_neg hob]
          obtain ⟨res, hres, hmem⟩ := ih (t + offset) ob ms (by omega)
          refine ⟨res, hres, fun m => ?_⟩
          rw [hmem, split_k]
          simp only [cannonHit_zero, cannonHit_succ, hwf, he, hob, if_true, add_zero, true_and,
            and_false, Bool.true_eq_false, false_and, or_false, false_or]
      · rw [if_neg he]
        have hef : (pieceAt st t).isEmpty = false := by simpa using he
        by_cases hc : ob + 1 = 2 ∧ (pieceAt st t).side ≠ st.side
        · rw [if_pos hc]
          refine ⟨_, rfl, fun m => ?_⟩
          rw [split_k]
          have hob : ob = 1 := by omega
          have hno : ∀ k, ¬ CannonHit st offset (1 + 1) (t + offset) k := by
            intro k hk
            rcases hk.2 with hh | hh <;> omega
          simp only [cannonHit_zero, cannonHit_succ, hwf, hef, hob, Bool.false_eq_true, if_false,
            true_and, List.mem_append, List.mem_singleton, false_and, false_or, hc.2,
            ne_eq, not_false_eq_true, and_true, hno, and_false, exists_false, or_false,
            one_ne_zero]
        · rw [if_neg hc]
          obtain ⟨res, hres, hmem⟩ := ih (t + offset) (ob + 1) ms (by omega)
          refine ⟨res, hres, fun m => ?_⟩
          rw [hmem, split_k]
          have hz : ¬ (ob = 1 ∧ (pieceAt st t).side ≠ st.side) := by
            intro hh; exact hc ⟨by omega, hh.2⟩
          simp only [cannonHit_zero, cannonHit_succ, hwf, hef, Bool.false_eq_true, if_false,
            true_and, false_and, false_or, hz, and_false, or_false]

/-- When every direction scan ends and appends the moves described by `Q`, the
loop over the offsets ends and appends the moves described by `Q` for some offset. -/
theorem forOffsets_spec (f : Int → List Move → Option (List Move))
    (Q : Int → Move → Prop) :
    ∀ (offsets : List Int),
      (∀ o ∈ offsets, ∀ moves, ∃ res, f o moves = some res ∧
        ∀ m, m ∈ res ↔ m ∈ moves ∨ Q o m) →
      ∀ moves, ∃ res, forOffsets f offsets moves = some res ∧
        ∀ m, m ∈ res ↔ m ∈ moves ∨ ∃ o ∈ offsets, Q o m := by
  intro offsets
  induction offsets with
  | nil =>
    intro _ moves
    exact ⟨moves, rfl, fun m => by simp⟩
  | cons o rest ih =>
    intro hf moves
    obtain ⟨r1, hr1, hm1⟩ := hf o (List.mem_cons_self _ _) moves
    obtain ⟨res, hres, hm⟩ := ih (fun o1 ho1 => hf o1 (List.mem_cons_of_mem _ ho1)) r1
    refine ⟨res, ?_, fun m => ?_⟩
    · simp only [forOffsets, hr1, hres]
    · rw [hm, hm1]
      simp only [List.mem_cons, exists_eq_or_imp]
      tauto

/-- **C6.** For every position and every source square, `generateCannonMoves`
ends and appends, for each of the four orthogonal directions, exactly these
moves: one to every empty square reached before any piece is met, and one to
the second piece met when that piece is not of the side to move.  Nothing is
appended for the first piece met, for an empty square beyond it, or for any
square beyond the second piece (`CannonHit` with no obstacle met at the start,
on the ray that begins on the square next to the source). -/
theorem generateCannonMoves_spec (st : State) (s : Int) (moves : List Move) :
    ∃ res, generateCannonMoves st s moves = some res ∧
      ∀ m, m ∈ res ↔ m ∈ moves ∨
        ∃ offset ∈ rookOffsets, ∃ k : Nat,
          m = Move.mk2 s (s + offset + (k : Int) * offset) ∧
            CannonHit st offset 0 (s + offset) k := by
  unfold generateCannonMoves
  exact forOffsets_spec _
    (fun offset m => ∃ k : Nat, m = Move.mk2 s (s + offset + (k : Int) * offset) ∧
      CannonHit st offset 0 (s + offset) k)
    rookOffsets
    (fun o ho ms => cannonScan_spec st s o (rookOffsets_ne_zero o ho) _ _ _ _
      (scanRoom_lt_scanFuel st o _))
    moves

/-! ## The cannon block of the attack detector -/

theorem cannonAttackHit_succ (st : State) (opSide : Side) (offset : Int) (obstacle : Nat)
    (t : Int) (k : Nat) :
    CannonAttackHit st opSide offset obstacle t (k + 1) ↔
      (pieceAt st t).isWall = false ∧
        CannonAttackHit st opSide offset
          (obstacle + if (pieceAt st t).isEmpty = true then 0 else 1) (t + offset) k := by
  have e : ∀ j : Nat, t + ((j + 1 : Nat) : Int) * offset = t + offset + (j : Int) * offset := by
    intro j; push_cast; ring
  unfold CannonAttackHit
  rw [piecesOnRay_succ, e k]
  have hcnt : obstacle + ((if (pieceAt st t).isEmpty = true then 0 else 1) +
      piecesOnRay st offset (t + offset) k) = 1 ↔
      (obstacle + if (pieceAt st t).isEmpty = true then 0 else 1) +
      piecesOnRay st offset (t + offset) k = 1 := by
    omega
  rw [hcnt]
  constructor
  · rintro ⟨hw, hrest⟩
    refine ⟨by simpa using hw 0 (by omega), ⟨fun j hj => ?_, hrest⟩⟩
    rw [← e]; exact hw (j + 1) (by omega)
  · rintro ⟨hw0, hw, hrest⟩
    refine ⟨fun j hj => ?_, hrest⟩
    cases j with
    | zero => simpa using hw0
    | succ j => rw [e]; exact hw j (by omega)

theorem cannonAttackHit_zero (st : State) (opSide : Side) (offset : Int) (obstacle : Nat)
    (t : Int) :
    CannonAttackHit st opSide offset obstacle t 0 ↔
      (pieceAt st t).isWall = false ∧ (pieceAt st t).isEmpty = false ∧ obstacle = 1 ∧
        (pieceAt st t).side = opSide ∧
        pieceHasMovement (pieceAt st t).type .CannonMovement = true := by
  unfold CannonAttackHit
  simp only [piecesOnRay_zero, Nat.cast_zero, zero_mul, add_zero, Nat.le_zero_eq, forall_eq]

theorem exists_nat_split (P : Nat → Prop) : (∃ k, P k) ↔ (P 0 ∨ ∃ k, P (k + 1)) := by
  constructor
  · rintro ⟨k, hk⟩
    cases k with
    | zero => exact Or.inl hk
    | succ k => exact Or.inr ⟨k, hk⟩
  · rintro (h | ⟨k, hk⟩)
    · exact ⟨0, h⟩
    · exact ⟨k + 1, hk⟩

/-- The cannon scan of one direction answers `true` exactly when the second
non-empty square of the ray holds an opposing piece with cannon movement. -/
theorem cannonAttackScan_true_iff (st : State) (opSide : Side) (offset : Int)
    (ho : offset ≠ 0) :
    ∀ (fuel : Nat) (t : Int) (obstacle : Nat), scanRoom st offset t < fuel →
      (cannonAttackScan st opSide offset fuel t obstacle = some true ↔
        ∃ k : Nat, CannonAttackHit st opSide offset obstacle t k) := by
  intro fuel
  induction fuel with
  | zero => intro t ob h; omega
  | succ n ih =>
    intro t ob h
    rw [exists_nat_split]
    unfold cannonAttackScan
    simp only []
    by_cases hw : (pieceAt st t).isWall = true
    · rw [if_pos hw]
      simp only [cannonAttackHit_zero, cannonAttackHit_succ, hw, Bool.true_eq_false, false_and,
        exists_false, or_false]
      simp
    · rw [if_neg hw]
      have hwf : (pieceAt st t).isWall = false := by simpa using hw
      have hnw := isWall_false_ne _ hwf
      have hstep := scanRoom_step st offset t ho hnw
      by_cases he : (pieceAt st t).isEmpty = true
      · simp only [he, Bool.not_true, Bool.false_eq_true, if_false]
        rw [ih _ _ (by omega)]
        simp only [cannonAttackHit_zero, cannonAttackHit_succ, hwf, he, if_true, add_zero,
          true_and, Bool.true_eq_false, false_and, false_or]
      · have hef : (pieceAt st t).isEmpty = false := by simpa using he
        simp only [hef, Bool.not_false, if_true]
        by_cases hc : ob + 1 = 2 ∧ (pieceAt st t).side = opSide ∧
            pieceHasMovement (pieceAt st t).type .CannonMovement = true
        · rw [if_pos hc]
          have hob : ob = 1 := by omega
          simp only [cannonAttackHit_zero, hwf, hef, hob, hc.2.1, hc.2.2, and_self, true_or]
        · rw [if_neg hc, ih _ _ (by omega)]
          have hz : ¬ (ob = 1 ∧ (pieceAt st t).side = opSide ∧
              pieceHasMovement (pieceAt st t).type .CannonMovement = true) := by
            intro hh; exact hc ⟨by omega, hh.2⟩
          simp only [cannonAttackHit_zero, cannonAttackHit_succ, hwf, hef, Bool.false_eq_true,
            if_false, true_and, hz, false_or]

/-- The cannon block answers `true` exactly when, in one of the four
orthogonal directions, the second non-empty square holds an opposing cannon. -/
theorem cannonAttacks_true_iff (st : State) (opSide : Side) (square : Int) :
    cannonAttacks st opSide square = some true ↔
      ∃ offset ∈ rookOffsets, ∃ k : Nat,
        CannonAttackHit st opSide offset 0 (square + offset) k := by
  unfold cannonAttacks
  rw [anyOffset_true_iff _ _ (fun o ho =>
    cannonAttackScan_total st opSide o (rookOffsets_ne_zero o ho) _ _ _
      (scanRoom_lt_scanFuel st o _))]
  constructor
  · rintro ⟨o, ho, h⟩
    exact ⟨o, ho, (cannonAttackScan_true_iff st opSide o (rookOffsets_ne_zero o ho) _ _ _
      (scanRoom_lt_scanFuel st o _)).mp h⟩
  · rintro ⟨o, ho, h⟩
    exact ⟨o, ho, (cannonAttackScan_true_iff st opSide o (rookOffsets_ne_zero o ho) _ _ _
      (scanRoom_lt_scanFuel st o _)).mpr h⟩

/-- **C7.** Cannon attack detection: when the knight, rook, pawn and king-meet
blocks of `inCheck` find no attacker of the square (only cannons can attack),
`inCheck(side, sq)` answers, and answers `true` if and only if in one of the
four orthogonal directions from `sq` the second non-empty square met holds an
opposing piece with cannon movement (exactly one piece stands before it on
the ray); a cannon met first, third or later does not count. -/
theorem cannon_attack_iff_second_piece (st : State) (side : Side) (sq : Int) (hsq : sq ≠ 0)
    (hn : knightAttacks st side side.opposite sq = false)
    (hr : rookAttacks st side.opposite sq = some false)
    (hp : pawnAttacks st side side.opposite sq = false)
    (hk : kingMeetAttacks st side.opposite sq = some false) :
    ∃ b, inCheck st side sq = some b ∧
      (b = true ↔ ∃ offset ∈ rookOffsets, ∃ k : Nat,
        CannonAttackHit st side.opposite offset 0 (sq + offset) k) := by
  obtain ⟨c, hc⟩ := cannonAttacks_total st side.opposite sq
  refine ⟨c, ?_, ?_⟩
  · unfold inCheck
    rw [if_neg hsq, attackedAt_eq st side sq c false false hc hr hk, hn, hp]
    simp
  · rw [← cannonAttacks_true_iff, hc]
    simp

set_option maxRecDepth 1000000 in
theorem cannon_attack_iff_second_piece_witness :
    inCheck cannonCheck .White 126 = some true ∧
      ∃ b, inCheck cannonCheck .White 126 = some b ∧
        (b = true ↔ ∃ offset ∈ rookOffsets, ∃ k : Nat,
          CannonAttackHit cannonCheck .Black offset 0 (126 + offset) k) :=
  ⟨by decide,
    cannon_attack_iff_second_piece cannonCheck .White 126 (by decide) (by decide) (by decide)
      (by decide) (by decide)⟩

/-! ## The knight generator -/

/-- One round of the leg filter: the two offsets are kept when the leg square
is a valid, empty square. -/
theorem mem_leg_step (rel : List Int) (v e : Bool) (a b d : Int) :
    d ∈ (if v = true then if e = true then rel ++ [a, b] else rel else rel) ↔
      d ∈ rel ∨ (v = true ∧ e = true ∧ (d = a ∨ d = b)) := by
  cases v <;> cases e <;> simp

theorem gate_pair (v e : Prop) (d a b : Int) :
    (v ∧ e ∧ (d = a ∨ d = b)) ↔ ((d = a ∧ v ∧ e) ∨ (d = b ∧ v ∧ e)) := by
  tauto

theorem exists_lt_eight (P : Nat → Prop) :
    (∃ i, i < 8 ∧ P i) ↔ P 0 ∨ P 1 ∨ P 2 ∨ P 3 ∨ P 4 ∨ P 5 ∨ P 6 ∨ P 7 := by
  constructor
  · rintro ⟨i, hi, h⟩
    interval_cases i <;> simp [h]
  · rintro (h | h | h | h | h | h | h | h)
    exacts [⟨0, by omega, h⟩, ⟨1, by omega, h⟩, ⟨2, by omega, h⟩, ⟨3, by omega, h⟩,
      ⟨4, by omega, h⟩, ⟨5, by omega, h⟩, ⟨6, by omega, h⟩, ⟨7, by omega, h⟩]

/-- The offsets that pass the leg filter: knight offset number `i` is kept
exactly when obstacle square number `i / 2` is a valid, empty square. -/
theorem mem_knightRelOffsets (st : State) (s d : Int) :
    d ∈ knightRelOffsets st s ↔
      ∃ i, i < 8 ∧ d = knightPreOffsets.getD i 0 ∧
        isValidSquare (chessSquare (s + knightObstacleOffsets.getD (i / 2) 0)) = true ∧
        (pieceAt st (s + knightObstacleOffsets.getD (i / 2) 0)).isEmpty = true := by
  rw [exists_lt_eight]
  unfold knightRelOffsets
  have hr : List.range knightObstacleOffsets.length = [0, 1, 2, 3] := rfl
  rw [hr]
  simp only [List.foldl_cons, List.foldl_nil, mem_leg_step, List.not_mem_nil, false_or,
    Nat.reduceMul, Nat.reduceAdd, Nat.reduceDiv, gate_pair, or_assoc]

/-- **C8.** For every position and every source square `s`,
`generateKnightMoves` appends a move to `s + d`, for `d` knight offset number
`i` of the eight, exactly when leg square number `i / 2` (the orthogonal
neighbour of `s` in the direction of the long leg of `d`) is a valid, empty
square and `s + d` is empty or holds a piece of the opposing side; nothing else
is appended.  Leg square `j` so gates exactly the offsets `2 j` and `2 j + 1`,
and each offset is two steps along its leg plus one step across. -/
theorem generateKnightMoves_spec (st : State) (s : Int) (moves : List Move) :
    (∀ m, m ∈ generateKnightMoves st s moves ↔ m ∈ moves ∨
      ∃ i, i < 8 ∧ m = Move.mk2 s (s + knightPreOffsets.getD i 0) ∧
        isValidSquare (chessSquare (s + knightObstacleOffsets.getD (i / 2) 0)) = true ∧
        (pieceAt st (s + knightObstacleOffsets.getD (i / 2) 0)).isEmpty = true ∧
        ((pieceAt st (s + knightPreOffsets.getD i 0)).isEmpty = true ∨
          (pieceAt st (s + knightPreOffsets.getD i 0)).side = st.side.opposite)) ∧
      ∀ i, i < 8 →
        ((knightObstacleOffsets.getD (i / 2) 0 = -arwidth ∨
            knightObstacleOffsets.getD (i / 2) 0 = arwidth) ∧
          (knightPreOffsets.getD i 0 = 2 * knightObstacleOffsets.getD (i / 2) 0 - 1 ∨
            knightPreOffsets.getD i 0 = 2 * knightObstacleOffsets.getD (i / 2) 0 + 1)) ∨
        ((knightObstacleOffsets.getD (i / 2) 0 = -1 ∨
            knightObstacleOffsets.getD (i / 2) 0 = 1) ∧
          (knightPreOffsets.getD i 0 = 2 * knightObstacleOffsets.getD (i / 2) 0 - arwidth ∨
            knightPreOffsets.getD i 0 = 2 * knightObstacleOffsets.getD (i / 2) 0 + arwidth)) := by
  constructor
  · intro m
    unfold generateKnightMoves
    rw [generateHoppingMoves_mem_iff]
    constructor
    · rintro (h | ⟨d, hd, hm, hc⟩)
      · exact Or.inl h
      · obtain ⟨i, hi, rfl, hv, he⟩ := (mem_knightRelOffsets st s d).mp hd
        exact Or.inr ⟨i, hi, hm, hv, he, hc⟩
    · rintro (h | ⟨i, hi, hm, hv, he, hc⟩)
      · exact Or.inl h
      · exact Or.inr ⟨_, (mem_knightRelOffsets st s _).mpr ⟨i, hi, rfl, hv, he⟩, hm, hc⟩
  · decide

/-! ## Two slips of the source, evaluated -/

set_option maxRecDepth 1000000 in
/-- **C9.** The knight block of `inCheck` looks for the king of `side` on the
squares the opposing knight reaches, not for the square it was asked about.
With a Black knight on c3 (index 102) whose leg c2 is free, the square d1
(index 125) is a knight's jump away and attacked as the claim words it, yet
`inCheck(White, d1)` answers `false`, because the White king stands on e1. -/
theorem knight_block_ignores_asked_square :
    WellFormed knightNearKing ∧
      pieceAt knightNearKing 102 = ⟨.Black, .Knight⟩ ∧
      KnightAttacksSquare knightNearKing .Black 125 ∧
      knightAttacks knightNearKing .White .Black 125 = false ∧
      inCheck knightNearKing .White 125 = some false := by
  decide

set_option maxRecDepth 1000000 in
/-- **C10.** The river test of `generateBishopMoves` admits rank index 5 for
White (`sq.rank() < 6`), one rank beyond White's half (rank indices 0 to 4, as
the pawn routine's `sq.rank() < height()/2` and Black's mirrored test
`sq.rank() > 4` have it).  A White bishop on e4 (index 93) with free eyes is
given the moves to c6 (index 69) and g6 (index 73), both on rank index 5, and
both pass the legality check. -/
theorem bishop_move_crosses_river :
    WellFormed bishopOnFourthRank ∧
      pieceAt bishopOnFourthRank 93 = ⟨.White, .Bishop⟩ ∧
      generateBishopMoves bishopOnFourthRank 93 [] =
        [Move.mk2 93 69, Move.mk2 93 73, Move.mk2 93 113, Move.mk2 93 117] ∧
      (chessSquare 69).rank = 5 ∧ (chessSquare 73).rank = 5 ∧
      ¬ ((chessSquare 69).rank < Int.tdiv height 2) ∧
      (legalMoves bishopOnFourthRank).map (fun r => decide (Move.mk2 93 69 ∈ r.1)) = some true := by
  decide

/-! ## Concrete checks of the generators -/

set_option maxRecDepth 1000000 in
/-- The cannon on b3 (index 101) in the starting position: four empty squares
up the file and the capture of the knight on b10 over the cannon on b8, one
square to the left, five to the right and one down; twelve moves. -/
theorem cannon_moves_from_b3 :
    (generateCannonMoves startPosition 101 []).map (fun l => l.map Move.targetSquare) =
      some [90, 79, 68, 57, 24, 100, 102, 103, 104, 105, 106, 112] := by
  decide

set_option maxRecDepth 1000000 in
/-- The knight on b1 (index 123) in the starting position: its leg b2 is free
and gives a3 and c3; the leg c1 holds the bishop and blocks d2. -/
theorem knight_moves_from_b1 :
    (generateKnightMoves startPosition 123 []).map Move.targetSquare = [100, 102] := by
  decide

/-! ## Geometry of the square array -/

theorem tmod_nonpos_of_neg (a : Int) (h : a < 0) : Int.tmod a 11 ≤ 0 := by
  cases a with
  | ofNat n => exact absurd h (by simp)
  | negSucc n =>
    show -((n.succ % 11 : Nat) : Int) ≤ 0
    omega

/-- File and rank of a non-negative array index. -/
theorem chessSquare_of_nonneg (i : Int) (h : 0 ≤ i) :
    (chessSquare i).file = i % 11 - 1 ∧ (chessSquare i).rank = 11 - i / 11 := by
  unfold chessSquare
  simp only [arwidth, width, height]
  rw [Int.tmod_eq_emod h (by decide), Int.tdiv_eq_ediv h (by decide)]
  constructor <;> omega

/-- A negative index has a negative file. -/
theorem chessSquare_of_neg (i : Int) (h : i < 0) : (chessSquare i).file < 0 := by
  unfold chessSquare
  simp only [arwidth, width]
  have := tmod_nonpos_of_neg i h
  show Int.tmod i (9 + 2) - 1 < 0
  have e : (9 : Int) + 2 = 11 := by decide
  rw [e]
  omega

/-- The squares `inFort` accepts, in index terms. -/
theorem inFort_iff (i : Int) :
    inFort i = true ↔
      0 ≤ i ∧ 4 ≤ i % 11 ∧ i % 11 ≤ 6 ∧
        ((9 ≤ i / 11 ∧ i / 11 ≤ 11) ∨ (2 ≤ i / 11 ∧ i / 11 ≤ 4)) := by
  unfold inFort
  by_cases h : 0 ≤ i
  · obtain ⟨hf, hr⟩ := chessSquare_of_nonneg i h
    simp only [hf, hr, Bool.and_eq_true, Bool.or_eq_true, decide_eq_true_eq]
    omega
  · have hf := chessSquare_of_neg i (by omega)
    simp only [Bool.and_eq_true, Bool.or_eq_true, decide_eq_true_eq]
    omega

/-- The squares of the palace of a side, in index terms. -/
theorem inPalace_iff (side : Side) (i : Int) :
    inPalace side i = true ↔
      0 ≤ i ∧ 4 ≤ i % 11 ∧ i % 11 ≤ 6 ∧
        ((side = .White ∧ 9 ≤ i / 11 ∧ i / 11 ≤ 11) ∨
          (side = .Black ∧ 2 ≤ i / 11 ∧ i / 11 ≤ 4)) := by
  unfold inPalace
  by_cases h : 0 ≤ i
  · obtain ⟨hf, hr⟩ := chessSquare_of_nonneg i h
    cases side <;>
      simp only [hf, hr, Bool.and_eq_true, decide_eq_true_eq, Bool.and_false,
        Bool.false_eq_true, false_and, and_false, or_false, false_or, true_and, reduceCtorEq] <;>
      omega
  · have hf := chessSquare_of_neg i (by omega)
    cases side <;>
      simp only [Bool.and_eq_true, decide_eq_true_eq, Bool.and_false,
        Bool.false_eq_true, false_and, and_false, or_false, false_or, true_and, reduceCtorEq] <;>
      omega

/-! ## King and advisor stay in the palace -/

theorem mem_rookOffsets (o : Int) : o ∈ rookOffsets ↔ o = -11 ∨ o = -1 ∨ o = 1 ∨ o = 11 := by
  simp [rookOffsets, arwidth, width]

theorem mem_advisorOffsets (o : Int) :
    o ∈ advisorOffsets ↔ o = -12 ∨ o = -10 ∨ o = 10 ∨ o = 12 := by
  simp [advisorOffsets, arwidth, width]

/-- A step of at most one rank that ends in a palace starts and ends in the
same palace when it starts in one. -/
theorem palace_step (side : Side) (s o : Int)
    (ho : o = -11 ∨ o = -1 ∨ o = 1 ∨ o = 11 ∨ o = -12 ∨ o = -10 ∨ o = 10 ∨ o = 12)
    (hs : inPalace side s = true) (ht : inFort (s + o) = true) :
    inPalace side (s + o) = true := by
  rw [inPalace_iff] at hs ⊢
  rw [inFort_iff] at ht
  cases side <;>
    simp only [reduceCtorEq, false_and, or_false, false_or, true_and, and_false] at hs ⊢ <;>
    omega

/-- **C11.** Every move appended by `generateKingMoves` or by
`generateAdvisorMoves` starts on the source square and ends one orthogonal
step (king) or one diagonal step (advisor) away on a square that `inFort`
accepts, that is, inside the White or the Black palace; and when the source
square lies in the palace of a side, the destination lies in that same palace. -/
theorem king_advisor_moves_stay_in_palace (st : State) (s : Int) (moves : List Move)
    (m : Move) :
    (m ∈ generateKingMoves st s moves → m ∈ moves ∨
      (m.sourceSquare = s ∧ (∃ o ∈ rookOffsets, m.targetSquare = s + o) ∧
        inFort m.targetSquare = true ∧
        (inPalace .White m.targetSquare = true ∨ inPalace .Black m.targetSquare = true) ∧
        ∀ side, inPalace side s = true → inPalace side m.targetSquare = true)) ∧
    (m ∈ generateAdvisorMoves st s moves → m ∈ moves ∨
      (m.sourceSquare = s ∧ (∃ o ∈ advisorOffsets, m.targetSquare = s + o) ∧
        inFort m.targetSquare = true ∧
        (inPalace .White m.targetSquare = true ∨ inPalace .Black m.targetSquare = true) ∧
        ∀ side, inPalace side s = true → inPalace side m.targetSquare = true)) := by
  have hfort : ∀ i, inFort i = true →
      inPalace .White i = true ∨ inPalace .Black i = true := by
    intro i hi
    rw [inFort_iff] at hi
    rw [inPalace_iff, inPalace_iff]
    simp only [reduceCtorEq, false_and, or_false, false_or, true_and]
    omega
  constructor
  · intro h
    unfold generateKingMoves at h
    rcases (generateHoppingMoves_mem_iff st s _ moves m).mp h with h | ⟨o, ho, rfl, _⟩
    · exact Or.inl h
    · obtain ⟨ho1, ho2⟩ := List.mem_filter.mp ho
      have ho3 := (mem_rookOffsets o).mp ho1
      exact Or.inr ⟨rfl, ⟨o, ho1, rfl⟩, ho2, hfort _ ho2,
        fun side hs => palace_step side s o (by omega) hs ho2⟩
  · intro h
    unfold generateAdvisorMoves at h
    rcases (generateHoppingMoves_mem_iff st s _ moves m).mp h with h | ⟨o, ho, rfl, _⟩
    · exact Or.inl h
    · obtain ⟨ho1, ho2⟩ := List.mem_filter.mp ho
      have ho3 := (mem_advisorOffsets o).mp ho1
      exact Or.inr ⟨rfl, ⟨o, ho1, rfl⟩, ho2, hfort _ ho2,
        fun side hs => palace_step side s o (by omega) hs ho2⟩

/-! ## The pawn generator -/

/-- The offsets `generatePawnMoves` hands to the hopping routine. -/
theorem pawnRelOffsets_eq (side : Side) (hside : side ≠ .NoSide) (s r : Int)
    (hr0 : r = (chessSquare s).rank) :
    (if side = .Black ∧ r > Int.tdiv height 2 - 1 then
        (if side = .White ∧ r < Int.tdiv height 2 then [(if side = .Black then 1 else -1) * arwidth]
          else if side = .White ∧ r > Int.tdiv height 2 - 1 then
            [(if side = .Black then 1 else -1) * arwidth, pawnPreOffsets.getD 1 0,
              pawnPreOffsets.getD 2 0]
          else []) ++ [(if side = .Black then 1 else -1) * arwidth]
      else if side = .Black ∧ r < Int.tdiv height 2 then
        (if side = .White ∧ r < Int.tdiv height 2 then [(if side = .Black then 1 else -1) * arwidth]
          else if side = .White ∧ r > Int.tdiv height 2 - 1 then
            [(if side = .Black then 1 else -1) * arwidth, pawnPreOffsets.getD 1 0,
              pawnPreOffsets.getD 2 0]
          else []) ++
          [(if side = .Black then 1 else -1) * arwidth, pawnPreOffsets.getD 1 0,
            pawnPreOffsets.getD 2 0]
      else
        (if side = .White ∧ r < Int.tdiv height 2 then [(if side = .Black then 1 else -1) * arwidth]
          else if side = .White ∧ r > Int.tdiv height 2 - 1 then
            [(if side = .Black then 1 else -1) * arwidth, pawnPreOffsets.getD 1 0,
              pawnPreOffsets.getD 2 0]
          else [])) =
      if pawnCrossedRiver side s = true then [pawnForward side, -1, 1]
      else [pawnForward side] := by
  unfold pawnCrossedRiver
  rw [← hr0]
  have h5 : Int.tdiv height 2 = 5 := by decide
  have hp1 : pawnPreOffsets.getD 1 0 = -1 := by decide
  have hp2 : pawnPreOffsets.getD 2 0 = 1 := by decide
  rw [h5, hp1, hp2]
  cases side with
  | NoSide => exact absurd rfl hside
  | White =>
    simp only [reduceCtorEq, false_and, if_false, true_and, pawnForward, decide_eq_true_eq]
    by_cases hr : r < 5
    · rw [if_pos hr, if_neg (by omega)]; simp
    · rw [if_neg hr, if_pos (by omega), if_pos (by omega)]; simp
  | Black =>
    simp only [reduceCtorEq, false_and, if_false, true_and, pawnForward, decide_eq_true_eq,
      List.nil_append, if_true, one_mul]
    by_cases hr : r > 5 - 1
    · rw [if_pos hr, if_neg (by omega)]
    · rw [if_neg hr, if_pos (by omega), if_pos (by omega)]

theorem generatePawnMoves_eq (st : State) (s : Int) (moves : List Move)
    (hside : st.side ≠ .NoSide) :
    generatePawnMoves st s moves =
      generateHoppingMoves st s
        (if pawnCrossedRiver st.side s = true then [pawnForward st.side, -1, 1]
         else [pawnForward st.side]) moves := by
  unfold generatePawnMoves
  simp only []
  rw [pawnRelOffsets_eq st.side hside s _ rfl]

/-- **C12.** For a side to move and a source square `s`, `generatePawnMoves`
appends exactly these moves: the one-step forward move (toward the opponent's
back rank) when the square ahead is empty or enemy-occupied, and, only for a
pawn that has crossed the river (rank index at least 5 for White, at most 4
for Black), the two one-step sideways moves, each when its destination is
empty or enemy-occupied.  No backward, diagonal or two-step move is appended.
On the playable grid the forward step changes the rank by one toward the
opponent and keeps the file, a sideways step keeps the rank. -/
theorem generatePawnMoves_spec (st : State) (s : Int) (moves : List Move)
    (hside : st.side ≠ .NoSide) :
    (∀ m, m ∈ generatePawnMoves st s moves ↔ m ∈ moves ∨
      (m = Move.mk2 s (s + pawnForward st.side) ∧ HopTarget st (s + pawnForward st.side)) ∨
      (pawnCrossedRiver st.side s = true ∧
        ((m = Move.mk2 s (s + -1) ∧ HopTarget st (s + -1)) ∨
          (m = Move.mk2 s (s + 1) ∧ HopTarget st (s + 1))))) ∧
    (isValidSquare (chessSquare s) = true →
      (chessSquare (s + pawnForward .White)).rank = (chessSquare s).rank + 1 ∧
      (chessSquare (s + pawnForward .Black)).rank = (chessSquare s).rank - 1 ∧
      (chessSquare (s + pawnForward st.side)).file = (chessSquare s).file ∧
      (chessSquare (s + -1)).rank = (chessSquare s).rank ∧
      (chessSquare (s + 1)).rank = (chessSquare s).rank) := by
  constructor
  · intro m
    rw [generatePawnMoves_eq st s moves hside, generateHoppingMoves_mem_iff]
    unfold HopTarget
    by_cases hc : pawnCrossedRiver st.side s = true
    · simp only [hc, if_true, List.mem_cons, List.mem_singleton, List.not_mem_nil, or_false,
        exists_eq_or_imp, exists_eq_left, true_and]
    · simp only [hc, if_false, List.mem_singleton, exists_eq_left, false_and, or_false,
        Bool.false_eq_true]
  · intro hv
    have hs0 : 0 ≤ s := by
      by_contra hneg
      have := chessSquare_of_neg s (by omega)
      simp only [isValidSquare, Bool.and_eq_true, decide_eq_true_eq] at hv
      omega
    obtain ⟨hf, hr⟩ := chessSquare_of_nonneg s hs0
    simp only [isValidSquare, Bool.and_eq_true, decide_eq_true_eq, hf, hr, width, height] at hv
    have hs22 : 22 ≤ s := by omega
    have e1 := chessSquare_of_nonneg (s + pawnForward .White)
      (by simp only [pawnForward, arwidth, width]; omega)
    have e2 := chessSquare_of_nonneg (s + pawnForward .Black)
      (by simp only [pawnForward, arwidth, width]; omega)
    have e3 := chessSquare_of_nonneg (s + -1) (by omega)
    have e4 := chessSquare_of_nonneg (s + 1) (by omega)
    have e5 := chessSquare_of_nonneg (s + pawnForward st.side)
      (by cases st.side <;> simp only [pawnForward, arwidth, width] <;> omega)
    rw [e1.2, e2.2, e3.2, e4.2, e5.1, hf, hr]
    simp only [pawnForward, arwidth, width] at *
    refine ⟨by omega, by omega, ?_, by omega, by omega⟩
    cases st.side <;> simp only [] <;> omega

set_option maxRecDepth 1000000 in
theorem generatePawnMoves_spec_witness :
    startPosition.side ≠ .NoSide ∧
      generatePawnMoves startPosition 89 [] = [Move.mk2 89 78] ∧
      pawnCrossedRiver startPosition.side 89 = false ∧
      ∀ m, m ∈ generatePawnMoves startPosition 89 [] ↔ m ∈ [] ∨
        (m = Move.mk2 89 (89 + pawnForward startPosition.side) ∧
          HopTarget startPosition (89 + pawnForward startPosition.side)) ∨
        (pawnCrossedRiver startPosition.side 89 = true ∧
          ((m = Move.mk2 89 (89 + -1) ∧ HopTarget startPosition (89 + -1)) ∨
            (m = Move.mk2 89 (89 + 1) ∧ HopTarget startPosition (89 + 1)))) :=
  ⟨by decide, by decide, by decide,
    (generatePawnMoves_spec startPosition 89 [] (by decide)).1⟩

set_option maxRecDepth 1000000 in
/-- **C13.** The pawn block of `inCheck` reports every opposing pawn on a
laterally adjacent square, whether or not that pawn has crossed the river.
With the White king on e7 (index 60) and a Black pawn on d7 (index 59), a
pawn on its own half that `generatePawnMoves` gives the forward step d6 only,
the king is not attacked as the claim words it, the cannon, knight, rook and
king-meet blocks find nothing, yet the pawn block and `inCheck(White)` answer
`true`. -/
theorem pawn_block_ignores_river :
    WellFormed kingBesidePawn ∧
      pieceAt kingBesidePawn 59 = ⟨.Black, .Pawn⟩ ∧
      pawnCrossedRiver .Black 59 = false ∧
      generatePawnMoves { kingBesidePawn with side := .Black } 59 [] = [Move.mk2 59 70] ∧
      ¬ PawnAttacksSquare kingBesidePawn .White 60 ∧
      cannonAttacks kingBesidePawn .Black 60 = some false ∧
      knightAttacks kingBesidePawn .White .Black 60 = false ∧
      rookAttacks kingBesidePawn .Black 60 = some false ∧
      kingMeetAttacks kingBesidePawn .Black 60 = some false ∧
      pawnAttacks kingBesidePawn .White .Black 60 = true ∧
      inCheck kingBesidePawn .White 0 = some true := by
  decide

/-! ## The reversible-move counter -/

@[simp] theorem setCastlingSquare_squares (st : State) (side : Side) (cside : CastlingSide)
    (v : Int) : (setCastlingSquare st side cside v).squares = st.squares := by
  obtain ⟨cr, k, h⟩ := setCastlingSquare_frame st side cside v
  rw [h]

@[simp] theorem setCastlingSquare_reversibleMoveCount (st : State) (side : Side)
    (cside : CastlingSide) (v : Int) :
    (setCastlingSquare st side cside v).reversibleMoveCount = st.reversibleMoveCount := by
  obtain ⟨cr, k, h⟩ := setCastlingSquare_frame st side cside v
  rw [h]

@[simp] theorem removeCastlingRights_squares (st : State) (square : Int) :
    (removeCastlingRights st square).squares = st.squares := by
  obtain ⟨cr, k, h⟩ := removeCastlingRights_frame st square
  rw [h]

@[simp] theorem removeCastlingRights_reversibleMoveCount (st : State) (square : Int) :
    (removeCastlingRights st square).reversibleMoveCount = st.reversibleMoveCount := by
  obtain ⟨cr, k, h⟩ := removeCastlingRights_frame st square
  rw [h]

theorem vMakeMoveKing_reversibleMoveCount (loc : MakeLocals) (m : Move) (side : Side)
    (source : Int) :
    (vMakeMoveKing loc m side source).st.reversibleMoveCount = loc.st.reversibleMoveCount := by
  unfold vMakeMoveKing
  simp only [setCastlingSquare_reversibleMoveCount, setKingSquare_reversibleMoveCount]
  split <;> simp [setSquare]

theorem vMakeMoveKing_isReversible (loc : MakeLocals) (m : Move) (side : Side) (source : Int) :
    (vMakeMoveKing loc m side source).isReversible = loc.isReversible := by
  unfold vMakeMoveKing
  simp only []
  split <;> rfl

theorem vMakeMoveRook_reversibleMoveCount (loc : MakeLocals) (side : Side) (source : Int) :
    (vMakeMoveRook loc side source).st.reversibleMoveCount = loc.st.reversibleMoveCount := by
  unfold vMakeMoveRook
  split
  · simp
  · split <;> simp

theorem vMakeMoveRook_squares (loc : MakeLocals) (side : Side) (source : Int) :
    (vMakeMoveRook loc side source).st.squares = loc.st.squares := by
  unfold vMakeMoveRook
  split
  · simp
  · split <;> simp

theorem makeLocalsBranch_reversibleMoveCount (st : State) (m : Move) :
    (makeLocalsBranch st m).st.reversibleMoveCount = st.reversibleMoveCount := by
  unfold makeLocalsBranch
  split
  · rw [vMakeMoveKing_reversibleMoveCount]; rfl
  · split
    · rw [vMakeMoveRook_reversibleMoveCount]; rfl
    · rfl

theorem makeLocalsCapture_reversibleMoveCount (st : State) (m : Move) :
    (makeLocalsCapture st m).st.reversibleMoveCount = st.reversibleMoveCount := by
  unfold makeLocalsCapture
  simp only []
  split
  · simp [makeLocalsBranch_reversibleMoveCount]
  · exact makeLocalsBranch_reversibleMoveCount st m

/-- An arithmetic result in the range of `int` is held as it is. -/
theorem wrapInt_of_range (x : Int) (h1 : intMin ≤ x) (h2 : x ≤ intMax) : wrapInt x = x := by
  unfold intMin at h1
  unfold intMax at h2
  unfold wrapInt
  omega

/-- What an `int` holds lies in the range of `int`. -/
theorem wrapInt_range (x : Int) : intMin ≤ wrapInt x ∧ wrapInt x ≤ intMax := by
  unfold wrapInt intMin intMax
  omega

/-- The counter after `vMakeMove`, in terms of the reversibility flag of its locals. -/
theorem vMakeMove_counter_flag (st : State) (m : Move) :
    (vMakeMove st m).reversibleMoveCount =
      if makePromotionType m = .NoPiece ∧ (makeLocalsCapture st m).isReversible = true then
        wrapInt (st.reversibleMoveCount + 1)
      else 0 := by
  have h := makeLocalsCapture_reversibleMoveCount st m
  unfold vMakeMove
  simp only [setSquare]
  cases hcl : (makeLocalsCapture st m).clearSource <;>
    cases hrev : (makeLocalsCapture st m).isReversible <;>
    by_cases hp : makePromotionType m = .NoPiece <;>
    simp [hp, h]

theorem makeLocalsStart_isReversible (st : State) (m : Move) :
    (makeLocalsStart st m).isReversible = true ↔ m.sourceSquare ≠ 0 := by
  unfold makeLocalsStart
  by_cases h : m.sourceSquare = 0 <;> simp [h]

/-- The reversibility flag after the king and rook branches. -/
theorem makeLocalsBranch_isReversible (st : State) (m : Move) :
    (makeLocalsBranch st m).isReversible = true ↔
      m.sourceSquare ≠ 0 ∧
        ¬ (movedPieceType st m = .Rook ∧
          (m.sourceSquare = st.castlingRights.rookSquare st.side .QueenSide ∨
            m.sourceSquare = st.castlingRights.rookSquare st.side .KingSide)) := by
  unfold makeLocalsBranch
  by_cases hK : movedPieceType st m = .King
  · rw [if_pos hK, vMakeMoveKing_isReversible, makeLocalsStart_isReversible]
    simp [hK]
  · rw [if_neg hK]
    by_cases hR : movedPieceType st m = .Rook
    · rw [if_pos hR]
      unfold vMakeMoveRook
      have hst : (makeLocalsStart st m).st = st := rfl
      simp only [hst]
      by_cases hq : m.sourceSquare = st.castlingRights.rookSquare st.side .QueenSide
      · simp [hq, hR]
      · by_cases hk : m.sourceSquare = st.castlingRights.rookSquare st.side .KingSide
        · rw [if_neg hq, if_pos hk]
          simp [hk, hR]
        · rw [if_neg hq, if_neg hk, makeLocalsStart_isReversible]
          simp [hq, hk]
    · rw [if_neg hR, makeLocalsStart_isReversible]
      simp [hR]

/-- The king and rook branches do not change what `captureType` answers for
the move, when the move has a target and the mover's castling rights point at
rooks of the mover. -/
theorem captureType_makeLocalsBranch (st : State) (m : Move) (ht : m.targetSquare ≠ 0)
    (hq : CastlingOk st st.side .QueenSide) (hk : CastlingOk st st.side .KingSide) :
    captureType (makeLocalsBranch st m).st m = captureType st m := by
  have hside := makeLocalsBranch_side st m
  unfold captureType
  rw [hside]
  have hsame : (makeLocalsBranch st m).st.squares = st.squares →
      (if (pieceAt (makeLocalsBranch st m).st m.targetSquare).side = st.side.opposite then
          (pieceAt (makeLocalsBranch st m).st m.targetSquare).type else PieceType.NoPiece) =
      (if (pieceAt st m.targetSquare).side = st.side.opposite then
          (pieceAt st m.targetSquare).type else PieceType.NoPiece) := by
    intro hsq
    unfold pieceAt
    rw [hsq]
  simp only []
  unfold makeLocalsBranch at hsame ⊢
  by_cases hK : movedPieceType st m = .King
  · rw [if_pos hK] at hsame ⊢
    by_cases hc : castlingSide st m = .NoCastlingSide
    · apply hsame
      have hstart : (makeLocalsStart st m).st = st := rfl
      unfold vMakeMoveKing
      simp only [hstart, hc, ne_eq, not_true_eq_false, if_false, setCastlingSquare_squares,
        setKingSquare_squares]
    · -- a castling move: the target holds a rook of the mover before, and that rook or
      -- nothing after the rook has been moved
      have hstart : (makeLocalsStart st m).st = st := rfl
      have htgt : (makeLocalsStart st m).target = m.targetSquare := rfl
      have hrook : pieceAt st m.targetSquare = ⟨st.side, .Rook⟩ := by
        unfold castlingSide at hc
        simp only [] at hc
        by_cases h1 : m.targetSquare = st.castlingRights.rookSquare st.side .QueenSide
        · rcases hq with h0 | h0
          · exact absurd (h1.trans h0) ht
          · rw [h1]; exact h0
        · by_cases h2 : m.targetSquare = st.castlingRights.rookSquare st.side .KingSide
          · rcases hk with h0 | h0
            · exact absurd (h2.trans h0) ht
            · rw [h2]; exact h0
          · simp [h1, h2] at hc
      have hsd : st.side ≠ .NoSide := by
        intro hns
        apply hc
        unfold castlingSide
        rw [hns]
        simp [CastlingRights.rookSquare, ht]
      have hafter : pieceAt (vMakeMoveKing (makeLocalsStart st m) m st.side m.sourceSquare).st
          m.targetSquare = ⟨st.side, .Rook⟩ ∨
          pieceAt (vMakeMoveKing (makeLocalsStart st m) m st.side m.sourceSquare).st
          m.targetSquare = Piece.noPiece := by
        have hnw : pieceAt st m.targetSquare ≠ Piece.wallPiece := by
          rw [hrook]; intro hh
          have := congrArg Piece.type hh
          cases this
        obtain ⟨h0, hl⟩ := pieceAt_not_wall_range st _ hnw
        unfold vMakeMoveKing
        simp only [hstart, htgt, hc, ne_eq, not_false_eq_true, if_true, pieceAt,
          setCastlingSquare_squares, setKingSquare_squares, setSquare]
        generalize (if castlingSide st m = CastlingSide.QueenSide then
          castleTarget st.side (castlingSide st m) + 1
          else castleTarget st.side (castlingSide st m) - 1) = rt
        rw [readSquare_writeSquare]
        by_cases hcond : m.targetSquare = rt ∧ 0 ≤ rt ∧
            rt.toNat < (writeSquare st.squares m.targetSquare Piece.noPiece).length
        · rw [if_pos hcond]
          exact Or.inl rfl
        · rw [if_neg hcond, readSquare_writeSquare, if_pos ⟨rfl, h0, hl⟩]
          exact Or.inr rfl
      rw [hrook]
      rcases hafter with h | h <;> rw [h] <;>
        cases hs : st.side <;> simp [Side.opposite, Piece.noPiece, Piece.ofType, hs] at hsd ⊢
  · rw [if_neg hK] at hsame ⊢
    apply hsame
    split
    · rw [vMakeMoveRook_squares]; rfl
    · rfl

/-- The target of a castling move holds a rook of the mover. -/
theorem castling_target_rook (st : State) (m : Move) (ht : m.targetSquare ≠ 0)
    (hq : CastlingOk st st.side .QueenSide) (hk : CastlingOk st st.side .KingSide)
    (hc : castlingSide st m ≠ .NoCastlingSide) :
    pieceAt st m.targetSquare = ⟨st.side, .Rook⟩ ∧ st.side ≠ .NoSide := by
  constructor
  · unfold castlingSide at hc
    simp only [] at hc
    by_cases h1 : m.targetSquare = st.castlingRights.rookSquare st.side .QueenSide
    · rcases hq with h0 | h0
      · exact absurd (h1.trans h0) ht
      · rw [h1]; exact h0
    · by_cases h2 : m.targetSquare = st.castlingRights.rookSquare st.side .KingSide
      · rcases hk with h0 | h0
        · exact absurd (h2.trans h0) ht
        · rw [h2]; exact h0
      · simp [h1, h2] at hc
  · intro hns
    apply hc
    unfold castlingSide
    rw [hns]
    simp [CastlingRights.rookSquare, ht]

/-- The counter after `vMakeMove`: 0 after an irreversible move, one more than
before, in `int` arithmetic, after any other move. -/
theorem vMakeMove_counter (st : State) (m : Move) (ht : m.targetSquare ≠ 0)
    (hq : CastlingOk st st.side .QueenSide) (hk : CastlingOk st st.side .KingSide) :
    (vMakeMove st m).reversibleMoveCount =
      if IrreversibleMove st m then 0 else wrapInt (st.reversibleMoveCount + 1) := by
  rw [vMakeMove_counter_flag]
  have hcap : (makeLocalsCapture st m).isReversible = true ↔
      captureType st m = .NoPiece ∧ (makeLocalsBranch st m).isReversible = true := by
    unfold makeLocalsCapture
    simp only []
    rw [captureType_makeLocalsBranch st m ht hq hk]
    by_cases hc : captureType st m = .NoPiece <;> simp [hc]
  have hprom : makePromotionType m = .NoPiece ↔
      (m.sourceSquare = 0 ∨ m.promotion = .NoPiece) := by
    unfold makePromotionType
    by_cases h0 : m.sourceSquare = 0 <;> simp [h0]
  have hiff : (makePromotionType m = .NoPiece ∧ (makeLocalsCapture st m).isReversible = true) ↔
      ¬ IrreversibleMove st m := by
    rw [hcap, hprom, makeLocalsBranch_isReversible]
    unfold IrreversibleMove
    tauto
  by_cases hirr : IrreversibleMove st m
  · rw [if_pos hirr, if_neg (fun h => (hiff.mp h) hirr)]
  · rw [if_neg hirr, if_pos (hiff.mpr hirr)]

set_option maxRecDepth 1000000 in
/-- The reading of C15 that fails.  A load accepts the counter 2147483647, the
greatest `int`.  The quiet pawn move a4-a5 made from the loaded position is no
capture, carries no promotion type, is no drop and no rook move, yet the
counter after `vMakeMove` is -2147483648, not the previous counter plus one. -/
theorem counter_wraps_at_int_max :
    ((vSetFenString staleStart ["-", "-", "2147483647", "1"]).map fun r =>
        (r.1, r.2.reversibleMoveCount)) = some (true, 2147483647) ∧
      ¬ IrreversibleMove (loadedPosition staleStart ["-", "-", "2147483647", "1"])
        ⟨89, 78, .NoPiece⟩ ∧
      (vMakeMove (loadedPosition staleStart ["-", "-", "2147483647", "1"])
        ⟨89, 78, .NoPiece⟩).reversibleMoveCount = -2147483648 ∧
      (vMakeMove (loadedPosition staleStart ["-", "-", "2147483647", "1"])
        ⟨89, 78, .NoPiece⟩).reversibleMoveCount ≠
        (loadedPosition staleStart ["-", "-", "2147483647", "1"]).reversibleMoveCount + 1 := by
  decide

/-- **C15** (amended). For every move with a target, made in a state whose
castling rights of the mover point at rooks of the mover, the reversible-move
counter after `vMakeMove` is 0 when the move is a capture, carries a promotion
type, is a drop (source 0) or is a rook move from a square holding one of the
mover's castling rights, and is otherwise the previous counter plus one in
`int` arithmetic: exactly the previous counter plus one when the previous
counter is an `int` below the greatest one, and the least `int` when the
previous counter is the greatest one.  A castling move (a king move onto the
square of a castling rook) without promotion type is among the moves that
increment the counter. -/
theorem counter_after_move (st : State) (m : Move) (ht : m.targetSquare ≠ 0)
    (hq : CastlingOk st st.side .QueenSide) (hk : CastlingOk st st.side .KingSide) :
    (vMakeMove st m).reversibleMoveCount =
        (if m.sourceSquare = 0 ∨ m.promotion ≠ .NoPiece ∨ captureType st m ≠ .NoPiece ∨
            (movedPieceType st m = .Rook ∧
              (m.sourceSquare = st.castlingRights.rookSquare st.side .QueenSide ∨
                m.sourceSquare = st.castlingRights.rookSquare st.side .KingSide))
          then 0 else wrapInt (st.reversibleMoveCount + 1)) ∧
      (intMin ≤ st.reversibleMoveCount → st.reversibleMoveCount < intMax →
        (vMakeMove st m).reversibleMoveCount =
          (if m.sourceSquare = 0 ∨ m.promotion ≠ .NoPiece ∨ captureType st m ≠ .NoPiece ∨
              (movedPieceType st m = .Rook ∧
                (m.sourceSquare = st.castlingRights.rookSquare st.side .QueenSide ∨
                  m.sourceSquare = st.castlingRights.rookSquare st.side .KingSide))
            then 0 else st.reversibleMoveCount + 1)) ∧
      (st.reversibleMoveCount = intMax → wrapInt (st.reversibleMoveCount + 1) = intMin) ∧
      (movedPieceType st m = .King → castlingSide st m ≠ .NoCastlingSide →
        m.sourceSquare ≠ 0 → m.promotion = .NoPiece →
        (vMakeMove st m).reversibleMoveCount = wrapInt (st.reversibleMoveCount + 1)) := by
  have h := vMakeMove_counter st m ht hq hk
  refine ⟨h, ?_, ?_, ?_⟩
  · intro h1 h2
    rw [h, wrapInt_of_range _ (by unfold intMin at *; omega) (by omega)]
    rfl
  · intro h1
    rw [h1]
    decide
  · intro hK hc hs hp
    obtain ⟨hrook, hsd⟩ := castling_target_rook st m ht hq hk hc
    have hcap : captureType st m = .NoPiece := by
      unfold captureType
      rw [hrook]
      cases hs : st.side <;> simp [Side.opposite, hs] at hsd ⊢
    rw [h, if_neg]
    unfold IrreversibleMove
    simp [hs, hp, hcap, hK]

set_option maxRecDepth 1000000 in
theorem counter_after_move_witness :
    movedPieceType castlingReady ⟨126, 130, .NoPiece⟩ = .King ∧
      castlingSide castlingReady ⟨126, 130, .NoPiece⟩ = .KingSide ∧
      (vMakeMove castlingReady ⟨126, 130, .NoPiece⟩).reversibleMoveCount = 1 ∧
      (vMakeMove castlingReady ⟨126, 130, .NoPiece⟩).reversibleMoveCount =
        wrapInt (castlingReady.reversibleMoveCount + 1) :=
  ⟨by decide, by decide,
    ((counter_after_move castlingReady ⟨126, 130, .NoPiece⟩ (by decide) (by decide)
      (by decide)).2.1 (by decide) (by decide)).trans (by decide),
    (counter_after_move castlingReady ⟨126, 130, .NoPiece⟩ (by decide) (by decide)
      (by decide)).2.2.2 (by decide) (by decide) (by decide) (by decide)⟩

set_option maxRecDepth 1000000 in
/-- The reading of C14 that fails: the a-pawn of the starting position steps
forward without capturing, with the counter at 7 before the move, and the
counter is 8 afterwards, not 0. -/
theorem pawn_move_does_not_reset_counter :
    pieceAt startPosition 89 = ⟨.White, .Pawn⟩ ∧
      pieceAt startPosition 78 = Piece.noPiece ∧
      (vMakeMove { startPosition with reversibleMoveCount := 7 }
        ⟨89, 78, .NoPiece⟩).reversibleMoveCount = 8 := by
  decide

/-- **C14** (amended). After `vMakeMove` of a move with a target, in a state
whose castling rights of the mover point at rooks of the mover and whose
counter is an `int` that is not negative, the reversible-move counter is 0
exactly when the move is a capture, carries a promotion type (as every drop
does) or is a rook move that revokes a castling right.  A pawn move that
neither captures nor promotes is not such a move: it does not reset the
counter but increments it by one in `int` arithmetic, which is the previous
counter plus one whenever the previous counter is below the greatest `int`. -/
theorem counter_reset_iff (st : State) (m : Move) (ht : m.targetSquare ≠ 0)
    (hq : CastlingOk st st.side .QueenSide) (hk : CastlingOk st st.side .KingSide)
    (hcount : 0 ≤ st.reversibleMoveCount) (hmax : st.reversibleMoveCount ≤ intMax)
    (hdrop : m.sourceSquare = 0 → m.promotion ≠ .NoPiece) :
    ((vMakeMove st m).reversibleMoveCount = 0 ↔
        (captureType st m ≠ .NoPiece ∨ m.promotion ≠ .NoPiece ∨
          (movedPieceType st m = .Rook ∧ m.sourceSquare ≠ 0 ∧
            (m.sourceSquare = st.castlingRights.rookSquare st.side .QueenSide ∨
              m.sourceSquare = st.castlingRights.rookSquare st.side .KingSide)))) ∧
      (pieceHasMovement (movedPieceType st m) .PawnMovement = true →
        captureType st m = .NoPiece → m.promotion = .NoPiece →
        (vMakeMove st m).reversibleMoveCount ≠ 0 ∧
          (vMakeMove st m).reversibleMoveCount = wrapInt (st.reversibleMoveCount + 1) ∧
          (st.reversibleMoveCount < intMax →
            (vMakeMove st m).reversibleMoveCount = st.reversibleMoveCount + 1)) := by
  have h := vMakeMove_counter st m ht hq hk
  have hnz : wrapInt (st.reversibleMoveCount + 1) ≠ 0 := by
    unfold intMax at hmax
    unfold wrapInt
    omega
  constructor
  · rw [h]
    by_cases hirr : IrreversibleMove st m
    · rw [if_pos hirr]
      simp only [true_iff]
      unfold IrreversibleMove at hirr
      by_cases h0 : m.sourceSquare = 0
      · exact Or.inr (Or.inl (hdrop h0))
      · tauto
    · rw [if_neg hirr]
      unfold IrreversibleMove at hirr
      constructor
      · intro hz; exact absurd hz hnz
      · intro hh; exfalso; apply hirr; tauto
  · intro hpawn hcap hp
    have hirr : ¬ IrreversibleMove st m := by
      unfold IrreversibleMove
      have hs : m.sourceSquare ≠ 0 := fun h0 => hdrop h0 hp
      have hR : movedPieceType st m ≠ .Rook := by
        intro hR; rw [hR] at hpawn; cases hpawn
      simp [hs, hp, hcap, hR]
    rw [h, if_neg hirr]
    refine ⟨hnz, rfl, fun hlt => ?_⟩
    exact wrapInt_of_range _ (by unfold intMin; omega) (by omega)

set_option maxRecDepth 1000000 in
theorem counter_reset_iff_witness :
    pieceHasMovement (movedPieceType startPosition ⟨89, 78, .NoPiece⟩) .PawnMovement = true ∧
      (vMakeMove startPosition ⟨89, 78, .NoPiece⟩).reversibleMoveCount ≠ 0 ∧
      (vMakeMove startPosition ⟨89, 78, .NoPiece⟩).reversibleMoveCount =
        startPosition.reversibleMoveCount + 1 :=
  ⟨by decide,
    ((counter_reset_iff startPosition ⟨89, 78, .NoPiece⟩ (by decide) (by decide) (by decide)
      (by decide) (by decide) (by decide)).2 (by decide) (by decide) (by decide)).1,
    ((counter_reset_iff startPosition ⟨89, 78, .NoPiece⟩ (by decide) (by decide) (by decide)
      (by decide) (by decide) (by decide)).2 (by decide) (by decide) (by decide)).2.2
      (by decide)⟩

/-! ## The legality trial leaves the position as it was -/

/-- The method `vUndoMove` neither reads nor writes the parent's move history. -/
theorem vUndoMove_moveHistory (s : State) (m : Move) (h : List (Move × Nat)) :
    vUndoMove { s with moveHistory := h } m =
      (vUndoMove s m).map fun r => { r with moveHistory := h } := by
  unfold vUndoMove
  simp only []
  cases s.history.getLast? with
  | none => rfl
  | some md =>
    simp only [Option.map_some']
    by_cases h1 : md.castlingSide = .NoCastlingSide <;>
    by_cases h3 : m.promotion = .NoPiece <;>
    by_cases h4 : m.sourceSquare = 0 <;>
    cases hs : s.side <;>
    simp only [State.setKingSquare, State.kingSquare, setSquare, pieceAt, h1, h3, h4, ne_eq,
      not_true_eq_false, not_false_eq_true, if_true, if_false, variantHasChanneling,
      Option.map_some', Bool.false_eq_true] <;>
    (try split) <;> rfl

/-- In a well-formed position a move whose destination is not a wall and is
empty or not held by the side to move is not a castling move. -/
theorem shaped_not_castling (st : State) (m : Move) (hwf : WellFormed st)
    (htw : pieceAt st m.targetSquare ≠ Piece.wallPiece)
    (hte : (pieceAt st m.targetSquare).isEmpty = true ∨
      (pieceAt st m.targetSquare).side ≠ st.side) :
    castlingSide st m = .NoCastlingSide := by
  have h0 := wallsInPlace_zero st hwf.1
  have key : ∀ cside, m.targetSquare ≠ st.castlingRights.rookSquare st.side cside := by
    intro cside heq
    rcases wellFormed_castling st hwf st.side cside with hc | hc
    · rw [← heq] at hc
      rw [hc] at htw
      exact htw h0
    · rw [← heq] at hc
      rw [hc] at hte
      rcases hte with hte | hte
      · cases hte
      · exact hte rfl
  unfold castlingSide
  simp only [key, if_false]

/-- The facts about a move of the generated shape in a well-formed position
that the round trip of make and undo needs. -/
theorem shaped_facts (st : State) (m : Move) (hwf : WellFormed st)
    (hss : (pieceAt st m.sourceSquare).side = st.side)
    (hsty : (pieceAt st m.sourceSquare).type ≠ .NoPiece)
    (hsh : MoveShape st m.sourceSquare m) :
    m.sourceSquare ≠ 0 ∧ m.sourceSquare ≠ m.targetSquare ∧
      castlingSide st m = .NoCastlingSide ∧
      vUndoMove (vMakeMove st m) m = some { st with key := (vMakeMove st m).key } := by
  obtain ⟨_, hprom, htw, hte⟩ := hsh
  have h0 := wallsInPlace_zero st hwf.1
  have hside := hwf.2.1
  have hkc := wellFormed_kingCache st hwf st.side hside
  have hsw : pieceAt st m.sourceSquare ≠ Piece.wallPiece := by
    intro hw
    rw [hw] at hss
    exact hside hss.symm
  have hst : m.sourceSquare ≠ m.targetSquare := by
    intro heq
    rw [← heq] at hte
    rcases hte with hte | hte
    · apply hsty
      simpa [Piece.isEmpty] using hte
    · exact hte hss
  have hcs := shaped_not_castling st m hwf htw hte
  refine ⟨fun h => hsw (h ▸ h0), hst, hcs, ?_⟩
  apply roundtrip_plain st m hside hsw htw h0 hss hst hprom hcs
  · intro hK
    refine (kingCache_unique st st.side hkc _ ?_).symm
    rw [← hss, ← hK]
  · intro _ heq
    rcases hkc.1 with hk | hk
    · rw [← heq] at hk
      exact htw (hk ▸ h0)
    · rw [← heq] at hk
      rw [hk] at hte
      rcases hte with hte | hte
      · cases hte
      · exact hte rfl

theorem opposite_opposite (s : Side) : s.opposite.opposite = s := by
  cases s <;> rfl

/-- The parent's `undoMove` after `makeMove` gives back the whole position,
the key included, for a move of the generated shape in a well-formed position. -/
theorem undoMove_makeMove (st : State) (m : Move) (hwf : WellFormed st)
    (hss : (pieceAt st m.sourceSquare).side = st.side)
    (hsty : (pieceAt st m.sourceSquare).type ≠ .NoPiece)
    (hsh : MoveShape st m.sourceSquare m) :
    undoMove (makeMove st m) = some st := by
  obtain ⟨hs0, hst, hcs, hrt⟩ := shaped_facts st m hwf hss hsty hsh
  obtain ⟨cr, k, rmc, hplain⟩ := vMakeMove_plain st m hs0 hst hsh.2.1 hcs
  have hmh : (vMakeMove st m).moveHistory = st.moveHistory := by rw [hplain]
  have hsd := vMakeMove_side st m
  unfold undoMove makeMove
  simp only [List.getLast?_concat, opposite_opposite]
  have hrec : ({ vMakeMove st m with
      side := (vMakeMove st m).side,
      moveHistory := (vMakeMove st m).moveHistory ++ [(m, st.key)] } : State) =
      { vMakeMove st m with moveHistory := (vMakeMove st m).moveHistory ++ [(m, st.key)] } := rfl
  rw [hrec, vUndoMove_moveHistory, hrt]
  simp only [Option.map_some', List.dropLast_concat, hmh]

/-- After a move of the generated shape `isLegalPosition` answers. -/
theorem isLegalPosition_makeMove (st : State) (m : Move) (hwf : WellFormed st)
    (hss : (pieceAt st m.sourceSquare).side = st.side)
    (hsty : (pieceAt st m.sourceSquare).type ≠ .NoPiece)
    (hsh : MoveShape st m.sourceSquare m) :
    ∃ b, isLegalPosition (makeMove st m) = some b := by
  obtain ⟨hs0, hst, hcs, _⟩ := shaped_facts st m hwf hss hsty hsh
  obtain ⟨cr, k, rmc, hplain⟩ := vMakeMove_plain st m hs0 hst hsh.2.1 hcs
  unfold isLegalPosition
  simp only []
  obtain ⟨c, hc⟩ := inCheck_total (makeMove st m) (makeMove st m).side.opposite 0
  rw [hc]
  cases c
  · have hh : (makeMove st m).history = st.history ++
        [⟨pieceAt st m.targetSquare, st.castlingRights, .NoCastlingSide,
          st.reversibleMoveCount⟩] := by
      unfold makeMove; rw [hplain]
    have hm : (makeMove st m).moveHistory = (vMakeMove st m).moveHistory ++ [(m, st.key)] := rfl
    simp only [hh, hm, List.getLast?_concat, ne_eq, not_true_eq_false, if_false]
    exact ⟨_, rfl⟩
  · exact ⟨_, rfl⟩

/-- The legality trial of a move of the generated shape in a well-formed
position answers and leaves the position as it was. -/
theorem vIsLegalMove_restores (st : State) (m : Move) (hwf : WellFormed st)
    (hss : (pieceAt st m.sourceSquare).side = st.side)
    (hsty : (pieceAt st m.sourceSquare).type ≠ .NoPiece)
    (hsh : MoveShape st m.sourceSquare m) :
    ∃ b, vIsLegalMove st m = some (b, st) := by
  unfold vIsLegalMove
  split
  · exact ⟨false, rfl⟩
  · unfold boardIsLegalMove
    obtain ⟨b, hb⟩ := isLegalPosition_makeMove st m hwf hss hsty hsh
    simp only [hb, undoMove_makeMove st m hwf hss hsty hsh]
    exact ⟨b, rfl⟩

/-! ## The generator always ends -/

theorem forOffsets_total (f : Int → List Move → Option (List Move)) :
    ∀ (offsets : List Int), (∀ o ∈ offsets, ∀ moves, ∃ res, f o moves = some res) →
      ∀ moves, ∃ res, forOffsets f offsets moves = some res := by
  intro offsets
  induction offsets with
  | nil => intro _ moves; exact ⟨moves, rfl⟩
  | cons o rest ih =>
    intro hf moves
    obtain ⟨r1, hr1⟩ := hf o (List.mem_cons_self _ _) moves
    obtain ⟨res, hres⟩ := ih (fun o1 ho1 => hf o1 (List.mem_cons_of_mem _ ho1)) r1
    exact ⟨res, by simp only [forOffsets, hr1, hres]⟩

theorem generateRookMoves_total (st : State) (s : Int) (moves : List Move) :
    ∃ res, generateRookMoves st s moves = some res := by
  unfold generateRookMoves generateSlidingMoves
  exact forOffsets_total _ rookOffsets
    (fun o ho ms => slidingScan_total st s o (rookOffsets_ne_zero o ho) _ _ _
      (scanRoom_lt_scanFuel st o _)) moves

theorem generateCannonMoves_total (st : State) (s : Int) (moves : List Move) :
    ∃ res, generateCannonMoves st s moves = some res := by
  unfold generateCannonMoves
  exact forOffsets_total _ rookOffsets
    (fun o ho ms => cannonScan_total st s o (rookOffsets_ne_zero o ho) _ _ _ _
      (scanRoom_lt_scanFuel st o _)) moves

theorem generateMovesForPiece_total (st : State) (moves : List Move) (pt : PieceType)
    (sq : Int) : ∃ res, generateMovesForPiece st moves pt sq = some res := by
  unfold generateMovesForPiece
  simp only []
  split
  · rename_i h
    split at h
    · obtain ⟨r, hr⟩ := generateRookMoves_total st sq _
      rw [hr] at h; cases h
    · cases h
  · split
    · exact generateCannonMoves_total st sq _
    · exact ⟨_, rfl⟩

theorem generateMovesLoop_total (st : State) (pt : PieceType) :
    ∀ (sqs : List Nat) (moves : List Move), ∃ res, generateMovesLoop st pt sqs moves = some res := by
  intro sqs
  induction sqs with
  | nil => intro moves; exact ⟨moves, rfl⟩
  | cons sq rest ih =>
    intro moves
    simp only [generateMovesLoop]
    split
    · obtain ⟨r, hr⟩ := generateMovesForPiece_total st moves (pieceAt st sq).type sq
      rw [hr]
      exact ih r
    · exact ih moves

/-- The generator ends on every position. -/
theorem generateMoves_total (st : State) (pt : PieceType) :
    ∃ res, generateMoves st pt = some res := by
  unfold generateMoves
  exact generateMovesLoop_total st pt _ _

/-! ## The answer of `canMove` -/

theorem canMoveLoop_eq (st : State) (hwf : WellFormed st) :
    ∀ moves : List Move,
      (∀ m ∈ moves, (pieceAt st m.sourceSquare).side = st.side ∧
        (pieceAt st m.sourceSquare).type ≠ .NoPiece ∧ MoveShape st m.sourceSquare m) →
      ∃ b, canMoveLoop st moves = some (b, st) ∧
        (b = true ↔ ∃ m ∈ moves, (vIsLegalMove st m).map Prod.fst = some true) := by
  intro moves
  induction moves with
  | nil => intro _; exact ⟨false, rfl, by simp⟩
  | cons m rest ih =>
    intro hsh
    obtain ⟨h1, h2, h3⟩ := hsh m (List.mem_cons_self _ _)
    obtain ⟨b, hb⟩ := vIsLegalMove_restores st m hwf h1 h2 h3
    cases b
    · obtain ⟨b1, hb1, hiff⟩ := ih (fun m1 hm1 => hsh m1 (List.mem_cons_of_mem _ hm1))
      refine ⟨b1, by simp only [canMoveLoop, hb, hb1], ?_⟩
      rw [hiff]
      simp only [List.mem_cons, exists_eq_or_imp, hb, Option.map_some']
      simp
    · refine ⟨true, by simp only [canMoveLoop, hb], ?_⟩
      simp only [List.mem_cons, exists_eq_or_imp, hb, Option.map_some', true_or]

/-- In a well-formed position `canMove` answers whether the side to move has a
legal move and leaves the position as it was. -/
theorem canMove_eq (st : State) (hwf : WellFormed st) :
    ∃ b, canMove st = some (b, st) ∧ (b = true ↔ HasLegalMove st) := by
  obtain ⟨ms, hms⟩ := generateMoves_total st .NoPiece
  have hshape : ∀ m ∈ ms, (pieceAt st m.sourceSquare).side = st.side ∧
      (pieceAt st m.sourceSquare).type ≠ .NoPiece ∧ MoveShape st m.sourceSquare m :=
    fun m hm => generated_shape st hwf.2.1 m ⟨ms, hms, hm⟩
  obtain ⟨b, hb, hiff⟩ := canMoveLoop_eq st hwf ms hshape
  have hcm : canMove st = some (b, st) := by
    unfold canMove
    rw [hms]
    exact hb
  refine ⟨b, hcm, ?_⟩
  rw [hiff]
  constructor
  · rintro ⟨m, hm, hl⟩
    exact ⟨m, ⟨ms, hms, hm⟩, hl⟩
  · rintro ⟨m, ⟨ms1, hms1, hm⟩, hl⟩
    rw [hms] at hms1
    cases hms1
    exact ⟨m, hm, hl⟩

/-! ## The material loop -/

/-- A fold whose step adds the value of the cell, and one point more for the
first cell of each of two kinds, computes the sum of the values plus one point
for each kind that occurs. -/
theorem material_fold_generic (step : MaterialLocals → Nat → MaterialLocals)
    (fL fD : Nat → Bool) (v : Nat → Int)
    (hstep : ∀ loc i, step loc i =
      ⟨loc.material + v i + (if loc.bishopsLight = false ∧ fL i = true then 1 else 0)
          + (if loc.bishopsDark = false ∧ fD i = true then 1 else 0),
        loc.bishopsLight || fL i, loc.bishopsDark || fD i⟩) :
    ∀ (l : List Nat) (loc : MaterialLocals),
      l.foldl step loc =
        ⟨loc.material + (if loc.bishopsLight = false ∧ l.any fL = true then 1 else 0)
            + (if loc.bishopsDark = false ∧ l.any fD = true then 1 else 0) + (l.map v).sum,
          loc.bishopsLight || l.any fL, loc.bishopsDark || l.any fD⟩ := by
  intro l
  induction l with
  | nil => intro loc; simp
  | cons i rest ih =>
    intro loc
    rw [List.foldl_cons, ih, hstep]
    obtain ⟨mat, bl, bd⟩ := loc
    simp only [List.any_cons, List.map_cons, List.sum_cons]
    rcases Bool.eq_false_or_eq_true (fL i) with ha | ha <;>
      rcases Bool.eq_false_or_eq_true (fD i) with hb | hb <;>
      rcases Bool.eq_false_or_eq_true (rest.any fL) with hc | hc <;>
      rcases Bool.eq_false_or_eq_true (rest.any fD) with hd | hd <;>
      cases bl <;> cases bd <;>
      simp only [ha, hb, hc, hd, Bool.or_true, Bool.or_false, Bool.true_or, Bool.false_or,
        and_self, and_true, and_false, true_and, false_and, if_true, if_false,
        Bool.false_eq_true, Bool.true_eq_false, MaterialLocals.mk.injEq] <;>
      omega

/-- One iteration of the material loop, in the form `material_fold_generic` asks for. -/
theorem materialStep_eq (st : State) (loc : MaterialLocals) (i : Nat) :
    materialStep st loc i =
      ⟨loc.material + pieceValue (pieceAt st (i : Int))
          + (if loc.bishopsLight = false ∧
              ((pieceAt st (i : Int)).isValid && decide ((pieceAt st (i : Int)).type = .Bishop) &&
                decide ((chessSquare (i : Int)).color = .Light)) = true then 1 else 0)
          + (if loc.bishopsDark = false ∧
              ((pieceAt st (i : Int)).isValid && decide ((pieceAt st (i : Int)).type = .Bishop) &&
                decide ((chessSquare (i : Int)).color = .Dark)) = true then 1 else 0),
        loc.bishopsLight ||
          ((pieceAt st (i : Int)).isValid && decide ((pieceAt st (i : Int)).type = .Bishop) &&
            decide ((chessSquare (i : Int)).color = .Light)),
        loc.bishopsDark ||
          ((pieceAt st (i : Int)).isValid && decide ((pieceAt st (i : Int)).type = .Bishop) &&
            decide ((chessSquare (i : Int)).color = .Dark))⟩ := by
  unfold materialStep pieceValue
  obtain ⟨mat, bl, bd⟩ := loc
  generalize (chessSquare (i : Int)).color = c
  generalize pieceAt st (i : Int) = p
  obtain ⟨sd, ty⟩ := p
  cases sd <;> cases ty <;> cases c <;> cases bl <;> cases bd <;> simp [Piece.isValid]

/-- The material the loop of `result` computes is the material of C17. -/
theorem materialLoop_material (st : State) :
    (materialLoop st).material = specMaterial st := by
  unfold materialLoop specMaterial bishopOnColor
  rw [material_fold_generic _ _ _ _ (materialStep_eq st)]
  simp

/-! ## The result evaluator -/

/-- The result in a well-formed position whose side to move has a legal move:
the three draw tests in the order of the source, on the material of C17. -/
theorem result_of_move (st : State) (repeatCount : Int) (hwf : WellFormed st)
    (hmove : HasLegalMove st) :
    result st repeatCount =
      some (if specMaterial st ≤ 1 then ⟨.Draw, .NoSide, .InsufficientMaterial⟩
        else if 100 ≤ st.reversibleMoveCount then ⟨.Draw, .NoSide, .FiftyMovesRule⟩
        else if 5 ≤ repeatCount then ⟨.Draw, .NoSide, .FiveFoldRepetition⟩
        else ⟨.NoResult, .NoSide, .NoText⟩, st) := by
  obtain ⟨b, hb, hiff⟩ := canMove_eq st hwf
  have hbt : b = true := hiff.mpr hmove
  subst hbt
  unfold result
  simp only [hb, materialLoop_material, ge_iff_le]
  split_ifs <;> rfl

/-- The counter after a run of reversible moves that stays in the range of
`int`: one more per move. -/
theorem playMoves_counter :
    ∀ (ms : List Move) (st : State), ReversibleRun st ms →
      intMin ≤ st.reversibleMoveCount → st.reversibleMoveCount + ms.length ≤ intMax →
      (playMoves st ms).reversibleMoveCount = st.reversibleMoveCount + ms.length := by
  intro ms
  induction ms with
  | nil => intro st _ _ _; simp [playMoves]
  | cons m rest ih =>
    intro st h hlo hhi
    obtain ⟨ht, hq, hk, hirr, hrest⟩ := h
    rw [List.length_cons] at hhi
    push_cast at hhi
    have hstep : (makeMove st m).reversibleMoveCount = st.reversibleMoveCount + 1 := by
      have h1 : (makeMove st m).reversibleMoveCount = (vMakeMove st m).reversibleMoveCount := rfl
      rw [h1, vMakeMove_counter st m ht hq hk, if_neg hirr]
      exact wrapInt_of_range _ (by unfold intMin at *; omega) (by omega)
    have h2 := ih (makeMove st m) hrest (by rw [hstep]; unfold intMin at *; omega)
      (by rw [hstep]; omega)
    unfold playMoves at h2 ⊢
    rw [List.foldl_cons, h2, hstep, List.length_cons]
    push_cast
    ring

/-- **C16.** In a well-formed position whose side to move has no legal move,
`result()` returns, for every repetition count, whatever the material and the
reversible-move counter are, a win for the side opposite to the side to move:
described as a mate when `inCheck` holds for the side to move and as a win by
stalemate when it does not; `inCheck` answers one of the two, and the position
is left as it was. -/
theorem no_legal_move_is_win_for_opponent (st : State) (repeatCount : Int)
    (hwf : WellFormed st) (hno : ¬ HasLegalMove st) :
    ∃ c, inCheck st st.side 0 = some c ∧
      result st repeatCount =
        some (⟨.Win, st.side.opposite, if c = true then .Mates else .WinByStalemate⟩, st) := by
  obtain ⟨b, hb, hiff⟩ := canMove_eq st hwf
  have hbf : b = false := by
    cases b
    · rfl
    · exact absurd (hiff.mp rfl) hno
  subst hbf
  obtain ⟨c, hc⟩ := inCheck_total st st.side 0
  refine ⟨c, hc, ?_⟩
  unfold result
  simp only [hb, hc]
  cases c <;> rfl

set_option maxRecDepth 1000000 in
theorem no_legal_move_is_win_for_opponent_witness :
    WellFormed stalematePosition ∧ ¬ HasLegalMove stalematePosition ∧
      1 < specMaterial stalematePosition ∧
      (result stalematePosition 0).map Prod.fst = some ⟨.Win, .Black, .WinByStalemate⟩ :=
  ⟨by decide, by decide, by decide, by
    obtain ⟨c, hc, hr⟩ :=
      no_legal_move_is_win_for_opponent stalematePosition 0 (by decide) (by decide)
    have hc0 : inCheck stalematePosition stalematePosition.side 0 = some false := by decide
    rw [hc0] at hc
    cases hc
    rw [hr]
    rfl⟩

set_option maxRecDepth 1000000 in
/-- The mate branch of `result`, evaluated: White, in check with no legal
move, has lost. -/
theorem mate_position_result :
    inCheck matePosition .White 0 = some true ∧
      (result matePosition 0).map Prod.fst = some ⟨.Win, .Black, .Mates⟩ := by
  decide

/-- **C17.** In a well-formed position whose side to move has a legal move,
`result()` returns a result and leaves the position as it was, and the result
is the draw by insufficient mating material if and only if the material is at
most 1, where the material (`specMaterial`) is 1 for each of the two square
colours on which at least one bishop of either side stands, plus 1 for each
advisor, 2 for each other piece that is not a king, and 0 for each king. -/
theorem insufficient_material_iff (st : State) (repeatCount : Int)
    (hwf : WellFormed st) (hmove : HasLegalMove st) :
    ∃ r, result st repeatCount = some (r, st) ∧
      (r = ⟨.Draw, .NoSide, .InsufficientMaterial⟩ ↔ specMaterial st ≤ 1) ∧
      (r.description = .InsufficientMaterial ↔ specMaterial st ≤ 1) := by
  refine ⟨_, result_of_move st repeatCount hwf hmove, ?_, ?_⟩
  · split_ifs <;> simp_all
  · split_ifs <;> simp_all

set_option maxRecDepth 1000000 in
theorem insufficient_material_iff_witness :
    WellFormed advisorEnding ∧ HasLegalMove advisorEnding ∧ specMaterial advisorEnding = 1 ∧
      (result advisorEnding 0).map Prod.fst = some ⟨.Draw, .NoSide, .InsufficientMaterial⟩ :=
  ⟨by decide, by decide, by decide, by
    obtain ⟨r, hr, hiff, _⟩ :=
      insufficient_material_iff advisorEnding 0 (by decide) (by decide)
    rw [hr, hiff.mpr (by decide)]
    rfl⟩

set_option maxRecDepth 1000000 in
/-- Two bishops of opposite sides on squares of one colour bring one point
together: the game is drawn for insufficient material. -/
theorem same_colour_bishops_count_once :
    (chessSquare 124).color = (chessSquare 36).color ∧
      pieceAt sameColourBishops 124 = ⟨.White, .Bishop⟩ ∧
      pieceAt sameColourBishops 36 = ⟨.Black, .Bishop⟩ ∧
      (materialLoop sameColourBishops).material = 1 ∧
      (result sameColourBishops 0).map Prod.fst =
        some ⟨.Draw, .NoSide, .InsufficientMaterial⟩ := by
  decide

/-- **C18.** In a well-formed position whose side to move has a legal move and
whose material exceeds 1, `result()` is the draw by the fifty-move rule
whenever the reversible-move counter is at least 100, and is a result other
than that draw while the counter is at most 99.  Moreover 100 moves in a row,
each counted as reversible by `vMakeMove`, played from a position whose counter
is 0, bring the counter to exactly 100. -/
theorem fifty_move_rule (st : State) (repeatCount : Int)
    (hwf : WellFormed st) (hmove : HasLegalMove st) (hmat : 1 < specMaterial st) :
    (100 ≤ st.reversibleMoveCount →
        result st repeatCount = some (⟨.Draw, .NoSide, .FiftyMovesRule⟩, st)) ∧
      (st.reversibleMoveCount ≤ 99 →
        ∃ r, result st repeatCount = some (r, st) ∧ r.description ≠ .FiftyMovesRule) ∧
      (∀ (start : State) (ms : List Move), start.reversibleMoveCount = 0 → ms.length = 100 →
        ReversibleRun start ms → (playMoves start ms).reversibleMoveCount = 100) := by
  have hr := result_of_move st repeatCount hwf hmove
  have hm : ¬ specMaterial st ≤ 1 := by omega
  rw [if_neg hm] at hr
  refine ⟨?_, ?_, ?_⟩
  · intro h
    rw [hr, if_pos h]
  · intro h
    have h1 : ¬ 100 ≤ st.reversibleMoveCount := by omega
    rw [if_neg h1] at hr
    refine ⟨_, hr, ?_⟩
    split_ifs <;> simp
  · intro start ms h0 hlen hrun
    rw [playMoves_counter ms start hrun (by rw [h0]; decide) (by rw [h0, hlen]; decide), h0,
      hlen]
    rfl

set_option maxRecDepth 1000000 in
theorem fifty_move_rule_witness :
    (result { startPosition with reversibleMoveCount := 100 } 0).map Prod.fst =
        some ⟨.Draw, .NoSide, .FiftyMovesRule⟩ ∧
      ReversibleRun startPosition rookShuffle ∧
      (playMoves startPosition rookShuffle).reversibleMoveCount = 100 :=
  ⟨by
    rw [(fifty_move_rule { startPosition with reversibleMoveCount := 100 } 0 (by decide)
      (by decide) (by decide)).1 (by decide)]
    rfl,
   by decide,
   (fifty_move_rule { startPosition with reversibleMoveCount := 100 } 0 (by decide)
      (by decide) (by decide)).2.2 startPosition rookShuffle (by decide) (by decide) (by decide)⟩

/-! ## The match loop of the move parser -/

theorem sanPick_cons (m : Move) (c : List Move) :
    sanPick none (m :: c) = sanPick (some m) c := by
  cases c <;> rfl

/-- The match loop returns the only matching legal move of its list, or the
null move, and leaves the position as it was. -/
theorem sanMatchLoop_eq (st : State) (q : SanFields) (hwf : WellFormed st) :
    ∀ (ms : List Move) (found : Option Move),
      (∀ m ∈ ms, (pieceAt st m.sourceSquare).side = st.side ∧
        (pieceAt st m.sourceSquare).type ≠ .NoPiece ∧ MoveShape st m.sourceSquare m) →
      sanMatchLoop st.side q st ms found =
        some (sanPick found (ms.filter fun m =>
          decide (sanFieldsMatch st st.side q m = true ∧
            (vIsLegalMove st m).map Prod.fst = some true)), st) := by
  intro ms
  induction ms with
  | nil => intro found _; cases found <;> rfl
  | cons m rest ih =>
    intro found hsh
    have hrest := fun fnd => ih fnd (fun m1 hm1 => hsh m1 (List.mem_cons_of_mem _ hm1))
    obtain ⟨h1, h2, h3⟩ := hsh m (List.mem_cons_self _ _)
    obtain ⟨b, hb⟩ := vIsLegalMove_restores st m hwf h1 h2 h3
    unfold sanMatchLoop
    by_cases hf : sanFieldsMatch st st.side q m = false
    · rw [if_pos hf, hrest, List.filter_cons_of_neg (by simp [hf])]
    · rw [if_neg hf]
      have hf1 : sanFieldsMatch st st.side q m = true := by simpa using hf
      cases b
      · simp only [hb]
        rw [hrest, List.filter_cons_of_neg (by simp [hb])]
      · simp only [hb]
        rw [List.filter_cons_of_pos (by simp [hb, hf1])]
        cases found with
        | none =>
          simp only [ne_eq, not_true_eq_false, if_false]
          rw [hrest, sanPick_cons]
        | some f =>
          simp only [ne_eq, reduceCtorEq, not_false_eq_true, if_true]
          rfl

theorem sanPick_none_ne_null (c : List Move) (h : sanPick none c ≠ Move.null) :
    c = [sanPick none c] := by
  match c with
  | [] => exact absurd rfl h
  | [m] => rfl
  | _ :: _ :: _ => exact absurd rfl h

theorem sanPick_none_two (c : List Move) (m1 m2 : Move) (h1 : m1 ∈ c) (h2 : m2 ∈ c)
    (hne : m1 ≠ m2) : sanPick none c = Move.null := by
  match c with
  | [] => rfl
  | [m] =>
    simp only [List.mem_singleton] at h1 h2
    exact absurd (h1.trans h2.symm) hne
  | _ :: _ :: _ => rfl

/-- Every move of the square loop of `generateMoves` run for a piece type
starts on a square that holds a piece of that type. -/
theorem generateMovesLoop_type (st : State) (hside : st.side ≠ .NoSide) (pt : PieceType)
    (m : Move) :
    ∀ (sqs : List Nat) (moves res : List Move),
      generateMovesLoop st pt sqs moves = some res → m ∈ res →
      m ∈ moves ∨ pt = .NoPiece ∨ (pieceAt st m.sourceSquare).type = pt := by
  intro sqs
  induction sqs with
  | nil => intro moves res h hm; simp only [generateMovesLoop] at h; cases h; exact Or.inl hm
  | cons sq rest ih =>
    intro moves res h hm
    simp only [generateMovesLoop] at h
    split at h
    · rename_i hc
      split at h
      · cases h
      · rename_i moves1 h1
        rcases ih _ _ h hm with h2 | h2
        · rcases generateMovesForPiece_shape st hside _ _ _ _ m h1 h2 with h3 | ⟨h3, h4⟩
          · exact Or.inl h3
          · have hsrc : m.sourceSquare = (sq : Int) := h4.1
            rw [hsrc]
            exact Or.inr hc.2
        · exact Or.inr h2
    · exact ih _ _ h hm

/-- The tests of the match loop before the legality trial, for a move of the
generated shape: the move passes them exactly when it ends on the target read
from the string, its source square has the file and the rank asked for, and
the string names no promotion. -/
theorem sanFieldsMatch_iff (st : State) (q : SanFields) (m : Move) (hs0 : m.sourceSquare ≠ 0)
    (hsh : MoveShape st m.sourceSquare m) :
    sanFieldsMatch st st.side q m = true ↔
      (m.targetSquare = q.target ∧
        (q.sourceFile ≠ -1 → (chessSquare m.sourceSquare).file = q.sourceFile) ∧
        (q.sourceRank ≠ -1 → (chessSquare m.sourceSquare).rank = q.sourceRank) ∧
        q.promotion = .NoPiece) := by
  obtain ⟨_, hprom, _, hte⟩ := hsh
  unfold sanFieldsMatch
  by_cases ht : m.targetSquare = q.target
  · have hrook : pieceAt st q.target ≠ ⟨st.side, .Rook⟩ := by
      rw [← ht]
      intro h
      rw [h] at hte
      rcases hte with he | he
      · cases he
      · exact he rfl
    rw [if_neg (by simp [hs0, ht])]
    simp only [ht, true_and, hprom, hrook, if_false]
    by_cases hp : PieceType.NoPiece = q.promotion
    · have hp2 : q.promotion = .NoPiece := hp.symm
      by_cases hr : q.sourceRank = -1 <;> by_cases hf : q.sourceFile = -1 <;>
        by_cases hr2 : (chessSquare m.sourceSquare).rank = q.sourceRank <;>
        by_cases hf2 : (chessSquare m.sourceSquare).file = q.sourceFile <;>
        simp [hr, hf, hr2, hf2, hp2]
    · have hp2 : ¬ q.promotion = .NoPiece := fun h => hp h.symm
      by_cases hr : q.sourceRank = -1 <;> by_cases hf : q.sourceFile = -1 <;>
        by_cases hr2 : (chessSquare m.sourceSquare).rank = q.sourceRank <;>
        by_cases hf2 : (chessSquare m.sourceSquare).file = q.sourceFile <;>
        simp [hr, hf, hr2, hf2, hp, hp2]
  · rw [if_pos (Or.inr ht)]
    simp [ht]

/-- **C19.** In a well-formed position the match loop of `moveFromSanString`,
run on the fields read from the string (piece type, target square, the source
file and rank asked for, promotion), ends, leaves the position as it was, and
returns a move that is not the null move only if that move is a legal move of
the piece type that ends on the target square and whose source square has the
file and the rank asked for, and no other such move exists; when no legal move
matches, and when two different legal moves match, it returns the null move. -/
theorem san_match_unique (st : State) (q : SanFields) (hwf : WellFormed st) :
    ∃ r, sanFindMove st q = some (r, st) ∧
      (r ≠ Move.null → SanMatch st q r ∧ ∀ m, SanMatch st q m → m = r) ∧
      ((∀ m, ¬ SanMatch st q m) → r = Move.null) ∧
      (∀ m1 m2, SanMatch st q m1 → SanMatch st q m2 → m1 ≠ m2 → r = Move.null) := by
  obtain ⟨ms, hms⟩ := generateMoves_total st q.pieceType
  have hshape : ∀ m ∈ ms, (pieceAt st m.sourceSquare).side = st.side ∧
      (pieceAt st m.sourceSquare).type ≠ .NoPiece ∧ MoveShape st m.sourceSquare m := by
    intro m hm
    unfold generateMoves at hms
    rcases generateMovesLoop_shape st hwf.2.1 _ m _ _ _ hms hm with h | h
    · cases h
    · exact h
  have htype : ∀ m ∈ ms, q.pieceType = .NoPiece ∨
      (pieceAt st m.sourceSquare).type = q.pieceType := by
    intro m hm
    unfold generateMoves at hms
    rcases generateMovesLoop_type st hwf.2.1 _ m _ _ _ hms hm with h | h
    · cases h
    · exact h
  have hloop := sanMatchLoop_eq st q hwf ms none hshape
  have hfind : sanFindMove st q = some (sanPick none (ms.filter fun m =>
      decide (sanFieldsMatch st st.side q m = true ∧
        (vIsLegalMove st m).map Prod.fst = some true)), st) := by
    unfold sanFindMove
    rw [hms]
    exact hloop
  have hmem : ∀ m, (SanMatch st q m ∧ q.promotion = .NoPiece) ↔ m ∈ ms.filter fun m =>
      decide (sanFieldsMatch st st.side q m = true ∧
        (vIsLegalMove st m).map Prod.fst = some true) := by
    intro m
    rw [List.mem_filter]
    unfold SanMatch
    constructor
    · rintro ⟨⟨⟨ms1, hms1, hm⟩, _, hl, ht, hf, hr⟩, hp⟩
      rw [hms] at hms1
      cases hms1
      obtain ⟨h1, h2, h3⟩ := hshape m hm
      have hcode := (sanFieldsMatch_iff st q m (shaped_facts st m hwf h1 h2 h3).1 h3).mpr
        ⟨ht, hf, hr, hp⟩
      exact ⟨hm, by simp [hcode, hl]⟩
    · rintro ⟨hm, hd⟩
      have hd1 := of_decide_eq_true hd
      obtain ⟨h1, h2, h3⟩ := hshape m hm
      obtain ⟨ht, hf, hr, hp⟩ :=
        (sanFieldsMatch_iff st q m (shaped_facts st m hwf h1 h2 h3).1 h3).mp hd1.1
      exact ⟨⟨⟨ms, hms, hm⟩, htype m hm, hd1.2, ht, hf, hr⟩, hp⟩
  generalize (ms.filter fun m =>
      decide (sanFieldsMatch st st.side q m = true ∧
        (vIsLegalMove st m).map Prod.fst = some true)) = c at hfind hmem
  refine ⟨_, hfind, ?_, ?_, ?_⟩
  · intro hne
    have hc := sanPick_none_ne_null c hne
    have hin : sanPick none c ∈ c := by
      have hin1 : sanPick none c ∈ [sanPick none c] := List.mem_singleton.mpr rfl
      rw [← hc] at hin1
      exact hin1
    have hr := (hmem _).mpr hin
    constructor
    · exact hr.1
    · intro m hm
      have hm1 := (hmem m).mp ⟨hm, hr.2⟩
      rw [hc] at hm1
      exact List.mem_singleton.mp hm1
  · intro hnone
    have hnil : c = [] := by
      rw [List.eq_nil_iff_forall_not_mem]
      intro m hm
      exact hnone m ((hmem m).mpr hm).1
    rw [hnil]
    rfl
  · intro m1 m2 h1 h2 hne
    by_cases hp : q.promotion = .NoPiece
    · exact sanPick_none_two c m1 m2 ((hmem m1).mp ⟨h1, hp⟩) ((hmem m2).mp ⟨h2, hp⟩) hne
    · have hnil : c = [] := by
        rw [List.eq_nil_iff_forall_not_mem]
        intro m hm
        exact hp ((hmem m).mpr hm).2
      rw [hnil]
      rfl

set_option maxRecDepth 1000000 in
theorem san_match_unique_witness :
    WellFormed startPosition ∧
      (sanFindMove startPosition ⟨.Pawn, 78, -1, -1, .NoPiece⟩).map Prod.fst =
        some ⟨89, 78, .NoPiece⟩ ∧
      (sanFindMove twoPawns ⟨.Pawn, 68, -1, -1, .NoPiece⟩).map Prod.fst = some Move.null ∧
      (sanFindMove twoPawns ⟨.Pawn, 68, 0, -1, .NoPiece⟩).map Prod.fst =
        some ⟨67, 68, .NoPiece⟩ ∧
      (sanFindMove twoPawns ⟨.Pawn, 68, 2, -1, .NoPiece⟩).map Prod.fst =
        some ⟨69, 68, .NoPiece⟩ ∧
      (sanFindMove twoPawns ⟨.Pawn, 68, -1, 4, .NoPiece⟩).map Prod.fst = some Move.null ∧
      SanMatch startPosition ⟨.Pawn, 78, -1, -1, .NoPiece⟩ ⟨89, 78, .NoPiece⟩ ∧
      ∀ m, SanMatch startPosition ⟨.Pawn, 78, -1, -1, .NoPiece⟩ m → m = ⟨89, 78, .NoPiece⟩ := by
  have hfound : (sanFindMove startPosition ⟨.Pawn, 78, -1, -1, .NoPiece⟩).map Prod.fst =
      some ⟨89, 78, .NoPiece⟩ := by decide
  obtain ⟨r, hr, h1, _, _⟩ :=
    san_match_unique startPosition ⟨.Pawn, 78, -1, -1, .NoPiece⟩ (by decide)
  rw [hr] at hfound
  simp only [Option.map_some', Option.some.injEq] at hfound
  subst hfound
  exact ⟨by decide, by rw [hr]; rfl, by decide, by decide, by decide, by decide, h1 (by decide)⟩

/-! ## The move string of a pawn move -/

/-- A move of the generated shape that gives no check gets no check or mate
mark, and the position is as it was afterwards. -/
theorem sanCheckOrMate_quiet (st : State) (m : Move) (hwf : WellFormed st)
    (hss : (pieceAt st m.sourceSquare).side = st.side)
    (hsty : (pieceAt st m.sourceSquare).type ≠ .NoPiece)
    (hsh : MoveShape st m.sourceSquare m)
    (hq : inCheck (makeMove st m) (makeMove st m).side 0 = some false) :
    sanCheckOrMate st m = some (none, st) := by
  unfold sanCheckOrMate
  simp only [hq, Bool.false_eq_true, if_false, undoMove_makeMove st m hwf hss hsty hsh]

/-- The string `sanMoveString` builds for a pawn move that neither captures
nor gives check is the string of the target square alone: nothing in it
depends on the source square. -/
theorem sanMoveString_pawn_quiet (tx : TextHelpers) (st : State) (m : Move)
    (hwf : WellFormed st)
    (hss : (pieceAt st m.sourceSquare).side = st.side)
    (hpawn : (pieceAt st m.sourceSquare).type = .Pawn)
    (hsh : MoveShape st m.sourceSquare m)
    (hcap : (pieceAt st m.targetSquare).isValid = false)
    (hq : inCheck (makeMove st m) (makeMove st m).side 0 = some false) :
    sanMoveString tx st m = some (tx.squareString m.targetSquare, st) := by
  have hsty : (pieceAt st m.sourceSquare).type ≠ .NoPiece := by rw [hpawn]; decide
  obtain ⟨hs0, _, _, _⟩ := shaped_facts st m hwf hss hsty hsh
  have hcap2 : (if m.sourceSquare = m.targetSquare then Piece.noPiece
      else pieceAt st m.targetSquare).isValid = false := by
    split
    · rfl
    · exact hcap
  unfold sanMoveString
  simp only [sanCheckOrMate_quiet st m hwf hss hsty hsh hq, hs0, false_and, if_false, hpawn,
    reduceCtorEq, ne_eq, not_true_eq_false, pawnAmbiguous, Bool.false_eq_true, hcap2, or_self,
    and_false, decide_False, hsh.2.1, addCheckOrMate, String.empty_append]

set_option maxRecDepth 1000000 in
/-- **C20.** The short-algebraic round trip fails for pawns.  With White
pawns on a6 and c6 (array cells 67 and 69), both across the river, the two
different legal moves a6-b6 and c6-b6 get the same string from `sanMoveString`
for every choice of the parent's text helpers, namely the string of the
target square b6 (cell 68), because `m_pawnAmbiguous` is never set; so no
parser can give back both moves, and the match loop of `moveFromSanString`,
run on the fields of that string (a pawn, target b6, no source file or rank,
no promotion), finds both moves and returns the null move. -/
theorem pawn_san_round_trip_fails :
    WellFormed twoPawns ∧
      (⟨67, 68, .NoPiece⟩ : Move) ≠ ⟨69, 68, .NoPiece⟩ ∧
      pieceAt twoPawns 67 = ⟨.White, .Pawn⟩ ∧ pieceAt twoPawns 69 = ⟨.White, .Pawn⟩ ∧
      (vIsLegalMove twoPawns ⟨67, 68, .NoPiece⟩).map Prod.fst = some true ∧
      (vIsLegalMove twoPawns ⟨69, 68, .NoPiece⟩).map Prod.fst = some true ∧
      (∀ tx : TextHelpers,
        sanMoveString tx twoPawns ⟨67, 68, .NoPiece⟩ = some (tx.squareString 68, twoPawns) ∧
        sanMoveString tx twoPawns ⟨69, 68, .NoPiece⟩ = some (tx.squareString 68, twoPawns)) ∧
      (sanFindMove twoPawns ⟨.Pawn, 68, -1, -1, .NoPiece⟩).map Prod.fst = some Move.null ∧
      pawnAmbiguity = 0 := by
  refine ⟨by decide, by decide, by decide, by decide, by decide, by decide, ?_, by decide, rfl⟩
  intro tx
  exact ⟨sanMoveString_pawn_quiet tx twoPawns ⟨67, 68, .NoPiece⟩ (by decide) (by decide)
      (by decide) (by unfold MoveShape; decide) (by decide) (by decide),
    sanMoveString_pawn_quiet tx twoPawns ⟨69, 68, .NoPiece⟩ (by decide) (by decide)
      (by decide) (by unfold MoveShape; decide) (by decide) (by decide)⟩

/-! ## A side without king is never in check -/

/-- **C24.** When the king-square cache of `side` is 0, `inCheck(side)` called
without a square (square 0) returns `false`, whatever the squares, the other
side and every other member of the position hold. -/
theorem inCheck_without_king (st : State) (side : Side) (h : st.kingSquare side = 0) :
    inCheck st side 0 = some false := by
  unfold inCheck
  rw [if_pos rfl, if_pos h]

set_option maxRecDepth 1000000 in
theorem inCheck_without_king_witness :
    pieceAt uncachedKing 125 = ⟨.White, .King⟩ ∧
      inCheck uncachedKing .White 125 = some true ∧
      inCheck uncachedKing .White 0 = some false :=
  ⟨by decide, by decide, inCheck_without_king uncachedKing .White (by decide)⟩

/-! ## The castling rights table -/

/-- Reading the table after a write: the written entry holds the new value,
every other entry is as before; a write for the null side or for no castling
side changes nothing. -/
theorem rookSquare_setRookSquare (cr : CastlingRights) (s s1 : Side) (c c1 : CastlingSide)
    (v : Int) :
    (cr.setRookSquare s c v).rookSquare s1 c1 =
      if s1 = s ∧ c1 = c ∧ s ≠ .NoSide ∧ c ≠ .NoCastlingSide then v
      else cr.rookSquare s1 c1 := by
  cases s <;> cases c <;> cases s1 <;> cases c1 <;>
    simp [CastlingRights.setRookSquare, CastlingRights.rookSquare]

/-- Writing the value an entry already holds changes nothing. -/
theorem setRookSquare_same (cr : CastlingRights) (s : Side) (c : CastlingSide) :
    cr.setRookSquare s c (cr.rookSquare s c) = cr := by
  cases s <;> cases c <;> rfl

/-- The castling rights after `setCastlingSquare`: the table with the entry written. -/
theorem setCastlingSquare_castlingRights (st : State) (side : Side) (cside : CastlingSide)
    (v : Int) :
    (setCastlingSquare st side cside v).castlingRights =
      st.castlingRights.setRookSquare side cside v := by
  unfold setCastlingSquare xorKey
  by_cases h : st.castlingRights.rookSquare side cside = v
  · simp only [h, if_true]
    rw [← h, setRookSquare_same]
  · rw [if_neg h]
    by_cases h1 : st.castlingRights.rookSquare side cside = 0 <;> by_cases h2 : v = 0 <;>
      simp [h1, h2]

/-- The hash key after `setCastlingSquare`. -/
theorem setCastlingSquare_key (st : State) (side : Side) (cside : CastlingSide) (v : Int) :
    (setCastlingSquare st side cside v).key =
      if st.castlingRights.rookSquare side cside = v then st.key
      else st.key
        ^^^ (if st.castlingRights.rookSquare side cside ≠ 0 then
              st.zobristCastling side (st.castlingRights.rookSquare side cside) else 0)
        ^^^ (if v ≠ 0 then st.zobristCastling side v else 0) := by
  unfold setCastlingSquare xorKey
  by_cases h : st.castlingRights.rookSquare side cside = v
  · simp only [h, if_true]
  · rw [if_neg h, if_neg h]
    by_cases h1 : st.castlingRights.rookSquare side cside = 0 <;> by_cases h2 : v = 0 <;>
      simp [h1, h2]

@[simp] theorem setCastlingSquare_zobristCastling (st : State) (side : Side)
    (cside : CastlingSide) (v : Int) :
    (setCastlingSquare st side cside v).zobristCastling = st.zobristCastling := by
  obtain ⟨cr, k, h⟩ := setCastlingSquare_frame st side cside v
  rw [h]

/-- **C27.** For a proper side and castling side, `setCastlingSquare(side,
cside, sq)` returns the position unchanged when the entry already holds `sq`.
Otherwise the result is the position with that entry written to `sq` and with
the hash key xored once with the castling key of the old square, if the old
square is not 0, and once with the castling key of `sq`, if `sq` is not 0;
every other entry of the table and every other member is as before.  Setting
an entry and then setting it back to its old value restores the hash key and
the table. -/
theorem setCastlingSquare_spec (st : State) (side : Side) (cside : CastlingSide) (sq : Int)
    (hs : side ≠ .NoSide) (hc : cside ≠ .NoCastlingSide) :
    (st.castlingRights.rookSquare side cside = sq → setCastlingSquare st side cside sq = st) ∧
      (st.castlingRights.rookSquare side cside ≠ sq →
        setCastlingSquare st side cside sq =
          { st with
            castlingRights := st.castlingRights.setRookSquare side cside sq,
            key := st.key
              ^^^ (if st.castlingRights.rookSquare side cside ≠ 0 then
                    st.zobristCastling side (st.castlingRights.rookSquare side cside) else 0)
              ^^^ (if sq ≠ 0 then st.zobristCastling side sq else 0) }) ∧
      (setCastlingSquare st side cside sq).castlingRights.rookSquare side cside = sq ∧
      (∀ s c, ¬ (s = side ∧ c = cside) →
        (setCastlingSquare st side cside sq).castlingRights.rookSquare s c =
          st.castlingRights.rookSquare s c) ∧
      (setCastlingSquare (setCastlingSquare st side cside sq) side cside
          (st.castlingRights.rookSquare side cside)).key = st.key ∧
      (setCastlingSquare (setCastlingSquare st side cside sq) side cside
          (st.castlingRights.rookSquare side cside)).castlingRights = st.castlingRights := by
  have hread : (setCastlingSquare st side cside sq).castlingRights.rookSquare side cside = sq := by
    rw [setCastlingSquare_castlingRights, rookSquare_setRookSquare]
    simp [hs, hc]
  refine ⟨?_, ?_, hread, ?_, ?_, ?_⟩
  · intro h
    unfold setCastlingSquare
    simp only [h, if_true]
  · intro h
    obtain ⟨cr, k, hf⟩ := setCastlingSquare_frame st side cside sq
    have h1 := setCastlingSquare_castlingRights st side cside sq
    have h2 := setCastlingSquare_key st side cside sq
    rw [if_neg h] at h2
    rw [hf] at h1 h2 ⊢
    simp only [] at h1 h2
    rw [h1, h2]
  · intro s c hne
    rw [setCastlingSquare_castlingRights, rookSquare_setRookSquare, if_neg]
    intro hh
    exact hne ⟨hh.1, hh.2.1⟩
  · rw [setCastlingSquare_key, hread, setCastlingSquare_key, setCastlingSquare_zobristCastling]
    by_cases h : st.castlingRights.rookSquare side cside = sq
    · rw [if_pos h.symm, if_pos h]
    · rw [if_neg (fun hh => h hh.symm), if_neg h]
      generalize (if st.castlingRights.rookSquare side cside ≠ 0 then
        st.zobristCastling side (st.castlingRights.rookSquare side cside) else 0) = a
      generalize (if sq ≠ 0 then st.zobristCastling side sq else 0) = b
      rw [Nat.xor_assoc (st.key ^^^ a) b b, Nat.xor_self, Nat.xor_zero, Nat.xor_assoc,
        Nat.xor_self, Nat.xor_zero]
  · rw [setCastlingSquare_castlingRights, setCastlingSquare_castlingRights]
    cases side <;> cases cside <;> rfl

set_option maxRecDepth 1000000 in
theorem setCastlingSquare_spec_witness :
    castlingKeyed.castlingRights.rookSquare .White .KingSide = 130 ∧
      castlingKeyed.key = 0 ∧
      (setCastlingSquare castlingKeyed .White .KingSide 0).castlingRights = ⟨122, 0, 0, 0⟩ ∧
      (setCastlingSquare castlingKeyed .White .KingSide 0).key = 131 ∧
      (setCastlingSquare (setCastlingSquare castlingKeyed .White .KingSide 0) .White .KingSide
          (castlingKeyed.castlingRights.rookSquare .White .KingSide)).key = castlingKeyed.key :=
  ⟨by decide, by decide, by decide, by decide,
    (setCastlingSquare_spec castlingKeyed .White .KingSide 0 (by decide) (by decide)).2.2.2.2.1⟩

/-! ## Castling rights and king square after a move -/

@[simp] theorem setCastlingSquare_kingSquare (st : State) (side : Side) (cside : CastlingSide)
    (v : Int) (s : Side) : (setCastlingSquare st side cside v).kingSquare s = st.kingSquare s := by
  obtain ⟨cr, k, h⟩ := setCastlingSquare_frame st side cside v
  rw [h]
  cases s <;> rfl

@[simp] theorem removeCastlingRights_kingSquare (st : State) (square : Int) (s : Side) :
    (removeCastlingRights st square).kingSquare s = st.kingSquare s := by
  obtain ⟨cr, k, h⟩ := removeCastlingRights_frame st square
  rw [h]
  cases s <;> rfl

/-- The castling rights `vMakeMove` leaves are those of its locals after the
capture branch. -/
theorem vMakeMove_castlingRights (st : State) (m : Move) :
    (vMakeMove st m).castlingRights = (makeLocalsCapture st m).st.castlingRights := by
  unfold vMakeMove
  simp only [setSquare]
  split <;> rfl

/-- The king squares `vMakeMove` leaves are those of its locals after the
capture branch. -/
theorem vMakeMove_kingSquare (st : State) (m : Move) (s : Side) :
    (vMakeMove st m).kingSquare s = (makeLocalsCapture st m).st.kingSquare s := by
  unfold vMakeMove
  simp only [setSquare]
  split <;> cases s <;> rfl

/-- The square array `vMakeMove` leaves: the moved piece is written on the
target of the locals, then the source is cleared if the locals say so. -/
theorem vMakeMove_squares (st : State) (m : Move) :
    (vMakeMove st m).squares =
      if (makeLocalsCapture st m).clearSource = true then
        writeSquare (writeSquare (makeLocalsCapture st m).st.squares
          (makeLocalsCapture st m).target ⟨st.side, movedPieceType st m⟩) m.sourceSquare
          Piece.noPiece
      else writeSquare (makeLocalsCapture st m).st.squares
          (makeLocalsCapture st m).target ⟨st.side, movedPieceType st m⟩ := by
  unfold vMakeMove
  simp only [setSquare]
  split <;> rfl

/-- The castling rights after `removeCastlingRights(square)`, as a table. -/
theorem removeCastlingRights_castlingRights (st : State) (square : Int) :
    (removeCastlingRights st square).castlingRights =
      if (pieceAt st square).type ≠ .Rook then st.castlingRights
      else if square = st.castlingRights.rookSquare (pieceAt st square).side .QueenSide then
        st.castlingRights.setRookSquare (pieceAt st square).side .QueenSide 0
      else if square = st.castlingRights.rookSquare (pieceAt st square).side .KingSide then
        st.castlingRights.setRookSquare (pieceAt st square).side .KingSide 0
      else st.castlingRights := by
  unfold removeCastlingRights
  simp only []
  split
  · rfl
  · split
    · exact setCastlingSquare_castlingRights _ _ _ _
    · split
      · exact setCastlingSquare_castlingRights _ _ _ _
      · rfl

/-- Reading a table from which the first entry of side `ps` tracking `square`
(queen side, then king side) has been cleared. -/
theorem rookSquare_cleared (cr : CastlingRights) (square : Int) (ps s : Side)
    (c : CastlingSide) :
    (if square = cr.rookSquare ps .QueenSide then cr.setRookSquare ps .QueenSide 0
      else if square = cr.rookSquare ps .KingSide then cr.setRookSquare ps .KingSide 0
      else cr).rookSquare s c =
      if s = ps ∧
          ((c = .QueenSide ∧ square = cr.rookSquare s .QueenSide) ∨
            (c = .KingSide ∧ square ≠ cr.rookSquare s .QueenSide ∧
              square = cr.rookSquare s .KingSide)) then 0
      else cr.rookSquare s c := by
  obtain ⟨a, b, c1, d⟩ := cr
  cases ps <;> cases s <;> cases c <;>
    simp only [CastlingRights.rookSquare, CastlingRights.setRookSquare, reduceCtorEq,
      false_and, and_false, true_and, and_true, or_false, false_or, if_false, ne_eq] <;>
    split_ifs <;> simp_all [CastlingRights.rookSquare]

/-- The entry read after `removeCastlingRights(square)`: it is cleared when a
rook stands on `square` and the entry is the first one of that rook's side
(queen side, then king side) that tracks `square`; else it is as before. -/
theorem rookSquare_removeCastlingRights (st : State) (square : Int) (s : Side)
    (c : CastlingSide) :
    (removeCastlingRights st square).castlingRights.rookSquare s c =
      if (pieceAt st square).type = .Rook ∧ s = (pieceAt st square).side ∧
          ((c = .QueenSide ∧ square = st.castlingRights.rookSquare s .QueenSide) ∨
            (c = .KingSide ∧ square ≠ st.castlingRights.rookSquare s .QueenSide ∧
              square = st.castlingRights.rookSquare s .KingSide)) then 0
      else st.castlingRights.rookSquare s c := by
  rw [removeCastlingRights_castlingRights]
  by_cases hR : (pieceAt st square).type = .Rook
  · rw [if_neg (by simpa using hR), rookSquare_cleared]
    simp only [hR, true_and]
  · rw [if_pos hR, if_neg (by simp [hR])]

/-- An entry that is 0 stays 0 under `removeCastlingRights`. -/
theorem rookSquare_removeCastlingRights_zero (st : State) (square : Int) (s : Side)
    (c : CastlingSide) (h : st.castlingRights.rookSquare s c = 0) :
    (removeCastlingRights st square).castlingRights.rookSquare s c = 0 := by
  rw [rookSquare_removeCastlingRights]
  split
  · rfl
  · exact h

/-- The locals after the king and rook branches, for a mover that is not a
king: only the castling rights and the key can differ, and the rights are those
of the rook branch. -/
theorem makeLocalsBranch_non_king (st : State) (m : Move)
    (hnK : movedPieceType st m ≠ .King) :
    (makeLocalsBranch st m).target = m.targetSquare ∧
      (makeLocalsBranch st m).st.squares = st.squares ∧
      (makeLocalsBranch st m).st.side = st.side ∧
      (∀ s, (makeLocalsBranch st m).st.kingSquare s = st.kingSquare s) ∧
      (makeLocalsBranch st m).st.castlingRights =
        if movedPieceType st m = .Rook then
          (if m.sourceSquare = st.castlingRights.rookSquare st.side .QueenSide then
            st.castlingRights.setRookSquare st.side .QueenSide 0
          else if m.sourceSquare = st.castlingRights.rookSquare st.side .KingSide then
            st.castlingRights.setRookSquare st.side .KingSide 0
          else st.castlingRights)
        else st.castlingRights := by
  unfold makeLocalsBranch
  rw [if_neg hnK]
  by_cases hR : movedPieceType st m = .Rook
  · rw [if_pos hR, if_pos hR]
    unfold vMakeMoveRook
    have hst : (makeLocalsStart st m).st = st := rfl
    have htg : (makeLocalsStart st m).target = m.targetSquare := rfl
    simp only [hst]
    split
    · refine ⟨htg, by simp, by simp, by simp, setCastlingSquare_castlingRights _ _ _ _⟩
    · split
      · refine ⟨htg, by simp, by simp, by simp, setCastlingSquare_castlingRights _ _ _ _⟩
      · exact ⟨htg, rfl, rfl, fun _ => rfl, rfl⟩
  · rw [if_neg hR, if_neg hR]
    exact ⟨rfl, rfl, rfl, fun _ => rfl, rfl⟩

/-- The arithmetic of the two clearing steps of a move by a piece that is not
a king, on a table whose queen-side and king-side entries differ unless 0. -/
theorem rights_after_clearing (cr : CastlingRights) (sd s : Side) (c : CastlingSide)
    (isRook : Prop) [Decidable isRook] (src tgt : Int) (p : Piece)
    (hsd : sd ≠ .NoSide)
    (hdist : ∀ s1, cr.rookSquare s1 .QueenSide ≠ 0 →
      cr.rookSquare s1 .QueenSide ≠ cr.rookSquare s1 .KingSide) :
    (if p.side = sd.opposite ∧ p.type = .Rook ∧ s = p.side ∧
        ((c = .QueenSide ∧ tgt =
            (if isRook ∧ s = sd ∧ src = cr.rookSquare s .QueenSide then 0
              else cr.rookSquare s .QueenSide)) ∨
          (c = .KingSide ∧ tgt ≠
            (if isRook ∧ s = sd ∧ src = cr.rookSquare s .QueenSide then 0
              else cr.rookSquare s .QueenSide) ∧
            tgt = (if isRook ∧ s = sd ∧ src ≠ cr.rookSquare s .QueenSide ∧
                src = cr.rookSquare s .KingSide then 0 else cr.rookSquare s .KingSide)))
      then 0
      else if isRook ∧ s = sd ∧
          ((c = .QueenSide ∧ src = cr.rookSquare s .QueenSide) ∨
            (c = .KingSide ∧ src ≠ cr.rookSquare s .QueenSide ∧
              src = cr.rookSquare s .KingSide)) then 0
      else cr.rookSquare s c) =
      if (s = sd ∧ isRook ∧ src = cr.rookSquare s c) ∨
          (s = sd.opposite ∧ p = ⟨sd.opposite, .Rook⟩ ∧ tgt = cr.rookSquare s c) then 0
      else cr.rookSquare s c := by
  obtain ⟨a, b, c1, d⟩ := cr
  obtain ⟨ps, pt⟩ := p
  have hW := hdist .White
  have hB := hdist .Black
  simp only [CastlingRights.rookSquare] at hW hB
  by_cases hr : isRook <;> by_cases hpt : pt = .Rook <;>
    cases sd <;> cases s <;> cases c <;> cases ps <;>
    simp only [CastlingRights.rookSquare, Side.opposite, reduceCtorEq, hr, hpt,
      false_and, and_false, true_and, and_true, or_false, false_or, if_false, ne_eq,
      not_true_eq_false, not_false_eq_true, Piece.mk.injEq, if_true] at hsd ⊢ <;>
    (try split_ifs) <;> (try omega)

/-- The castling rights after a move by a piece that is not a king, entry by
entry, on a table whose queen-side and king-side entries differ unless 0. -/
theorem rookSquare_after_non_king_move (st : State) (m : Move) (hside : st.side ≠ .NoSide)
    (hnK : movedPieceType st m ≠ .King)
    (hdist : DistinctCastlingRooks st)
    (s : Side) (c : CastlingSide) :
    (vMakeMove st m).castlingRights.rookSquare s c =
      if (s = st.side ∧ movedPieceType st m = .Rook ∧
            m.sourceSquare = st.castlingRights.rookSquare s c) ∨
          (s = st.side.opposite ∧ pieceAt st m.targetSquare = ⟨st.side.opposite, .Rook⟩ ∧
            m.targetSquare = st.castlingRights.rookSquare s c) then 0
      else st.castlingRights.rookSquare s c := by
  obtain ⟨htg, hsq, hsd, _, hcr⟩ := makeLocalsBranch_non_king st m hnK
  have hdist1 : ∀ s1, st.castlingRights.rookSquare s1 .QueenSide ≠ 0 →
      st.castlingRights.rookSquare s1 .QueenSide ≠ st.castlingRights.rookSquare s1 .KingSide := by
    intro s1
    cases s1
    · exact hdist.1
    · exact hdist.2
    · intro h; exact absurd rfl h
  have hpa : ∀ x, pieceAt (makeLocalsBranch st m).st x = pieceAt st x := by
    intro x; unfold pieceAt; rw [hsq]
  have hbr : ∀ s1 c1, (makeLocalsBranch st m).st.castlingRights.rookSquare s1 c1 =
      if movedPieceType st m = .Rook ∧ s1 = st.side ∧
          ((c1 = .QueenSide ∧ m.sourceSquare = st.castlingRights.rookSquare s1 .QueenSide) ∨
            (c1 = .KingSide ∧ m.sourceSquare ≠ st.castlingRights.rookSquare s1 .QueenSide ∧
              m.sourceSquare = st.castlingRights.rookSquare s1 .KingSide)) then 0
      else st.castlingRights.rookSquare s1 c1 := by
    intro s1 c1
    rw [hcr]
    by_cases hR : movedPieceType st m = .Rook
    · rw [if_pos hR, rookSquare_cleared]
      simp only [hR, true_and]
    · rw [if_neg hR, if_neg (by simp [hR])]
  have hcap : captureType (makeLocalsBranch st m).st m = captureType st m := by
    unfold captureType
    rw [hpa, hsd]
  rw [vMakeMove_castlingRights]
  unfold makeLocalsCapture
  simp only [hcap]
  rw [← rights_after_clearing st.castlingRights st.side s c (movedPieceType st m = .Rook)
    m.sourceSquare m.targetSquare (pieceAt st m.targetSquare) hside hdist1]
  by_cases hc : captureType st m = .NoPiece
  · have hfirst : ¬ ((pieceAt st m.targetSquare).side = st.side.opposite ∧
        (pieceAt st m.targetSquare).type = .Rook ∧ s = (pieceAt st m.targetSquare).side ∧
        ((c = .QueenSide ∧ m.targetSquare =
            (if movedPieceType st m = .Rook ∧ s = st.side ∧
                m.sourceSquare = st.castlingRights.rookSquare s .QueenSide then 0
              else st.castlingRights.rookSquare s .QueenSide)) ∨
          (c = .KingSide ∧ m.targetSquare ≠
            (if movedPieceType st m = .Rook ∧ s = st.side ∧
                m.sourceSquare = st.castlingRights.rookSquare s .QueenSide then 0
              else st.castlingRights.rookSquare s .QueenSide) ∧
            m.targetSquare = (if movedPieceType st m = .Rook ∧ s = st.side ∧
                m.sourceSquare ≠ st.castlingRights.rookSquare s .QueenSide ∧
                m.sourceSquare = st.castlingRights.rookSquare s .KingSide then 0
              else st.castlingRights.rookSquare s .KingSide)))) := by
      rintro ⟨h1, h2, _⟩
      unfold captureType at hc
      simp only [h1, if_true] at hc
      rw [h2] at hc
      cases hc
    rw [if_neg hfirst, if_neg (by simpa using hc), hbr]
  · rw [if_pos hc]
    simp only []
    rw [rookSquare_removeCastlingRights, htg, hpa, hbr, hbr, hbr]
    have hps : (pieceAt st m.targetSquare).side = st.side.opposite := by
      unfold captureType at hc
      by_contra hh
      simp [hh] at hc
    simp only [hps, true_and, reduceCtorEq, false_and, and_false, or_false, false_or, and_assoc,
      ne_eq]

/-- **C26.** After `vMakeMove` of a move whose moving piece is not a king, in
a position with a side to move whose queen-side and king-side tracked rook
squares differ for each side unless they are 0 (`DistinctCastlingRooks`), an entry of the castling
rights is 0 in exactly two cases and is unchanged otherwise: it is an entry of
the mover, the moving piece is a rook and the entry equals the source of the
move; or it is an entry of the opponent, a rook of the opponent stands on the
target of the move and the entry equals the target.  So a rook leaving a
tracked square clears that right only and leaves the mover's other right as
it was. -/
theorem non_king_move_castling_rights (st : State) (m : Move) (hside : st.side ≠ .NoSide)
    (hnK : movedPieceType st m ≠ .King)
    (hdist : DistinctCastlingRooks st) :
    (∀ (s : Side) (c : CastlingSide),
      (vMakeMove st m).castlingRights.rookSquare s c =
        if (s = st.side ∧ movedPieceType st m = .Rook ∧
              m.sourceSquare = st.castlingRights.rookSquare s c) ∨
            (s = st.side.opposite ∧ pieceAt st m.targetSquare = ⟨st.side.opposite, .Rook⟩ ∧
              m.targetSquare = st.castlingRights.rookSquare s c) then 0
        else st.castlingRights.rookSquare s c) ∧
      (∀ c c1 : CastlingSide, movedPieceType st m = .Rook →
        m.sourceSquare = st.castlingRights.rookSquare st.side c →
        m.sourceSquare ≠ st.castlingRights.rookSquare st.side c1 →
        (vMakeMove st m).castlingRights.rookSquare st.side c = 0 ∧
          (vMakeMove st m).castlingRights.rookSquare st.side c1 =
            st.castlingRights.rookSquare st.side c1) := by
  have h := rookSquare_after_non_king_move st m hside hnK hdist
  refine ⟨h, ?_⟩
  intro c c1 hR hsrc hne
  have hopp : st.side ≠ st.side.opposite := by
    cases hsd : st.side
    · simp [Side.opposite]
    · simp [Side.opposite]
    · exact absurd hsd hside
  constructor
  · rw [h, if_pos (Or.inl ⟨rfl, hR, hsrc⟩)]
  · rw [h, if_neg]
    rintro (⟨_, _, h3⟩ | ⟨h1, _, _⟩)
    · exact hne h3
    · exact hopp h1

set_option maxRecDepth 1000000 in
theorem non_king_move_castling_rights_witness :
    movedPieceType castlingReady ⟨122, 111, .NoPiece⟩ = .Rook ∧
      castlingReady.castlingRights = ⟨122, 130, 0, 0⟩ ∧
      (vMakeMove castlingReady ⟨122, 111, .NoPiece⟩).castlingRights.rookSquare .White
          .QueenSide = 0 ∧
      (vMakeMove castlingReady ⟨122, 111, .NoPiece⟩).castlingRights.rookSquare .White
          .KingSide = 130 :=
  ⟨by decide, by decide,
    (non_king_move_castling_rights castlingReady ⟨122, 111, .NoPiece⟩ (by decide) (by decide)
      (by decide)).2 .QueenSide .KingSide (by decide) (by decide) (by decide)⟩

/-! ## A king move -/

theorem kingSquare_setKingSquare (st : State) (s : Side) (v : Int) (hs : s ≠ .NoSide) :
    (st.setKingSquare s v).kingSquare s = v := by
  cases s
  · rfl
  · rfl
  · exact absurd rfl hs

/-- The square the king of the mover stands on after a king move: the castle
target for a castling move, else the target of the move. -/
theorem vMakeMoveKing_facts (st : State) (m : Move) (hside : st.side ≠ .NoSide) :
    (vMakeMoveKing (makeLocalsStart st m) m st.side m.sourceSquare).target =
        (if castlingSide st m ≠ .NoCastlingSide then castleTarget st.side (castlingSide st m)
          else m.targetSquare) ∧
      (vMakeMoveKing (makeLocalsStart st m) m st.side m.sourceSquare).st.kingSquare st.side =
        (if castlingSide st m ≠ .NoCastlingSide then castleTarget st.side (castlingSide st m)
          else m.targetSquare) ∧
      (vMakeMoveKing (makeLocalsStart st m) m st.side
          m.sourceSquare).st.castlingRights.rookSquare st.side .QueenSide = 0 ∧
      (vMakeMoveKing (makeLocalsStart st m) m st.side
          m.sourceSquare).st.castlingRights.rookSquare st.side .KingSide = 0 ∧
      (vMakeMoveKing (makeLocalsStart st m) m st.side m.sourceSquare).st.squares.length =
        st.squares.length ∧
      ((vMakeMoveKing (makeLocalsStart st m) m st.side m.sourceSquare).clearSource = true →
        m.sourceSquare ≠
          (if castlingSide st m ≠ .NoCastlingSide then castleTarget st.side (castlingSide st m)
            else m.targetSquare)) := by
  have hst : (makeLocalsStart st m).st = st := rfl
  have htg : (makeLocalsStart st m).target = m.targetSquare := rfl
  have hcl : (makeLocalsStart st m).clearSource = true → m.sourceSquare ≠ m.targetSquare := by
    unfold makeLocalsStart
    simp only []
    intro h hh
    simp [hh] at h
  unfold vMakeMoveKing
  simp only [hst, htg]
  by_cases hc : castlingSide st m = .NoCastlingSide
  · simp only [hc, ne_eq, not_true_eq_false, if_false]
    refine ⟨htg, ?_, ?_, ?_, ?_, hcl⟩
    · rw [setCastlingSquare_kingSquare, setCastlingSquare_kingSquare, hst,
        kingSquare_setKingSquare _ _ _ hside, htg]
    · rw [setCastlingSquare_castlingRights, rookSquare_setRookSquare,
        setCastlingSquare_castlingRights, rookSquare_setRookSquare]
      simp [hside]
    · rw [setCastlingSquare_castlingRights, rookSquare_setRookSquare]
      simp [hside]
    · simp [hst]
  · simp only [hc, ne_eq, not_false_eq_true, if_true]
    refine ⟨trivial, ?_, ?_, ?_, ?_, ?_⟩
    · rw [setCastlingSquare_kingSquare, setCastlingSquare_kingSquare,
        kingSquare_setKingSquare _ _ _ hside]
    · rw [setCastlingSquare_castlingRights, rookSquare_setRookSquare,
        setCastlingSquare_castlingRights, rookSquare_setRookSquare]
      simp [hside]
    · rw [setCastlingSquare_castlingRights, rookSquare_setRookSquare]
      simp [hside]
    · simp [setSquare, writeSquare_length]
    · intro h hh
      simp [← hh] at h

/-- **C25.** After `vMakeMove` of a move whose moving piece is a king, in a
position with a side to move `s`, both castling rights of `s` are cleared (the
queen-side and the king-side tracked rook square are 0) and the king-square
cache of `s` is the king's new square: the castle target for a castling move
(a king move onto a tracked rook square of `s`), the target of the move for
an ordinary king step; when that square lies in the square array, the king of
`s` stands on it after the move. -/
theorem king_move_clears_castling_rights (st : State) (m : Move) (hside : st.side ≠ .NoSide)
    (hK : movedPieceType st m = .King) :
    (vMakeMove st m).castlingRights.rookSquare st.side .QueenSide = 0 ∧
      (vMakeMove st m).castlingRights.rookSquare st.side .KingSide = 0 ∧
      (vMakeMove st m).kingSquare st.side =
        (if castlingSide st m ≠ .NoCastlingSide then castleTarget st.side (castlingSide st m)
          else m.targetSquare) ∧
      (0 ≤ (vMakeMove st m).kingSquare st.side →
        (vMakeMove st m).kingSquare st.side < st.squares.length →
        pieceAt (vMakeMove st m) ((vMakeMove st m).kingSquare st.side) = ⟨st.side, .King⟩) := by
  obtain ⟨htg, hks, hq, hk, hlen, hcl⟩ := vMakeMoveKing_facts st m hside
  have hbr : makeLocalsBranch st m =
      vMakeMoveKing (makeLocalsStart st m) m st.side m.sourceSquare := by
    unfold makeLocalsBranch
    rw [if_pos hK]
  have hcapQ : (makeLocalsCapture st m).st.castlingRights.rookSquare st.side .QueenSide = 0 := by
    unfold makeLocalsCapture
    simp only [hbr]
    split
    · exact rookSquare_removeCastlingRights_zero _ _ _ _ hq
    · exact hq
  have hcapK : (makeLocalsCapture st m).st.castlingRights.rookSquare st.side .KingSide = 0 := by
    unfold makeLocalsCapture
    simp only [hbr]
    split
    · exact rookSquare_removeCastlingRights_zero _ _ _ _ hk
    · exact hk
  have hcapKs : (makeLocalsCapture st m).st.kingSquare st.side =
      (if castlingSide st m ≠ .NoCastlingSide then castleTarget st.side (castlingSide st m)
        else m.targetSquare) := by
    unfold makeLocalsCapture
    simp only [hbr]
    split
    · rw [removeCastlingRights_kingSquare]; exact hks
    · exact hks
  have hcapT : (makeLocalsCapture st m).target =
      (if castlingSide st m ≠ .NoCastlingSide then castleTarget st.side (castlingSide st m)
        else m.targetSquare) := by
    unfold makeLocalsCapture
    simp only [hbr]
    split <;> exact htg
  have hcapC : (makeLocalsCapture st m).clearSource =
      (vMakeMoveKing (makeLocalsStart st m) m st.side m.sourceSquare).clearSource := by
    unfold makeLocalsCapture
    simp only [hbr]
    split <;> rfl
  have hcapL : (makeLocalsCapture st m).st.squares.length = st.squares.length := by
    unfold makeLocalsCapture
    simp only [hbr]
    split
    · rw [removeCastlingRights_squares]; exact hlen
    · exact hlen
  have hksq := vMakeMove_kingSquare st m st.side
  rw [hcapKs] at hksq
  refine ⟨?_, ?_, hksq, ?_⟩
  · rw [vMakeMove_castlingRights]; exact hcapQ
  · rw [vMakeMove_castlingRights]; exact hcapK
  · rw [hksq]
    intro h0 hl
    unfold pieceAt
    rw [vMakeMove_squares, hcapT, hK, hcapC]
    have hl1 : (if castlingSide st m ≠ .NoCastlingSide then
        castleTarget st.side (castlingSide st m) else m.targetSquare).toNat <
        (makeLocalsCapture st m).st.squares.length := by
      rw [hcapL]; omega
    split
    · rename_i hclear
      rw [readSquare_writeSquare, if_neg (fun hh => hcl hclear hh.1.symm),
        readSquare_writeSquare, if_pos ⟨rfl, h0, hl1⟩]
    · rw [readSquare_writeSquare, if_pos ⟨rfl, h0, hl1⟩]

set_option maxRecDepth 1000000 in
theorem king_move_clears_castling_rights_witness :
    castlingReady.castlingRights = ⟨122, 130, 0, 0⟩ ∧
      castlingSide castlingReady ⟨126, 130, .NoPiece⟩ = .KingSide ∧
      (vMakeMove castlingReady ⟨126, 130, .NoPiece⟩).castlingRights.rookSquare .White
          .QueenSide = 0 ∧
      (vMakeMove castlingReady ⟨126, 130, .NoPiece⟩).castlingRights.rookSquare .White
          .KingSide = 0 ∧
      (vMakeMove castlingReady ⟨126, 130, .NoPiece⟩).kingSquare .White = 129 ∧
      pieceAt (vMakeMove castlingReady ⟨126, 130, .NoPiece⟩) 129 = ⟨.White, .King⟩ ∧
      pieceAt (vMakeMove castlingReady ⟨126, 130, .NoPiece⟩) 128 = ⟨.White, .Rook⟩ :=
  ⟨by decide, by decide,
    (king_move_clears_castling_rights castlingReady ⟨126, 130, .NoPiece⟩ (by decide)
      (by decide)).1,
    (king_move_clears_castling_rights castlingReady ⟨126, 130, .NoPiece⟩ (by decide)
      (by decide)).2.1,
    by decide, by decide, by decide⟩

/-! ## The test for a castling move -/

/-- **C28.** For the queen side and for the king side: when the tracked
castling rook of the side to move, if there is one, stands on the castling
side of the king (a smaller array index than the king's for the queen side, a
larger one for the king side; on one rank the indices run with the files),
`canCastle(cside)` is true if and only if the right exists (the tracked rook
square is not 0) and every square of the smallest interval that holds the
king's square, the king's castling destination, the rook's square and the
rook's destination is empty, the king's and the castling rook's own squares
excepted. -/
theorem canCastle_iff (st : State) (cside : CastlingSide)
    (hc : cside = .QueenSide ∨ cside = .KingSide)
    (hrook : st.castlingRights.rookSquare st.side cside ≠ 0 →
      (cside = .QueenSide →
        st.castlingRights.rookSquare st.side cside < st.kingSquare st.side) ∧
      (cside = .KingSide →
        st.kingSquare st.side < st.castlingRights.rookSquare st.side cside)) :
    canCastle st cside = true ↔
      st.castlingRights.rookSquare st.side cside ≠ 0 ∧
        ∀ i : Int, castlingIntervalLeft st cside ≤ i → i ≤ castlingIntervalRight st cside →
          i ≠ st.kingSquare st.side → i ≠ st.castlingRights.rookSquare st.side cside →
          (pieceAt st i).isEmpty = true := by
  unfold canCastle castlingIntervalLeft castlingIntervalRight rookCastleTarget
  simp only []
  by_cases h0 : st.castlingRights.rookSquare st.side cside = 0
  · simp [h0]
  · obtain ⟨hq, hk⟩ := hrook h0
    rw [if_neg h0]
    simp only [List.all_eq_true, List.mem_range, Bool.not_eq_true', Bool.and_eq_false_imp,
      Bool.and_eq_true, decide_eq_true_eq, Bool.not_eq_false', ne_eq, h0,
      not_false_eq_true, true_and, and_imp]
    generalize st.castlingRights.rookSquare st.side cside = r at *
    generalize st.kingSquare st.side = kq at *
    generalize castleTarget st.side cside = t at *
    rcases hc with hc | hc
    · subst hc
      have hlt := hq rfl
      simp only [if_true]
      constructor
      · intro h i hlo hhi hik hir
        have := h (i - (if t < r then t else r)).toNat (by split_ifs at hlo hhi ⊢ <;> omega)
        have hi : (if t < r then t else r) + ((i - (if t < r then t else r)).toNat : Int) = i := by
          split_ifs at hlo hhi ⊢ <;> omega
        rw [hi] at this
        exact this hik hir
      · intro h k hkl hik hir
        apply h _ _ _ hik hir
        · split_ifs at hkl ⊢ <;> omega
        · split_ifs at hkl ⊢ <;> omega
    · subst hc
      have hlt := hk rfl
      simp only [reduceCtorEq, if_false]
      constructor
      · intro h i hlo hhi hik hir
        have := h (i - (if t - 1 < kq then t - 1 else kq)).toNat
          (by split_ifs at hlo hhi ⊢ <;> omega)
        have hi : (if t - 1 < kq then t - 1 else kq) +
            ((i - (if t - 1 < kq then t - 1 else kq)).toNat : Int) = i := by
          split_ifs at hlo hhi ⊢ <;> omega
        rw [hi] at this
        exact this hik hir
      · intro h k hkl hik hir
        apply h _ _ _ hik hir
        · split_ifs at hkl ⊢ <;> omega
        · split_ifs at hkl ⊢ <;> omega

set_option maxRecDepth 1000000 in
theorem canCastle_iff_witness :
    castlingIntervalLeft castlingReady .KingSide = 126 ∧
      castlingIntervalRight castlingReady .KingSide = 130 ∧
      canCastle castlingReady .KingSide = true ∧
      canCastle castlingBlocked .KingSide = false ∧
      ((canCastle castlingBlocked .KingSide = true ↔
        castlingBlocked.castlingRights.rookSquare castlingBlocked.side .KingSide ≠ 0 ∧
          ∀ i : Int, castlingIntervalLeft castlingBlocked .KingSide ≤ i →
            i ≤ castlingIntervalRight castlingBlocked .KingSide →
            i ≠ castlingBlocked.kingSquare castlingBlocked.side →
            i ≠ castlingBlocked.castlingRights.rookSquare castlingBlocked.side .KingSide →
            (pieceAt castlingBlocked i).isEmpty = true)) :=
  ⟨by decide, by decide, by decide, by decide,
    canCastle_iff castlingBlocked .KingSide (Or.inr rfl)
      (fun _ => ⟨fun h => (by cases h), fun _ => (by decide)⟩)⟩

/-! ## Knight check and knight moves -/

theorem knightPreOffsets_neg (i : Nat) (hi : i < 8) :
    -(knightPreOffsets.getD i 0) ∈ knightPreOffsets := by
  interval_cases i <;> decide

theorem mem_knightPreOffsets_of_rel (st : State) (c d : Int) (h : d ∈ knightRelOffsets st c) :
    -d ∈ knightPreOffsets := by
  obtain ⟨i, hi, hd, _⟩ := (mem_knightRelOffsets st c d).mp h
  rw [hd]
  exact knightPreOffsets_neg i hi

/-- The moves `generateKnightMoves` appends for a knight of `opSide` on `c`
that end on the square of the king of the other side. -/
theorem knight_move_onto_king (st : State) (side : Side) (c k : Int)
    (hk : pieceAt st k = ⟨side, .King⟩) :
    Move.mk2 c k ∈ generateKnightMoves { st with side := side.opposite } c [] ↔
      k - c ∈ knightRelOffsets st c := by
  unfold generateKnightMoves
  rw [generateHoppingMoves_mem_iff]
  have hrel : knightRelOffsets { st with side := side.opposite } c = knightRelOffsets st c := rfl
  have hpa : ∀ x, pieceAt { st with side := side.opposite } x = pieceAt st x := fun _ => rfl
  simp only [List.not_mem_nil, false_or, hrel, hpa, opposite_opposite]
  constructor
  · rintro ⟨offset, hmem, heq, _⟩
    have : k = c + offset := by
      have := congrArg Move.targetSquare heq
      simpa [Move.mk2] using this
    have h2 : k - c = offset := by omega
    rw [h2]
    exact hmem
  · intro hmem
    refine ⟨k - c, hmem, ?_, ?_⟩
    · have : c + (k - c) = k := by omega
      rw [this]
    · right
      have : c + (k - c) = k := by omega
      rw [this, hk]

/-- **C30.** With kings allowed to capture (as `EasternBoard::kingCanCapture`
says), for a side whose king stands on the cached king square `k` and nowhere
else, the knight block of `inCheck(side)` answers `true` if and only if some
opposing piece with knight movement is given a move onto `k` by
`generateKnightMoves` with the opponent to move; and that is the case if and
only if such a piece stands a knight's jump from `k` with the leg square next
to the knight (not the one next to the king) a valid, empty square. -/
theorem knight_check_agrees_with_generation (st : State) (side : Side)
    (hcap : st.kingCanCapture = true) (hkc : KingCacheOk st side)
    (hk : pieceAt st (st.kingSquare side) = ⟨side, .King⟩) :
    (knightAttacks st side side.opposite (st.kingSquare side) = true ↔
        KnightMoveOnto st side.opposite (st.kingSquare side)) ∧
      (KnightMoveOnto st side.opposite (st.kingSquare side) ↔
        KnightAttacksSquare st side.opposite (st.kingSquare side)) := by
  constructor
  · unfold knightAttacks KnightMoveOnto
    simp only [List.any_eq_true]
    constructor
    · rintro ⟨pre, _, h⟩
      split at h
      · rename_i hp
        simp only [List.any_eq_true, Bool.and_eq_true, decide_eq_true_eq] at h
        obtain ⟨rel, hrel, _, hking⟩ := h
        have hu := kingCache_unique st side hkc _ hking
        refine ⟨st.kingSquare side + pre, hp.1, hp.2, ?_⟩
        rw [knight_move_onto_king st side _ _ hk]
        have : st.kingSquare side - (st.kingSquare side + pre) = rel := by omega
        rw [this]
        exact hrel
      · cases h
    · rintro ⟨c, hs, hm, hmove⟩
      rw [knight_move_onto_king st side _ _ hk] at hmove
      refine ⟨-(st.kingSquare side - c), mem_knightPreOffsets_of_rel st c _ hmove, ?_⟩
      have hc : st.kingSquare side + -(st.kingSquare side - c) = c := by omega
      simp only [hc, hs, hm, and_self, if_true, List.any_eq_true, Bool.and_eq_true,
        decide_eq_true_eq]
      refine ⟨st.kingSquare side - c, hmove, hcap, ?_⟩
      have : c + (st.kingSquare side - c) = st.kingSquare side := by omega
      rw [this, hk]
  · unfold KnightMoveOnto KnightAttacksSquare
    constructor
    · rintro ⟨c, hs, hm, hmove⟩
      rw [knight_move_onto_king st side _ _ hk, mem_knightRelOffsets] at hmove
      obtain ⟨i, hi, hd, hv, he⟩ := hmove
      have hc : st.kingSquare side - knightPreOffsets.getD i 0 = c := by omega
      exact ⟨i, hi, by rw [hc]; exact hs, by rw [hc]; exact hm, by rw [hc]; exact hv,
        by rw [hc]; exact he⟩
    · rintro ⟨i, hi, hs, hm, hv, he⟩
      refine ⟨st.kingSquare side - knightPreOffsets.getD i 0, hs, hm, ?_⟩
      rw [knight_move_onto_king st side _ _ hk, mem_knightRelOffsets]
      exact ⟨i, hi, by omega, hv, he⟩

set_option maxRecDepth 1000000 in
theorem knight_check_agrees_with_generation_witness :
    pieceAt knightCheck 103 = ⟨.Black, .Knight⟩ ∧
      knightAttacks knightCheck .White .Black 126 = true ∧
      KnightMoveOnto knightCheck .Black 126 ∧
      KnightAttacksSquare knightCheck .Black 126 :=
  ⟨by decide, by decide,
    (knight_check_agrees_with_generation knightCheck .White (by decide) (by decide)
      (by decide)).1.mp (by decide),
    (knight_check_agrees_with_generation knightCheck .White (by decide) (by decide)
      (by decide)).2.mp
      ((knight_check_agrees_with_generation knightCheck .White (by decide) (by decide)
        (by decide)).1.mp (by decide))⟩

/-! ## Reading the castling field -/

theorem outermostRookScan_total (st : State) (side : Side) (offset : Int) (ho : offset ≠ 0) :
    ∀ (fuel : Nat) (i rookSq : Int), scanRoom st offset i < fuel →
      ∃ r, outermostRookScan st side offset fuel i rookSq = some r := by
  intro fuel
  induction fuel with
  | zero => intro i r h; omega
  | succ n ih =>
    intro i r h
    unfold outermostRookScan
    simp only []
    by_cases hw : (pieceAt st i).isWall = true
    · rw [if_pos hw]; exact ⟨_, rfl⟩
    · rw [if_neg hw]
      have hnw := isWall_false_ne _ (by simpa using hw)
      have hstep := scanRoom_step st offset i ho hnw
      exact ih _ _ (by omega)

/-- The method `parseCastlingRights` ends; it changes at most the castling
rights and the key, and nothing at all when it answers `false`. -/
theorem parseCastlingRights_frame (st : State) (c : Char) :
    ∃ ok cr k, parseCastlingRights st c = some (ok, { st with castlingRights := cr, key := k }) ∧
      (ok = false → cr = st.castlingRights ∧ k = st.key) := by
  have hsame : ∀ b : Bool, ∃ ok cr k,
      (some (b, st) : Option (Bool × State)) =
        some (ok, { st with castlingRights := cr, key := k }) ∧
      (ok = false → cr = st.castlingRights ∧ k = st.key) :=
    fun b => ⟨b, st.castlingRights, st.key, rfl, fun _ => ⟨rfl, rfl⟩⟩
  have hset : ∀ (side : Side) (cside : CastlingSide) (v : Int), ∃ ok cr k,
      (some (true, setCastlingSquare st side cside v) : Option (Bool × State)) =
        some (ok, { st with castlingRights := cr, key := k }) ∧
      (ok = false → cr = st.castlingRights ∧ k = st.key) := by
    intro side cside v
    obtain ⟨cr, k, h⟩ := setCastlingSquare_frame st side cside v
    exact ⟨true, cr, k, by rw [h], fun hh => (by cases hh)⟩
  have hletter : ∀ (side : Side) (cside : CastlingSide) (offset : Int), offset ≠ 0 →
      ∃ ok cr k,
        (match outermostRookScan st side offset (scanFuel st) (st.kingSquare side + offset) 0 with
          | none => none
          | some rookSq =>
            if rookSq ≠ 0 then some (true, setCastlingSquare st side cside rookSq)
            else some (false, st)) =
          some (ok, { st with castlingRights := cr, key := k }) ∧
        (ok = false → cr = st.castlingRights ∧ k = st.key) := by
    intro side cside offset ho
    obtain ⟨r, hr⟩ := outermostRookScan_total st side offset ho (scanFuel st)
      (st.kingSquare side + offset) 0 (scanRoom_lt_scanFuel st _ _)
    rw [hr]
    simp only []
    split
    · exact hset _ _ _
    · exact hsame false
  unfold parseCastlingRights
  simp only []
  by_cases hcast : st.hasCastling = false
  · rw [if_pos hcast]
    exact hsame false
  · rw [if_neg hcast]
    by_cases hq : c.toLower = 'q'
    · simp only [hq, if_true, ne_eq, Int.reduceNeg, neg_eq_zero, one_ne_zero, not_false_eq_true]
      exact hletter _ _ _ (by decide)
    · by_cases hk : c.toLower = 'k'
      · simp only [hq, hk, if_true, if_false, ne_eq, one_ne_zero, not_false_eq_true]
        exact hletter _ _ _ (by decide)
      · simp only [hq, hk, if_false, ne_eq, not_true_eq_false]
        generalize (if c.isUpper = true then upperCaseSide else upperCaseSide.opposite) = side
        generalize ((c.toLower.toNat : Int) - 97) = file
        generalize (if side = Side.White then (height + 1) * arwidth + 1 + file
          else 2 * arwidth + 1 + file) = rookSq
        by_cases h1 : file < 0 ∨ file ≥ width
        · rw [if_pos h1]
          exact hsame false
        · rw [if_neg h1]
          by_cases h2 : ((st.kingSquare side - rookSq).natAbs : Int) ≥ width
          · rw [if_pos h2]
            exact hsame false
          · rw [if_neg h2]
            by_cases h3 : pieceAt st rookSq = ⟨side, .Rook⟩
            · rw [if_pos h3]
              exact hset _ _ _
            · rw [if_neg h3]
              exact hsame false

/-- The loop over the castling field ends and changes at most the castling
rights and the key. -/
theorem parseCastlingField_frame :
    ∀ (cs : List Char) (st : State),
      ∃ ok cr k, parseCastlingField st cs =
        some (ok, { st with castlingRights := cr, key := k }) := by
  intro cs
  induction cs with
  | nil => intro st; exact ⟨true, st.castlingRights, st.key, rfl⟩
  | cons c rest ih =>
    intro st
    obtain ⟨ok, cr, k, h, _⟩ := parseCastlingRights_frame st c
    unfold parseCastlingField
    rw [h]
    cases ok
    · exact ⟨false, cr, k, rfl⟩
    · obtain ⟨ok1, cr1, k1, h1⟩ := ih { st with castlingRights := cr, key := k }
      simp only []
      rw [h1]
      exact ⟨ok1, cr1, k1, rfl⟩

/-! ## Reading the counters -/

/-- The end of `vSetFenString`: it changes at most the ply offset and the
history, and neither when it answers `false`; when it answers `true` the
history is empty. -/
theorem fenFullMoveNumber_frame (st : State) (tokens : List String) :
    ∃ ok ply hist, fenFullMoveNumber st tokens =
        (ok, { st with plyOffset := ply, history := hist }) ∧
      (ok = false → ply = st.plyOffset ∧ hist = st.history) ∧
      (ok = true → hist = []) := by
  unfold fenFullMoveNumber
  cases tokens with
  | nil =>
    simp only []
    split
    · exact ⟨true, _, [], rfl, fun h => (by cases h), fun _ => rfl⟩
    · exact ⟨true, _, [], rfl, fun h => (by cases h), fun _ => rfl⟩
  | cons token rest =>
    simp only []
    cases qStringToInt token with
    | none => exact ⟨false, st.plyOffset, st.history, rfl, fun _ => ⟨rfl, rfl⟩, fun h => by cases h⟩
    | some tmp =>
      simp only []
      split
      · exact ⟨false, st.plyOffset, st.history, rfl, fun _ => ⟨rfl, rfl⟩, fun h => by cases h⟩
      · split
        · exact ⟨true, _, [], rfl, fun h => (by cases h), fun _ => rfl⟩
        · exact ⟨true, _, [], rfl, fun h => (by cases h), fun _ => rfl⟩

/-- The counter part of `vSetFenString`: it changes at most the reversible
move count, the ply offset and the history, the last two not when it answers
`false`. -/
theorem fenReversibleCount_frame (st : State) (tokens : List String) :
    ∃ ok rmc ply hist, fenReversibleCount st tokens =
        (ok, { st with reversibleMoveCount := rmc, plyOffset := ply, history := hist }) ∧
      (ok = false → ply = st.plyOffset ∧ hist = st.history) ∧
      (ok = true → hist = []) := by
  unfold fenReversibleCount
  cases tokens with
  | nil =>
    simp only []
    obtain ⟨ok, ply, hist, h, h1, h2⟩ :=
      fenFullMoveNumber_frame { st with reversibleMoveCount := 0 } []
    exact ⟨ok, 0, ply, hist, h, h1, h2⟩
  | cons token rest =>
    simp only []
    cases qStringToInt token with
    | none =>
      exact ⟨false, st.reversibleMoveCount, st.plyOffset, st.history, rfl,
        fun _ => ⟨rfl, rfl⟩, fun h => by cases h⟩
    | some tmp =>
      simp only []
      split
      · exact ⟨false, st.reversibleMoveCount, st.plyOffset, st.history, rfl,
          fun _ => ⟨rfl, rfl⟩, fun h => by cases h⟩
      · obtain ⟨ok, ply, hist, h, h1, h2⟩ :=
          fenFullMoveNumber_frame { st with reversibleMoveCount := tmp } rest
        exact ⟨ok, tmp, ply, hist, h, h1, h2⟩

/-! ## The king scan -/

theorem kingScanStep_eq (acc : KingScan) (i : Nat) :
    kingScanStep acc i =
      if pieceAt acc.st (i : Int) = ⟨.White, .King⟩ then
        ⟨acc.st.setKingSquare .White (i : Int), acc.white + 1, acc.black⟩
      else if pieceAt acc.st (i : Int) = ⟨.Black, .King⟩ then
        ⟨acc.st.setKingSquare .Black (i : Int), acc.white, acc.black + 1⟩
      else acc := by
  unfold kingScanStep
  simp only []
  generalize pieceAt acc.st (i : Int) = p
  obtain ⟨sd, ty⟩ := p
  cases sd <;> cases ty <;> simp

/-- What the king scan leaves after the cells of `l`: only the two king
squares of the position change, each count grows by the number of cells that
hold that king, and a king square is either untouched, when no cell holds that
king, or one of the cells that hold it. -/
theorem kingScan_fold (sqs : List Piece) :
    ∀ (l : List Nat) (acc : KingScan), acc.st.squares = sqs →
      (∃ kw kb, (l.foldl kingScanStep acc).st =
        { acc.st with kingSquareWhite := kw, kingSquareBlack := kb }) ∧
      (l.foldl kingScanStep acc).white =
        acc.white + l.countP (fun (i : Nat) => decide (readSquare sqs (i : Int) = ⟨.White, .King⟩)) ∧
      (l.foldl kingScanStep acc).black =
        acc.black + l.countP (fun (i : Nat) => decide (readSquare sqs (i : Int) = ⟨.Black, .King⟩)) ∧
      ((l.countP (fun (i : Nat) => decide (readSquare sqs (i : Int) = ⟨.White, .King⟩)) = 0 ∧
          (l.foldl kingScanStep acc).st.kingSquareWhite = acc.st.kingSquareWhite) ∨
        ∃ i ∈ l, readSquare sqs (i : Int) = ⟨.White, .King⟩ ∧
          (l.foldl kingScanStep acc).st.kingSquareWhite = (i : Int)) ∧
      ((l.countP (fun (i : Nat) => decide (readSquare sqs (i : Int) = ⟨.Black, .King⟩)) = 0 ∧
          (l.foldl kingScanStep acc).st.kingSquareBlack = acc.st.kingSquareBlack) ∨
        ∃ i ∈ l, readSquare sqs (i : Int) = ⟨.Black, .King⟩ ∧
          (l.foldl kingScanStep acc).st.kingSquareBlack = (i : Int)) := by
  intro l
  induction l with
  | nil =>
    intro acc _
    exact ⟨⟨_, _, rfl⟩, by simp, by simp, Or.inl ⟨by simp, rfl⟩, Or.inl ⟨by simp, rfl⟩⟩
  | cons i rest ih =>
    intro acc hsq
    rw [List.foldl_cons]
    have hp : pieceAt acc.st (i : Int) = readSquare sqs (i : Int) := by
      unfold pieceAt; rw [hsq]
    by_cases hW : readSquare sqs (i : Int) = ⟨.White, .King⟩
    · have hstep : kingScanStep acc i =
          ⟨acc.st.setKingSquare .White (i : Int), acc.white + 1, acc.black⟩ := by
        rw [kingScanStep_eq, hp, if_pos hW]
      have hB : readSquare sqs (i : Int) ≠ ⟨.Black, .King⟩ := by rw [hW]; decide
      rw [hstep]
      obtain ⟨⟨kw, kb, hf⟩, hw, hb, hkw, hkb⟩ :=
        ih ⟨acc.st.setKingSquare .White (i : Int), acc.white + 1, acc.black⟩ hsq
      simp only [List.countP_cons, hW, hB, decide_True, decide_False, if_true,
        Bool.false_eq_true, if_false, add_zero] at hw hb hkw hkb ⊢
      refine ⟨⟨kw, kb, by rw [hf]; rfl⟩, by rw [hw]; omega, hb, ?_, ?_⟩
      · right
        rcases hkw with ⟨_, h2⟩ | ⟨j, hj, h1, h2⟩
        · exact ⟨i, List.mem_cons_self _ _, hW, by rw [h2]; rfl⟩
        · exact ⟨j, List.mem_cons_of_mem _ hj, h1, h2⟩
      · rcases hkb with ⟨h1, h2⟩ | ⟨j, hj, h1, h2⟩
        · exact Or.inl ⟨h1, by rw [h2]; rfl⟩
        · exact Or.inr ⟨j, List.mem_cons_of_mem _ hj, h1, h2⟩
    · by_cases hB : readSquare sqs (i : Int) = ⟨.Black, .King⟩
      · have hstep : kingScanStep acc i =
            ⟨acc.st.setKingSquare .Black (i : Int), acc.white, acc.black + 1⟩ := by
          rw [kingScanStep_eq, hp, if_neg hW, if_pos hB]
        rw [hstep]
        obtain ⟨⟨kw, kb, hf⟩, hw, hb, hkw, hkb⟩ :=
          ih ⟨acc.st.setKingSquare .Black (i : Int), acc.white, acc.black + 1⟩ hsq
        simp only [List.countP_cons, hW, hB, decide_True, decide_False, if_true,
          Bool.false_eq_true, if_false, add_zero] at hw hb hkw hkb ⊢
        refine ⟨⟨kw, kb, by rw [hf]; rfl⟩, hw, by rw [hb]; omega, ?_, ?_⟩
        · rcases hkw with ⟨h1, h2⟩ | ⟨j, hj, h1, h2⟩
          · exact Or.inl ⟨h1, by rw [h2]; rfl⟩
          · exact Or.inr ⟨j, List.mem_cons_of_mem _ hj, h1, h2⟩
        · right
          rcases hkb with ⟨_, h2⟩ | ⟨j, hj, h1, h2⟩
          · exact ⟨i, List.mem_cons_self _ _, hB, by rw [h2]; rfl⟩
          · exact ⟨j, List.mem_cons_of_mem _ hj, h1, h2⟩
      · have hstep : kingScanStep acc i = acc := by
          rw [kingScanStep_eq, hp, if_neg hW, if_neg hB]
        rw [hstep]
        obtain ⟨hf, hw, hb, hkw, hkb⟩ := ih acc hsq
        simp only [List.countP_cons, hW, hB, decide_False, Bool.false_eq_true, if_false,
          add_zero] at hw hb hkw hkb ⊢
        refine ⟨hf, hw, hb, ?_, ?_⟩
        · rcases hkw with h | ⟨j, hj, h1, h2⟩
          · exact Or.inl h
          · exact Or.inr ⟨j, List.mem_cons_of_mem _ hj, h1, h2⟩
        · rcases hkb with h | ⟨j, hj, h1, h2⟩
          · exact Or.inl h
          · exact Or.inr ⟨j, List.mem_cons_of_mem _ hj, h1, h2⟩

/-- When exactly one element of a list passes a test, any two elements that
pass it are equal. -/
theorem countP_one_unique (p : Nat → Bool) (l : List Nat) (h : l.countP p = 1) (a b : Nat)
    (ha : a ∈ l) (hpa : p a = true) (hb : b ∈ l) (hpb : p b = true) : a = b := by
  rw [List.countP_eq_length_filter, List.length_eq_one] at h
  obtain ⟨x, hx⟩ := h
  have h1 : a ∈ l.filter p := List.mem_filter.mpr ⟨ha, hpa⟩
  have h2 : b ∈ l.filter p := List.mem_filter.mpr ⟨hb, hpb⟩
  rw [hx] at h1 h2
  rw [List.mem_singleton.mp h1, List.mem_singleton.mp h2]

/-- The king scan of a position: the squares stay, the counts are the numbers
of kings, and with exactly one king of a side the king square found is the
one square that holds it. -/
theorem kingScan_spec (st : State) :
    (∃ kw kb, (kingScan st).st = { st with kingSquareWhite := kw, kingSquareBlack := kb }) ∧
      (kingScan st).white = kingCount st .White ∧
      (kingScan st).black = kingCount st .Black ∧
      ∀ side, side ≠ .NoSide → kingCount st side = 1 →
        pieceAt st ((kingScan st).st.kingSquare side) = ⟨side, .King⟩ ∧
          ∀ i : Int, pieceAt st i = ⟨side, .King⟩ → i = (kingScan st).st.kingSquare side := by
  obtain ⟨hf, hw, hb, hkw, hkb⟩ :=
    kingScan_fold st.squares (List.range st.squares.length) ⟨st, 0, 0⟩ rfl
  simp only [Nat.zero_add] at hw hb
  refine ⟨hf, hw, hb, ?_⟩
  have huniq : ∀ (side : Side) (j : Nat), kingCount st side = 1 →
      j ∈ List.range st.squares.length → readSquare st.squares (j : Int) = ⟨side, .King⟩ →
      ∀ i : Int, pieceAt st i = ⟨side, .King⟩ → i = (j : Int) := by
    intro side j h1 hj hjk i hi
    have hnw : pieceAt st i ≠ Piece.wallPiece := by
      rw [hi]; intro hh; cases congrArg Piece.type hh
    obtain ⟨h0, hl⟩ := pieceAt_not_wall_range st i hnw
    have := countP_one_unique _ _ h1 i.toNat j (List.mem_range.mpr hl)
      (by rw [Int.toNat_of_nonneg h0]; exact decide_eq_true hi) hj (decide_eq_true hjk)
    omega
  intro side hside h1
  cases side with
  | White =>
    rcases hkw with ⟨h0, _⟩ | ⟨j, hj, hjk, hjs⟩
    · unfold kingCount at h1
      unfold pieceAt at h1
      rw [h0] at h1
      cases h1
    · show pieceAt st (kingScan st).st.kingSquareWhite = _ ∧
        ∀ i : Int, _ → i = (kingScan st).st.kingSquareWhite
      unfold kingScan
      rw [hjs]
      exact ⟨hjk, huniq .White j h1 hj hjk⟩
  | Black =>
    rcases hkb with ⟨h0, _⟩ | ⟨j, hj, hjk, hjs⟩
    · unfold kingCount at h1
      unfold pieceAt at h1
      rw [h0] at h1
      cases h1
    · show pieceAt st (kingScan st).st.kingSquareBlack = _ ∧
        ∀ i : Int, _ → i = (kingScan st).st.kingSquareBlack
      unfold kingScan
      rw [hjs]
      exact ⟨hjk, huniq .Black j h1 hj hjk⟩
  | NoSide => exact absurd rfl hside

/-! ## The position load as a whole -/

/-- The three ways `vSetFenString` can run: too few fields, a wrong number of
kings, or the fields are read; it always ends.  In the last case only the
castling rights, the key, the sign, the counter, the ply offset and the
history can differ from the position after the king scan; a `false` answer
leaves the ply offset and the history as they were and a `true` answer leaves
the history empty. -/
theorem vSetFenString_cases (st : State) (fen : List String) :
    (fen.length < 2 ∧ vSetFenString st fen = some (false, st)) ∨
      (2 ≤ fen.length ∧ kingsCountAssertion (kingScan st).white (kingScan st).black = false ∧
        vSetFenString st fen = some (false, (kingScan st).st)) ∨
      (2 ≤ fen.length ∧ kingsCountAssertion (kingScan st).white (kingScan st).black = true ∧
        ∃ ok cr k sg rmc ply hist,
          vSetFenString st fen =
            some (ok, { (kingScan st).st with
              castlingRights := cr, key := k, sign := sg, reversibleMoveCount := rmc,
              plyOffset := ply, history := hist }) ∧
          (ok = false → ply = st.plyOffset ∧ hist = st.history) ∧
          (ok = true → hist = [])) := by
  obtain ⟨⟨kw, kb, hscan⟩, _⟩ := kingScan_spec st
  have hply : (kingScan st).st.plyOffset = st.plyOffset := by rw [hscan]
  have hhist : (kingScan st).st.history = st.history := by rw [hscan]
  by_cases hlen : fen.length < 2
  · left
    exact ⟨hlen, by unfold vSetFenString; rw [if_pos hlen]⟩
  · right
    have hlen2 : 2 ≤ fen.length := by omega
    by_cases hk : kingsCountAssertion (kingScan st).white (kingScan st).black = false
    · left
      refine ⟨hlen2, hk, ?_⟩
      unfold vSetFenString
      rw [if_neg hlen]
      simp only [hk, if_true]
    · right
      have hk1 : kingsCountAssertion (kingScan st).white (kingScan st).black = true := by
        simpa using hk
      refine ⟨hlen2, hk1, ?_⟩
      unfold vSetFenString
      rw [if_neg hlen]
      simp only [hk1, Bool.true_eq_false, if_false]
      generalize (if fen.length < 3 then (qStringToInt (fen.headD "")).isSome else false) = isShort
      by_cases hshort : isShort = true ∧ (kingScan st).st.hasCastling = true
      · rw [if_pos hshort]
        exact ⟨false, (kingScan st).st.castlingRights, (kingScan st).st.key,
          (kingScan st).st.sign, (kingScan st).st.reversibleMoveCount, st.plyOffset, st.history,
          by rw [← hply, ← hhist], fun _ => ⟨rfl, rfl⟩, fun h => (by cases h)⟩
      · rw [if_neg hshort]
        have hparsed : ∃ ok cr k,
            (if isShort = false then
              if fen.headD "" ≠ "-" then
                parseCastlingField { (kingScan st).st with castlingRights := ⟨0, 0, 0, 0⟩ }
                  (fen.headD "").data
              else some (true, { (kingScan st).st with castlingRights := ⟨0, 0, 0, 0⟩ })
            else some (true, { (kingScan st).st with castlingRights := ⟨0, 0, 0, 0⟩ })) =
            some (ok, { (kingScan st).st with castlingRights := cr, key := k }) := by
          split
          · split
            · obtain ⟨ok, cr, k, h⟩ := parseCastlingField_frame (fen.headD "").data
                { (kingScan st).st with castlingRights := ⟨0, 0, 0, 0⟩ }
              exact ⟨ok, cr, k, h⟩
            · exact ⟨true, ⟨0, 0, 0, 0⟩, (kingScan st).st.key, rfl⟩
          · exact ⟨true, ⟨0, 0, 0, 0⟩, (kingScan st).st.key, rfl⟩
        obtain ⟨ok, cr, k, hp⟩ := hparsed
        rw [hp]
        cases ok
        · exact ⟨false, cr, k, (kingScan st).st.sign, (kingScan st).st.reversibleMoveCount,
            st.plyOffset, st.history, by rw [← hply, ← hhist],
            fun _ => ⟨rfl, rfl⟩, fun h => (by cases h)⟩
        · simp only []
          obtain ⟨ok1, rmc, ply, hist, hr, h1, h2⟩ := fenReversibleCount_frame
            { (kingScan st).st with
              castlingRights := cr, key := k,
              sign := if (kingScan st).st.side = Side.White then 1 else -1 }
            (if isShort = false then fen.drop 2 else fen)
          rw [hr]
          refine ⟨ok1, cr, k, _, rmc, ply, hist, rfl, ?_, h2⟩
          intro hf
          obtain ⟨h3, h4⟩ := h1 hf
          exact ⟨h3.trans hply, h4.trans hhist⟩

/-! ## History and ply offset across a move -/

@[simp] theorem setCastlingSquare_history (st : State) (side : Side) (cside : CastlingSide)
    (v : Int) : (setCastlingSquare st side cside v).history = st.history := by
  obtain ⟨cr, k, h⟩ := setCastlingSquare_frame st side cside v
  rw [h]

@[simp] theorem setCastlingSquare_plyOffset (st : State) (side : Side) (cside : CastlingSide)
    (v : Int) : (setCastlingSquare st side cside v).plyOffset = st.plyOffset := by
  obtain ⟨cr, k, h⟩ := setCastlingSquare_frame st side cside v
  rw [h]

@[simp] theorem removeCastlingRights_history (st : State) (square : Int) :
    (removeCastlingRights st square).history = st.history := by
  obtain ⟨cr, k, h⟩ := removeCastlingRights_frame st square
  rw [h]

@[simp] theorem removeCastlingRights_plyOffset (st : State) (square : Int) :
    (removeCastlingRights st square).plyOffset = st.plyOffset := by
  obtain ⟨cr, k, h⟩ := removeCastlingRights_frame st square
  rw [h]

theorem vMakeMoveKing_history (loc : MakeLocals) (m : Move) (side : Side) (source : Int) :
    (vMakeMoveKing loc m side source).st.history = loc.st.history ∧
      (vMakeMoveKing loc m side source).st.plyOffset = loc.st.plyOffset := by
  unfold vMakeMoveKing
  simp only [setCastlingSquare_history, setKingSquare_history, setCastlingSquare_plyOffset,
    setKingSquare_plyOffset]
  split <;> simp [setSquare]

theorem vMakeMoveRook_history (loc : MakeLocals) (side : Side) (source : Int) :
    (vMakeMoveRook loc side source).st.history = loc.st.history ∧
      (vMakeMoveRook loc side source).st.plyOffset = loc.st.plyOffset := by
  unfold vMakeMoveRook
  split
  · simp
  · split <;> simp

theorem makeLocalsBranch_history (st : State) (m : Move) :
    (makeLocalsBranch st m).st.history = st.history ∧
      (makeLocalsBranch st m).st.plyOffset = st.plyOffset := by
  unfold makeLocalsBranch
  split
  · exact vMakeMoveKing_history _ _ _ _
  · split
    · exact vMakeMoveRook_history _ _ _
    · exact ⟨rfl, rfl⟩

theorem makeLocalsCapture_history (st : State) (m : Move) :
    (makeLocalsCapture st m).st.history = st.history ∧
      (makeLocalsCapture st m).st.plyOffset = st.plyOffset := by
  unfold makeLocalsCapture
  simp only []
  split
  · simp [makeLocalsBranch_history]
  · exact makeLocalsBranch_history st m

/-- Every call of `vMakeMove` pushes one undo record and leaves the ply
offset alone. -/
theorem vMakeMove_history_length (st : State) (m : Move) :
    (vMakeMove st m).history.length = st.history.length + 1 ∧
      (vMakeMove st m).plyOffset = st.plyOffset := by
  obtain ⟨h1, h2⟩ := makeLocalsCapture_history st m
  unfold vMakeMove
  simp only [setSquare]
  split <;> simp [h1, h2]

/-- After a list of moves the history has grown by one record per move. -/
theorem playMoves_history_length :
    ∀ (ms : List Move) (st : State),
      (playMoves st ms).history.length = st.history.length + ms.length ∧
        (playMoves st ms).plyOffset = st.plyOffset := by
  intro ms
  induction ms with
  | nil => intro st; exact ⟨rfl, rfl⟩
  | cons m rest ih =>
    intro st
    obtain ⟨h1, h2⟩ := ih (makeMove st m)
    obtain ⟨h3, h4⟩ := vMakeMove_history_length st m
    have h5 : (makeMove st m).history = (vMakeMove st m).history := rfl
    have h6 : (makeMove st m).plyOffset = (vMakeMove st m).plyOffset := rfl
    unfold playMoves at h1 h2 ⊢
    rw [List.foldl_cons, h1, h2, h5, h6, h3, h4, List.length_cons]
    exact ⟨by omega, rfl⟩

/-! ## Decimal strings -/

theorem digitChar_isDigit (d : Nat) (h : d < 10) :
    (Nat.digitChar d).isDigit = true ∧ (Nat.digitChar d).toNat - 48 = d := by
  interval_cases d <;> decide

theorem parseDigits_cons (c : Char) (rest : List Char) (acc : Nat) (h : c.isDigit = true) :
    parseDigits (c :: rest) acc = parseDigits rest (10 * acc + (c.toNat - 48)) := by
  simp only [parseDigits, h, if_true]

/-- Reading the digits `Nat.toDigits` writes gives the number back. -/
theorem parseDigits_toDigitsCore :
    ∀ (fuel n : Nat) (ds : List Char), n < fuel →
      parseDigits (Nat.toDigitsCore 10 fuel n ds) 0 = parseDigits ds n := by
  intro fuel
  induction fuel with
  | zero => intro n ds h; omega
  | succ f ih =>
    intro n ds h
    obtain ⟨hd1, hd2⟩ := digitChar_isDigit (n % 10) (Nat.mod_lt _ (by decide))
    unfold Nat.toDigitsCore
    simp only []
    by_cases h0 : n / 10 = 0
    · rw [if_pos h0, parseDigits_cons _ _ _ hd1, hd2]
      have : 10 * 0 + n % 10 = n := by omega
      rw [this]
    · rw [if_neg h0, ih (n / 10) _ (by omega), parseDigits_cons _ _ _ hd1, hd2]
      have : 10 * (n / 10) + n % 10 = n := by omega
      rw [this]

theorem toDigitsCore_ne_nil :
    ∀ (fuel n : Nat) (ds : List Char), (ds ≠ [] ∨ 0 < fuel) →
      Nat.toDigitsCore 10 fuel n ds ≠ [] := by
  intro fuel
  induction fuel with
  | zero =>
    intro n ds h
    rcases h with h | h
    · unfold Nat.toDigitsCore; exact h
    · omega
  | succ f ih =>
    intro n ds _
    unfold Nat.toDigitsCore
    simp only []
    split
    · exact List.cons_ne_nil _ _
    · exact ih _ _ (Or.inl (List.cons_ne_nil _ _))

/-- The decimal reader reads back what the model of `QString::number` writes
for a number that is not negative. -/
theorem decimalValue_number (c : Int) (hc : 0 ≤ c) :
    decimalValue (qStringNumber c) = some c := by
  obtain ⟨n, rfl⟩ := Int.eq_ofNat_of_zero_le hc
  have hdata : (qStringNumber (n : Int)).data = Nat.toDigits 10 n := rfl
  have hparse : parseDigits (Nat.toDigits 10 n) 0 = some n := by
    unfold Nat.toDigits
    rw [parseDigits_toDigitsCore (n + 1) n [] (by omega)]
    rfl
  have hne : Nat.toDigits 10 n ≠ [] := by
    unfold Nat.toDigits
    exact toDigitsCore_ne_nil _ _ _ (Or.inr (by omega))
  unfold decimalValue
  simp only [hdata, hne, if_false, hparse]

/-- The model of `QString::toInt` reads back what the model of
`QString::number` writes for an `int` that is not negative, and refuses the
string of a number above the greatest `int`. -/
theorem qStringToInt_number (c : Int) (hc : 0 ≤ c) :
    (c ≤ intMax → qStringToInt (qStringNumber c) = some c) ∧
      (intMax < c → qStringToInt (qStringNumber c) = none) := by
  unfold qStringToInt
  rw [decimalValue_number c hc]
  simp only []
  constructor
  · intro h
    rw [if_pos ⟨by unfold intMin; omega, h⟩]
  · intro h
    rw [if_neg (fun hh => absurd hh.2 (by omega))]


/-! ## Loading a position -/

theorem kingsCountAssertion_iff (w b : Nat) :
    kingsCountAssertion w b = true ↔ w = 1 ∧ b = 1 := by
  unfold kingsCountAssertion
  simp

set_option maxRecDepth 1000000 in
/-- The reading of C21 that fails.  The position `staleStart` holds the king
squares 125 and 26, the counter 7, the sign -1 and the castling-free starting
array.  A load whose full move number is 0, one whose counter is not a number
and one whose castling field holds a wrong character all answer `false`, yet
afterwards the king squares are 126 and 27, in the first case the counter
is 3, and in the first two cases the sign is 1. -/
theorem failed_load_mutates :
    (staleStart.kingSquareWhite, staleStart.kingSquareBlack, staleStart.reversibleMoveCount,
        staleStart.sign) = (125, 26, 7, -1) ∧
      (vSetFenString staleStart ["-", "-", "3", "0"]).map
          (fun r => (r.1, r.2.kingSquareWhite, r.2.kingSquareBlack, r.2.reversibleMoveCount,
            r.2.sign)) = some (false, 126, 27, 3, 1) ∧
      (vSetFenString staleStart ["-", "-", "x", "1"]).map
          (fun r => (r.1, r.2.kingSquareWhite, r.2.kingSquareBlack, r.2.reversibleMoveCount,
            r.2.sign)) = some (false, 126, 27, 7, 1) ∧
      (vSetFenString staleStart ["x", "-", "0", "1"]).map
          (fun r => (r.1, r.2.kingSquareWhite, r.2.kingSquareBlack, r.2.reversibleMoveCount,
            r.2.sign)) = some (false, 126, 27, 7, -1) := by
  decide

/-- **C21** (amended).  The method `vSetFenString` always ends.  With fewer
than 2 fields it answers `false` and leaves the position exactly as it was.
Whenever it answers `false`, the ply offset and the history are exactly as
before the call, and so are the squares, the side to move and the parent's
move history; the king squares, the castling rights, the sign and the
reversible-move counter may have been overwritten by then. -/
theorem failed_load_frame (st : State) (fen : List String) :
    ∃ ok st1, vSetFenString st fen = some (ok, st1) ∧
      (fen.length < 2 → ok = false ∧ st1 = st) ∧
      (ok = false →
        st1.plyOffset = st.plyOffset ∧ st1.history = st.history ∧
          st1.squares = st.squares ∧ st1.side = st.side ∧
          st1.moveHistory = st.moveHistory) := by
  obtain ⟨⟨kw, kb, hscan⟩, _⟩ := kingScan_spec st
  rcases vSetFenString_cases st fen with ⟨hlen, h⟩ | ⟨hlen, _, h⟩ | ⟨hlen, _, h⟩
  · exact ⟨false, st, h, fun _ => ⟨rfl, rfl⟩, fun _ => ⟨rfl, rfl, rfl, rfl, rfl⟩⟩
  · refine ⟨false, (kingScan st).st, h, fun h2 => (by omega), fun _ => ?_⟩
    rw [hscan]
    exact ⟨rfl, rfl, rfl, rfl, rfl⟩
  · obtain ⟨ok, cr, k, sg, rmc, ply, hist, h, hf, _⟩ := h
    refine ⟨ok, _, h, fun h2 => (by omega), fun hok => ?_⟩
    obtain ⟨h1, h2⟩ := hf hok
    rw [hscan]
    exact ⟨h1, h2, rfl, rfl, rfl⟩

/-- **C22.** The method `vSetFenString` answers `false` unless exactly one
square of the array holds the White king and exactly one holds the Black king;
and when it answers `true`, the squares are as before and, for each side, the
king-square cache is a square that holds the king of that side, and the only
one. -/
theorem load_requires_one_king_each (st : State) (fen : List String) :
    ((kingCount st .White ≠ 1 ∨ kingCount st .Black ≠ 1) →
        ∃ st1, vSetFenString st fen = some (false, st1)) ∧
      (∀ st1, vSetFenString st fen = some (true, st1) →
        kingCount st .White = 1 ∧ kingCount st .Black = 1 ∧ st1.squares = st.squares ∧
          ∀ side, side ≠ .NoSide →
            pieceAt st1 (st1.kingSquare side) = ⟨side, .King⟩ ∧
              ∀ i : Int, pieceAt st1 i = ⟨side, .King⟩ → i = st1.kingSquare side) := by
  obtain ⟨⟨kw, kb, hscan⟩, hw, hb, hkings⟩ := kingScan_spec st
  constructor
  · intro hne
    rcases vSetFenString_cases st fen with ⟨_, h⟩ | ⟨_, _, h⟩ | ⟨_, hk, _⟩
    · exact ⟨_, h⟩
    · exact ⟨_, h⟩
    · rw [kingsCountAssertion_iff, hw, hb] at hk
      rcases hne with hne | hne
      · exact absurd hk.1 hne
      · exact absurd hk.2 hne
  · intro st1 hst1
    rcases vSetFenString_cases st fen with ⟨_, h⟩ | ⟨_, _, h⟩ | ⟨_, hk, h⟩
    · rw [h] at hst1; cases hst1
    · rw [h] at hst1; cases hst1
    · rw [kingsCountAssertion_iff, hw, hb] at hk
      obtain ⟨ok, cr, k, sg, rmc, ply, hist, h, _, _⟩ := h
      rw [h] at hst1
      simp only [Option.some.injEq, Prod.mk.injEq] at hst1
      obtain ⟨_, hst1⟩ := hst1
      have hsq : st1.squares = st.squares := by rw [← hst1, hscan]
      have hks : ∀ side, st1.kingSquare side = (kingScan st).st.kingSquare side := by
        intro side; rw [← hst1]; cases side <;> rfl
      have hpa : ∀ x, pieceAt st1 x = pieceAt st x := by
        intro x; unfold pieceAt; rw [hsq]
      refine ⟨hk.1, hk.2, hsq, ?_⟩
      intro side hside
      have hone : kingCount st side = 1 := by
        cases side
        · exact hk.1
        · exact hk.2
        · exact absurd rfl hside
      obtain ⟨h1, h2⟩ := hkings side hside hone
      rw [hks, hpa]
      refine ⟨h1, fun i hi => ?_⟩
      rw [hpa] at hi
      exact h2 i hi

/-! ## The trailing fields of a position string -/

theorem fenFullMoveNumber_ok (st : State) (n : Int) (hn : 1 ≤ n) (hmax : n ≤ 1073741824)
    (rest : List String) :
    fenFullMoveNumber st (qStringNumber n :: rest) =
      (true, { st with
        plyOffset := 2 * (n - 1) + (if st.sign ≠ 1 then 1 else 0), history := [] }) := by
  unfold fenFullMoveNumber
  simp only []
  rw [(qStringToInt_number n (by omega)).1 (by unfold intMax; omega)]
  simp only []
  rw [if_neg (not_lt.mpr hn)]
  have hw : wrapInt (2 * (n - 1)) = 2 * (n - 1) :=
    wrapInt_of_range _ (by unfold intMin; omega) (by unfold intMax; omega)
  have hw1 : wrapInt (2 * (n - 1) + 1) = 2 * (n - 1) + 1 :=
    wrapInt_of_range _ (by unfold intMin; omega) (by unfold intMax; omega)
  by_cases hs : st.sign = 1
  · simp [hs, hw]
  · simp [hs, hw, hw1]

theorem fenReversibleCount_ok (st : State) (c n : Int) (hc : 0 ≤ c) (hcmax : c ≤ intMax)
    (hn : 1 ≤ n) (hmax : n ≤ 1073741824) :
    fenReversibleCount st [qStringNumber c, qStringNumber n] =
      (true, { st with
        reversibleMoveCount := c,
        plyOffset := 2 * (n - 1) + (if st.sign ≠ 1 then 1 else 0), history := [] }) := by
  unfold fenReversibleCount
  simp only []
  rw [(qStringToInt_number c hc).1 hcmax]
  simp only []
  rw [if_neg (not_lt.mpr hc), fenFullMoveNumber_ok _ n hn hmax]

theorem push_space (s : String) : s.push ' ' = s ++ " " := by
  cases s
  rfl

/-- The castling field written for a position without castling right. -/
theorem castlingRightsString_none (st : State) (shredderFen : Bool)
    (h : st.castlingRights = ⟨0, 0, 0, 0⟩) : castlingRightsString st shredderFen = some "-" := by
  unfold castlingRightsString castlingRightChar
  simp only [h, CastlingRights.rookSquare, List.foldl_cons, List.foldl_nil, if_true]
  rfl

set_option maxRecDepth 1000000 in
/-- The reading of C23 that fails.  The load of the fields `-`, `-`, `0` and
`1073741825` (a full move number of 2^30 + 1, with White to move) answers
`true`; the ply offset `2 * (n - 1)` does not fit an `int` and is held as
-2147483648, and `vFenString` then writes `- - 0 -1073741823`, not
`- - 0 1073741825`. -/
theorem full_move_number_overflows :
    staleStart.side = .White ∧ qStringNumber 1073741825 = "1073741825" ∧
      ((vSetFenString staleStart ["-", "-", "0", "1073741825"]).map fun r =>
        (r.1, r.2.plyOffset)) = some (true, -2147483648) ∧
      ((vSetFenString staleStart ["-", "-", "0", "1073741825"]).bind fun r =>
        vFenString r.2 false) = some "- - 0 -1073741823" := by
  decide

/-- **C23** (amended). In a position with exactly one king of each side, for
every counter `c` with `0 <= c <= 2147483647` and every full move number `n`
with `1 <= n <= 1073741824` (so that `c` and the ply offset fit an `int`),
`vSetFenString` on the fields `-`, `-`, the decimal string of `c` and the
decimal string of `n` answers `true`, and `vFenString` then returns exactly
`- - c n`, whichever side is to move.  After the load the history is empty
and, after any list of `k` moves has been made, the full move number
`vFenString` writes as its last field is `(k + plyOffset) / 2 + 1` in `int`
arithmetic, which is that number itself as long as `k + plyOffset` fits an
`int`.  A counter above 2147483647 is refused by the load. -/
theorem fen_trailing_fields_round_trip (st : State) (c n : Int) (shredderFen : Bool)
    (hc : 0 ≤ c) (hcmax : c ≤ intMax) (hn : 1 ≤ n) (hnmax : n ≤ 1073741824)
    (hkings : kingCount st .White = 1 ∧ kingCount st .Black = 1) :
    (∃ st1, vSetFenString st ["-", "-", qStringNumber c, qStringNumber n] = some (true, st1) ∧
      vFenString st1 shredderFen =
        some ("- - " ++ qStringNumber c ++ " " ++ qStringNumber n) ∧
      st1.reversibleMoveCount = c ∧ st1.history = [] ∧
      st1.plyOffset = 2 * (n - 1) + (if st.side = .White then 0 else 1) ∧
      (∀ ms : List Move,
        fullMoveNumber (playMoves st1 ms) =
          wrapInt (Int.tdiv (wrapInt ((ms.length : Int) + st1.plyOffset)) 2 + 1)) ∧
      (∀ ms : List Move, (ms.length : Int) + st1.plyOffset ≤ intMax →
        fullMoveNumber (playMoves st1 ms) =
          Int.tdiv ((ms.length : Int) + st1.plyOffset) 2 + 1) ∧
      (∀ (s : State) (str : String), vFenString s shredderFen = some str →
        ∃ front, str = front ++ qStringNumber (fullMoveNumber s))) ∧
      (∀ (big : Int) (st2 : State), intMax < big →
        vSetFenString st ["-", "-", qStringNumber big, qStringNumber n] ≠ some (true, st2)) := by
  obtain ⟨⟨kw, kb, hscan⟩, hw, hb, _⟩ := kingScan_spec st
  have hk : kingsCountAssertion (kingScan st).white (kingScan st).black = true := by
    rw [kingsCountAssertion_iff, hw, hb]; exact hkings
  have hside : (kingScan st).st.side = st.side := by rw [hscan]
  have hload : vSetFenString st ["-", "-", qStringNumber c, qStringNumber n] =
      some (true, { (kingScan st).st with
        castlingRights := ⟨0, 0, 0, 0⟩,
        sign := if st.side = .White then 1 else -1,
        reversibleMoveCount := c,
        plyOffset := 2 * (n - 1) + (if st.side = .White then 0 else 1),
        history := [] }) := by
    unfold vSetFenString
    have h4 : ¬ (["-", "-", qStringNumber c, qStringNumber n].length < 2) := by simp
    have h3 : ¬ (["-", "-", qStringNumber c, qStringNumber n].length < 3) := by simp
    rw [if_neg h4]
    simp only [hk, Bool.true_eq_false, if_false, h3, false_and, List.headD_cons, ne_eq,
      not_true_eq_false, List.drop_succ_cons, List.drop_zero, hside, if_true,
      Bool.false_eq_true, not_false_eq_true]
    rw [fenReversibleCount_ok _ c n hc hcmax hn hnmax]
    by_cases hs : st.side = .White
    · simp [hs]
    · simp [hs]
  have hply0 : 0 ≤ 2 * (n - 1) + (if st.side = .White then 0 else 1) := by
    split <;> omega
  have hplymax : 2 * (n - 1) + (if st.side = .White then 0 else 1) ≤ 2147483647 := by
    split <;> omega
  have hfmn : ∀ k : Nat, (k : Int) + (2 * (n - 1) + (if st.side = .White then 0 else 1)) ≤
      intMax →
      wrapInt (Int.tdiv (wrapInt ((k : Int) +
        (2 * (n - 1) + (if st.side = .White then 0 else 1)))) 2 + 1) =
      Int.tdiv ((k : Int) + (2 * (n - 1) + (if st.side = .White then 0 else 1))) 2 + 1 := by
    intro k hkmax
    generalize (2 * (n - 1) + (if st.side = .White then 0 else 1)) = ply at *
    unfold intMax at hkmax
    have hsum : wrapInt ((k : Int) + ply) = (k : Int) + ply :=
      wrapInt_of_range _ (by unfold intMin; omega) (by unfold intMax; omega)
    rw [hsum, Int.tdiv_eq_ediv (by omega) (by decide)]
    exact wrapInt_of_range _ (by unfold intMin; omega) (by unfold intMax; omega)
  refine ⟨⟨_, hload, ?_, rfl, rfl, rfl, ?_, ?_, ?_⟩, ?_⟩
  · unfold vFenString
    rw [castlingRightsString_none _ _ rfl]
    have h0 := hfmn 0 (by unfold intMax; push_cast; omega)
    simp only [fullMoveNumber, List.length_nil]
    rw [h0]
    have hfull : Int.tdiv (((0 : Nat) : Int) +
        (2 * (n - 1) + (if st.side = .White then 0 else 1))) 2 + 1 = n := by
      rw [Int.tdiv_eq_ediv (by push_cast; omega) (by decide)]
      split <;> omega
    rw [hfull]
    have hfront : (((("-".push ' ').push '-') ++ vFenIncludeString).push ' ') = "- - " := by
      decide
    rw [hfront]
    rw [push_space]
  · intro ms
    obtain ⟨h1, h2⟩ := playMoves_history_length ms
      { (kingScan st).st with
        castlingRights := ⟨0, 0, 0, 0⟩,
        sign := if st.side = .White then 1 else -1,
        reversibleMoveCount := c,
        plyOffset := 2 * (n - 1) + (if st.side = .White then 0 else 1),
        history := [] }
    unfold fullMoveNumber
    rw [h1, h2]
    simp
  · intro ms hmax
    obtain ⟨h1, h2⟩ := playMoves_history_length ms
      { (kingScan st).st with
        castlingRights := ⟨0, 0, 0, 0⟩,
        sign := if st.side = .White then 1 else -1,
        reversibleMoveCount := c,
        plyOffset := 2 * (n - 1) + (if st.side = .White then 0 else 1),
        history := [] }
    unfold fullMoveNumber
    rw [h1, h2]
    simp only [List.length_nil, Nat.zero_add]
    exact hfmn ms.length hmax
  · intro s str h
    unfold vFenString at h
    cases hcr : castlingRightsString s shredderFen with
    | none => rw [hcr] at h; cases h
    | some rights =>
      rw [hcr] at h
      simp only [Option.some.injEq] at h
      exact ⟨_, h.symm⟩
  · intro big st2 hbig hl
    unfold vSetFenString at hl
    have h4 : ¬ (["-", "-", qStringNumber big, qStringNumber n].length < 2) := by simp
    have h3 : ¬ (["-", "-", qStringNumber big, qStringNumber n].length < 3) := by simp
    rw [if_neg h4] at hl
    simp only [hk, Bool.true_eq_false, if_false, h3, false_and, List.headD_cons, ne_eq,
      not_true_eq_false, List.drop_succ_cons, List.drop_zero, hside, if_true,
      Bool.false_eq_true, not_false_eq_true] at hl
    unfold fenReversibleCount at hl
    simp only [] at hl
    rw [(qStringToInt_number big (by unfold intMax at hbig; omega)).2 hbig] at hl
    simp only [Option.some.injEq, Prod.mk.injEq] at hl
    exact absurd hl.1 (by decide)

set_option maxRecDepth 1000000 in
theorem fen_trailing_fields_round_trip_witness :
    qStringNumber 37 = "37" ∧ qStringNumber 12 = "12" ∧
      ((vSetFenString staleStart ["-", "-", "37", "12"]).bind fun r =>
        vFenString r.2 false) = some "- - 37 12" ∧
      ∃ st1, vSetFenString staleStart ["-", "-", qStringNumber 37, qStringNumber 12] =
          some (true, st1) ∧
        vFenString st1 false = some ("- - " ++ qStringNumber 37 ++ " " ++ qStringNumber 12) ∧
        st1.plyOffset = 22 ∧
        fullMoveNumber (playMoves st1 rookShuffle) = 62 := by
  refine ⟨by decide, by decide, by decide, ?_⟩
  obtain ⟨⟨st1, h1, h2, _, _, h5, _, h6, _⟩, _⟩ :=
    fen_trailing_fields_round_trip staleStart 37 12 false (by decide) (by decide) (by decide)
      (by decide) (by decide)
  refine ⟨st1, h1, h2, h5, ?_⟩
  rw [h6 rookShuffle (by rw [h5]; decide), h5]
  decide

/-! ## A castling right named by its file -/

set_option maxRecDepth 1000000 in
/-- **C29.** The file-letter branch of `parseCastlingRights` accepts a rook
that is not on the king's rank.  In a variant with castling, with the White
king on e2 (array cell 115, rank index 1) and a White rook on a1 (cell 122,
rank index 0), the character `A` is accepted: the answer is `true` and the
king-side right of White is set to the rook on a1, because the test
`abs(kingSq - rookSq) >= width()` lets every rook pass that is fewer than nine
cells from the king, also one on the next rank. -/
theorem file_letter_accepts_rook_off_king_rank :
    kingOffBackRank.hasCastling = true ∧
      kingOffBackRank.kingSquare .White = 115 ∧
      pieceAt kingOffBackRank 115 = ⟨.White, .King⟩ ∧
      pieceAt kingOffBackRank 122 = ⟨.White, .Rook⟩ ∧
      (chessSquare 115).rank = 1 ∧ (chessSquare 122).rank = 0 ∧
      (chessSquare 122).file = 0 ∧
      kingOffBackRank.castlingRights = ⟨0, 0, 0, 0⟩ ∧
      (parseCastlingRights kingOffBackRank 'A').map (fun r => (r.1, r.2.castlingRights)) =
        some (true, ⟨0, 122, 0, 0⟩) := by
  decide


/-! ## No rook is tracked twice -/

theorem distinct_of_beside (st : State) (h : CastlingRooksBesideKing st) :
    DistinctCastlingRooks st := by
  obtain ⟨⟨h1, h2⟩, h3, h4⟩ := h
  unfold DistinctCastlingRooks
  constructor <;> intro hq <;> omega

/-- The rook found by the outward scan, if any, lies beyond the square the
scan starts on. -/
theorem outermostRookScan_beyond (st : State) (side : Side) (offset : Int) :
    ∀ (fuel : Nat) (i r0 r : Int), outermostRookScan st side offset fuel i r0 = some r →
      r = r0 ∨ ((offset = 1 → i ≤ r) ∧ (offset = -1 → r ≤ i)) := by
  intro fuel
  induction fuel with
  | zero => intro i r0 r h; simp [outermostRookScan] at h
  | succ n ih =>
    intro i r0 r h
    unfold outermostRookScan at h
    simp only [] at h
    split at h
    · left
      simp only [Option.some.injEq] at h
      exact h.symm
    · rcases ih _ _ _ h with h1 | h1
      · split at h1
        · right
          rw [h1]
          exact ⟨fun _ => le_refl _, fun _ => le_refl _⟩
        · exact Or.inl h1
      · right
        exact ⟨fun ho => by have := h1.1 ho; omega, fun ho => by have := h1.2 ho; omega⟩

/-- The castling rights `vMakeMove` leaves: every entry is 0 or as before. -/
theorem rookSquare_vMakeMove (st : State) (m : Move) (s : Side) (c : CastlingSide) :
    (vMakeMove st m).castlingRights.rookSquare s c = 0 ∨
      (vMakeMove st m).castlingRights.rookSquare s c = st.castlingRights.rookSquare s c := by
  have hbranch : (makeLocalsBranch st m).st.castlingRights.rookSquare s c = 0 ∨
      (makeLocalsBranch st m).st.castlingRights.rookSquare s c =
        st.castlingRights.rookSquare s c := by
    unfold makeLocalsBranch
    have hst : (makeLocalsStart st m).st = st := rfl
    split
    · unfold vMakeMoveKing
      simp only []
      rw [setCastlingSquare_castlingRights, rookSquare_setRookSquare,
        setCastlingSquare_castlingRights, rookSquare_setRookSquare,
        setKingSquare_castlingRights]
      split
      · exact Or.inl rfl
      · split
        · exact Or.inl rfl
        · right
          split
          · simp [setSquare, hst]
          · rw [hst]
    · split
      · unfold vMakeMoveRook
        rw [hst]
        split
        · simp only []
          rw [setCastlingSquare_castlingRights, rookSquare_setRookSquare]
          split
          · exact Or.inl rfl
          · exact Or.inr rfl
        · split
          · simp only []
            rw [setCastlingSquare_castlingRights, rookSquare_setRookSquare]
            split
            · exact Or.inl rfl
            · exact Or.inr rfl
          · exact Or.inr rfl
      · exact Or.inr rfl
  rw [vMakeMove_castlingRights]
  unfold makeLocalsCapture
  simp only []
  split
  · simp only []
    rw [rookSquare_removeCastlingRights]
    split
    · exact Or.inl rfl
    · exact hbranch
  · exact hbranch

/-- No move makes a rook tracked twice. -/
theorem vMakeMove_distinct (st : State) (m : Move) (h : DistinctCastlingRooks st) :
    DistinctCastlingRooks (vMakeMove st m) := by
  obtain ⟨hW, hB⟩ := h
  have a1 := rookSquare_vMakeMove st m .White .QueenSide
  have a2 := rookSquare_vMakeMove st m .White .KingSide
  have a3 := rookSquare_vMakeMove st m .Black .QueenSide
  have a4 := rookSquare_vMakeMove st m .Black .KingSide
  unfold DistinctCastlingRooks
  constructor <;> intro hq <;> omega

/-- Writing an entry that lies on its own side of the king keeps every
tracked rook square on its own side of the king. -/
theorem beside_setCastlingSquare (st : State) (side : Side) (cside : CastlingSide) (v : Int)
    (hq : cside = .QueenSide → v < st.kingSquare side)
    (hk : cside = .KingSide → st.kingSquare side < v)
    (hb : CastlingRooksBesideKing st) :
    CastlingRooksBesideKing (setCastlingSquare st side cside v) := by
  unfold CastlingRooksBesideKing at hb ⊢
  simp only [setCastlingSquare_kingSquare, setCastlingSquare_castlingRights,
    rookSquare_setRookSquare]
  obtain ⟨⟨h1, h2⟩, h3, h4⟩ := hb
  cases side <;> cases cside <;>
    simp only [reduceCtorEq, false_and, and_false, if_false, true_and, and_true, ne_eq,
      not_false_eq_true, not_true_eq_false, if_true, and_self] <;>
    first
      | exact ⟨⟨h1, h2⟩, h3, h4⟩
      | exact ⟨⟨Or.inr (hq rfl), h2⟩, h3, h4⟩
      | exact ⟨⟨h1, Or.inr (hk rfl)⟩, h3, h4⟩
      | exact ⟨⟨h1, h2⟩, Or.inr (hq rfl), h4⟩
      | exact ⟨⟨h1, h2⟩, h3, Or.inr (hk rfl)⟩

/-- The method `parseCastlingRights` keeps every tracked rook square on its
own side of the king, when no king square holds a rook of its side. -/
theorem parseCastlingRights_beside (st : State) (c : Char) (ok : Bool) (st1 : State)
    (h : parseCastlingRights st c = some (ok, st1))
    (hking : ∀ side, side ≠ .NoSide → pieceAt st (st.kingSquare side) ≠ ⟨side, .Rook⟩)
    (hb : CastlingRooksBesideKing st) :
    CastlingRooksBesideKing st1 := by
  have hsame : ∀ b : Bool, (some (b, st) : Option (Bool × State)) = some (ok, st1) →
      CastlingRooksBesideKing st1 := by
    intro b hh
    simp only [Option.some.injEq, Prod.mk.injEq] at hh
    rw [← hh.2]
    exact hb
  have hletter : ∀ (side : Side) (cside : CastlingSide) (offset : Int),
      (cside = .QueenSide → offset = -1) → (cside = .KingSide → offset = 1) →
      (match outermostRookScan st side offset (scanFuel st) (st.kingSquare side + offset) 0 with
        | none => none
        | some rookSq =>
          if rookSq ≠ 0 then some (true, setCastlingSquare st side cside rookSq)
          else some (false, st)) = some (ok, st1) →
      CastlingRooksBesideKing st1 := by
    intro side cside offset ho1 ho2 hh
    cases hr : outermostRookScan st side offset (scanFuel st) (st.kingSquare side + offset) 0 with
    | none => rw [hr] at hh; cases hh
    | some r =>
      rw [hr] at hh
      simp only [] at hh
      split at hh
      · rename_i hr0
        simp only [Option.some.injEq, Prod.mk.injEq] at hh
        rw [← hh.2]
        rcases outermostRookScan_beyond st side offset _ _ _ _ hr with h0 | ⟨h1, h2⟩
        · exact absurd h0 hr0
        · apply beside_setCastlingSquare _ _ _ _ _ _ hb
          · intro hc
            have := h2 (ho1 hc)
            have := ho1 hc
            omega
          · intro hc
            have := h1 (ho2 hc)
            have := ho2 hc
            omega
      · exact hsame false hh
  unfold parseCastlingRights at h
  simp only [] at h
  by_cases hcast : st.hasCastling = false
  · rw [if_pos hcast] at h
    exact hsame false h
  · rw [if_neg hcast] at h
    by_cases hq : c.toLower = 'q'
    · simp only [hq, if_true, ne_eq, Int.reduceNeg, neg_eq_zero, one_ne_zero,
        not_false_eq_true] at h
      exact hletter _ .QueenSide (-1) (fun _ => rfl) (fun hh => by cases hh) h
    · by_cases hk : c.toLower = 'k'
      · simp only [hq, hk, if_true, if_false, ne_eq, one_ne_zero, not_false_eq_true] at h
        exact hletter _ .KingSide 1 (fun hh => by cases hh) (fun _ => rfl) h
      · simp only [hq, hk, if_false, ne_eq, not_true_eq_false] at h
        have hsd : (if c.isUpper = true then upperCaseSide else upperCaseSide.opposite) ≠
            Side.NoSide := by
          split <;> decide
        generalize (if c.isUpper = true then upperCaseSide else upperCaseSide.opposite) = side
          at h hsd
        generalize ((c.toLower.toNat : Int) - 97) = file at h
        generalize (if side = Side.White then (height + 1) * arwidth + 1 + file
          else 2 * arwidth + 1 + file) = rookSq at h
        by_cases h1 : file < 0 ∨ file ≥ width
        · rw [if_pos h1] at h
          exact hsame false h
        · rw [if_neg h1] at h
          by_cases h2 : ((st.kingSquare side - rookSq).natAbs : Int) ≥ width
          · rw [if_pos h2] at h
            exact hsame false h
          · rw [if_neg h2] at h
            by_cases h3 : pieceAt st rookSq = ⟨side, .Rook⟩
            · rw [if_pos h3] at h
              simp only [Option.some.injEq, Prod.mk.injEq] at h
              rw [← h.2]
              have hne : rookSq ≠ st.kingSquare side := by
                intro heq
                rw [heq] at h3
                exact hking side hsd h3
              apply beside_setCastlingSquare _ _ _ _ _ _ hb
              · intro hc
                split at hc
                · cases hc
                · omega
              · intro hc
                split at hc
                · omega
                · cases hc
            · rw [if_neg h3] at h
              exact hsame false h

/-- The loop over the castling field keeps every tracked rook square on its
own side of the king. -/
theorem parseCastlingField_beside :
    ∀ (cs : List Char) (st : State) (ok : Bool) (st1 : State),
      parseCastlingField st cs = some (ok, st1) →
      (∀ side, side ≠ .NoSide → pieceAt st (st.kingSquare side) ≠ ⟨side, .Rook⟩) →
      CastlingRooksBesideKing st → CastlingRooksBesideKing st1 := by
  intro cs
  induction cs with
  | nil =>
    intro st ok st1 h _ hb
    simp only [parseCastlingField, Option.some.injEq, Prod.mk.injEq] at h
    rw [← h.2]
    exact hb
  | cons c rest ih =>
    intro st ok st1 h hking hb
    obtain ⟨ok2, cr, k, hp, _⟩ := parseCastlingRights_frame st c
    have hb2 := parseCastlingRights_beside st c _ _ hp hking hb
    unfold parseCastlingField at h
    rw [hp] at h
    cases ok2
    · simp only [Option.some.injEq, Prod.mk.injEq] at h
      rw [← h.2]
      exact hb2
    · simp only [] at h
      refine ih _ ok st1 h ?_ hb2
      intro side hside
      have := hking side hside
      cases side <;> exact this

/-- After a successful load no rook is tracked twice: every tracked rook
square lies on its own side of the king of its side. -/
theorem load_distinct_castling_rooks (st : State) (fen : List String) (st1 : State)
    (h : vSetFenString st fen = some (true, st1)) :
    CastlingRooksBesideKing st1 ∧ DistinctCastlingRooks st1 := by
  suffices hb : CastlingRooksBesideKing st1 from ⟨hb, distinct_of_beside st1 hb⟩
  obtain ⟨⟨kw, kb, hscan⟩, hw, hb, hkings⟩ := kingScan_spec st
  unfold vSetFenString at h
  by_cases hlen : fen.length < 2
  · rw [if_pos hlen] at h; cases h
  · rw [if_neg hlen] at h
    by_cases hk : kingsCountAssertion (kingScan st).white (kingScan st).black = false
    · simp only [hk, if_true] at h; cases h
    · have hk1 : kingsCountAssertion (kingScan st).white (kingScan st).black = true := by
        simpa using hk
      simp only [hk1, Bool.true_eq_false, if_false] at h
      rw [kingsCountAssertion_iff, hw, hb] at hk1
      generalize (if fen.length < 3 then (qStringToInt (fen.headD "")).isSome else false) =
        isShort at h
      by_cases hshort : isShort = true ∧ (kingScan st).st.hasCastling = true
      · rw [if_pos hshort] at h; cases h
      · rw [if_neg hshort] at h
        have hzero : CastlingRooksBesideKing
            { (kingScan st).st with castlingRights := ⟨0, 0, 0, 0⟩ } :=
          ⟨⟨Or.inl rfl, Or.inl rfl⟩, Or.inl rfl, Or.inl rfl⟩
        have hkingsq : ∀ side, side ≠ .NoSide →
            pieceAt { (kingScan st).st with castlingRights := ⟨0, 0, 0, 0⟩ }
              (({ (kingScan st).st with castlingRights := ⟨0, 0, 0, 0⟩ } : State).kingSquare side)
              ≠ ⟨side, .Rook⟩ := by
          intro side hside
          have hpa : ∀ x, pieceAt { (kingScan st).st with castlingRights := ⟨0, 0, 0, 0⟩ } x =
              pieceAt st x := by
            intro x; unfold pieceAt; rw [hscan]
          have hks : ({ (kingScan st).st with castlingRights := ⟨0, 0, 0, 0⟩ } : State).kingSquare
              side = (kingScan st).st.kingSquare side := by cases side <;> rfl
          rw [hpa, hks]
          cases side with
          | White => rw [(hkings .White (by decide) hk1.1).1]; decide
          | Black => rw [(hkings .Black (by decide) hk1.2).1]; decide
          | NoSide => exact absurd rfl hside
        have hparsed : ∀ ok3 st3,
            (if isShort = false then
              if fen.headD "" ≠ "-" then
                parseCastlingField { (kingScan st).st with castlingRights := ⟨0, 0, 0, 0⟩ }
                  (fen.headD "").data
              else some (true, { (kingScan st).st with castlingRights := ⟨0, 0, 0, 0⟩ })
            else some (true, { (kingScan st).st with castlingRights := ⟨0, 0, 0, 0⟩ })) =
            some (ok3, st3) → CastlingRooksBesideKing st3 := by
          intro ok3 st3 hp
          split at hp
          · split at hp
            · exact parseCastlingField_beside _ _ _ _ hp hkingsq hzero
            · simp only [Option.some.injEq, Prod.mk.injEq] at hp
              rw [← hp.2]; exact hzero
          · simp only [Option.some.injEq, Prod.mk.injEq] at hp
            rw [← hp.2]; exact hzero
        cases hp : (if isShort = false then
              if fen.headD "" ≠ "-" then
                parseCastlingField { (kingScan st).st with castlingRights := ⟨0, 0, 0, 0⟩ }
                  (fen.headD "").data
              else some (true, { (kingScan st).st with castlingRights := ⟨0, 0, 0, 0⟩ })
            else some (true, { (kingScan st).st with castlingRights := ⟨0, 0, 0, 0⟩ })) with
        | none => rw [hp] at h; cases h
        | some r =>
          obtain ⟨ok3, st3⟩ := r
          have hb3 := hparsed ok3 st3 hp
          rw [hp] at h
          cases ok3
          · simp only [Option.some.injEq, Prod.mk.injEq] at h
            exact absurd h.1 (by decide)
          · simp only [Option.some.injEq] at h
            obtain ⟨ok1, rmc, ply, hist, hr, _, _⟩ := fenReversibleCount_frame
              { st3 with sign := if st3.side = Side.White then 1 else -1 }
              (if isShort = false then fen.drop 2 else fen)
            rw [hr] at h
            simp only [Prod.mk.injEq] at h
            rw [← h.2]
            exact hb3

/-! ## The pawn test and pawn move generation near the palace -/

/-- The moves `generatePawnMoves` appends for a pawn of the opposing side on
`c` that end on the square of the king of `side`. -/
theorem pawn_move_onto_king (st : State) (side : Side) (hside : side ≠ .NoSide) (c k : Int)
    (hk : pieceAt st k = ⟨side, .King⟩) :
    Move.mk2 c k ∈ generatePawnMoves { st with side := side.opposite } c [] ↔
      k - c = pawnForward side.opposite ∨
        (pawnCrossedRiver side.opposite c = true ∧ (k - c = -1 ∨ k - c = 1)) := by
  have hopp : ({ st with side := side.opposite } : State).side ≠ .NoSide := by
    cases side <;> simp [Side.opposite] at hside ⊢
  rw [generatePawnMoves_eq _ c [] hopp, generateHoppingMoves_mem_iff]
  have hpa : ∀ x, pieceAt { st with side := side.opposite } x = pieceAt st x := fun _ => rfl
  simp only [List.not_mem_nil, false_or, hpa, opposite_opposite]
  constructor
  · rintro ⟨offset, hmem, heq, _⟩
    have hko : k = c + offset := by
      have := congrArg Move.targetSquare heq
      simpa [Move.mk2] using this
    by_cases hc : pawnCrossedRiver side.opposite c = true
    · simp only [hc, if_true, List.mem_cons, List.mem_singleton, List.not_mem_nil,
        or_false] at hmem
      rcases hmem with h | h | h
      · left; omega
      · right; exact ⟨hc, Or.inl (by omega)⟩
      · right; exact ⟨hc, Or.inr (by omega)⟩
    · simp only [hc, if_false, List.mem_singleton, Bool.false_eq_true] at hmem
      left; omega
  · intro h
    have hck : c + (k - c) = k := by omega
    refine ⟨k - c, ?_, by rw [hck], Or.inr (by rw [hck, hk])⟩
    rcases h with h | ⟨hc, h | h⟩
    · rw [h]
      split
      · exact List.mem_cons_self _ _
      · exact List.mem_singleton.mpr rfl
    · rw [h, if_pos hc]; simp
    · rw [h, if_pos hc]; simp

/-- A piece that stands beside a king in its own palace, as a pawn of the
other side, has crossed the river. -/
theorem beside_palace_crossed (side : Side) (k : Int) (hpal : inPalace side k = true) :
    pawnCrossedRiver side.opposite (k - 1) = true ∧
      pawnCrossedRiver side.opposite (k + 1) = true := by
  rw [inPalace_iff] at hpal
  obtain ⟨h0, hf1, hf2, hr⟩ := hpal
  have e1 := (chessSquare_of_nonneg (k - 1) (by omega)).2
  have e2 := (chessSquare_of_nonneg (k + 1) (by omega)).2
  unfold pawnCrossedRiver
  rcases hr with ⟨rfl, hr1, hr2⟩ | ⟨rfl, hr1, hr2⟩
  · simp only [Side.opposite, decide_eq_true_eq, e1, e2]
    constructor <;> omega
  · simp only [Side.opposite, decide_eq_true_eq, e1, e2]
    constructor <;> omega

/-- The step of the pawn block of `inCheck(side)` leads to the square from
which an opposing pawn advances onto the asked square. -/
theorem attackStep_eq (side : Side) (hside : side ≠ .NoSide) :
    (if side = .Black then (1 : Int) else -1) * arwidth = -pawnForward side.opposite := by
  cases side
  · decide
  · decide
  · exact absurd rfl hside

/-- **C31.** When the king of `side` stands on a square `k` inside its own
palace, the pawn block of `inCheck(side)` answers `true` if and only if some
opposing piece with pawn movement is given a move onto `k` by
`generatePawnMoves` with the opponent to move.  A pawn on either square beside
such a king has crossed the river, and the only squares from which
`generatePawnMoves` gives a move onto `k` are the square ahead of the king
and the two squares beside it: a pawn that has passed the king gets no move
onto `k` and is not among the squares the pawn block looks at. -/
theorem pawn_check_agrees_with_generation (st : State) (side : Side) (k : Int)
    (hside : side ≠ .NoSide) (hpal : inPalace side k = true)
    (hk : pieceAt st k = ⟨side, .King⟩) :
    (pawnAttacks st side side.opposite k = true ↔ PawnMoveOnto st side.opposite k) ∧
      pawnCrossedRiver side.opposite (k - 1) = true ∧
      pawnCrossedRiver side.opposite (k + 1) = true ∧
      (∀ c, Move.mk2 c k ∈ generatePawnMoves { st with side := side.opposite } c [] →
        c = k - pawnForward side.opposite ∨ c = k - 1 ∨ c = k + 1) ∧
      Move.mk2 (k + pawnForward side.opposite) k ∉
        generatePawnMoves { st with side := side.opposite } (k + pawnForward side.opposite) [] := by
  obtain ⟨hc1, hc2⟩ := beside_palace_crossed side k hpal
  have hfw : pawnForward side.opposite = 11 ∨ pawnForward side.opposite = -11 := by
    cases side
    · left; decide
    · right; decide
    · right; decide
  refine ⟨?_, hc1, hc2, ?_, ?_⟩
  · unfold pawnAttacks PawnMoveOnto
    have hp1 : pawnPreOffsets.getD 1 0 = -1 := by decide
    have hp2 : pawnPreOffsets.getD 2 0 = 1 := by decide
    simp only [attackStep_eq side hside, hp1, hp2, List.any_cons, List.any_nil, Bool.or_false,
      Bool.or_eq_true, Bool.and_eq_true, decide_eq_true_eq]
    constructor
    · rintro (⟨hs, hm⟩ | ⟨hs, hm⟩ | ⟨hs, hm⟩)
      · refine ⟨_, hs, hm, ?_⟩
        rw [pawn_move_onto_king st side hside _ _ hk]
        left; omega
      · refine ⟨_, hs, hm, ?_⟩
        rw [pawn_move_onto_king st side hside _ _ hk]
        right
        have : k + -1 = k - 1 := by omega
        rw [this]
        exact ⟨hc1, by omega⟩
      · refine ⟨_, hs, hm, ?_⟩
        rw [pawn_move_onto_king st side hside _ _ hk]
        right
        exact ⟨hc2, by omega⟩
    · rintro ⟨c, hs, hm, hmove⟩
      rw [pawn_move_onto_king st side hside _ _ hk] at hmove
      rcases hmove with h | ⟨_, h | h⟩
      · left
        have : k + -pawnForward side.opposite = c := by omega
        rw [this]; exact ⟨hs, hm⟩
      · right; right
        have : k + 1 = c := by omega
        rw [this]; exact ⟨hs, hm⟩
      · right; left
        have : k + -1 = c := by omega
        rw [this]; exact ⟨hs, hm⟩
  · intro c hmove
    rw [pawn_move_onto_king st side hside _ _ hk] at hmove
    omega
  · intro hmove
    rw [pawn_move_onto_king st side hside _ _ hk] at hmove
    omega

set_option maxRecDepth 1000000 in
theorem pawn_check_agrees_with_generation_witness :
    (.White : Side) ≠ .NoSide ∧ inPalace .White 115 = true ∧
      pieceAt pawnBesideKing 114 = ⟨.Black, .Pawn⟩ ∧
      pieceAt pawnBesideKing 126 = ⟨.Black, .Pawn⟩ ∧
      pawnAttacks pawnBesideKing .White .Black 115 = true ∧
      PawnMoveOnto pawnBesideKing .Black 115 ∧
      pawnAttacks pawnBehindKing .White .Black 115 = false ∧
      ¬ PawnMoveOnto pawnBehindKing .Black 115 :=
  ⟨by decide, by decide, by decide, by decide, by decide,
    (pawn_check_agrees_with_generation pawnBesideKing .White 115 (by decide) (by decide)
      (by decide)).1.mp (by decide),
    by decide,
    fun h => absurd
      ((pawn_check_agrees_with_generation pawnBehindKing .White 115 (by decide) (by decide)
        (by decide)).1.mpr h) (by decide)⟩

/-! ## The king-square cache along a run of moves -/

theorem kingCached_cacheOk (st : State) (side : Side) (h : KingCached st side) :
    KingCacheOk st side :=
  ⟨Or.inr h.1, fun _ _ hi => h.2 _ hi⟩

/-- The squares, the side to move and the king squares after `makeMove` of a
king-sparing move in a well-formed position. -/
theorem makeMove_effect (st : State) (m : Move) (hwf : WellFormed st)
    (hm : KingSparingMove st m) :
    (makeMove st m).squares.length = st.squares.length ∧
      (makeMove st m).side = st.side.opposite ∧
      (∀ x, pieceAt (makeMove st m) x =
        if x = m.sourceSquare then Piece.noPiece
        else if x = m.targetSquare then ⟨st.side, (pieceAt st m.sourceSquare).type⟩
        else pieceAt st x) ∧
      (∀ s, (makeMove st m).kingSquare s =
        if s = st.side ∧ (pieceAt st m.sourceSquare).type = .King then m.targetSquare
        else st.kingSquare s) := by
  obtain ⟨hss, hsty, hsh, hnk⟩ := hm
  obtain ⟨hs0, hst, hcs, _⟩ := shaped_facts st m hwf hss hsty hsh
  obtain ⟨cr, k, rmc, hv⟩ := vMakeMove_plain st m hs0 hst hsh.2.1 hcs
  have hsrc : pieceAt st m.sourceSquare ≠ Piece.wallPiece := by
    intro h
    rw [h] at hss
    exact hwf.2.1 hss.symm
  obtain ⟨hsr0, hsr1⟩ := pieceAt_not_wall_range st _ hsrc
  obtain ⟨htr0, htr1⟩ := pieceAt_not_wall_range st _ hsh.2.2.1
  have hsq : (makeMove st m).squares = writeSquare
      (writeSquare st.squares m.targetSquare ⟨st.side, (pieceAt st m.sourceSquare).type⟩)
      m.sourceSquare Piece.noPiece := by
    show (vMakeMove st m).squares = _
    rw [hv]
  have hkw : (makeMove st m).kingSquareWhite =
      (if (pieceAt st m.sourceSquare).type = .King then
        st.setKingSquare st.side m.targetSquare else st).kingSquareWhite := by
    show (vMakeMove st m).kingSquareWhite = _
    rw [hv]
  have hkb : (makeMove st m).kingSquareBlack =
      (if (pieceAt st m.sourceSquare).type = .King then
        st.setKingSquare st.side m.targetSquare else st).kingSquareBlack := by
    show (vMakeMove st m).kingSquareBlack = _
    rw [hv]
  refine ⟨?_, ?_, ?_, ?_⟩
  · rw [hsq, writeSquare_length, writeSquare_length]
  · show (vMakeMove st m).side.opposite = _
    rw [vMakeMove_side]
  · intro x
    unfold pieceAt
    rw [hsq, readSquare_writeSquare, readSquare_writeSquare, writeSquare_length]
    by_cases hx : x = m.sourceSquare
    · rw [if_pos ⟨hx, hsr0, hsr1⟩, if_pos hx]
    · rw [if_neg (fun h => hx h.1), if_neg hx]
      by_cases hx2 : x = m.targetSquare
      · rw [if_pos ⟨hx2, htr0, htr1⟩, if_pos hx2]
        rfl
      · rw [if_neg (fun h => hx2 h.1), if_neg hx2]
  · intro s
    have hside := hwf.2.1
    by_cases hK : (pieceAt st m.sourceSquare).type = .King
    · rw [if_pos hK] at hkw hkb
      cases s <;> cases hsd : st.side <;>
        simp only [State.kingSquare, hkw, hkb, hsd, State.setKingSquare, hK, and_true, and_self,
          if_true, if_false, reduceCtorEq]
      exact absurd hsd hside
    · rw [if_neg hK] at hkw hkb
      cases s <;>
        simp only [State.kingSquare, hkw, hkb, hK, and_false, if_false]
/-- A king-sparing move keeps the king-square cache of either side right. -/
theorem makeMove_kingCached (st : State) (m : Move) (hwf : WellFormed st)
    (hm : KingSparingMove st m) (s : Side) (hk : KingCached st s) :
    KingCached (makeMove st m) s := by
  obtain ⟨_, _, hpa, hks⟩ := makeMove_effect st m hwf hm
  obtain ⟨hss, hsty, hsh, hnk⟩ := hm
  obtain ⟨hs0, hst, _, _⟩ := shaped_facts st m hwf hss hsty hsh
  obtain ⟨hk1, hk2⟩ := hk
  have hown : (pieceAt st m.targetSquare).isEmpty = true ∨
      (pieceAt st m.targetSquare).side ≠ st.side := hsh.2.2.2
  by_cases hc : s = st.side ∧ (pieceAt st m.sourceSquare).type = .King
  · have hsrcK : pieceAt st m.sourceSquare = ⟨s, .King⟩ := by
      cases hp : pieceAt st m.sourceSquare with
      | mk ps pt =>
        rw [hp] at hss
        have h2 := hc.2
        rw [hp] at h2
        simp only [] at hss h2
        rw [hss, h2, hc.1]
    have hsrc := hk2 _ hsrcK
    constructor
    · rw [hks, if_pos hc, hpa, if_neg (Ne.symm hst), if_pos rfl, hc.2, hc.1]
    · intro i hi
      rw [hks, if_pos hc]
      rw [hpa] at hi
      by_cases h1 : i = m.sourceSquare
      · rw [if_pos h1] at hi
        cases hi
      · rw [if_neg h1] at hi
        by_cases h2 : i = m.targetSquare
        · exact h2
        · rw [if_neg h2] at hi
          exact absurd ((hk2 _ hi).trans hsrc.symm) h1
  · have hne1 : st.kingSquare s ≠ m.sourceSquare := by
      intro h
      rw [h] at hk1
      apply hc
      rw [hk1] at hss
      exact ⟨hss, by rw [hk1]⟩
    have hne2 : st.kingSquare s ≠ m.targetSquare := by
      intro h
      rw [h] at hk1
      exact hnk (by rw [hk1])
    constructor
    · rw [hks, if_neg hc, hpa, if_neg hne1, if_neg hne2]
      exact hk1
    · intro i hi
      rw [hks, if_neg hc]
      rw [hpa] at hi
      by_cases h1 : i = m.sourceSquare
      · rw [if_pos h1] at hi
        cases hi
      · rw [if_neg h1] at hi
        by_cases h2 : i = m.targetSquare
        · rw [if_pos h2] at hi
          exfalso
          apply hc
          have e1 : st.side = s := congrArg Piece.side hi
          have e2 : (pieceAt st m.sourceSquare).type = .King := congrArg Piece.type hi
          exact ⟨e1.symm, e2⟩
        · rw [if_neg h2] at hi
          exact hk2 _ hi

/-- A king-sparing move keeps the walls in place. -/
theorem makeMove_wallsInPlace (st : State) (m : Move) (hwf : WellFormed st)
    (hm : KingSparingMove st m) : WallsInPlace (makeMove st m) := by
  obtain ⟨hlen, _, hpa, _⟩ := makeMove_effect st m hwf hm
  obtain ⟨hss, hsty, hsh, hnk⟩ := hm
  obtain ⟨hw1, hw2⟩ := hwf.1
  refine ⟨by rw [hlen]; exact hw1, ?_⟩
  intro i hi hv
  have hwall := hw2 i hi hv
  rw [hpa]
  have h1 : (i : Int) ≠ m.sourceSquare := by
    intro h
    rw [h] at hwall
    rw [hwall] at hss
    exact hwf.2.1 hss.symm
  have h2 : (i : Int) ≠ m.targetSquare := by
    intro h
    rw [h] at hwall
    exact hsh.2.2.1 hwall
  rw [if_neg h1, if_neg h2]
  exact hwall
/-- The king branch of `vMakeMove` for a move that is not a castling move: the
king square is recorded and both rights of the mover are cleared. -/
theorem vMakeMoveKing_plain (st : State) (m : Move)
    (hcs : castlingSide st m = .NoCastlingSide) :
    (vMakeMoveKing (makeLocalsStart st m) m st.side m.sourceSquare).st =
        setCastlingSquare
          (setCastlingSquare (st.setKingSquare st.side m.targetSquare) st.side .QueenSide 0)
          st.side .KingSide 0 ∧
      (vMakeMoveKing (makeLocalsStart st m) m st.side m.sourceSquare).target =
        m.targetSquare := by
  have hcs1 : castlingSide (makeLocalsStart st m).st m = .NoCastlingSide := hcs
  unfold vMakeMoveKing
  simp only [hcs1, ne_eq, not_true_eq_false, if_false]
  exact ⟨rfl, rfl⟩

/-- A tracked rook of the opponent that is captured loses its right. -/
theorem capture_clears_tracked_rook (st : State) (m : Move) (hside : st.side ≠ .NoSide)
    (hdist : DistinctCastlingRooks st) (hcs : castlingSide st m = .NoCastlingSide)
    (c : CastlingSide)
    (ht : pieceAt st m.targetSquare = ⟨st.side.opposite, .Rook⟩)
    (hq : st.castlingRights.rookSquare st.side.opposite c = m.targetSquare)
    (h0 : m.targetSquare ≠ 0) :
    (vMakeMove st m).castlingRights.rookSquare st.side.opposite c = 0 := by
  by_cases hK : movedPieceType st m = .King
  · obtain ⟨hst5, htg⟩ := vMakeMoveKing_plain st m hcs
    have hopp : st.side.opposite ≠ st.side := by
      cases hsd : st.side
      · decide
      · decide
      · exact absurd hsd hside
    have hpa : ∀ x, pieceAt (setCastlingSquare
        (setCastlingSquare (st.setKingSquare st.side m.targetSquare) st.side .QueenSide 0)
        st.side .KingSide 0) x = pieceAt st x := by
      intro x
      unfold pieceAt
      simp only [setCastlingSquare_squares, setKingSquare_squares]
    have hrs : ∀ c1, (setCastlingSquare
        (setCastlingSquare (st.setKingSquare st.side m.targetSquare) st.side .QueenSide 0)
        st.side .KingSide 0).castlingRights.rookSquare st.side.opposite c1 =
        st.castlingRights.rookSquare st.side.opposite c1 := by
      intro c1
      rw [setCastlingSquare_castlingRights, setCastlingSquare_castlingRights,
        rookSquare_setRookSquare, rookSquare_setRookSquare, setKingSquare_castlingRights]
      rw [if_neg (fun h => hopp h.1), if_neg (fun h => hopp h.1)]
    have hcap : captureType (setCastlingSquare
        (setCastlingSquare (st.setKingSquare st.side m.targetSquare) st.side .QueenSide 0)
        st.side .KingSide 0) m = .Rook := by
      unfold captureType
      simp only [hpa, setCastlingSquare_side, setKingSquare_side, ht, if_true]
    rw [vMakeMove_castlingRights]
    unfold makeLocalsCapture makeLocalsBranch
    rw [if_pos hK]
    simp only [hst5, htg, hcap, ne_eq, reduceCtorEq, not_false_eq_true, if_true]
    rw [rookSquare_removeCastlingRights, hpa, ht, hrs, hrs]
    have hW := hdist.1
    have hB := hdist.2
    rw [if_pos]
    refine ⟨rfl, rfl, ?_⟩
    cases c with
    | QueenSide => exact Or.inl ⟨rfl, hq.symm⟩
    | KingSide =>
      refine Or.inr ⟨rfl, ?_, hq.symm⟩
      cases hsd : st.side with
      | NoSide => exact absurd hsd hside
      | White =>
        rw [hsd] at hq
        simp only [Side.opposite] at hq ⊢
        intro h
        have := hB (by rw [← h]; exact h0)
        exact this (by rw [← h, hq])
      | Black =>
        rw [hsd] at hq
        simp only [Side.opposite] at hq ⊢
        intro h
        have := hW (by rw [← h]; exact h0)
        exact this (by rw [← h, hq])
    | NoCastlingSide =>
      exfalso
      apply h0
      rw [← hq]
      cases st.side <;> rfl
  · rw [rookSquare_after_non_king_move st m hside hK hdist, if_pos (Or.inr ⟨rfl, ht, hq.symm⟩)]

/-- A king-sparing move keeps every castling right pointing at a rook of its
side: a right whose rook moves or is captured is cleared. -/
theorem makeMove_castlingOk (st : State) (m : Move) (hwf : WellFormed st)
    (hdist : DistinctCastlingRooks st) (hm : KingSparingMove st m) (s : Side)
    (c : CastlingSide) : CastlingOk (makeMove st m) s c := by
  obtain ⟨_, _, hpa, _⟩ := makeMove_effect st m hwf hm
  obtain ⟨hss, hsty, hsh, hnk⟩ := hm
  obtain ⟨hs0, hst, hcs, _⟩ := shaped_facts st m hwf hss hsty hsh
  have hside := hwf.2.1
  have hcr : (makeMove st m).castlingRights = (vMakeMove st m).castlingRights := rfl
  unfold CastlingOk
  rw [hcr]
  rcases rookSquare_vMakeMove st m s c with h | h
  · exact Or.inl h
  · by_cases hz : st.castlingRights.rookSquare s c = 0
    · left; rw [h, hz]
    · have hold : pieceAt st (st.castlingRights.rookSquare s c) = ⟨s, .Rook⟩ := by
        rcases wellFormed_castling st hwf s c with h1 | h1
        · exact absurd h1 hz
        · exact h1
      by_cases h1 : st.castlingRights.rookSquare s c = m.sourceSquare
      · exfalso
        rw [h1] at hold
        have hsd : s = st.side := by rw [← hss, hold]
        have hty : movedPieceType st m = .Rook := by
          unfold movedPieceType
          rw [if_neg hs0, hold]
        have hnK : movedPieceType st m ≠ .King := by rw [hty]; decide
        have := rookSquare_after_non_king_move st m hside hnK hdist s c
        rw [if_pos (Or.inl ⟨hsd, hty, h1.symm⟩)] at this
        rw [this] at h
        exact hz h.symm
      · by_cases h2 : st.castlingRights.rookSquare s c = m.targetSquare
        · exfalso
          rw [h2] at hold
          have hsd : s = st.side.opposite := by
            have hne : s ≠ st.side := by
              rcases hsh.2.2.2 with he | he
              · rw [hold] at he
                cases he
              · rw [hold] at he
                exact he
            have hns : s ≠ .NoSide := by
              intro hh
              apply hz
              rw [hh]
              rfl
            cases s <;> cases hsd : st.side <;> simp_all [Side.opposite]
          rw [hsd] at hold h2 h
          have := capture_clears_tracked_rook st m hside hdist hcs c hold h2
            (by rw [← h2, ← hsd]; exact hz)
          rw [this] at h
          apply hz
          rw [hsd]
          exact h.symm
        · right
          rw [h, hpa, if_neg h1, if_neg h2]
          exact hold
/-- A king-sparing move leads from a sound position to a sound position. -/
theorem makeMove_sound (st : State) (m : Move) (h : SoundPosition st)
    (hm : KingSparingMove st m) : SoundPosition (makeMove st m) := by
  obtain ⟨hwf, hdist, hkw, hkb⟩ := h
  have hw := makeMove_kingCached st m hwf hm .White hkw
  have hb := makeMove_kingCached st m hwf hm .Black hkb
  obtain ⟨_, hsd, _, _⟩ := makeMove_effect st m hwf hm
  refine ⟨⟨makeMove_wallsInPlace st m hwf hm, ?_, kingCached_cacheOk _ _ hw,
    kingCached_cacheOk _ _ hb, makeMove_castlingOk st m hwf hdist hm _ _,
    makeMove_castlingOk st m hwf hdist hm _ _, makeMove_castlingOk st m hwf hdist hm _ _,
    makeMove_castlingOk st m hwf hdist hm _ _⟩, vMakeMove_distinct st m hdist, hw, hb⟩
  rw [hsd]
  have := hwf.2.1
  cases hs : st.side
  · decide
  · decide
  · exact absurd hs this

/-- From a sound position reached by the moves on a stack of sound positions,
admitted calls run to the end and leave a sound position: a move made leads to
a sound position, and an `undoMove` gives back the position the last move was
made from. -/
theorem runCalls_sound :
    ∀ (calls : List BoardCall) (cur : State) (stack : List State),
      SoundPosition cur →
      List.Chain
        (fun a b => SoundPosition b ∧ ∃ m, KingSparingMove b m ∧ a = makeMove b m) cur stack →
      ValidCalls cur stack.length calls →
      ∃ st1, runCalls cur calls = some st1 ∧ SoundPosition st1 := by
  intro calls
  induction calls with
  | nil =>
    intro cur stack hs _ _
    exact ⟨cur, rfl, hs⟩
  | cons call rest ih =>
    intro cur stack hs hchain hv
    cases call with
    | make m =>
      obtain ⟨hm, hrest⟩ := hv
      exact ih (makeMove cur m) (cur :: stack) (makeMove_sound cur m hs hm)
        (List.Chain.cons ⟨hs, m, hm, rfl⟩ hchain) hrest
    | undo =>
      obtain ⟨hd, hrest⟩ := hv
      cases stack with
      | nil => exact absurd hd (by decide)
      | cons prev stack1 =>
        rw [List.chain_cons] at hchain
        obtain ⟨⟨hprev, m, hm, hcur⟩, hchain1⟩ := hchain
        have hundo : undoMove cur = some prev := by
          rw [hcur]
          exact undoMove_makeMove prev m hprev.1 hm.1 hm.2.1 hm.2.2.1
        rw [hundo] at hrest
        have hrun : runCalls cur (.undo :: rest) = runCalls prev rest := by
          show (match undoMove cur with
            | none => none
            | some st1 => runCalls st1 rest) = _
          rw [hundo]
        rw [hrun]
        exact ih prev stack1 hprev hchain1 hrest
/-- The rook square the outward scan answers is the one it started with or a
square that holds a rook of the side. -/
theorem outermostRookScan_rook (st : State) (side : Side) (offset : Int) :
    ∀ (fuel : Nat) (i r0 r : Int), outermostRookScan st side offset fuel i r0 = some r →
      r = r0 ∨ pieceAt st r = ⟨side, .Rook⟩ := by
  intro fuel
  induction fuel with
  | zero => intro i r0 r h; simp [outermostRookScan] at h
  | succ n ih =>
    intro i r0 r h
    unfold outermostRookScan at h
    simp only [] at h
    split at h
    · left
      simp only [Option.some.injEq] at h
      exact h.symm
    · rcases ih _ _ _ h with h1 | h1
      · split at h1
        · rename_i hp
          right
          rw [h1]
          exact hp
        · exact Or.inl h1
      · exact Or.inr h1

/-- Writing a castling entry that is 0 or names a rook of its side keeps every
castling right pointing at a rook of its side. -/
theorem castlingOk_setCastlingSquare (st : State) (side : Side) (cside : CastlingSide)
    (v : Int) (hv : v = 0 ∨ pieceAt st v = ⟨side, .Rook⟩)
    (hok : ∀ s c, CastlingOk st s c) :
    ∀ s c, CastlingOk (setCastlingSquare st side cside v) s c := by
  intro s c
  have hpa : ∀ x, pieceAt (setCastlingSquare st side cside v) x = pieceAt st x := by
    intro x
    unfold pieceAt
    rw [setCastlingSquare_squares]
  unfold CastlingOk
  rw [setCastlingSquare_castlingRights, rookSquare_setRookSquare, hpa]
  split
  · rename_i h
    rw [h.1]
    exact hv
  · exact hok s c

/-- The method `parseCastlingRights` keeps every castling right pointing at a
rook of its side. -/
theorem parseCastlingRights_castlingOk (st : State) (c : Char) (ok : Bool) (st1 : State)
    (h : parseCastlingRights st c = some (ok, st1))
    (hok : ∀ s cs, CastlingOk st s cs) :
    ∀ s cs, CastlingOk st1 s cs := by
  have hsame : ∀ b : Bool, (some (b, st) : Option (Bool × State)) = some (ok, st1) →
      ∀ s cs, CastlingOk st1 s cs := by
    intro b hh
    simp only [Option.some.injEq, Prod.mk.injEq] at hh
    rw [← hh.2]
    exact hok
  have hletter : ∀ (side : Side) (cside : CastlingSide) (offset : Int),
      (match outermostRookScan st side offset (scanFuel st) (st.kingSquare side + offset) 0 with
        | none => none
        | some rookSq =>
          if rookSq ≠ 0 then some (true, setCastlingSquare st side cside rookSq)
          else some (false, st)) = some (ok, st1) →
      ∀ s cs, CastlingOk st1 s cs := by
    intro side cside offset hh
    cases hr : outermostRookScan st side offset (scanFuel st) (st.kingSquare side + offset) 0 with
    | none => rw [hr] at hh; cases hh
    | some r =>
      rw [hr] at hh
      simp only [] at hh
      split at hh
      · simp only [Option.some.injEq, Prod.mk.injEq] at hh
        rw [← hh.2]
        exact castlingOk_setCastlingSquare st side cside r
          (outermostRookScan_rook st side offset _ _ _ _ hr) hok
      · exact hsame false hh
  unfold parseCastlingRights at h
  simp only [] at h
  by_cases hcast : st.hasCastling = false
  · rw [if_pos hcast] at h
    exact hsame false h
  · rw [if_neg hcast] at h
    by_cases hq : c.toLower = 'q'
    · simp only [hq, if_true, ne_eq, Int.reduceNeg, neg_eq_zero, one_ne_zero,
        not_false_eq_true] at h
      exact hletter _ .QueenSide (-1) h
    · by_cases hk : c.toLower = 'k'
      · simp only [hq, hk, if_true, if_false, ne_eq, one_ne_zero, not_false_eq_true] at h
        exact hletter _ .KingSide 1 h
      · simp only [hq, hk, if_false, ne_eq, not_true_eq_false] at h
        generalize (if c.isUpper = true then upperCaseSide else upperCaseSide.opposite) = side
          at h
        generalize ((c.toLower.toNat : Int) - 97) = file at h
        generalize (if side = Side.White then (height + 1) * arwidth + 1 + file
          else 2 * arwidth + 1 + file) = rookSq at h
        by_cases h1 : file < 0 ∨ file ≥ width
        · rw [if_pos h1] at h
          exact hsame false h
        · rw [if_neg h1] at h
          by_cases h2 : ((st.kingSquare side - rookSq).natAbs : Int) ≥ width
          · rw [if_pos h2] at h
            exact hsame false h
          · rw [if_neg h2] at h
            by_cases h3 : pieceAt st rookSq = ⟨side, .Rook⟩
            · rw [if_pos h3] at h
              simp only [Option.some.injEq, Prod.mk.injEq] at h
              rw [← h.2]
              exact castlingOk_setCastlingSquare st side _ rookSq (Or.inr h3) hok
            · rw [if_neg h3] at h
              exact hsame false h

/-- The loop over the castling field keeps every castling right pointing at a
rook of its side. -/
theorem parseCastlingField_castlingOk :
    ∀ (cs : List Char) (st : State) (ok : Bool) (st1 : State),
      parseCastlingField st cs = some (ok, st1) →
      (∀ s c, CastlingOk st s c) → ∀ s c, CastlingOk st1 s c := by
  intro cs
  induction cs with
  | nil =>
    intro st ok st1 h hok
    simp only [parseCastlingField, Option.some.injEq, Prod.mk.injEq] at h
    rw [← h.2]
    exact hok
  | cons c rest ih =>
    intro st ok st1 h hok
    obtain ⟨ok2, cr, k, hp, _⟩ := parseCastlingRights_frame st c
    have hok2 := parseCastlingRights_castlingOk st c _ _ hp hok
    unfold parseCastlingField at h
    rw [hp] at h
    cases ok2
    · simp only [Option.some.injEq, Prod.mk.injEq] at h
      rw [← h.2]
      exact hok2
    · simp only [] at h
      exact ih _ ok st1 h hok2

/-- After a successful load every castling right points at a rook of its side. -/
theorem load_castlingOk (st : State) (fen : List String) (st1 : State)
    (h : vSetFenString st fen = some (true, st1)) :
    ∀ s c, CastlingOk st1 s c := by
  unfold vSetFenString at h
  by_cases hlen : fen.length < 2
  · rw [if_pos hlen] at h; cases h
  · rw [if_neg hlen] at h
    by_cases hk : kingsCountAssertion (kingScan st).white (kingScan st).black = false
    · simp only [hk, if_true] at h; cases h
    · have hk1 : kingsCountAssertion (kingScan st).white (kingScan st).black = true := by
        simpa using hk
      simp only [hk1, Bool.true_eq_false, if_false] at h
      generalize (if fen.length < 3 then (qStringToInt (fen.headD "")).isSome else false) =
        isShort at h
      by_cases hshort : isShort = true ∧ (kingScan st).st.hasCastling = true
      · rw [if_pos hshort] at h; cases h
      · rw [if_neg hshort] at h
        have hzero : ∀ s c, CastlingOk
            { (kingScan st).st with castlingRights := ⟨0, 0, 0, 0⟩ } s c := by
          intro s c
          left
          cases s <;> cases c <;> rfl
        have hparsed : ∀ ok3 st3,
            (if isShort = false then
              if fen.headD "" ≠ "-" then
                parseCastlingField { (kingScan st).st with castlingRights := ⟨0, 0, 0, 0⟩ }
                  (fen.headD "").data
              else some (true, { (kingScan st).st with castlingRights := ⟨0, 0, 0, 0⟩ })
            else some (true, { (kingScan st).st with castlingRights := ⟨0, 0, 0, 0⟩ })) =
            some (ok3, st3) → ∀ s c, CastlingOk st3 s c := by
          intro ok3 st3 hp
          split at hp
          · split at hp
            · exact parseCastlingField_castlingOk _ _ _ _ hp hzero
            · simp only [Option.some.injEq, Prod.mk.injEq] at hp
              rw [← hp.2]; exact hzero
          · simp only [Option.some.injEq, Prod.mk.injEq] at hp
            rw [← hp.2]; exact hzero
        cases hp : (if isShort = false then
              if fen.headD "" ≠ "-" then
                parseCastlingField { (kingScan st).st with castlingRights := ⟨0, 0, 0, 0⟩ }
                  (fen.headD "").data
              else some (true, { (kingScan st).st with castlingRights := ⟨0, 0, 0, 0⟩ })
            else some (true, { (kingScan st).st with castlingRights := ⟨0, 0, 0, 0⟩ })) with
        | none => rw [hp] at h; cases h
        | some r =>
          obtain ⟨ok3, st3⟩ := r
          have hb3 := hparsed ok3 st3 hp
          rw [hp] at h
          cases ok3
          · simp only [Option.some.injEq, Prod.mk.injEq] at h
            exact absurd h.1 (by decide)
          · simp only [Option.some.injEq] at h
            obtain ⟨ok1, rmc, ply, hist, hr, _, _⟩ := fenReversibleCount_frame
              { st3 with sign := if st3.side = Side.White then 1 else -1 }
              (if isShort = false then fen.drop 2 else fen)
            rw [hr] at h
            simp only [Prod.mk.injEq] at h
            rw [← h.2]
            exact hb3

/-- A successful load of a position whose walls are in place and that has a
side to move leaves a sound position. -/
theorem load_sound (st : State) (fen : List String) (st0 : State)
    (hwalls : WallsInPlace st) (hside : st.side ≠ .NoSide)
    (hload : vSetFenString st fen = some (true, st0)) : SoundPosition st0 := by
  obtain ⟨⟨kw, kb, hscan⟩, hw, hb, hkings⟩ := kingScan_spec st
  have hcast := load_castlingOk st fen st0 hload
  have hdist := (load_distinct_castling_rooks st fen st0 hload).2
  rcases vSetFenString_cases st fen with ⟨_, h⟩ | ⟨_, _, h⟩ | ⟨_, hk, h⟩
  · rw [h] at hload; cases hload
  · rw [h] at hload; cases hload
  · rw [kingsCountAssertion_iff, hw, hb] at hk
    obtain ⟨ok, cr, k, sg, rmc, ply, hist, h, _, _⟩ := h
    rw [h] at hload
    simp only [Option.some.injEq, Prod.mk.injEq] at hload
    obtain ⟨_, hst0⟩ := hload
    have hsq : st0.squares = st.squares := by rw [← hst0, hscan]
    have hsd : st0.side = st.side := by rw [← hst0, hscan]
    have hks : ∀ side, st0.kingSquare side = (kingScan st).st.kingSquare side := by
      intro side; rw [← hst0]; cases side <;> rfl
    have hpa : ∀ x, pieceAt st0 x = pieceAt st x := by
      intro x; unfold pieceAt; rw [hsq]
    have hcached : ∀ side, side ≠ .NoSide → kingCount st side = 1 → KingCached st0 side := by
      intro side hs hone
      obtain ⟨h1, h2⟩ := hkings side hs hone
      unfold KingCached
      rw [hks, hpa]
      refine ⟨h1, fun i hi => ?_⟩
      rw [hpa] at hi
      exact h2 i hi
    have hcw := hcached .White (by decide) hk.1
    have hcb := hcached .Black (by decide) hk.2
    have hwalls0 : WallsInPlace st0 := by
      unfold WallsInPlace
      rw [hsq]
      refine ⟨hwalls.1, fun i hi hv => ?_⟩
      rw [hpa]
      exact hwalls.2 i hi hv
    exact ⟨⟨hwalls0, by rw [hsd]; exact hside, kingCached_cacheOk _ _ hcw,
      kingCached_cacheOk _ _ hcb, hcast _ _, hcast _ _, hcast _ _, hcast _ _⟩, hdist, hcw, hcb⟩
/-- A load that answers `true` leaves the position `loadedPosition` names. -/
theorem vSetFenString_loadedPosition (st : State) (fen : List String)
    (h : (vSetFenString st fen).map Prod.fst = some true) :
    vSetFenString st fen = some (true, loadedPosition st fen) := by
  unfold loadedPosition
  cases hv : vSetFenString st fen with
  | none => rw [hv] at h; cases h
  | some r =>
    obtain ⟨ok, st1⟩ := r
    rw [hv] at h
    simp only [Option.map_some', Option.some.injEq] at h
    rw [h]

/-- A generated move that does not capture a king is a king-sparing move. -/
theorem generated_kingSparing (st : State) (m : Move) (hside : st.side ≠ .NoSide)
    (hgen : Generated st m) (hnk : (pieceAt st m.targetSquare).type ≠ .King) :
    KingSparingMove st m := by
  obtain ⟨h1, h2, h3⟩ := generated_shape st hside m hgen
  exact ⟨h1, h2, h3, hnk⟩

/-- **C32.** King-square cache invariant.  Start from the position a
successful `vSetFenString` leaves (on a board whose walls are in place and
that has a side to move) and run any list of calls of `makeMove` (which calls
`vMakeMove`) and `undoMove` (which calls `vUndoMove` with the last move made),
where every move made is a move of a piece of the side to move with the shape
the generators give and captures no king, and every `undoMove` matches a move
of the run not yet undone.  Then the run goes through, and after it, for each
side, the square in the king-square cache holds the king of that side and no
other square holds a king of that side.  Every move `generateMoves` produces
that does not capture a king is such a move. -/
theorem king_square_cache_invariant (st : State) (fen : List String) (st0 : State)
    (calls : List BoardCall)
    (hwalls : WallsInPlace st) (hside : st.side ≠ .NoSide)
    (hload : vSetFenString st fen = some (true, st0))
    (hcalls : ValidCalls st0 0 calls) :
    (∃ st1, runCalls st0 calls = some st1 ∧
        KingCached st1 .White ∧ KingCached st1 .Black) ∧
      (∀ (s : State) (m : Move), s.side ≠ .NoSide → Generated s m →
        (pieceAt s m.targetSquare).type ≠ .King → KingSparingMove s m) := by
  obtain ⟨st1, h1, h2⟩ := runCalls_sound calls st0 [] (load_sound st fen st0 hwalls hside hload)
    List.Chain.nil hcalls
  exact ⟨⟨st1, h1, h2.2.2⟩, fun s m hs hg hk => generated_kingSparing s m hs hg hk⟩

set_option maxRecDepth 1000000 in
theorem king_square_cache_invariant_witness :
    WallsInPlace staleStart ∧ staleStart.side ≠ .NoSide ∧
      staleStart.kingSquare .White = 125 ∧
      ValidCalls (loadedPosition staleStart ["-", "-", "0", "1"]) 0
        [.make ⟨126, 115, .NoPiece⟩, .make ⟨27, 38, .NoPiece⟩, .undo,
          .make ⟨60, 71, .NoPiece⟩, .make ⟨115, 114, .NoPiece⟩, .undo] ∧
      (runCalls (loadedPosition staleStart ["-", "-", "0", "1"])
        [.make ⟨126, 115, .NoPiece⟩, .make ⟨27, 38, .NoPiece⟩, .undo,
          .make ⟨60, 71, .NoPiece⟩, .make ⟨115, 114, .NoPiece⟩, .undo]).map
        (fun s => (s.kingSquare .White, s.kingSquare .Black, pieceAt s 115, pieceAt s 27)) =
        some (115, 27, ⟨.White, .King⟩, ⟨.Black, .King⟩) ∧
      ∃ st1, runCalls (loadedPosition staleStart ["-", "-", "0", "1"])
          [.make ⟨126, 115, .NoPiece⟩, .make ⟨27, 38, .NoPiece⟩, .undo,
            .make ⟨60, 71, .NoPiece⟩, .make ⟨115, 114, .NoPiece⟩, .undo] = some st1 ∧
        KingCached st1 .White ∧ KingCached st1 .Black :=
  ⟨by decide, by decide, by decide, by decide, by decide,
    (king_square_cache_invariant staleStart ["-", "-", "0", "1"]
      (loadedPosition staleStart ["-", "-", "0", "1"])
      [.make ⟨126, 115, .NoPiece⟩, .make ⟨27, 38, .NoPiece⟩, .undo,
        .make ⟨60, 71, .NoPiece⟩, .make ⟨115, 114, .NoPiece⟩, .undo]
      (by decide) (by decide)
      (vSetFenString_loadedPosition staleStart ["-", "-", "0", "1"] (by decide))
      (by decide)).1⟩

end Chess
